import Mathlib

/-!
# Retainer profiling (rts/RetainerProfile.c)

A shallow embedding of the heap-traversal engine of the retainer profiler and
of the retainer-set computation it performs.

Conventions of the embedding.

* Heap addresses are natural numbers; the frozen heap is a list of closures
  indexed by address.  An address outside the list reads as an
  `INVALID_OBJECT` closure, on which the source aborts.
* Pointer fields of closures are addresses, never `NULL` (the runtime uses
  sentinel closures such as `END_TSO_QUEUE`); `NULL` only appears as the
  "no (more) child" answer of the enumeration functions, rendered `none`.
* Pointer tagging is not modelled: `UNTAG_CLOSURE` is the identity.
* `barf` aborts; it is rendered by the `Except` error `Fatal`.  `ASSERT`s are
  compiled out, as in a non-`DEBUG` build.
* The chunked traverse stack is rendered as a list of stack elements whose
  head is `stackTop`; a boundary is the height of the stack at the time it
  was taken.
-/

set_option autoImplicit false

namespace RetainerProfile

/-! ## Closure kinds and the object model -/

/-- Closure types named by the runtime (`get_itbl(c)->type`). -/
inductive ClosureType
  | INVALID_OBJECT
  | CONSTR | CONSTR_1_0 | CONSTR_0_1 | CONSTR_2_0 | CONSTR_1_1 | CONSTR_0_2
  | CONSTR_NOCAF
  | FUN | FUN_1_0 | FUN_0_1 | FUN_2_0 | FUN_1_1 | FUN_0_2 | FUN_STATIC
  | THUNK | THUNK_1_0 | THUNK_0_1 | THUNK_2_0 | THUNK_1_1 | THUNK_0_2
  | THUNK_STATIC | THUNK_SELECTOR
  | BCO | AP | PAP | AP_STACK
  | IND | IND_STATIC
  | RET_BCO | RET_SMALL | RET_BIG | RET_FUN
  | UPDATE_FRAME | CATCH_FRAME | UNDERFLOW_FRAME | STOP_FRAME
  | BLOCKING_QUEUE | BLACKHOLE
  | MVAR_CLEAN | MVAR_DIRTY | TVAR
  | ARR_WORDS
  | MUT_ARR_PTRS_CLEAN | MUT_ARR_PTRS_DIRTY
  | MUT_ARR_PTRS_FROZEN_DIRTY | MUT_ARR_PTRS_FROZEN_CLEAN
  | MUT_VAR_CLEAN | MUT_VAR_DIRTY
  | WEAK | PRIM | MUT_PRIM | TSO | STACK | TREC_CHUNK
  | ATOMICALLY_FRAME | CATCH_RETRY_FRAME | CATCH_STM_FRAME
  | WHITEHOLE
  | SMALL_MUT_ARR_PTRS_CLEAN | SMALL_MUT_ARR_PTRS_DIRTY
  | SMALL_MUT_ARR_PTRS_FROZEN_DIRTY | SMALL_MUT_ARR_PTRS_FROZEN_CLEAN
  | COMPACT_NFDATA
  deriving DecidableEq, Repr

open ClosureType

/-- Heap address of a closure. -/
abbrev Addr := Nat

/-- The type `retainer`: a cost-centre stack, the identity of a retainer. -/
abbrev retainer := Nat

/-- The ways the source aborts, plus reads the C code leaves undefined. -/
inductive Fatal
  | isRetainer (t : ClosureType)      -- "Invalid object in isRetainer()"
  | push (t : ClosureType)            -- "Invalid object *c in push()"
  | pop (t : ClosureType)             -- "Invalid object *c in pop()"
  | retainStack (t : ClosureType)     -- "Invalid object found in retainStack()"
  | undefinedRead                     -- a union member read through the wrong tag
  deriving DecidableEq, Repr

/-- The number of bits in a machine word, `BITS_IN(W_)`. -/
def BITS_IN_W : Nat := 64

/-- A large bitmap (`StgLargeBitmap`): its size and its words. -/
structure StgLargeBitmap where
  size : Nat
  bitmap : Nat → Nat

/-- One transaction-record entry (`TRecEntry`). -/
structure TRecEntry where
  tvar : Addr
  expected_value : Addr
  new_value : Addr

/-- One activation record of a `STACK` or `AP_STACK` payload, as
`traversePushStack` reads it: the record's info-table type, the layout its
info table describes and the words that follow its header. -/
structure StgRetFrame where
  type : ClosureType
  updatee : Addr := 0
  bitmap_bits : Nat := 0
  bitmap_size : Nat := 0
  large_bitmap : StgLargeBitmap := ⟨0, fun _ => 0⟩
  srt : Option Addr := none
  payload : Nat → Addr := fun _ => 0
  ret_fun : Addr := 0

/-- A heap closure with the fields the traversal reads.  Fields that a kind
does not have are simply not read for that kind. -/
structure StgClosure where
  type : ClosureType
  /-- The field header.prof.ccs. -/
  ccs : retainer := 0
  /-- The SRT entry of the info table; absent when the srt field is 0. -/
  srt : Option Addr := none
  /-- The count layout.payload.ptrs (or the ptrs field of an array). -/
  ptrs : Nat := 0
  payload : Nat → Addr := fun _ => 0
  var : Addr := 0
  selectee : Addr := 0
  indirectee : Addr := 0
  head : Addr := 0
  tail : Addr := 0
  value : Addr := 0
  key : Addr := 0
  finalizer : Addr := 0
  prev_chunk : Addr := 0
  next_entry_idx : Nat := 0
  /-- A chunk has room for a fixed number of entries (the array `entries` of
  `StgTRecChunk`), so the index of the next free entry fits into the
  `uint32_t` that `traversePop` compares it with. -/
  next_entry_idx_lt : next_entry_idx < 2 ^ 32 := by decide
  entries : Nat → TRecEntry := fun _ => ⟨0, 0, 0⟩
  what_next : Nat := 0
  why_blocked : Nat := 0
  stackobj : Addr := 0
  blocked_exceptions : Addr := 0
  bq : Addr := 0
  trec : Addr := 0
  block_info_closure : Addr := 0
  link : Addr := 0
  bh : Addr := 0
  owner : Addr := 0
  /-- The function of a PAP, AP or AP_STACK. -/
  func : Addr := 0
  n_args : Nat := 0
  /-- Argument words of a PAP or AP. -/
  args : Nat → Addr := fun _ => 0
  /-- The activation records between sp and the end of a STACK, or in the
  payload of an AP_STACK: the records at which the loop of
  `traversePushStack` arrives, in that order. -/
  frames : List StgRetFrame := []
  /-- Function info table: `f.fun_type`. -/
  fun_type : Nat := 0
  fun_bitmap_bits : Nat := 0
  fun_bitmap_size : Nat := 0
  fun_large_bitmap : StgLargeBitmap := ⟨0, fun _ => 0⟩
  /-- The bitmap of a BCO, `BCO_BITMAP`. -/
  bco_bitmap : StgLargeBitmap := ⟨0, fun _ => 0⟩

/-- Constants of rts/Constants.h and FunTypes.h that the traversal compares
against. -/
def ThreadKilled : Nat := 3
def ThreadComplete : Nat := 4
def BlockedOnMVar : Nat := 1
def BlockedOnMVarRead : Nat := 14
def BlockedOnBlackHole : Nat := 2
def BlockedOnMsgThrowTo : Nat := 12
def ARG_GEN : Nat := 0
def ARG_GEN_BIG : Nat := 1
def ARG_BCO : Nat := 2

/-- The frozen heap together with the runtime constants the profiler refers
to. -/
structure Heap where
  closures : List StgClosure
  /-- The address of stg_END_TSO_QUEUE_closure. -/
  END_TSO_QUEUE : Addr := 0
  /-- The cost-centre stack CCS_SYSTEM. -/
  CCS_SYSTEM : retainer := 0
  /-- The table stg_arg_bitmaps, as (bits, size) pairs. -/
  stg_arg_bitmaps : Nat → Nat × Nat := fun _ => (0, 0)

/-- The closure at an address; outside the heap an invalid object. -/
def Heap.get (h : Heap) (a : Addr) : StgClosure :=
  h.closures.getD a { type := INVALID_OBJECT }

/-- The closure type at an address, `get_itbl(c)->type`. -/
def Heap.typeOf (h : Heap) (a : Addr) : ClosureType := (h.get a).type

/-! ## Retainer sets (RetainerSet.c) -/

/-- Modelled from the spec: the retainer-set store of RetainerSet.c is not
part of this file.  A retainer set is a canonical finite set of retainers:
its elements in increasing order without repetition, so that structurally
equal sets are one value. -/
structure RetainerSet where
  element : List retainer
  sorted : element.Sorted (· < ·)
  deriving DecidableEq

/-- Inserting a new element at its place keeps a retainer set canonical. -/
theorem sorted_orderedInsert (r : retainer) :
    ∀ (l : List retainer), l.Sorted (· < ·) → r ∉ l →
      (l.orderedInsert (· ≤ ·) r).Sorted (· < ·)
  | [], _, _ => by simp
  | a :: l, hs, hr => by
    have hra : r ≠ a := fun e => hr (by simp [e])
    have hrl : r ∉ l := fun m => hr (List.mem_cons_of_mem _ m)
    rw [List.orderedInsert]
    split
    · rename_i hle
      have hlt : r < a := lt_of_le_of_ne hle hra
      refine List.sorted_cons.2 ⟨?_, hs⟩
      intro b hb
      rcases List.mem_cons.1 hb with rfl | hb
      · exact hlt
      · exact lt_trans hlt (List.rel_of_sorted_cons hs b hb)
    · rename_i hle
      have hlt : a < r := lt_of_not_le hle
      have ih := sorted_orderedInsert r l (List.Sorted.of_cons hs) hrl
      refine List.sorted_cons.2 ⟨?_, ih⟩
      intro b hb
      rcases (List.mem_orderedInsert (· ≤ ·)).1 hb with rfl | hb
      · exact hlt
      · exact List.rel_of_sorted_cons hs b hb

/-- Modelled from the spec: `singleton(r)` of RetainerSet.c. -/
def singleton (r : retainer) : RetainerSet := ⟨[r], List.sorted_singleton r⟩

/-- Modelled from the spec: `isMember(r, s)` of RetainerSet.c. -/
def isMember (r : retainer) (s : RetainerSet) : Bool := decide (r ∈ s.element)

/-- Modelled from the spec: `addElement(r, s)` of RetainerSet.c, which is `s`
itself when `r` is a member and the canonical `s ∪ {r}` otherwise. -/
def addElement (r : retainer) (s : RetainerSet) : RetainerSet :=
  if hm : r ∈ s.element then s
  else ⟨s.element.orderedInsert (· ≤ ·) r, sorted_orderedInsert r s.element s.sorted hm⟩

/-- Modelled from the spec: the field `num` of a retainer set, its size. -/
def RetainerSet.num (s : RetainerSet) : Nat := s.element.length

/-- The retainer set with the given elements. -/
def RetainerSet.ofList (l : List retainer) : RetainerSet :=
  l.foldl (fun s r => addElement r s) ⟨[], List.sorted_nil⟩

/-! ## Traversal data of a closure and the flip bit -/

/-- The traversal slot `header.prof.hp.trav` of a closure: the least
significant bit and the retainer-set reference stored above it. -/
structure TravData where
  lsb : Bool
  rs : Option RetainerSet
  deriving DecidableEq

/-- Modelled from the spec: the macro `isTravDataValid` of RetainerProfile.h,
true when the marker of the slot agrees with `flip`. -/
def isTravDataValid (flip : Bool) (d : TravData) : Bool := d.lsb == flip

/-- The macro `setTravDataToZero`: the whole slot becomes `flip`, that is
marker `flip` and no retainer set. -/
def setTravDataToZero (flip : Bool) : TravData := { lsb := flip, rs := none }

/-- Modelled from the spec: `retainerSetOf` of RetainerProfile.h, the
retainer-set reference of a slot whose marker agrees with `flip`.  On a slot
whose marker disagrees the source would build a pointer from a stale word. -/
def retainerSetOf (flip : Bool) (d : TravData) : Except Fatal (Option RetainerSet) :=
  if isTravDataValid flip d then .ok d.rs else .error Fatal.undefinedRead

/-! ## The traverse stack -/

/-- The union `stackData`: the most recent retainer of a closure on the
stack. -/
structure stackData where
  c_child_r : retainer
  deriving DecidableEq, Repr

/-- The tagged position `stackPos` of a stack element: the tag `nextPosType`
together with the member of the union `nextPos` that the tag selects.  The
payload pointer of a pointer cursor is kept as the address of the closure
whose payload it points into. -/
inductive stackPos
  | posTypeStep (step : Nat)
  | posTypePtrs (pos : Nat) (ptrs : Nat) (payload : Addr)
  | posTypeSRT (srt : Option Addr)
  | posTypeFresh
  deriving DecidableEq, Repr

open stackPos

/-- An element of the traverse stack. -/
structure stackElement where
  info : stackPos
  c : Addr
  /-- The parent of c; meaningful for a fresh element only. -/
  cp : Addr
  data : stackData
  deriving DecidableEq, Repr

/-- The traverse stack: the elements from `stackTop` downwards, and the
height at which `currentStackBoundary` was taken. -/
structure traverseState where
  stack : List stackElement
  currentStackBoundary : Nat
  deriving DecidableEq, Repr

/-- The stack right after `initializeTraverseStack`. -/
def initializeTraverseStack : traverseState :=
  { stack := [], currentStackBoundary := 0 }

def isEmptyWorkStack (ts : traverseState) : Bool := ts.stack.isEmpty

def isOnBoundary (ts : traverseState) : Bool :=
  ts.stack.length == ts.currentStackBoundary

def init_ptrs (ptrs : Nat) (payload : Addr) : stackPos :=
  posTypePtrs 0 ptrs payload

/-- The function `find_ptrs`: the next pointer of a pointer cursor and the
advanced cursor, or `none` (NULL) when the cursor is exhausted. -/
def find_ptrs (h : Heap) (info : stackPos) : Except Fatal (stackPos × Option Addr) :=
  match info with
  | posTypePtrs pos ptrs payload =>
    if pos < ptrs then .ok (posTypePtrs (pos + 1) ptrs payload, some ((h.get payload).payload pos))
    else .ok (info, none)
  | _ => .error Fatal.undefinedRead

/-- Both `init_srt_fun` and `init_srt_thunk`: an SRT position holding the SRT
of the info table, or NULL when it has none. -/
def init_srt_fun (h : Heap) (c : Addr) : stackPos := posTypeSRT (h.get c).srt

def init_srt_thunk (h : Heap) (c : Addr) : stackPos := posTypeSRT (h.get c).srt

/-- The function `find_srt`: hands out the SRT once.  For a position of
another type the source returns without a value. -/
def find_srt (info : stackPos) : Except Fatal (stackPos × Option Addr) :=
  match info with
  | posTypeSRT srt => .ok (posTypeSRT none, srt)
  | _ => .error Fatal.undefinedRead

def pushStackElement (ts : traverseState) (se : stackElement) : traverseState :=
  { ts with stack := se :: ts.stack }

def popStackElement (ts : traverseState) : traverseState :=
  { ts with stack := ts.stack.tail }

def traversePushClosure (ts : traverseState) (c cp : Addr) (data : stackData) :
    traverseState :=
  pushStackElement ts { info := posTypeFresh, c := c, cp := cp, data := data }

/-- The step counter of a position, the union member `next.step`. -/
def stackPos.getStep : stackPos → Except Fatal Nat
  | posTypeStep n => .ok n
  | _ => .error Fatal.undefinedRead

/-- The function `traversePushChildren`: the first child of `c` (or `none`
for NULL) and, when more children may follow, a stack element for the rest.
The field `cp` of that element is left uninitialised by the source and is
never read for an element that is not fresh; it is 0 here.  Pointer counts
pass through the `uint32_t` parameter of `init_ptrs`. -/
def traversePushChildren (h : Heap) (ts : traverseState) (c : Addr) (data : stackData) :
    Except Fatal (traverseState × Option Addr) :=
  let o := h.get c
  let pushed (info : stackPos) (first_child : Addr) :
      Except Fatal (traverseState × Option Addr) :=
    .ok (pushStackElement ts { info := info, c := c, cp := 0, data := data },
         some first_child)
  let srt_only (info : stackPos) : Except Fatal (traverseState × Option Addr) :=
    match find_srt info with
    | .error e => .error e
    | .ok (_, none) => .ok (ts, none)
    | .ok (info1, some first_child) => pushed info1 first_child
  let ptrs_only : Except Fatal (traverseState × Option Addr) :=
    match find_ptrs h (init_ptrs (o.ptrs % 2 ^ 32) c) with
    | .error e => .error e
    | .ok (_, none) => .ok (ts, none)
    | .ok (info1, some first_child) => pushed info1 first_child
  let ptrs_then_srt (srtInfo : stackPos) : Except Fatal (traverseState × Option Addr) :=
    match find_ptrs h (init_ptrs (o.ptrs % 2 ^ 32) c) with
    | .error e => .error e
    | .ok (_, none) => srt_only srtInfo
    | .ok (info1, some first_child) => pushed info1 first_child
  match o.type with
  -- no child, no SRT
  | CONSTR_0_1 | CONSTR_0_2 | ARR_WORDS | COMPACT_NFDATA => .ok (ts, none)
  -- one child (fixed), no SRT
  | MUT_VAR_CLEAN | MUT_VAR_DIRTY => .ok (ts, some o.var)
  | THUNK_SELECTOR => .ok (ts, some o.selectee)
  | BLACKHOLE => .ok (ts, some o.indirectee)
  | CONSTR_1_0 | CONSTR_1_1 => .ok (ts, some (o.payload 0))
  -- two children (fixed), no SRT
  | CONSTR_2_0 => pushed (posTypeStep 2) (o.payload 0)
  -- three children (fixed), no SRT
  | MVAR_CLEAN | MVAR_DIRTY => pushed (posTypeStep 2) o.head
  | WEAK => pushed (posTypeStep 2) o.key
  -- layout.payload.ptrs, no SRT
  | TVAR | CONSTR | CONSTR_NOCAF | PRIM | MUT_PRIM | BCO => ptrs_only
  | MUT_ARR_PTRS_CLEAN | MUT_ARR_PTRS_DIRTY
  | MUT_ARR_PTRS_FROZEN_CLEAN | MUT_ARR_PTRS_FROZEN_DIRTY => ptrs_only
  | SMALL_MUT_ARR_PTRS_CLEAN | SMALL_MUT_ARR_PTRS_DIRTY
  | SMALL_MUT_ARR_PTRS_FROZEN_CLEAN | SMALL_MUT_ARR_PTRS_FROZEN_DIRTY => ptrs_only
  -- layout.payload.ptrs, SRT
  | FUN_STATIC | FUN | FUN_2_0 => ptrs_then_srt (init_srt_fun h c)
  | THUNK | THUNK_2_0 => ptrs_then_srt (init_srt_thunk h c)
  -- 1 fixed child, SRT
  | FUN_1_0 | FUN_1_1 => pushed (init_srt_fun h c) (o.payload 0)
  | THUNK_1_0 | THUNK_1_1 => pushed (init_srt_thunk h c) (o.payload 0)
  -- SRT only
  | FUN_0_1 | FUN_0_2 => srt_only (init_srt_fun h c)
  | THUNK_STATIC | THUNK_0_1 | THUNK_0_2 => srt_only (init_srt_thunk h c)
  | TREC_CHUNK => pushed (posTypeStep 0) o.prev_chunk
  -- cannot appear, stack objects, invalid objects
  | t => .error (Fatal.push t)

/-- What the switch of `traversePop` decides for the top element. -/
inductive PopStep
  /-- The branch goto out: the child found, whether it was the last one,
  and the updated position. -/
  | out (c : Addr) (last : Bool) (info : stackPos)
  /-- The element had no child left: it is popped and `*c` stays NULL. -/
  | depleted
  deriving DecidableEq, Repr

/-- The switch statement of `traversePop` on a top element that is not
fresh.  For a TREC_CHUNK the entry number and the field number are held in
`uint32_t` variables, and the step counter is a word that wraps when it is
incremented. -/
def traversePop_switch (h : Heap) (se : stackElement) : Except Fatal PopStep :=
  let o := h.get se.c
  let next_ptr : Except Fatal PopStep :=
    match find_ptrs h se.info with
    | .error e => .error e
    | .ok (_, none) => .ok PopStep.depleted
    | .ok (info1, some c) => .ok (PopStep.out c false info1)
  let do_srt (info : stackPos) : Except Fatal PopStep :=
    match find_srt info with
    | .error e => .error e
    | .ok (_, none) => .ok PopStep.depleted
    | .ok (info1, some c) => .ok (PopStep.out c false info1)
  let ptrs_then_srt (srtInfo : stackPos) : Except Fatal PopStep :=
    match se.info with
    | posTypePtrs _ _ _ =>
      match find_ptrs h se.info with
      | .error e => .error e
      | .ok (info1, some c) => .ok (PopStep.out c false info1)
      | .ok (_, none) => do_srt srtInfo
    | _ => do_srt se.info
  match o.type with
  | CONSTR_2_0 => .ok (PopStep.out (o.payload 1) true se.info)
  | MVAR_CLEAN | MVAR_DIRTY =>
    match se.info.getStep with
    | .error e => .error e
    | .ok step =>
      if step = 2 then .ok (PopStep.out o.tail false (posTypeStep (step + 1)))
      else .ok (PopStep.out o.value true se.info)
  | WEAK =>
    match se.info.getStep with
    | .error e => .error e
    | .ok step =>
      if step = 2 then .ok (PopStep.out o.value false (posTypeStep (step + 1)))
      else .ok (PopStep.out o.finalizer true se.info)
  | TREC_CHUNK =>
    match se.info.getStep with
    | .error e => .error e
    | .ok step =>
      let entry_no := (step >>> 2) % 2 ^ 32
      let field_no := (step &&& 3) % 2 ^ 32
      if entry_no = o.next_entry_idx then .ok PopStep.depleted
      else
        let entry := o.entries entry_no
        let c := if field_no = 0 then entry.tvar
                 else if field_no = 1 then entry.expected_value
                 else entry.new_value
        .ok (PopStep.out c false (posTypeStep ((step + 1) % 2 ^ 64)))
  | TVAR | CONSTR | PRIM | MUT_PRIM | BCO
  | MUT_ARR_PTRS_CLEAN | MUT_ARR_PTRS_DIRTY
  | MUT_ARR_PTRS_FROZEN_CLEAN | MUT_ARR_PTRS_FROZEN_DIRTY
  | SMALL_MUT_ARR_PTRS_CLEAN | SMALL_MUT_ARR_PTRS_DIRTY
  | SMALL_MUT_ARR_PTRS_FROZEN_CLEAN | SMALL_MUT_ARR_PTRS_FROZEN_DIRTY => next_ptr
  | FUN | FUN_STATIC | FUN_2_0 => ptrs_then_srt (init_srt_fun h se.c)
  | THUNK | THUNK_2_0 => ptrs_then_srt (init_srt_thunk h se.c)
  | THUNK_STATIC | FUN_0_1 | FUN_0_2 | THUNK_0_1 | THUNK_0_2
  | FUN_1_0 | FUN_1_1 | THUNK_1_0 | THUNK_1_1 => do_srt se.info
  | t => .error (Fatal.pop t)

/-- The loop of `traversePop` over the stack, `boundary` being the height of
`currentStackBoundary`: the remaining stack and the element found, as
`(c, cp, data)`, or `none` when the boundary is reached. -/
def traversePop_loop (h : Heap) (boundary : Nat) :
    List stackElement → Except Fatal (List stackElement × Option (Addr × Addr × stackData))
  | [] => if 0 = boundary then .ok ([], none) else .error Fatal.undefinedRead
  | se :: rest =>
    if rest.length + 1 = boundary then .ok (se :: rest, none)
    else if se.info = posTypeFresh then .ok (rest, some (se.c, se.cp, se.data))
    else
      match traversePop_switch h se with
      | .error e => .error e
      | .ok (PopStep.out c last info) =>
        .ok (if last then rest else { se with info := info } :: rest,
             some (c, se.c, se.data))
      | .ok PopStep.depleted => traversePop_loop h boundary rest

def traversePop (h : Heap) (ts : traverseState) :
    Except Fatal (traverseState × Option (Addr × Addr × stackData)) :=
  match traversePop_loop h ts.currentStackBoundary ts.stack with
  | .error e => .error e
  | .ok (stack, r) => .ok ({ ts with stack := stack }, r)

/-! ## The retainer profiling engine -/

/-- The function `isRetainer` on a closure type. -/
def isRetainerType : ClosureType → Except Fatal Bool
  -- TSOs MUST be retainers: they constitute the set of roots.
  | TSO | STACK
  -- mutable objects
  | MUT_PRIM | MVAR_CLEAN | MVAR_DIRTY | TVAR | MUT_VAR_CLEAN | MUT_VAR_DIRTY
  | MUT_ARR_PTRS_CLEAN | MUT_ARR_PTRS_DIRTY
  | SMALL_MUT_ARR_PTRS_CLEAN | SMALL_MUT_ARR_PTRS_DIRTY | BLOCKING_QUEUE
  -- thunks are retainers.
  | THUNK | THUNK_1_0 | THUNK_0_1 | THUNK_2_0 | THUNK_1_1 | THUNK_0_2
  | THUNK_SELECTOR | AP | AP_STACK
  | THUNK_STATIC
  | WEAK => .ok true
  -- constructors
  | CONSTR | CONSTR_NOCAF | CONSTR_1_0 | CONSTR_0_1 | CONSTR_2_0 | CONSTR_1_1
  | CONSTR_0_2
  -- functions
  | FUN | FUN_1_0 | FUN_0_1 | FUN_2_0 | FUN_1_1 | FUN_0_2
  -- partial applications
  | PAP
  | IND_STATIC | BLACKHOLE | WHITEHOLE
  -- static objects
  | FUN_STATIC
  -- misc
  | PRIM | BCO | ARR_WORDS | COMPACT_NFDATA
  -- STM
  | TREC_CHUNK
  -- immutable arrays
  | MUT_ARR_PTRS_FROZEN_CLEAN | MUT_ARR_PTRS_FROZEN_DIRTY
  | SMALL_MUT_ARR_PTRS_FROZEN_CLEAN | SMALL_MUT_ARR_PTRS_FROZEN_DIRTY => .ok false
  -- error case
  | t => .error (Fatal.isRetainer t)

def isRetainer (h : Heap) (c : Addr) : Except Fatal Bool := isRetainerType (h.typeOf c)

def getRetainerFrom (h : Heap) (c : Addr) : retainer := (h.get c).ccs

/-- The loop of `traverseLargeBitmap`, with `n` iterations left: `i` is the
index of the current word of the record, `b` the index of the current bitmap
word, `bitmap` what is left of that word. -/
def traverseLargeBitmap_loop (ts : traverseState) (p : Nat → Addr)
    (large_bitmap : StgLargeBitmap) (c : Addr) (data : stackData) :
    Nat → Nat → Nat → Nat → traverseState
  | 0, _, _, _ => ts
  | n + 1, i, b, bitmap =>
    let ts1 := if bitmap &&& 1 = 0 then traversePushClosure ts (p i) c data else ts
    if (i + 1) % BITS_IN_W = 0 then
      traverseLargeBitmap_loop ts1 p large_bitmap c data n (i + 1) (b + 1)
        (large_bitmap.bitmap (b + 1))
    else
      traverseLargeBitmap_loop ts1 p large_bitmap c data n (i + 1) b (bitmap >>> 1)

/-- The function `traverseLargeBitmap` over the words `p 0 .. p (size-1)`. -/
def traverseLargeBitmap (ts : traverseState) (p : Nat → Addr)
    (large_bitmap : StgLargeBitmap) (size : Nat) (c : Addr) (data : stackData) :
    traverseState :=
  traverseLargeBitmap_loop ts p large_bitmap c data size 0 0 (large_bitmap.bitmap 0)

/-- The function `traverseSmallBitmap` from word `p i` on; the result is the
stack and the index reached, the returned `p`. -/
def traverseSmallBitmap (ts : traverseState) (p : Nat → Addr) (i : Nat) :
    Nat → Nat → Addr → stackData → traverseState × Nat
  | 0, _, _, _ => (ts, i)
  | size + 1, bitmap, c, data =>
    let ts1 := if bitmap &&& 1 = 0 then traversePushClosure ts (p i) c data else ts
    traverseSmallBitmap ts1 p (i + 1) size (bitmap >>> 1) c data

/-- The tail `follow_srt` of the frame switch in `traversePushStack`. -/
def follow_srt (ts : traverseState) (srt : Option Addr) (cp : Addr) (data : stackData) :
    traverseState :=
  match srt with
  | some s => traversePushClosure ts s cp data
  | none => ts

/-- The arguments of a function described by its function info table, as
`traversePAP` and the RET_FUN case scan them with the size `size`.  The size
reaches the bitmap scans through a `uint32_t`: the variable `size` of
`traversePushStack`, or the parameter `size` of the scans in `traversePAP`. -/
def traverseFunArgs (h : Heap) (ts : traverseState) (func : Addr) (p : Nat → Addr)
    (size : Nat) (viaBCO : Bool) (cp : Addr) (data : stackData) : traverseState :=
  let fi := h.get func
  let size := size % 2 ^ 32
  if fi.fun_type = ARG_GEN then
    (traverseSmallBitmap ts p 0 size fi.fun_bitmap_bits cp data).1
  else if fi.fun_type = ARG_GEN_BIG then
    traverseLargeBitmap ts p fi.fun_large_bitmap size cp data
  else if viaBCO && fi.fun_type = ARG_BCO then
    traverseLargeBitmap ts p fi.bco_bitmap size cp data
  else
    (traverseSmallBitmap ts p 0 size (h.stg_arg_bitmaps fi.fun_type).1 cp data).1

/-- One iteration of the frame loop of `traversePushStack`.  The variable
`size` is a `uint32_t`. -/
def traversePushStack_frame (h : Heap) (ts : traverseState) (cp : Addr) (data : stackData)
    (f : StgRetFrame) : Except Fatal traverseState :=
  match f.type with
  | UPDATE_FRAME => .ok (traversePushClosure ts f.updatee cp data)
  | UNDERFLOW_FRAME | STOP_FRAME | CATCH_FRAME | CATCH_STM_FRAME | CATCH_RETRY_FRAME
  | ATOMICALLY_FRAME | RET_SMALL =>
    .ok (follow_srt
          (traverseSmallBitmap ts f.payload 0 (f.bitmap_size % 2 ^ 32) f.bitmap_bits cp data).1
          f.srt cp data)
  | RET_BCO =>
    let bco := f.payload 0
    let ts1 := traversePushClosure ts bco cp data
    .ok (traverseLargeBitmap ts1 (fun i => f.payload (i + 1)) (h.get bco).bco_bitmap
          ((h.get bco).bco_bitmap.size % 2 ^ 32) cp data)
  | RET_BIG =>
    .ok (follow_srt
          (traverseLargeBitmap ts f.payload f.large_bitmap (f.large_bitmap.size % 2 ^ 32)
            cp data)
          f.srt cp data)
  | RET_FUN =>
    let ts1 := traversePushClosure ts f.ret_fun cp data
    let fi := h.get f.ret_fun
    let size := if fi.fun_type = ARG_GEN then fi.fun_bitmap_size
                else if fi.fun_type = ARG_GEN_BIG then fi.fun_large_bitmap.size
                else (h.stg_arg_bitmaps fi.fun_type).2
    .ok (follow_srt (traverseFunArgs h ts1 f.ret_fun f.payload size false cp data)
          f.srt cp data)
  | t => .error (Fatal.retainStack t)

/-- The frame loop of `traversePushStack` over the activation records. -/
def traversePushStack_loop (h : Heap) (cp : Addr) (data : stackData) :
    traverseState → List StgRetFrame → Except Fatal traverseState
  | ts, [] => .ok ts
  | ts, f :: fs =>
    match traversePushStack_frame h ts cp data f with
    | .error e => .error e
    | .ok ts1 => traversePushStack_loop h cp data ts1 fs

/-- The function `traversePushStack`: the boundary is moved to the current
top for the duration of the scan and restored at the exit. -/
def traversePushStack (h : Heap) (ts : traverseState) (cp : Addr) (data : stackData)
    (frames : List StgRetFrame) : Except Fatal traverseState :=
  let oldStackBoundary := ts.currentStackBoundary
  match traversePushStack_loop h cp data
      { ts with currentStackBoundary := ts.stack.length } frames with
  | .error e => .error e
  | .ok ts1 => .ok { ts1 with currentStackBoundary := oldStackBoundary }

/-- The function `traversePAP`, for a PAP or an AP. -/
def traversePAP (h : Heap) (ts : traverseState) (pap : Addr) (data : stackData)
    (func : Addr) (payload : Nat → Addr) (n_args : Nat) : traverseState :=
  traverseFunArgs h (traversePushClosure ts func pap data) func payload n_args true pap data

/-- The mutable state of the profiler: the flip bit, the traversal slot of
every closure, the two visit counters, the pass counter and the traverse
stack. -/
structure RtsState where
  flip : Bool
  trav : Addr → TravData
  numObjectVisited : Nat
  timesAnyObjectVisited : Nat
  retainerGeneration : Nat
  ts : traverseState

/-- The function `traverseMaybeInitClosureData`. -/
def traverseMaybeInitClosureData (st : RtsState) (c : Addr) : RtsState :=
  if !isTravDataValid st.flip (st.trav c) then
    { st with trav := Function.update st.trav c (setTravDataToZero st.flip) }
  else st

/-- The function `associate`: `RSET(c) = s | flip`. -/
def associate (st : RtsState) (c : Addr) (s : RetainerSet) : RtsState :=
  { st with trav := Function.update st.trav c { lsb := st.flip, rs := some s } }

/-- The callback `retainVisitClosure`.  The result `none` stands for the
return value 1 (the children of `c` are skipped, `*out_data` is not written);
`some d` stands for the return value 0 with `*out_data = d`. -/
def retainVisitClosure (h : Heap) (st : RtsState) (c cp : Addr) (data : stackData) :
    Except Fatal (RtsState × Option stackData) :=
  let r := data.c_child_r
  match retainerSetOf st.flip (st.trav c) with
  | .error e => .error e
  | .ok retainerSetOfc =>
  let st := { st with timesAnyObjectVisited := (st.timesAnyObjectVisited + 1) % 2 ^ 32 }
  match isRetainer h cp with
  | .error e => .error e
  | .ok cpIsRetainer =>
  match (if cpIsRetainer then .ok none else retainerSetOf st.flip (st.trav cp)) with
  | .error e => .error e
  | .ok s =>
  match retainerSetOfc with
  | none =>
    -- This is the first visit to *c.
    let st := { st with numObjectVisited := (st.numObjectVisited + 1) % 2 ^ 32 }
    let st := match s with
      | none => associate st c (singleton r)
      | some s => associate st c s
    match isRetainer h c with
    | .error e => .error e
    | .ok cIsRetainer =>
      .ok (st, some { c_child_r := if cIsRetainer then getRetainerFrom h c else r })
  | some retainerSetOfc =>
    -- This is not the first visit to *c.
    if isMember r retainerSetOfc then .ok (st, none)
    else
      let st := match s with
        | none => associate st c (addElement r retainerSetOfc)
        | some s =>
          if s.num = retainerSetOfc.num + 1 then associate st c s
          else associate st c (addElement r retainerSetOfc)
      match isRetainer h c with
      | .error e => .error e
      | .ok cIsRetainer =>
        if cIsRetainer then .ok (st, none)
        else .ok (st, some { c_child_r := r })

/-- Where `traverseWorkStack` stands: at the label `loop`, or at the label
`inner_loop` with the current closure, its parent and its data. -/
inductive Label
  | loop
  | inner_loop (c cp : Addr) (data : stackData)
  deriving DecidableEq, Repr

/-- The special cases before the visit in `traverseWorkStack`: skip the
closure, follow a static indirection, or go on to visit. -/
inductive PreVisit
  | skip
  | follow (c : Addr)
  | visit
  deriving DecidableEq, Repr

/-- The first switch of `traverseWorkStack`.  A THUNK_STATIC with an SRT
falls through into the FUN_STATIC case, as in the source. -/
def preVisit (h : Heap) (c : Addr) : PreVisit :=
  let o := h.get c
  match o.type with
  | TSO =>
    if o.what_next = ThreadComplete ∨ o.what_next = ThreadKilled then PreVisit.skip
    else PreVisit.visit
  | IND_STATIC => PreVisit.follow o.indirectee
  | CONSTR_NOCAF => PreVisit.skip
  | THUNK_STATIC =>
    if o.srt = none then PreVisit.skip
    else if o.srt = none ∧ o.ptrs = 0 then PreVisit.skip else PreVisit.visit
  | FUN_STATIC =>
    if o.srt = none ∧ o.ptrs = 0 then PreVisit.skip else PreVisit.visit
  | _ => PreVisit.visit

/-- The second switch of `traverseWorkStack` and the call of
`traversePushChildren`: the stack after the children of `c` were pushed, and
the first child to go on with, if the source goes on with one. -/
def processChildren (h : Heap) (ts : traverseState) (c : Addr) (child_data : stackData) :
    Except Fatal (traverseState × Option Addr) :=
  let o := h.get c
  match o.type with
  | STACK =>
    match traversePushStack h ts c child_data o.frames with
    | .error e => .error e
    | .ok ts1 => .ok (ts1, none)
  | TSO =>
    let ts := traversePushClosure ts o.stackobj c child_data
    let ts := traversePushClosure ts o.blocked_exceptions c child_data
    let ts := traversePushClosure ts o.bq c child_data
    let ts := traversePushClosure ts o.trec c child_data
    let ts :=
      if o.why_blocked = BlockedOnMVar ∨ o.why_blocked = BlockedOnMVarRead
          ∨ o.why_blocked = BlockedOnBlackHole ∨ o.why_blocked = BlockedOnMsgThrowTo then
        traversePushClosure ts o.block_info_closure c child_data
      else ts
    .ok (ts, none)
  | BLOCKING_QUEUE =>
    let ts := traversePushClosure ts o.link c child_data
    let ts := traversePushClosure ts o.bh c child_data
    let ts := traversePushClosure ts o.owner c child_data
    .ok (ts, none)
  | PAP => .ok (traversePAP h ts c child_data o.func o.args o.n_args, none)
  | AP => .ok (traversePAP h ts c child_data o.func o.args o.n_args, none)
  | AP_STACK =>
    let ts := traversePushClosure ts o.func c child_data
    match traversePushStack h ts c child_data o.frames with
    | .error e => .error e
    | .ok ts1 => .ok (ts1, none)
  | _ => traversePushChildren h ts c child_data

/-- What one pass through a label of `traverseWorkStack` leads to: the
function is done (it returned, or aborted), or it jumps to a label. -/
inductive Jump
  | done (r : Except Fatal RtsState)
  | goto (l : Label) (st : RtsState)

/-- The body of `traverseWorkStack`, with `retainVisitClosure` as the visit
callback, from one label to the next jump. -/
def traverseWorkStack_body (h : Heap) : Label → RtsState → Jump
  | Label.loop, st =>
    match traversePop h st.ts with
    | .error e => Jump.done (.error e)
    | .ok (ts, none) => Jump.done (.ok { st with ts := ts })
    | .ok (ts, some (c, cp, data)) =>
      Jump.goto (Label.inner_loop c cp data) { st with ts := ts }
  | Label.inner_loop c cp data, st =>
    match preVisit h c with
    | PreVisit.skip => Jump.goto Label.loop st
    | PreVisit.follow c1 => Jump.goto (Label.inner_loop c1 cp data) st
    | PreVisit.visit =>
      -- If this is the first visit to c, initialize its data.
      let st := traverseMaybeInitClosureData st c
      match retainVisitClosure h st c cp data with
      | .error e => Jump.done (.error e)
      | .ok (st, none) => Jump.goto Label.loop st
      | .ok (st, some child_data) =>
        -- process child
        match processChildren h st.ts c child_data with
        | .error e => Jump.done (.error e)
        | .ok (ts, none) => Jump.goto Label.loop { st with ts := ts }
        | .ok (ts, some first_child) =>
          Jump.goto (Label.inner_loop first_child c child_data) { st with ts := ts }

/-- The function `traverseWorkStack` entered at a label and run for at most
`fuel` jumps.  The result is `none` when the fuel does not suffice, the final
state when the function returns, and the fatal error when it aborts. -/
def traverseWorkStack (h : Heap) : Nat → Label → RtsState → Option (Except Fatal RtsState)
  | 0, _, _ => none
  | fuel + 1, l, st =>
    match traverseWorkStack_body h l st with
    | Jump.done r => some r
    | Jump.goto l1 st1 => traverseWorkStack h fuel l1 st1

/-- The function `retainRoot` on the root `tl`. -/
def retainRoot (h : Heap) (fuel : Nat) (st : RtsState) (tl : Addr) :
    Option (Except Fatal RtsState) :=
  let st := { st with ts := { st.ts with currentStackBoundary := st.ts.stack.length } }
  let c := tl
  let st := traverseMaybeInitClosureData st c
  let seed : Except Fatal stackData :=
    if c ≠ h.END_TSO_QUEUE then
      match isRetainer h c with
      | .error e => .error e
      | .ok true => .ok { c_child_r := getRetainerFrom h c }
      | .ok false => .ok { c_child_r := h.CCS_SYSTEM }
    else .ok { c_child_r := h.CCS_SYSTEM }
  match seed with
  | .error e => some (.error e)
  | .ok data =>
    traverseWorkStack h fuel Label.loop { st with ts := traversePushClosure st.ts c c data }

/-- The roots and lists that `computeRetainerSet` walks, in the order in
which it walks them: the roots that `markCapabilities` hands over, the weak
pointers of all generations, the roots of the stable pointer table, and the
entries of the mutable lists. -/
structure Roots where
  capabilities : List Addr := []
  weak_ptr_list : List Addr := []
  stable_ptrs : List Addr := []
  mut_lists : List Addr := []

/-- Calls `retainRoot` on each root of a list in turn. -/
def retainRoots (h : Heap) (fuel : Nat) : RtsState → List Addr → Option (Except Fatal RtsState)
  | st, [] => some (.ok st)
  | st, tl :: tls =>
    match retainRoot h fuel st tl with
    | none => none
    | some (.error e) => some (.error e)
    | some (.ok st1) => retainRoots h fuel st1 tls

/-- The function `computeRetainerSet`. -/
def computeRetainerSet (h : Heap) (roots : Roots) (fuel : Nat) (st : RtsState) :
    Option (Except Fatal RtsState) :=
  match retainRoots h fuel st
      (roots.capabilities ++ roots.weak_ptr_list ++ roots.stable_ptrs) with
  | none => none
  | some (.error e) => some (.error e)
  | some (.ok st1) =>
    some (.ok (roots.mut_lists.foldl traverseMaybeInitClosureData st1))

/-- The function `retainerProfile`: one pass. -/
def retainerProfile (h : Heap) (roots : Roots) (fuel : Nat) (st : RtsState) :
    Option (Except Fatal RtsState) :=
  -- Now we flips flip.
  let st := { st with flip := !st.flip }
  let st := { st with numObjectVisited := 0, timesAnyObjectVisited := 0 }
  let st := { st with ts := initializeTraverseStack }
  match computeRetainerSet h roots fuel st with
  | none => none
  | some (.error e) => some (.error e)
  | some (.ok st1) =>
    some (.ok { st1 with retainerGeneration := (st1.retainerGeneration + 1) % 2 ^ 32 })

/-! ## The children of a closure and the work that a stack stands for -/

/-- An item of work: a closure to go on with, its parent and its data. -/
abbrev Item := Addr × Addr × stackData

/-- The field of a transaction-record chunk that the step counter `step`
selects, as `traversePop` decodes it. -/
def trecField (o : StgClosure) (step : Nat) : Addr :=
  let entry := o.entries ((step >>> 2) % 2 ^ 32)
  if (step &&& 3) % 2 ^ 32 = 0 then entry.tvar
  else if (step &&& 3) % 2 ^ 32 = 1 then entry.expected_value
  else entry.new_value

/-- The payload pointers `pos .. ptrs-1` of the closure at `payload`. -/
def ptrsFrom (h : Heap) (pos ptrs : Nat) (payload : Addr) : List Addr :=
  (List.range' pos (ptrs - pos)).map (h.get payload).payload

/-- The groups of case labels in the switch of `traversePop`. -/
inductive PopCase
  | constr2 | mvar | weak | trec | ptrs | ptrsSrt | srt | invalid
  deriving DecidableEq, Repr

/-- The group of case labels of `traversePop` that a closure type is under. -/
def popCase : ClosureType → PopCase
  | CONSTR_2_0 => PopCase.constr2
  | MVAR_CLEAN | MVAR_DIRTY => PopCase.mvar
  | WEAK => PopCase.weak
  | TREC_CHUNK => PopCase.trec
  | TVAR | CONSTR | PRIM | MUT_PRIM | BCO
  | MUT_ARR_PTRS_CLEAN | MUT_ARR_PTRS_DIRTY
  | MUT_ARR_PTRS_FROZEN_CLEAN | MUT_ARR_PTRS_FROZEN_DIRTY
  | SMALL_MUT_ARR_PTRS_CLEAN | SMALL_MUT_ARR_PTRS_DIRTY
  | SMALL_MUT_ARR_PTRS_FROZEN_CLEAN | SMALL_MUT_ARR_PTRS_FROZEN_DIRTY => PopCase.ptrs
  | FUN | FUN_STATIC | FUN_2_0 | THUNK | THUNK_2_0 => PopCase.ptrsSrt
  | THUNK_STATIC | FUN_0_1 | FUN_0_2 | THUNK_0_1 | THUNK_0_2
  | FUN_1_0 | FUN_1_1 | THUNK_1_0 | THUNK_1_1 => PopCase.srt
  | _ => PopCase.invalid

/-- The children that a stack element which is not fresh still stands for,
in the order in which `traversePop` hands them out. -/
def frameRest (h : Heap) (se : stackElement) : List Addr :=
  let o := h.get se.c
  match popCase o.type, se.info with
  | PopCase.constr2, _ => [o.payload 1]
  | PopCase.mvar, posTypeStep step => if step = 2 then [o.tail, o.value] else [o.value]
  | PopCase.weak, posTypeStep step =>
    if step = 2 then [o.value, o.finalizer] else [o.finalizer]
  | PopCase.trec, posTypeStep step =>
    (List.range' step (4 * o.next_entry_idx - step)).map (trecField o)
  | PopCase.ptrs, posTypePtrs pos ptrs payload => ptrsFrom h pos ptrs payload
  | PopCase.ptrsSrt, posTypePtrs pos ptrs payload =>
    ptrsFrom h pos ptrs payload ++ o.srt.toList
  | PopCase.ptrsSrt, posTypeSRT srt => srt.toList
  | PopCase.srt, posTypeSRT srt => srt.toList
  | _, _ => []

/-- A stack element that is not fresh carries the position type that
`traversePop` expects for the kind of its closure, and the step counter of a
transaction-record chunk has not run past the last entry. -/
def FrameOK (h : Heap) (se : stackElement) : Prop :=
  let o := h.get se.c
  match popCase o.type, se.info with
  | _, posTypeFresh => False
  | PopCase.constr2, _ => True
  | PopCase.mvar, posTypeStep _ => True
  | PopCase.weak, posTypeStep _ => True
  | PopCase.trec, posTypeStep step => step ≤ 4 * o.next_entry_idx
  | PopCase.ptrs, posTypePtrs _ _ _ => True
  | PopCase.ptrsSrt, posTypePtrs _ _ _ => True
  | PopCase.ptrsSrt, posTypeSRT _ => True
  | PopCase.srt, posTypeSRT _ => True
  | _, _ => False

/-- A stack element is fresh or a well-formed cursor. -/
def ElemOK (h : Heap) (se : stackElement) : Prop :=
  se.info = posTypeFresh ∨ FrameOK h se

/-- The items that one stack element stands for. -/
def restOf (h : Heap) (se : stackElement) : List Item :=
  if se.info = posTypeFresh then [(se.c, se.cp, se.data)]
  else (frameRest h se).map fun c => (c, se.c, se.data)

/-- The items that a stack stands for, in the order in which they will be
popped. -/
def pendingOf (h : Heap) : List stackElement → List Item
  | [] => []
  | se :: rest => restOf h se ++ pendingOf h rest

/-- The switch of `traversePop`, by group of case labels. -/
def popAux (h : Heap) (se : stackElement) : PopCase → Except Fatal PopStep
  | PopCase.constr2 => .ok (PopStep.out ((h.get se.c).payload 1) true se.info)
  | PopCase.mvar =>
    match se.info.getStep with
    | .error e => .error e
    | .ok step =>
      if step = 2 then .ok (PopStep.out (h.get se.c).tail false (posTypeStep (step + 1)))
      else .ok (PopStep.out (h.get se.c).value true se.info)
  | PopCase.weak =>
    match se.info.getStep with
    | .error e => .error e
    | .ok step =>
      if step = 2 then .ok (PopStep.out (h.get se.c).value false (posTypeStep (step + 1)))
      else .ok (PopStep.out (h.get se.c).finalizer true se.info)
  | PopCase.trec =>
    match se.info.getStep with
    | .error e => .error e
    | .ok step =>
      if (step >>> 2) % 2 ^ 32 = (h.get se.c).next_entry_idx then .ok PopStep.depleted
      else .ok (PopStep.out (trecField (h.get se.c) step) false
        (posTypeStep ((step + 1) % 2 ^ 64)))
  | PopCase.ptrs =>
    match find_ptrs h se.info with
    | .error e => .error e
    | .ok (_, none) => .ok PopStep.depleted
    | .ok (info1, some c) => .ok (PopStep.out c false info1)
  | PopCase.ptrsSrt =>
    match se.info with
    | posTypePtrs _ _ _ =>
      match find_ptrs h se.info with
      | .error e => .error e
      | .ok (info1, some c) => .ok (PopStep.out c false info1)
      | .ok (_, none) =>
        match find_srt (posTypeSRT (h.get se.c).srt) with
        | .error e => .error e
        | .ok (_, none) => .ok PopStep.depleted
        | .ok (info1, some c) => .ok (PopStep.out c false info1)
    | _ =>
      match find_srt se.info with
      | .error e => .error e
      | .ok (_, none) => .ok PopStep.depleted
      | .ok (info1, some c) => .ok (PopStep.out c false info1)
  | PopCase.srt =>
    match find_srt se.info with
    | .error e => .error e
    | .ok (_, none) => .ok PopStep.depleted
    | .ok (info1, some c) => .ok (PopStep.out c false info1)
  | PopCase.invalid => .error (Fatal.pop (h.get se.c).type)

/-- What `traversePop_switch` does on a well-formed cursor, in terms of the
children the cursor stands for. -/
def PopSpec (h : Heap) (se : stackElement) : Prop :=
  (frameRest h se = [] ∧ traversePop_switch h se = .ok PopStep.depleted) ∨
    ∃ c last info rest, frameRest h se = c :: rest ∧
      traversePop_switch h se = .ok (PopStep.out c last info) ∧
      (last = true → rest = []) ∧
      (last = false → info ≠ posTypeFresh ∧ FrameOK h { se with info := info } ∧
        frameRest h { se with info := info } = rest)

/-- Every element of a stack segment is fresh or a well-formed cursor. -/
def AllOK (h : Heap) (l : List stackElement) : Prop := ∀ se ∈ l, ElemOK h se

/-- The groups of case labels in the switch of `traversePushChildren`. -/
inductive PushCase
  | noChild | var | selectee | indirectee | payload0 | constr2 | mvar | weak
  | ptrs | ptrsSrt | oneSrt | srt | trec | invalid
  deriving DecidableEq, Repr

/-- The group of case labels of `traversePushChildren` that a closure type
is under. -/
def pushCase : ClosureType → PushCase
  | CONSTR_0_1 | CONSTR_0_2 | ARR_WORDS | COMPACT_NFDATA => PushCase.noChild
  | MUT_VAR_CLEAN | MUT_VAR_DIRTY => PushCase.var
  | THUNK_SELECTOR => PushCase.selectee
  | BLACKHOLE => PushCase.indirectee
  | CONSTR_1_0 | CONSTR_1_1 => PushCase.payload0
  | CONSTR_2_0 => PushCase.constr2
  | MVAR_CLEAN | MVAR_DIRTY => PushCase.mvar
  | WEAK => PushCase.weak
  | TVAR | CONSTR | CONSTR_NOCAF | PRIM | MUT_PRIM | BCO
  | MUT_ARR_PTRS_CLEAN | MUT_ARR_PTRS_DIRTY
  | MUT_ARR_PTRS_FROZEN_CLEAN | MUT_ARR_PTRS_FROZEN_DIRTY
  | SMALL_MUT_ARR_PTRS_CLEAN | SMALL_MUT_ARR_PTRS_DIRTY
  | SMALL_MUT_ARR_PTRS_FROZEN_CLEAN | SMALL_MUT_ARR_PTRS_FROZEN_DIRTY => PushCase.ptrs
  | FUN_STATIC | FUN | FUN_2_0 | THUNK | THUNK_2_0 => PushCase.ptrsSrt
  | FUN_1_0 | FUN_1_1 | THUNK_1_0 | THUNK_1_1 => PushCase.oneSrt
  | FUN_0_1 | FUN_0_2 | THUNK_STATIC | THUNK_0_1 | THUNK_0_2 => PushCase.srt
  | TREC_CHUNK => PushCase.trec
  | _ => PushCase.invalid

/-- The switch of `traversePushChildren`, by group of case labels. -/
def pushAux (h : Heap) (ts : traverseState) (c : Addr) (data : stackData) :
    PushCase → Except Fatal (traverseState × Option Addr)
  | PushCase.noChild => .ok (ts, none)
  | PushCase.var => .ok (ts, some (h.get c).var)
  | PushCase.selectee => .ok (ts, some (h.get c).selectee)
  | PushCase.indirectee => .ok (ts, some (h.get c).indirectee)
  | PushCase.payload0 => .ok (ts, some ((h.get c).payload 0))
  | PushCase.constr2 =>
    .ok (pushStackElement ts { info := posTypeStep 2, c := c, cp := 0, data := data },
         some ((h.get c).payload 0))
  | PushCase.mvar =>
    .ok (pushStackElement ts { info := posTypeStep 2, c := c, cp := 0, data := data },
         some (h.get c).head)
  | PushCase.weak =>
    .ok (pushStackElement ts { info := posTypeStep 2, c := c, cp := 0, data := data },
         some (h.get c).key)
  | PushCase.ptrs =>
    match find_ptrs h (init_ptrs ((h.get c).ptrs % 2 ^ 32) c) with
    | .error e => .error e
    | .ok (_, none) => .ok (ts, none)
    | .ok (info1, some first_child) =>
      .ok (pushStackElement ts { info := info1, c := c, cp := 0, data := data },
           some first_child)
  | PushCase.ptrsSrt =>
    match find_ptrs h (init_ptrs ((h.get c).ptrs % 2 ^ 32) c) with
    | .error e => .error e
    | .ok (_, none) =>
      match find_srt (posTypeSRT (h.get c).srt) with
      | .error e => .error e
      | .ok (_, none) => .ok (ts, none)
      | .ok (info1, some first_child) =>
        .ok (pushStackElement ts { info := info1, c := c, cp := 0, data := data },
             some first_child)
    | .ok (info1, some first_child) =>
      .ok (pushStackElement ts { info := info1, c := c, cp := 0, data := data },
           some first_child)
  | PushCase.oneSrt =>
    .ok (pushStackElement ts
          { info := posTypeSRT (h.get c).srt, c := c, cp := 0, data := data },
         some ((h.get c).payload 0))
  | PushCase.srt =>
    match find_srt (posTypeSRT (h.get c).srt) with
    | .error e => .error e
    | .ok (_, none) => .ok (ts, none)
    | .ok (info1, some first_child) =>
      .ok (pushStackElement ts { info := info1, c := c, cp := 0, data := data },
           some first_child)
  | PushCase.trec =>
    .ok (pushStackElement ts { info := posTypeStep 0, c := c, cp := 0, data := data },
         some (h.get c).prev_chunk)
  | PushCase.invalid => .error (Fatal.push (h.get c).type)

/-- The children of a closure that `traversePushChildren` and the later
calls of `traversePop` enumerate, in that order. -/
def pushChildrenList (h : Heap) (c : Addr) : Except Fatal (List Addr) :=
  let o := h.get c
  match pushCase o.type with
  | PushCase.noChild => .ok []
  | PushCase.var => .ok [o.var]
  | PushCase.selectee => .ok [o.selectee]
  | PushCase.indirectee => .ok [o.indirectee]
  | PushCase.payload0 => .ok [o.payload 0]
  | PushCase.constr2 => .ok [o.payload 0, o.payload 1]
  | PushCase.mvar => .ok [o.head, o.tail, o.value]
  | PushCase.weak => .ok [o.key, o.value, o.finalizer]
  | PushCase.ptrs => .ok (ptrsFrom h 0 (o.ptrs % 2 ^ 32) c)
  | PushCase.ptrsSrt => .ok (ptrsFrom h 0 (o.ptrs % 2 ^ 32) c ++ o.srt.toList)
  | PushCase.oneSrt => .ok (o.payload 0 :: o.srt.toList)
  | PushCase.srt => .ok o.srt.toList
  | PushCase.trec =>
    .ok (o.prev_chunk :: (List.range' 0 (4 * o.next_entry_idx)).map (trecField o))
  | PushCase.invalid => .error (Fatal.push o.type)

/-- The items for the closures `l`, all with parent `cp` and data `data`. -/
def itemsFor (cp : Addr) (data : stackData) (l : List Addr) : List Item :=
  l.map fun c => (c, cp, data)

/-- The fresh stack element that `traversePushClosure` builds. -/
def freshElem (cp : Addr) (data : stackData) (c : Addr) : stackElement :=
  { info := posTypeFresh, c := c, cp := cp, data := data }

/-- The stack after the closures `l` were pushed, one after the other, as
fresh elements with parent `cp` and data `data`. -/
def pushAll (ts : traverseState) (cp : Addr) (data : stackData) (l : List Addr) :
    traverseState :=
  { ts with stack := (l.map (freshElem cp data)).reverse ++ ts.stack }

/-- The words that `traverseSmallBitmap` pushes, in the order of pushing: the
words whose bit in the bitmap is 0. -/
def smallBitmapPtrs (p : Nat → Addr) : Nat → Nat → Nat → List Addr
  | _, 0, _ => []
  | i, size + 1, bitmap =>
    (if bitmap &&& 1 = 0 then [p i] else []) ++
      smallBitmapPtrs p (i + 1) size (bitmap >>> 1)

/-- The words that the loop of `traverseLargeBitmap` pushes, in the order of
pushing. -/
def largeBitmapPtrs_loop (p : Nat → Addr) (large_bitmap : StgLargeBitmap) :
    Nat → Nat → Nat → Nat → List Addr
  | 0, _, _, _ => []
  | n + 1, i, b, bitmap =>
    (if bitmap &&& 1 = 0 then [p i] else []) ++
      (if (i + 1) % BITS_IN_W = 0 then
        largeBitmapPtrs_loop p large_bitmap n (i + 1) (b + 1) (large_bitmap.bitmap (b + 1))
      else largeBitmapPtrs_loop p large_bitmap n (i + 1) b (bitmap >>> 1))

/-- The words that `traverseLargeBitmap` pushes. -/
def largeBitmapPtrs (p : Nat → Addr) (large_bitmap : StgLargeBitmap) (size : Nat) :
    List Addr :=
  largeBitmapPtrs_loop p large_bitmap size 0 0 (large_bitmap.bitmap 0)

/-- The argument words that `traverseFunArgs` pushes. -/
def funArgPtrs (h : Heap) (func : Addr) (p : Nat → Addr) (size : Nat) (viaBCO : Bool) :
    List Addr :=
  let fi := h.get func
  let size := size % 2 ^ 32
  if fi.fun_type = ARG_GEN then smallBitmapPtrs p 0 size fi.fun_bitmap_bits
  else if fi.fun_type = ARG_GEN_BIG then largeBitmapPtrs p fi.fun_large_bitmap size
  else if viaBCO && fi.fun_type = ARG_BCO then largeBitmapPtrs p fi.bco_bitmap size
  else smallBitmapPtrs p 0 size (h.stg_arg_bitmaps fi.fun_type).1

/-- The closures that `traversePushStack` pushes for one activation record,
in the order of pushing. -/
def framePtrs (h : Heap) (f : StgRetFrame) : Except Fatal (List Addr) :=
  match f.type with
  | UPDATE_FRAME => .ok [f.updatee]
  | UNDERFLOW_FRAME | STOP_FRAME | CATCH_FRAME | CATCH_STM_FRAME | CATCH_RETRY_FRAME
  | ATOMICALLY_FRAME | RET_SMALL =>
    .ok (smallBitmapPtrs f.payload 0 (f.bitmap_size % 2 ^ 32) f.bitmap_bits ++ f.srt.toList)
  | RET_BCO =>
    .ok (f.payload 0 :: largeBitmapPtrs (fun i => f.payload (i + 1))
          (h.get (f.payload 0)).bco_bitmap ((h.get (f.payload 0)).bco_bitmap.size % 2 ^ 32))
  | RET_BIG =>
    .ok (largeBitmapPtrs f.payload f.large_bitmap (f.large_bitmap.size % 2 ^ 32)
          ++ f.srt.toList)
  | RET_FUN =>
    let fi := h.get f.ret_fun
    let size := if fi.fun_type = ARG_GEN then fi.fun_bitmap_size
                else if fi.fun_type = ARG_GEN_BIG then fi.fun_large_bitmap.size
                else (h.stg_arg_bitmaps fi.fun_type).2
    .ok (f.ret_fun :: funArgPtrs h f.ret_fun f.payload size false ++ f.srt.toList)
  | t => .error (Fatal.retainStack t)

/-- The closures that `traversePushStack` pushes for a list of activation
records, in the order of pushing. -/
def stackPtrs (h : Heap) : List StgRetFrame → Except Fatal (List Addr)
  | [] => .ok []
  | f :: fs =>
    match framePtrs h f with
    | .error e => .error e
    | .ok l =>
      match stackPtrs h fs with
      | .error e => .error e
      | .ok ls => .ok (l ++ ls)

/-- The children of a closure, in the order in which the traversal goes on
with them: for the kinds whose children `traverseWorkStack` pushes all at
once, the last one pushed comes first; for the other kinds the order is that
of `traversePushChildren` and `traversePop`.  The result is an error for a
kind on which the enumeration aborts. -/
def childrenOf (h : Heap) (c : Addr) : Except Fatal (List Addr) :=
  let o := h.get c
  match o.type with
  | STACK =>
    match stackPtrs h o.frames with
    | .error e => .error e
    | .ok l => .ok l.reverse
  | TSO =>
    .ok ([o.stackobj, o.blocked_exceptions, o.bq, o.trec] ++
      (if o.why_blocked = BlockedOnMVar ∨ o.why_blocked = BlockedOnMVarRead
          ∨ o.why_blocked = BlockedOnBlackHole ∨ o.why_blocked = BlockedOnMsgThrowTo
        then [o.block_info_closure] else [])).reverse
  | BLOCKING_QUEUE => .ok [o.link, o.bh, o.owner].reverse
  | PAP => .ok (o.func :: funArgPtrs h o.func o.args o.n_args true).reverse
  | AP => .ok (o.func :: funArgPtrs h o.func o.args o.n_args true).reverse
  | AP_STACK =>
    match stackPtrs h o.frames with
    | .error e => .error e
    | .ok l => .ok (o.func :: l).reverse
  | _ => pushChildrenList h c

/-- The item that a label of `traverseWorkStack` holds. -/
def labelItems : Label → List Item
  | Label.loop => []
  | Label.inner_loop c cp data => [(c, cp, data)]

/-- What `traverseWorkStack` does with one item, apart from the stack: the
state after the item, and the items that take its place. -/
def visitItem (h : Heap) (st : RtsState) (it : Item) : Except Fatal (RtsState × List Item) :=
  match preVisit h it.1 with
  | PreVisit.skip => .ok (st, [])
  | PreVisit.follow c1 => .ok (st, [(c1, it.2.1, it.2.2)])
  | PreVisit.visit =>
    match retainVisitClosure h (traverseMaybeInitClosureData st it.1) it.1 it.2.1 it.2.2 with
    | .error e => .error e
    | .ok (st1, none) => .ok (st1, [])
    | .ok (st1, some child_data) =>
      match childrenOf h it.1 with
      | .error e => .error e
      | .ok l => .ok (st1, itemsFor it.1 child_data l)

/-- The traversal as a work list: the items are taken one after the other,
each one replaced by the items that `visitItem` gives for it, until no item
is left; `none` when the fuel does not suffice. -/
def runItems (h : Heap) : Nat → RtsState → List Item → Option (Except Fatal RtsState)
  | 0, _, _ => none
  | _ + 1, st, [] => some (.ok st)
  | n + 1, st, it :: rest =>
    match visitItem h st it with
    | .error e => some (.error e)
    | .ok (st1, new) => runItems h n st1 (new ++ rest)

/-- The state with another traverse stack. -/
def RtsState.withTs (st : RtsState) (ts : traverseState) : RtsState := { st with ts := ts }

/-- The retainer set that a visit associates with the closure: `rc` is the
retainer set of the closure before the visit, `s` the set taken over from the
parent, `r` the retainer handed down.  The result `none` is the case in which
`r` is a member already and nothing is associated. -/
def visitSet (rc s : Option RetainerSet) (r : retainer) : Option RetainerSet :=
  match rc with
  | none =>
    match s with
    | none => some (singleton r)
    | some s => some s
  | some retainerSetOfc =>
    if isMember r retainerSetOfc then none
    else
      match s with
      | none => some (addElement r retainerSetOfc)
      | some s =>
        if s.num = retainerSetOfc.num + 1 then some s
        else some (addElement r retainerSetOfc)

/-- The data that a visit hands on to the children of the closure, or `none`
when the children are skipped. -/
def visitChild (rc : Option RetainerSet) (cIsRetainer : Bool) (ccs r : retainer) :
    Option stackData :=
  match rc with
  | none => some { c_child_r := if cIsRetainer then ccs else r }
  | some _ => if cIsRetainer then none else some { c_child_r := r }

/-- The result of a run with another traverse stack put in. -/
def resWithTs (t : traverseState) :
    Option (Except Fatal RtsState) → Option (Except Fatal RtsState)
  | none => none
  | some (.error e) => some (.error e)
  | some (.ok s) => some (.ok (s.withTs t))

/-- The data that `retainRoot` seeds a root with: the retainer identity of
the root when it is a retainer other than the end-of-queue sentinel, and
`CCS_SYSTEM` otherwise. -/
def seedOf (h : Heap) (c : Addr) : Except Fatal stackData :=
  if c ≠ h.END_TSO_QUEUE then
    match isRetainer h c with
    | .error e => .error e
    | .ok true => .ok { c_child_r := getRetainerFrom h c }
    | .ok false => .ok { c_child_r := h.CCS_SYSTEM }
  else .ok { c_child_r := h.CCS_SYSTEM }

/-- The retainer set that a closure has in the current pass: the set in its
traversal slot when the marker of the slot agrees with `flip`. -/
def rsetOf (st : RtsState) (a : Addr) : Option RetainerSet :=
  if isTravDataValid st.flip (st.trav a) then (st.trav a).rs else none

/-! ## The heap as a graph, and what a retainer set should hold -/

/-- The relation `c` is a child of `p`: a closure that the traversal
enumerates for `p`, or the closure that the static indirection `p` points
to. -/
def Edge (h : Heap) (p c : Addr) : Prop :=
  (∃ l, childrenOf h p = .ok l ∧ c ∈ l) ∨
    ((h.get p).type = IND_STATIC ∧ c = (h.get p).indirectee)

/-- A path of at least one child edge from `p` to `c` whose intermediate
closures are all non-retainers. -/
inductive NRPath (h : Heap) : Addr → Addr → Prop
  | edge (p c : Addr) : Edge h p c → NRPath h p c
  | step (p m c : Addr) : NRPath h p m → isRetainer h m = .ok false → Edge h m c →
      NRPath h p c

/-- The retainer `e` is justified for the closure `c`, the roots seeded being
`roots`: `e` is the identity of a retainer from which `c` is reached along a
path without a retainer in between, or `e` is the seed of a root that is `c`
itself or a non-retainer from which `c` is reached along such a path. -/
def Just (h : Heap) (roots : List Addr) (e : retainer) (c : Addr) : Prop :=
  (∃ p, isRetainer h p = .ok true ∧ getRetainerFrom h p = e ∧ NRPath h p c) ∨
    ∃ ρ, ρ ∈ roots ∧ seedOf h ρ = .ok { c_child_r := e } ∧
      (ρ = c ∨ (isRetainer h ρ = .ok false ∧ NRPath h ρ c))

/-- The retainer `e` is rightly handed down by the parent `cp` to its
children. -/
def Carried (h : Heap) (roots : List Addr) (e : retainer) (cp : Addr) : Prop :=
  (isRetainer h cp = .ok true ∧ e = getRetainerFrom h cp) ∨
    (isRetainer h cp = .ok false ∧ Just h roots e cp)

/-- A pending item is the seeding of a root, or a closure reached from its
parent with a retainer that the parent rightly hands down. -/
def ItemOK (h : Heap) (roots : List Addr) (it : Item) : Prop :=
  (it.1 = it.2.1 ∧ it.1 ∈ roots ∧ seedOf h it.1 = .ok it.2.2) ∨
    (NRPath h it.2.1 it.1 ∧ Carried h roots it.2.2.c_child_r it.2.1)

/-- The soundness invariant of a pass: every element of every retainer set
is justified, and every pending item is in order. -/
def SoundInv (h : Heap) (roots : List Addr) (st : RtsState) (items : List Item) : Prop :=
  (∀ a S, rsetOf st a = some S → ∀ e ∈ S.element, Just h roots e a) ∧
    ∀ it ∈ items, ItemOK h roots it

/-- All the roots that `computeRetainerSet` seeds, in the order of seeding. -/
def Roots.all (roots : Roots) : List Addr :=
  roots.capabilities ++ roots.weak_ptr_list ++ roots.stable_ptrs

/-- The state in which `retainerProfile` starts the traversal: `flip` is
flipped, the counters are reset and the traverse stack is fresh. -/
def beginPass (st : RtsState) : RtsState :=
  { flip := !st.flip, trav := st.trav, numObjectVisited := 0, timesAnyObjectVisited := 0,
    retainerGeneration := st.retainerGeneration, ts := initializeTraverseStack }

/-- The state before a pass is clean: a traversal slot whose marker disagrees
with `flip`, and so will agree with it once the pass has flipped it, holds no
retainer set. -/
def Clean (st : RtsState) : Prop :=
  ∀ a, (st.trav a).lsb ≠ st.flip → (st.trav a).rs = none

/-- Results of the fallible functions can be compared. -/
instance instDecidableEqExcept {ε α : Type} [DecidableEq ε] [DecidableEq α] :
    DecidableEq (Except ε α) := fun a b =>
  match a, b with
  | .ok x, .ok y => if hxy : x = y then isTrue (by rw [hxy]) else isFalse (by intro hc; cases hc; exact hxy rfl)
  | .error x, .error y =>
    if hxy : x = y then isTrue (by rw [hxy]) else isFalse (by intro hc; cases hc; exact hxy rfl)
  | .ok _, .error _ => isFalse (by intro hc; cases hc)
  | .error _, .ok _ => isFalse (by intro hc; cases hc)

/-! ## Example heaps -/

/-- A state before the first pass: every traversal slot is zero. -/
def initState : RtsState :=
  { flip := false, trav := fun _ => { lsb := false, rs := none },
    numObjectVisited := 0, timesAnyObjectVisited := 0, retainerGeneration := 0,
    ts := initializeTraverseStack }

/-- The state that a pass returns with, for a pass that returns. -/
def passResult (h : Heap) (roots : Roots) (fuel : Nat) (st : RtsState) : RtsState :=
  match retainerProfile h roots fuel st with
  | some (.ok s) => s
  | _ => st

/-- A heap of five closures: three mutable variables, with the identities
10, 11 and 12, at the addresses 0, 1 and 2; a constructor with two fields at
3; a constructor without pointer fields at 4.  Variable 0 points to 4, the
variables 1 and 2 point to 3, and the fields of 3 point to 2 and to 4. -/
def sharedHeap : Heap :=
  { closures := [
      { type := MUT_VAR_CLEAN, ccs := 10, var := 4 },
      { type := MUT_VAR_CLEAN, ccs := 11, var := 3 },
      { type := MUT_VAR_CLEAN, ccs := 12, var := 3 },
      { type := CONSTR_2_0, ccs := 13, payload := fun i => if i = 0 then 2 else 4 },
      { type := CONSTR_0_1, ccs := 14 } ],
    END_TSO_QUEUE := 99, CCS_SYSTEM := 1 }

/-- The state that `retainRoot` returns with, for a call that returns. -/
def rootResult (h : Heap) (fuel : Nat) (st : RtsState) (tl : Addr) : RtsState :=
  match retainRoot h fuel st tl with
  | some (.ok s) => s
  | _ => st

/-- The scenario heap: the retainer root R (a mutable variable, identity 20)
at address 0 points to A (a constructor with one field) at 1, which points to
B (a constructor with two fields) at 2, whose fields point to C (a thunk
without pointers and without SRT, identity 23) at 3 and to D (a constructor
without pointer fields) at 4. -/
def scenarioHeap : Heap :=
  { closures := [
      { type := MUT_VAR_CLEAN, ccs := 20, var := 1 },
      { type := CONSTR_1_0, ccs := 21, payload := fun _ => 2 },
      { type := CONSTR_2_0, ccs := 22, payload := fun i => if i = 0 then 3 else 4 },
      { type := THUNK_0_1, ccs := 23 },
      { type := CONSTR_0_1, ccs := 24 } ],
    END_TSO_QUEUE := 99, CCS_SYSTEM := 1 }

/-- The scenario heap with something below C: here C is a mutable variable
(identity 23) that points to E, a constructor without pointer fields at
address 5, which nothing else points to. -/
def scenarioHeapBelowC : Heap :=
  { closures := [
      { type := MUT_VAR_CLEAN, ccs := 20, var := 1 },
      { type := CONSTR_1_0, ccs := 21, payload := fun _ => 2 },
      { type := CONSTR_2_0, ccs := 22, payload := fun i => if i = 0 then 3 else 4 },
      { type := MUT_VAR_CLEAN, ccs := 23, var := 5 },
      { type := CONSTR_0_1, ccs := 24 },
      { type := CONSTR_0_1, ccs := 25 } ],
    END_TSO_QUEUE := 99, CCS_SYSTEM := 1 }

/-- Two retainer roots R1 and R2 (mutable variables with the identities `r1`
and `r2`) at the addresses 0 and 1 that both point to X, a constructor
without pointer fields at address 2. -/
def twoRootsHeap (r1 r2 : retainer) : Heap :=
  { closures := [
      { type := MUT_VAR_CLEAN, ccs := r1, var := 2 },
      { type := MUT_VAR_CLEAN, ccs := r2, var := 2 },
      { type := CONSTR_0_1, ccs := 0 } ],
    END_TSO_QUEUE := 99, CCS_SYSTEM := 1 }

/-- The part of the potential of a pass that one traversal slot holds: `u`
is the number of retainers there are. -/
def slotPot (u : Nat) : Option RetainerSet → Nat
  | none => u + 1
  | some S => u - S.num

/-- The potential of a state: it falls with every retainer set that is
associated for the first time or grows. -/
def potential (h : Heap) (u : Nat) (st : RtsState) : Nat :=
  ((List.range h.closures.length).map fun a => slotPot u (rsetOf st a)).sum

/-- The weight of the pending items, `rank` measuring how long a chain of
static indirections is. -/
def weight (rank : Addr → Nat) (items : List Item) : Nat :=
  (items.map fun it => 1 + rank it.1).sum

/-- The invariant of termination: the retainers in the sets of the heap, the
retainers that the pending items carry and the identities of the closures of
the heap are all among the retainers `U`. -/
def BoundInv (h : Heap) (U : Finset retainer) (st : RtsState) (items : List Item) : Prop :=
  (∀ a, a < h.closures.length → ∀ S, rsetOf st a = some S → ∀ e ∈ S.element, e ∈ U) ∧
    (∀ it ∈ items, it.2.2.c_child_r ∈ U) ∧
    ∀ a, a < h.closures.length → getRetainerFrom h a ∈ U

/-- The closure that a static indirection at `a` points to. -/
def indirecteeOf (h : Heap) (a : Addr) : Addr := (h.get a).indirectee

/-- Every chain of static indirections comes to an end: from every closure,
following indirectees leads to a closure that is not a static indirection. -/
def IndChainsEnd (h : Heap) : Prop :=
  ∀ a, ∃ k, h.typeOf ((indirecteeOf h)^[k] a) ≠ IND_STATIC

/-- A heap with a static indirection: the mutable variable at address 0
(identity 40) points to the static indirection at 1, which points to the
constructor without pointer fields at 2. -/
def indHeap : Heap :=
  { closures := [
      { type := MUT_VAR_CLEAN, ccs := 40, var := 1 },
      { type := IND_STATIC, ccs := 41, indirectee := 2 },
      { type := CONSTR_0_1, ccs := 42 } ],
    END_TSO_QUEUE := 99, CCS_SYSTEM := 1 }

/-- A heap with one closure, a static indirection that points to itself. -/
def indLoopHeap : Heap :=
  { closures := [ { type := IND_STATIC, ccs := 50, indirectee := 0 } ],
    END_TSO_QUEUE := 99, CCS_SYSTEM := 1 }

/-- The closure `y` is `x` or is reached from `x` by following static
indirections. -/
inductive IndReach (h : Heap) : Addr → Addr → Prop
  | refl (x : Addr) : IndReach h x x
  | step (x m : Addr) : IndReach h x m → (h.get m).type = IND_STATIC →
      IndReach h x (h.get m).indirectee

/-- The closure `x` is settled: following static indirections from it leads
to a closure that the traversal skips or that has a retainer set. -/
def Settled (h : Heap) (st : RtsState) (x : Addr) : Prop :=
  ∃ y, IndReach h x y ∧ (preVisit h y = PreVisit.skip ∨ (rsetOf st y).isSome = true)

/-- The closure `x` is waiting: a pending item holds it, or a closure that
static indirections lead to from it. -/
def Waiting (h : Heap) (items : List Item) (x : Addr) : Prop :=
  ∃ it, it ∈ items ∧ IndReach h x it.1

/-- The coverage invariant of a pass, `done` being the roots seeded so far:
the roots and the children of every closure with a retainer set are settled
or waiting; only closures that are visited have a retainer set; no retainer
set is empty. -/
def CoverInv (h : Heap) (done : List Addr) (st : RtsState) (items : List Item) : Prop :=
  (∀ ρ ∈ done, Settled h st ρ ∨ Waiting h items ρ) ∧
    (∀ a, (rsetOf st a).isSome = true → preVisit h a = PreVisit.visit ∧
      ∀ l, childrenOf h a = .ok l → ∀ x ∈ l, Settled h st x ∨ Waiting h items x) ∧
    ∀ a S, rsetOf st a = some S → S.element ≠ []

/-- The closures that a pass reaches from the roots `roots`: the roots, what
static indirections that it reaches point to, and the children of the
closures that it reaches and visits. -/
inductive Reach (h : Heap) (roots : List Addr) : Addr → Prop
  | root (ρ : Addr) : ρ ∈ roots → Reach h roots ρ
  | ind (a : Addr) : Reach h roots a → (h.get a).type = IND_STATIC →
      Reach h roots (h.get a).indirectee
  | child (a c : Addr) (l : List Addr) : Reach h roots a → preVisit h a = PreVisit.visit →
      childrenOf h a = .ok l → c ∈ l → Reach h roots c

/-- A heap with two cycles of non-retainers below one retainer root: the
mutable variable R at address 0 (identity 60) points to the constructor with
two fields at 1, whose fields point to the static indirection at 2 and to the
constructor with one field at 3; both 2 and 3 point back to 1. -/
def cycleHeap : Heap :=
  { closures := [
      { type := MUT_VAR_CLEAN, ccs := 60, var := 1 },
      { type := CONSTR_2_0, ccs := 61, payload := fun i => if i = 0 then 2 else 3 },
      { type := IND_STATIC, ccs := 62, indirectee := 1 },
      { type := CONSTR_1_0, ccs := 63, payload := fun _ => 1 } ],
    END_TSO_QUEUE := 99, CCS_SYSTEM := 1 }

/-- The state after a visit: the counters are advanced and the retainer set
`ns`, if there is one, is associated with `c`; `rc` is the retainer set that
`c` had before. -/
def visitState (st : RtsState) (c : Addr) (rc ns : Option RetainerSet) : RtsState :=
  { st with
    timesAnyObjectVisited := (st.timesAnyObjectVisited + 1) % 2 ^ 32,
    numObjectVisited :=
      match rc with
      | none => (st.numObjectVisited + 1) % 2 ^ 32
      | some _ => st.numObjectVisited,
    trav :=
      match ns with
      | none => st.trav
      | some S1 => Function.update st.trav c { lsb := st.flip, rs := some S1 } }

/-- What a visit computes from what it reads: `rc` is the retainer set of the
closure, `cpRet` whether the parent is a retainer, `scp` the retainer set of
the parent (read only when the parent is not a retainer), `cRet` whether the
closure is a retainer (read only when a set is associated).  The result is
the set to associate, if any, and the data for the children, if they are not
skipped. -/
def visitPure (rc : Option RetainerSet) (cpRet : Except Fatal Bool)
    (scp : Except Fatal (Option RetainerSet)) (cRet : Except Fatal Bool)
    (ccs r : retainer) : Except Fatal (Option RetainerSet × Option stackData) :=
  match cpRet with
  | .error e => .error e
  | .ok cpRet =>
    match (if cpRet then .ok none else scp) with
    | .error e => .error e
    | .ok s =>
      match visitSet rc s r with
      | none => .ok (none, none)
      | some S1 =>
        match cRet with
        | .error e => .error e
        | .ok cRet => .ok (some S1, visitChild rc cRet ccs r)

/-- The marker of the traversal slot of `a` agrees with `flip`. -/
def validAt (st : RtsState) (a : Addr) : Prop :=
  isTravDataValid st.flip (st.trav a) = true

/-- What `visitItem` computes from the retainer sets `rc` of the closure and
`scp` of its parent: the retainer set to associate, if any, and the items
that take the place of the item. -/
def visitOutcome (h : Heap) (rc scp : Option RetainerSet) (it : Item) :
    Except Fatal (Option (Option RetainerSet) × List Item) :=
  match preVisit h it.1 with
  | PreVisit.skip => .ok (none, [])
  | PreVisit.follow c1 => .ok (none, [(c1, it.2.1, it.2.2)])
  | PreVisit.visit =>
    match visitPure rc (isRetainer h it.2.1) (.ok scp) (isRetainer h it.1)
        (getRetainerFrom h it.1) it.2.2.c_child_r with
    | .error e => .error e
    | .ok (ns, none) => .ok (some ns, [])
    | .ok (ns, some child_data) =>
      match childrenOf h it.1 with
      | .error e => .error e
      | .ok l => .ok (some ns, itemsFor it.1 child_data l)

/-- The state after an item, given the outcome `visitOutcome` computed. -/
def afterItem (st : RtsState) (c : Addr) : Option (Option RetainerSet) → RtsState
  | none => st
  | some ns => visitState (traverseMaybeInitClosureData st c) c (rsetOf st c) ns

/-- The state after `retainRoot` on the root R of the scenario heap, in the
first pass: every closure of the heap has the retainer set {20}. -/
def afterRootR : RtsState := rootResult scenarioHeap 100 (beginPass initState) 0

/-- The state of the first pass in which A, at address 1, has the retainer
set {20} and B, at address 2, has been reset and has no retainer set yet: the
state in which the traversal of the scenario heap visits B for the first
time. -/
def atFirstVisitOfB : RtsState :=
  associate
    (traverseMaybeInitClosureData (traverseMaybeInitClosureData (beginPass initState) 1) 2)
    1 (singleton 20)

/-- The state after `retainRoot` on the root R1 of the heap of the two roots
with the identities 30 and 31, in the first pass: X has the retainer set
{30}. -/
def afterRootR1 : RtsState :=
  rootResult (twoRootsHeap 30 31) 100 (beginPass initState) 0

/-- A state of the first pass whose stack holds one element, a cursor for the
second field of the closure at address 3. -/
def withOneFrame : RtsState :=
  (beginPass initState).withTs
    { stack := [{ info := posTypeStep 2, c := 3, cp := 0, data := { c_child_r := 1 } }],
      currentStackBoundary := 0 }

/-- The kinds whose children `traverseWorkStack` pushes all at once, with
`traversePushClosure`, instead of calling `traversePushChildren`. -/
def eagerKind : ClosureType → Bool
  | STACK | TSO | BLOCKING_QUEUE | PAP | AP | AP_STACK => true
  | _ => false

/-- Where `traverseWorkStack` stands after `k` jumps, if it has not returned
or aborted before. -/
def traverseWorkStack_steps (h : Heap) : Nat → Label → RtsState → Option (Label × RtsState)
  | 0, l, st => some (l, st)
  | k + 1, l, st =>
    match traverseWorkStack_body h l st with
    | Jump.done _ => none
    | Jump.goto l1 st1 => traverseWorkStack_steps h k l1 st1

/-- Every fresh element of the stack is the seed of the root `tl` or was
pushed for a child of a closure of one of the kinds whose children are pushed
all at once. -/
def FreshInv (h : Heap) (tl : Addr) (stack : List stackElement) : Prop :=
  ∀ se ∈ stack, se.info = posTypeFresh →
    (se.c = tl ∧ se.cp = tl) ∨ eagerKind (h.get se.cp).type = true

/-- The state in which `retainRoot` calls `traverseWorkStack`: the boundary
is at the top of the stack, the root is reset if its marker was stale, and the
root is pushed as a fresh element with itself as parent and the seed as
data. -/
def retainRoot_start (st : RtsState) (tl : Addr) (data : stackData) : RtsState :=
  (traverseMaybeInitClosureData st tl).withTs
    { stack := freshElem tl data tl :: st.ts.stack,
      currentStackBoundary := st.ts.stack.length }

/-- The label and the state after `k` jumps, for a run that has not ended
before. -/
def stepsResult (h : Heap) (k : Nat) (l : Label) (st : RtsState) : Label × RtsState :=
  (traverseWorkStack_steps h k l st).getD (l, st)

/-- A heap with a thread: the TSO at address 0 (identity 70), whose stack
object is the STACK without activation records at address 1, and whose other
fields point to the static closure at address 2, which is the end-of-queue
sentinel. -/
def tsoHeap : Heap :=
  { closures := [
      { type := TSO, ccs := 70, what_next := 1, stackobj := 1, blocked_exceptions := 2,
        bq := 2, trec := 2 },
      { type := STACK, ccs := 71 },
      { type := CONSTR_NOCAF, ccs := 72 } ],
    END_TSO_QUEUE := 2, CCS_SYSTEM := 1 }

/-! ## The traverse stack as the source has it: a chain of block groups -/

/-- The sizes that the block allocator and the compiler fix: `BLOCK_SIZE_W`
of Block.h, the number of words in a block, and the size of a `stackElement`
in words.  Both are parameters of the stack functions. -/
structure Layout where
  BLOCK_SIZE_W : Nat
  sizeofW_stackElement : Nat
  deriving DecidableEq, Repr

/-- The number of blocks allocated for one stack chunk. -/
def BLOCKS_IN_STACK : Nat := 1

/-- A pointer into a block group: the descriptor of the group and the offset
from the `start` of the group, in words.  Pointers into different groups are
different, as the groups do not overlap. -/
structure Ptr where
  bd : Nat
  off : Int
  deriving DecidableEq, Repr

/-- A block descriptor (`bdescr`) with the fields the stack uses: `free`,
`link`, `u.back` and `blocks`; `start` is the pointer with offset 0 into the
group.  The value `none` of `link` and `back` is NULL. -/
structure bdescr where
  free : Ptr
  link : Option Nat
  back : Option Nat
  blocks : Nat
  deriving DecidableEq, Repr

/-- The traverse stack of the source: the block descriptors allocated so
far, addressed by their index, and which of them were freed; the memory of
the block groups; and the fields of `traverseState`.  A `stackElement *` is a
`Ptr`, a `bdescr *` the index of a descriptor. -/
structure Chunked.traverseState where
  descrs : List bdescr
  freed : List Nat
  mem : Ptr → stackElement
  firstStack : Option Nat
  currentStack : Nat
  stackBottom : Ptr
  stackTop : Ptr
  stackLimit : Ptr
  currentStackBoundary : Ptr

/-- The descriptor at an address. -/
def Chunked.traverseState.descr (ts : Chunked.traverseState) (bd : Nat) : bdescr :=
  ts.descrs.getD bd { free := ⟨bd, 0⟩, link := none, back := none, blocks := 0 }

/-- The state with the descriptor at `bd` changed by `f`. -/
def Chunked.traverseState.setDescr (ts : Chunked.traverseState) (bd : Nat)
    (f : bdescr → bdescr) : Chunked.traverseState :=
  { ts with descrs := ts.descrs.modify f bd }

/-- Modelled from the spec: `allocGroup(n)` of the block allocator, which is
not part of this file, hands out the descriptor of a new group of `n` blocks;
its `free` is its `start`. -/
def Chunked.allocGroup (ts : Chunked.traverseState) (n : Nat) : Chunked.traverseState × Nat :=
  ({ ts with descrs := ts.descrs ++
      [{ free := ⟨ts.descrs.length, 0⟩, link := none, back := none, blocks := n }] },
    ts.descrs.length)

/-- The descriptors of a chain, from `bd` along the `link` fields, at most
`fuel` of them. -/
def Chunked.chainFrom (ts : Chunked.traverseState) : Nat → Option Nat → List Nat
  | 0, _ => []
  | _, none => []
  | fuel + 1, some bd => bd :: Chunked.chainFrom ts fuel (ts.descr bd).link

/-- Modelled from the spec: `freeChain(bd)` of the block allocator gives the
groups of the chain that starts at `bd` back. -/
def Chunked.freeChain (ts : Chunked.traverseState) (bd : Nat) : Chunked.traverseState :=
  { ts with freed := ts.freed ++ Chunked.chainFrom ts ts.descrs.length (some bd) }

/-- The function `newStackBlock`. -/
def Chunked.newStackBlock (L : Layout) (ts : Chunked.traverseState) (bd : Nat) :
    Chunked.traverseState :=
  let ts := { ts with currentStack := bd }
  let ts := { ts with stackTop := ⟨bd, L.BLOCK_SIZE_W * (ts.descr bd).blocks⟩ }
  let ts := { ts with stackBottom := ⟨bd, 0⟩ }
  let ts := { ts with stackLimit := ts.stackTop }
  ts.setDescr bd fun d => { d with free := ts.stackLimit }

/-- The function `returnToOldStack`. -/
def Chunked.returnToOldStack (L : Layout) (ts : Chunked.traverseState) (bd : Nat) :
    Chunked.traverseState :=
  let ts := { ts with currentStack := bd }
  let ts := { ts with stackTop := (ts.descr bd).free }
  let ts := { ts with stackBottom := ⟨bd, 0⟩ }
  let ts := { ts with stackLimit := ⟨bd, L.BLOCK_SIZE_W * (ts.descr bd).blocks⟩ }
  ts.setDescr bd fun d => { d with free := ts.stackLimit }

/-- The function `initializeTraverseStack`. -/
def Chunked.initializeTraverseStack (L : Layout) (ts : Chunked.traverseState) :
    Chunked.traverseState :=
  let ts := match ts.firstStack with
    | some bd => Chunked.freeChain ts bd
    | none => ts
  let (ts, bd) := Chunked.allocGroup ts BLOCKS_IN_STACK
  let ts := { ts with firstStack := some bd }
  let ts := ts.setDescr bd fun d => { d with link := none }
  let ts := ts.setDescr bd fun d => { d with back := none }
  Chunked.newStackBlock L ts bd

/-- The function `closeTraverseStack`. -/
def Chunked.closeTraverseStack (ts : Chunked.traverseState) : Chunked.traverseState :=
  let ts := match ts.firstStack with
    | some bd => Chunked.freeChain ts bd
    | none => ts
  { ts with firstStack := none }

/-- The function `isEmptyWorkStack`. -/
def Chunked.isEmptyWorkStack (ts : Chunked.traverseState) : Bool :=
  decide (ts.firstStack = some ts.currentStack) && decide (ts.stackTop = ts.stackLimit)

/-- The loop of `traverseWorkStackBlocks` over the chain, with at most `fuel`
iterations; `none` when the fuel does not suffice. -/
def Chunked.traverseWorkStackBlocks_loop (ts : Chunked.traverseState) :
    Nat → Option Nat → Nat → Option Nat
  | _, none, res => some res
  | 0, some _, _ => none
  | fuel + 1, some bd, res =>
    Chunked.traverseWorkStackBlocks_loop ts fuel (ts.descr bd).link (res + (ts.descr bd).blocks)

/-- The function `traverseWorkStackBlocks`. -/
def Chunked.traverseWorkStackBlocks (ts : Chunked.traverseState) (fuel : Nat) : Option Nat :=
  Chunked.traverseWorkStackBlocks_loop ts fuel ts.firstStack 0

/-- The function `isOnBoundary`. -/
def Chunked.isOnBoundary (ts : Chunked.traverseState) : Bool :=
  decide (ts.stackTop = ts.currentStackBoundary)

/-- The function `pushStackElement`.  A pointer compares with another by its
offset; both point into the current block group here. -/
def Chunked.pushStackElement (L : Layout) (ts : Chunked.traverseState) (se : stackElement) :
    Chunked.traverseState :=
  let ts :=
    if ts.stackTop.off - L.sizeofW_stackElement < ts.stackBottom.off then
      -- currentStack->free is updated when the active stack is switched
      -- to the next stack.
      let ts := ts.setDescr ts.currentStack fun d => { d with free := ts.stackTop }
      match (ts.descr ts.currentStack).link with
      | none =>
        let (ts, nbd) := Chunked.allocGroup ts BLOCKS_IN_STACK
        let ts := ts.setDescr nbd fun d => { d with link := none }
        let ts := ts.setDescr nbd fun d => { d with back := some ts.currentStack }
        let ts := ts.setDescr ts.currentStack fun d => { d with link := some nbd }
        Chunked.newStackBlock L ts nbd
      | some nbd => Chunked.newStackBlock L ts nbd
    else ts
  -- adjust stackTop (actual push)
  let ts := { ts with stackTop := ⟨ts.stackTop.bd, ts.stackTop.off - L.sizeofW_stackElement⟩ }
  { ts with mem := Function.update ts.mem ts.stackTop se }

/-- The function `popStackElement`.  The result is an error when the source
would follow a `u.back` that is NULL. -/
def Chunked.popStackElement (L : Layout) (ts : Chunked.traverseState) :
    Except Fatal Chunked.traverseState :=
  -- <= (instead of <) is wrong!
  if ts.stackTop.off + L.sizeofW_stackElement < ts.stackLimit.off then
    .ok { ts with stackTop := ⟨ts.stackTop.bd, ts.stackTop.off + L.sizeofW_stackElement⟩ }
  else if ts.firstStack = some ts.currentStack then
    -- The stack is completely empty.
    .ok { ts with stackTop := ⟨ts.stackTop.bd, ts.stackTop.off + L.sizeofW_stackElement⟩ }
  else
    -- currentStack->free is updated when the active stack is switched back
    -- to the previous stack.
    let ts := ts.setDescr ts.currentStack fun d => { d with free := ts.stackLimit }
    -- find the previous block descriptor
    match (ts.descr ts.currentStack).back with
    | none => .error Fatal.undefinedRead
    | some pbd => .ok (Chunked.returnToOldStack L ts pbd)

/-- The element that `stackTop` points to. -/
def Chunked.top (ts : Chunked.traverseState) : stackElement := ts.mem ts.stackTop

/-- One operation on the stack: a push of an element, or a pop. -/
inductive StackOp
  | push (se : stackElement)
  | pop
  deriving DecidableEq, Repr

/-- A sequence of pushes and pops on the stack of the source. -/
def Chunked.run (L : Layout) :
    List StackOp → Chunked.traverseState → Except Fatal Chunked.traverseState
  | [], ts => .ok ts
  | StackOp.push se :: ops, ts => Chunked.run L ops (Chunked.pushStackElement L ts se)
  | StackOp.pop :: ops, ts =>
    match Chunked.popStackElement L ts with
    | .error e => .error e
    | .ok ts1 => Chunked.run L ops ts1

/-- The same sequence on a plain list, the top of the stack first; `none`
when a pop is applied to the empty stack. -/
def listRun : List StackOp → List stackElement → Option (List stackElement)
  | [], l => some l
  | StackOp.push se :: ops, l => listRun ops (se :: l)
  | StackOp.pop :: _, [] => none
  | StackOp.pop :: ops, _ :: l => listRun ops l

/-- The number of stack elements that fit into one stack chunk. -/
def Chunked.capacity (L : Layout) : Nat :=
  L.BLOCK_SIZE_W * BLOCKS_IN_STACK / L.sizeofW_stackElement

/-- The pointer `m` elements below the limit of the block group `bd`; the
limit itself for `m = 0`. -/
def Chunked.slot (L : Layout) (bd m : Nat) : Ptr :=
  ⟨bd, ((L.BLOCK_SIZE_W * BLOCKS_IN_STACK : Nat) : Int)
    - (m : Int) * (L.sizeofW_stackElement : Int)⟩

/-- The block group `bd` holds the elements `els`, the first of them being
the topmost: they lie below the limit, the last of them right below it. -/
def Chunked.Holds (L : Layout) (mem : Ptr → stackElement) (bd : Nat)
    (els : List stackElement) : Prop :=
  ∀ m, m < els.length → els.reverse[m]? = some (mem (Chunked.slot L bd (m + 1)))

/-- The chunks `before` lead back from the chunk `cur` to the first chunk of
the chain, along the `u.back` fields, and the `link` fields lead the other
way. -/
def Chunked.BackLinked (ts : Chunked.traverseState) : Nat → List Nat → Prop
  | cur, [] => ts.firstStack = some cur
  | cur, pb :: rest =>
    (ts.descr cur).back = some pb ∧ (ts.descr pb).link = some cur ∧
      Chunked.BackLinked ts pb rest

/-- The chunks `after` follow the chunk `cur` in the chain up to its end,
along the `link` fields, and the `u.back` fields lead the other way. -/
def Chunked.FwdLinked (ts : Chunked.traverseState) : Nat → List Nat → Prop
  | cur, [] => (ts.descr cur).link = none
  | cur, nb :: rest =>
    (ts.descr cur).link = some nb ∧ (ts.descr nb).back = some cur ∧
      Chunked.FwdLinked ts nb rest

/-- The stack of the source stands for the list `l`, the top first: the
current chunk holds the elements `cur`, the chunks `before` it in the chain,
the nearest first, are full and hold the lists `full`, and the chunks `after`
it are kept for later. -/
structure Chunked.Rep (L : Layout) (ts : Chunked.traverseState) (l cur : List stackElement)
    (full : List (List stackElement)) (before after : List Nat) : Prop where
  list_eq : l = cur ++ full.flatten
  nodup : (ts.currentStack :: before ++ after).Nodup
  inRange : ∀ a ∈ ts.currentStack :: before ++ after,
    a < ts.descrs.length ∧ (ts.descr a).blocks = BLOCKS_IN_STACK
  back : Chunked.BackLinked ts ts.currentStack before
  fwd : Chunked.FwdLinked ts ts.currentStack after
  bottom : ts.stackBottom = ⟨ts.currentStack, 0⟩
  limit : ts.stackLimit = Chunked.slot L ts.currentStack 0
  top : ts.stackTop = Chunked.slot L ts.currentStack cur.length
  free : (ts.descr ts.currentStack).free = ts.stackLimit
  curLen : cur.length ≤ Chunked.capacity L
  nonempty : before = [] ∨ cur ≠ []
  holds : Chunked.Holds L ts.mem ts.currentStack cur
  fulls : List.Forall₂ (fun bd els => els.length = Chunked.capacity L ∧
    Chunked.Holds L ts.mem bd els ∧
    (ts.descr bd).free = Chunked.slot L bd (Chunked.capacity L)) before full

/-- The stack of the source stands for the list `l`. -/
def Chunked.Represents (L : Layout) (ts : Chunked.traverseState) (l : List stackElement) :
    Prop :=
  ∃ cur full before after, Chunked.Rep L ts l cur full before after

/-- The part of `pushStackElement` that switches to the next chunk when the
current one is full: the successor in the chain, or a new block group linked
in behind the current one. -/
def Chunked.nextStack (L : Layout) (ts : Chunked.traverseState) : Chunked.traverseState :=
  let ts := ts.setDescr ts.currentStack fun d => { d with free := ts.stackTop }
  match (ts.descr ts.currentStack).link with
  | none =>
    let (ts, nbd) := Chunked.allocGroup ts BLOCKS_IN_STACK
    let ts := ts.setDescr nbd fun d => { d with link := none }
    let ts := ts.setDescr nbd fun d => { d with back := some ts.currentStack }
    let ts := ts.setDescr ts.currentStack fun d => { d with link := some nbd }
    Chunked.newStackBlock L ts nbd
  | some nbd => Chunked.newStackBlock L ts nbd

/-- The stack of the source stands for the list `l`, and its chain has `n`
chunks. -/
def Chunked.Chain (L : Layout) (ts : Chunked.traverseState) (l : List stackElement)
    (n : Nat) : Prop :=
  ∃ cur full before after, Chunked.Rep L ts l cur full before after ∧
    before.length + 1 + after.length = n

/-- The layout of a 64-bit build: a block of 4096 bytes has 512 words, and a
`stackElement` takes six of them. -/
def layout64 : Layout := ⟨512, 6⟩

/-- A state without block groups, as before the first pass. -/
def Chunked.blankState : Chunked.traverseState :=
  { descrs := [], freed := [], mem := fun _ => ⟨posTypeFresh, 0, 0, ⟨0⟩⟩, firstStack := none,
    currentStack := 0, stackBottom := ⟨0, 0⟩, stackTop := ⟨0, 0⟩, stackLimit := ⟨0, 0⟩,
    currentStackBoundary := ⟨0, 0⟩ }

/-- As many pushes of an element as fill one chunk and put one element into
the next, and then as many pops. -/
def fillAndDrain (L : Layout) (se : stackElement) : List StackOp :=
  List.replicate (Chunked.capacity L + 1) (StackOp.push se) ++
    List.replicate (Chunked.capacity L + 1) StackOp.pop

/-- What is seen of the state after a run: the result of `isEmptyWorkStack`,
whether `stackTop` is `stackLimit`, and the chain from `firstStack`. -/
def Chunked.chainAfter (r : Except Fatal Chunked.traverseState) :
    Option (Bool × Bool × List Nat) :=
  match r with
  | .error _ => none
  | .ok ts => some (Chunked.isEmptyWorkStack ts, decide (ts.stackTop = ts.stackLimit),
      Chunked.chainFrom ts ts.descrs.length ts.firstStack)

/-- A sequence that crosses the end of the first chunk of `layout64` and
comes back: 86 pushes, two pops, a push. -/
def crossingOps : List StackOp :=
  List.replicate 86 (StackOp.push ⟨posTypeStep 1, 3, 0, ⟨7⟩⟩) ++
    [StackOp.pop, StackOp.pop, StackOp.push ⟨posTypeFresh, 4, 4, ⟨8⟩⟩]

/-- The list stack after `crossingOps`. -/
def crossingResult : List stackElement :=
  ⟨posTypeFresh, 4, 4, ⟨8⟩⟩ :: List.replicate 84 ⟨posTypeStep 1, 3, 0, ⟨7⟩⟩

/-- A heap whose only closure is a WHITEHOLE. -/
def whiteholeHeap : Heap :=
  { closures := [{ type := WHITEHOLE }], END_TSO_QUEUE := 99, CCS_SYSTEM := 1 }

/-- A heap whose closure 0 is a transaction-record chunk with two entries:
the fields of entry 0 are the closures 10, 11 and 12, those of entry 1 the
closures 13, 14 and 15; the previous chunk is the closure 9. -/
def trecHeap : Heap :=
  { closures := [{ type := TREC_CHUNK, prev_chunk := 9, next_entry_idx := 2,
                   entries := fun i => ⟨10 + 3 * i, 11 + 3 * i, 12 + 3 * i⟩ }],
    END_TSO_QUEUE := 99, CCS_SYSTEM := 1 }

/-- A heap whose closure 0 is a constructor of general layout with one
pointer field, which points to the closure 1, a constructor without
fields. -/
def oneFieldHeap : Heap :=
  { closures := [{ type := CONSTR, ptrs := 1, payload := fun _ => 1 },
                 { type := CONSTR_0_1 }],
    END_TSO_QUEUE := 99, CCS_SYSTEM := 1 }

/-- The state after the first visit of the TSO of `tsoHeap`, reached as a
root with its own identity 70 as the retainer. -/
def afterVisitOfTso : RtsState :=
  visitState (traverseMaybeInitClosureData (beginPass initState) 0) 0 none
    (some (singleton 70))

/-- A heap with a thread that has finished: the TSO at address 0 has
`what_next = ThreadComplete`; its stack object is the STACK at address 1. -/
def finishedTsoHeap : Heap :=
  { closures := [
      { type := TSO, ccs := 70, what_next := ThreadComplete, stackobj := 1,
        blocked_exceptions := 2, bq := 2, trec := 2 },
      { type := STACK, ccs := 71 },
      { type := CONSTR_NOCAF, ccs := 72 } ],
    END_TSO_QUEUE := 2, CCS_SYSTEM := 1 }

/-- The closure on which the body of `traverseWorkStack` calls the visit
callback at a label, if it calls it there. -/
def visitedAt (h : Heap) : Label → List Addr
  | Label.loop => []
  | Label.inner_loop c _ _ => if preVisit h c = PreVisit.visit then [c] else []

/-- The closures on which a run of `traverseWorkStack` calls the visit
callback, in the order of the calls; the run is followed with the same
fuel. -/
def traverseWorkStack_log (h : Heap) : Nat → Label → RtsState → List Addr
  | 0, _, _ => []
  | fuel + 1, l, st =>
    visitedAt h l ++
      match traverseWorkStack_body h l st with
      | Jump.done _ => []
      | Jump.goto l1 st1 => traverseWorkStack_log h fuel l1 st1

/-- The closures on which `retainRoot` has the visit callback called. -/
def retainRoot_log (h : Heap) (fuel : Nat) (st : RtsState) (tl : Addr) : List Addr :=
  match seedOf h tl with
  | .error _ => []
  | .ok data => traverseWorkStack_log h fuel Label.loop (retainRoot_start st tl data)

/-- The closures on which the calls of `retainRoot` on a list of roots have
the visit callback called. -/
def retainRoots_log (h : Heap) (fuel : Nat) : RtsState → List Addr → List Addr
  | _, [] => []
  | st, tl :: tls =>
    retainRoot_log h fuel st tl ++
      match retainRoot h fuel st tl with
      | some (.ok st1) => retainRoots_log h fuel st1 tls
      | _ => []

/-- The closures on which a pass calls the visit callback, in the order of
the calls: one entry for every call. -/
def retainerProfile_log (h : Heap) (roots : Roots) (fuel : Nat) (st : RtsState) : List Addr :=
  retainRoots_log h fuel (beginPass st) roots.all

/-- The counters and the retainer sets agree with a log of visits: the
counter of the visits is the length of the log, the counter of the objects is
the number of distinct closures in it, both modulo 2^32, and the closures
with a retainer set are the closures in the log. -/
def Counted (st : RtsState) (L : List Addr) : Prop :=
  st.timesAnyObjectVisited = L.length % 2 ^ 32 ∧
    st.numObjectVisited = L.toFinset.card % 2 ^ 32 ∧
    ∀ a, rsetOf st a ≠ none ↔ a ∈ L

/-- A heap whose only closure is an array of words, which has no child and
is not a retainer. -/
def oneWordHeap : Heap :=
  { closures := [{ type := ARR_WORDS }], END_TSO_QUEUE := 99, CCS_SYSTEM := 1 }

/-- Roots that name the one closure of `oneWordHeap` 2^32 times. -/
def manyRoots : Roots := { capabilities := List.replicate (2 ^ 32) 0 }

/-- The state after `retainRoot` on the closure of `oneWordHeap`, in the
first pass. -/
def afterFirstRoot : RtsState := rootResult oneWordHeap 3 (beginPass initState) 0

/-- Roots for `sharedHeap`: the three variables. -/
def threeRoots : Roots := { capabilities := [0, 1, 2] }

/-- The words that a bitmap scan of `size` words starting at word `i` is
meant to push: the words `p (i + k)` for `k < size` whose bit `k` of the
bitmap word `w` is 0, by increasing `k`. -/
def zeroBitWords (p : Nat → Addr) (i size w : Nat) : List Addr :=
  ((List.range size).filter (fun k => !(w.testBit k))).map (fun k => p (i + k))

/-- A large bitmap of 64 bits whose first word is `0xA5`. -/
def sampleBitmap : StgLargeBitmap := { size := 64, bitmap := fun b => if b = 0 then 0xA5 else 0 }

/-- The assertion `ASSERT(get_itbl(cp)->type == STACK)` of `traversePushStack`
on its parent argument `cp`. -/
def traversePushStack_assert (h : Heap) (cp : Addr) : Bool := (h.get cp).type == STACK

/-- The parent arguments of the calls of `traversePushStack` in the second
switch of `traverseWorkStack`, when the children of the closure `c` are
processed: the case STACK and the case AP_STACK each call it once, with `c`
as the parent. -/
def traversePushStack_parents (h : Heap) (c : Addr) : List Addr :=
  match (h.get c).type with
  | STACK => [c]
  | AP_STACK => [c]
  | _ => []

/-- A heap with an AP_STACK at address 0, with the identity 60, the function
at address 1 and no activation record in its payload. -/
def apStackHeap : Heap :=
  { closures := [{ type := AP_STACK, ccs := 60, func := 1, frames := [] },
                 { type := CONSTR_0_1, ccs := 61 }],
    END_TSO_QUEUE := 99, CCS_SYSTEM := 1 }

/-- The loop of `traverseLargeBitmap` with a record of its reads: `reads`
lists the indices `b` of the words `large_bitmap->bitmap[b]` read so far, in
the order of reading. -/
def traverseLargeBitmap_loop_traced (ts : traverseState) (p : Nat → Addr)
    (large_bitmap : StgLargeBitmap) (c : Addr) (data : stackData) :
    Nat → Nat → Nat → Nat → List Nat → traverseState × List Nat
  | 0, _, _, _, reads => (ts, reads)
  | n + 1, i, b, bitmap, reads =>
    let ts1 := if bitmap &&& 1 = 0 then traversePushClosure ts (p i) c data else ts
    if (i + 1) % BITS_IN_W = 0 then
      traverseLargeBitmap_loop_traced ts1 p large_bitmap c data n (i + 1) (b + 1)
        (large_bitmap.bitmap (b + 1)) (reads ++ [b + 1])
    else
      traverseLargeBitmap_loop_traced ts1 p large_bitmap c data n (i + 1) b (bitmap >>> 1) reads

/-- The function `traverseLargeBitmap` with a record of its reads of the
words of the bitmap: the read of word 0 before the loop, then the reads of the
loop. -/
def traverseLargeBitmap_traced (ts : traverseState) (p : Nat → Addr)
    (large_bitmap : StgLargeBitmap) (size : Nat) (c : Addr) (data : stackData) :
    traverseState × List Nat :=
  traverseLargeBitmap_loop_traced ts p large_bitmap c data size 0 0 (large_bitmap.bitmap 0) [0]

/-- The number of words of a large bitmap that hold at least one of the bits
`0 .. size - 1`: the ceiling of `size / BITS_IN_W`. -/
def bitmapWords (size : Nat) : Nat := (size + BITS_IN_W - 1) / BITS_IN_W

/-- The stack of a state is scoped over `lower`: the boundary is at the top
of `lower`, the stack is `lower` with a segment above it, and every element
of that segment is fresh or a well-formed cursor. -/
def Scoped (h : Heap) (lower : List stackElement) (st : RtsState) : Prop :=
  st.ts.currentStackBoundary = lower.length ∧
    ∃ upper, st.ts.stack = upper ++ lower ∧ AllOK h upper

/-- A short sequence of stack operations: two pushes, a pop, a push and two
pops. -/
def shortOps : List StackOp :=
  [StackOp.push ⟨posTypeFresh, 1, 1, ⟨5⟩⟩, StackOp.push ⟨posTypeStep 2, 3, 0, ⟨7⟩⟩, StackOp.pop,
    StackOp.push ⟨posTypeFresh, 4, 4, ⟨8⟩⟩, StackOp.pop, StackOp.pop]

/-- Successive calls of `traversePop`, at most `fuel` of them, until one
reaches the boundary: the items that the calls yield, in the order of the
calls, and the stack that the last call leaves.  The result is `none` when
the fuel does not suffice. -/
def traversePop_all (h : Heap) :
    Nat → traverseState → Option (Except Fatal (List Item × traverseState))
  | 0, _ => none
  | fuel + 1, ts =>
    match traversePop h ts with
    | .error e => some (.error e)
    | .ok (ts1, none) => some (.ok ([], ts1))
    | .ok (ts1, some it) =>
      match traversePop_all h fuel ts1 with
      | none => none
      | some (.error e) => some (.error e)
      | some (.ok (its, ts2)) => some (.ok (it :: its, ts2))

/-- The children of a closure in the order of its layout, as the heap has
them: the fixed fields of the kind, then the entries of the pointer array,
then the SRT if there is one.  The fixed fields of a transaction-record chunk
are the previous chunk and the three fields of each of its entries. -/
def layoutChildren (h : Heap) (c : Addr) : List Addr :=
  let o := h.get c
  let fixedFields : List Addr :=
    match pushCase o.type with
    | PushCase.var => [o.var]
    | PushCase.selectee => [o.selectee]
    | PushCase.indirectee => [o.indirectee]
    | PushCase.payload0 => [o.payload 0]
    | PushCase.oneSrt => [o.payload 0]
    | PushCase.constr2 => [o.payload 0, o.payload 1]
    | PushCase.mvar => [o.head, o.tail, o.value]
    | PushCase.weak => [o.key, o.value, o.finalizer]
    | PushCase.trec =>
      o.prev_chunk :: ((List.range o.next_entry_idx).map fun i =>
        [(o.entries i).tvar, (o.entries i).expected_value, (o.entries i).new_value]).flatten
    | _ => []
  let pointerArray : List Addr :=
    match pushCase o.type with
    | PushCase.ptrs => (List.range o.ptrs).map o.payload
    | PushCase.ptrsSrt => (List.range o.ptrs).map o.payload
    | _ => []
  let srtEntry : List Addr :=
    match pushCase o.type with
    | PushCase.ptrsSrt => o.srt.toList
    | PushCase.oneSrt => o.srt.toList
    | PushCase.srt => o.srt.toList
    | _ => []
  fixedFields ++ pointerArray ++ srtEntry

/-- What the code enumerates for a transaction-record chunk: the previous
chunk and, for each entry, `tvar`, `expected_value` and twice `new_value`. -/
def trecEnumeration (o : StgClosure) : List Addr :=
  o.prev_chunk :: ((List.range o.next_entry_idx).map fun i =>
    [(o.entries i).tvar, (o.entries i).expected_value, (o.entries i).new_value,
      (o.entries i).new_value]).flatten

/-- A heap whose closure 0 is a CONSTR_NOCAF with one pointer field, which
points to the closure 1, a constructor without fields. -/
def nocafHeap : Heap :=
  { closures := [{ type := CONSTR_NOCAF, ptrs := 1, payload := fun _ => 1 },
                 { type := CONSTR_0_1 }],
    END_TSO_QUEUE := 99, CCS_SYSTEM := 1 }

/-- A heap of six closures: the mutable variables A, B and C, with the
identities 10, 11 and 12, at the addresses 0, 2 and 4; the constructors with
two fields X at 1 and W at 3; the constructor Z without pointer fields at 5.
A points to X, the fields of X point to B and to Z, B points to W, the fields
of W point to C and to X, and C points to W. -/
def dropHeap : Heap :=
  { closures := [
      { type := MUT_VAR_CLEAN, ccs := 10, var := 1 },
      { type := CONSTR_2_0, ccs := 13, payload := fun i => if i = 0 then 2 else 5 },
      { type := MUT_VAR_CLEAN, ccs := 11, var := 3 },
      { type := CONSTR_2_0, ccs := 14, payload := fun i => if i = 0 then 4 else 1 },
      { type := MUT_VAR_CLEAN, ccs := 12, var := 3 },
      { type := CONSTR_0_1, ccs := 15 } ],
    END_TSO_QUEUE := 99, CCS_SYSTEM := 1 }

/-- The state after a visit that associated the retainer set `S` with the
closure `c`. -/
def setAt (st : RtsState) (c : Addr) (S : RetainerSet) : RtsState :=
  afterItem st c (some (some S))
/-- The scenario heap with a D that the traversal skips: D, at address 4, is
a CONSTR_NOCAF without pointer fields. -/
def chainNocafHeap : Heap :=
  { closures := [
      { type := MUT_VAR_CLEAN, ccs := 20, var := 1 },
      { type := CONSTR_1_0, ccs := 21, payload := fun _ => 2 },
      { type := CONSTR_2_0, ccs := 22, payload := fun i => if i = 0 then 3 else 4 },
      { type := THUNK_0_1, ccs := 23 },
      { type := CONSTR_NOCAF, ccs := 24 } ],
    END_TSO_QUEUE := 99, CCS_SYSTEM := 1 }

/-- The heap of the two roots with an X that the traversal skips: X, at
address 2, is a CONSTR_NOCAF without pointer fields. -/
def sharedNocafHeap : Heap :=
  { closures := [
      { type := MUT_VAR_CLEAN, ccs := 30, var := 2 },
      { type := MUT_VAR_CLEAN, ccs := 31, var := 2 },
      { type := CONSTR_NOCAF, ccs := 0 } ],
    END_TSO_QUEUE := 99, CCS_SYSTEM := 1 }

/-- A heap with a mutable variable, with the identity 80, at address 0 that
points to the static indirection at address 1, which points to itself. -/
def loopBelowRootHeap : Heap :=
  { closures := [
      { type := MUT_VAR_CLEAN, ccs := 80, var := 1 },
      { type := IND_STATIC, ccs := 81, indirectee := 1 } ],
    END_TSO_QUEUE := 99, CCS_SYSTEM := 1 }

/-! ## Lemmas -/

theorem ptrsFrom_lt (h : Heap) (pos ptrs payload : Nat) (hlt : pos < ptrs) :
    ptrsFrom h pos ptrs payload =
      (h.get payload).payload pos :: ptrsFrom h (pos + 1) ptrs payload := by
  unfold ptrsFrom
  have : ptrs - pos = (ptrs - (pos + 1)) + 1 := by omega
  rw [this, List.range'_succ]
  simp

theorem ptrsFrom_ge (h : Heap) (pos ptrs payload : Nat) (hge : ¬ pos < ptrs) :
    ptrsFrom h pos ptrs payload = [] := by
  unfold ptrsFrom
  have : ptrs - pos = 0 := by omega
  rw [this]; rfl

set_option maxHeartbeats 1000000 in
theorem traversePop_switch_eq (h : Heap) (se : stackElement) :
    traversePop_switch h se = popAux h se (popCase (h.get se.c).type) := by
  unfold traversePop_switch
  rcases se with ⟨info, c, cp, data⟩
  dsimp only
  generalize hty : (h.get c).type = t
  cases t <;> first | rfl | (simp only [popAux, popCase, hty])

theorem traversePop_switch_spec (h : Heap) (se : stackElement) (hok : FrameOK h se) :
    PopSpec h se := by
  unfold PopSpec
  rw [traversePop_switch_eq]
  rcases se with ⟨info, c, cp, data⟩
  unfold FrameOK at hok ⊢
  unfold frameRest
  dsimp only at hok ⊢
  generalize hk : popCase (h.get c).type = k at hok ⊢
  cases k <;> cases info <;> first | exact hok.elim | skip
  -- constr2
  iterate 3
    right
    exact ⟨_, true, _, [], rfl, rfl, fun _ => rfl, fun hc => by cases hc⟩
  -- mvar
  · rename_i step
    right
    by_cases hs : step = 2
    · refine ⟨(h.get c).tail, false, posTypeStep (step + 1), [(h.get c).value],
        ?_, ?_, ?_, ?_⟩ <;> simp [popAux, stackPos.getStep, hs]
    · refine ⟨(h.get c).value, true, posTypeStep step, [], ?_, ?_, ?_, ?_⟩ <;>
        simp [popAux, stackPos.getStep, hs]
  -- weak
  · rename_i step
    right
    by_cases hs : step = 2
    · refine ⟨(h.get c).value, false, posTypeStep (step + 1), [(h.get c).finalizer],
        ?_, ?_, ?_, ?_⟩ <;> simp [popAux, stackPos.getStep, hs]
    · refine ⟨(h.get c).finalizer, true, posTypeStep step, [], ?_, ?_, ?_, ?_⟩ <;>
        simp [popAux, stackPos.getStep, hs]
  -- trec
  · rename_i step
    have hle : step ≤ 4 * (h.get c).next_entry_idx := hok
    have hidx : (h.get c).next_entry_idx < 4294967296 := (h.get c).next_entry_idx_lt
    have hdiv : (step >>> 2) % 2 ^ 32 = step / 4 := by
      rw [Nat.shiftRight_eq_div_pow]
      exact Nat.mod_eq_of_lt (by norm_num; omega)
    have hwrap : (step + 1) % 2 ^ 64 = step + 1 :=
      Nat.mod_eq_of_lt (by norm_num; omega)
    by_cases hs : step = 4 * (h.get c).next_entry_idx
    · left
      have h1 : step / 4 = (h.get c).next_entry_idx := by omega
      have h0 : 4 * (h.get c).next_entry_idx - step = 0 := by omega
      refine ⟨?_, ?_⟩
      · show List.map _ (List.range' step (4 * (h.get c).next_entry_idx - step)) = []
        rw [h0]; rfl
      · simp only [popAux, stackPos.getStep, hdiv, h1, if_true]
    · right
      have h1 : ¬ step / 4 = (h.get c).next_entry_idx := by omega
      have h2 : 4 * (h.get c).next_entry_idx - step
          = (4 * (h.get c).next_entry_idx - (step + 1)) + 1 := by omega
      refine ⟨trecField (h.get c) step, false, posTypeStep (step + 1),
        (List.range' (step + 1) (4 * (h.get c).next_entry_idx - (step + 1))).map
          (trecField (h.get c)), ?_, ?_, ?_, ?_⟩
      · show List.map _ (List.range' step (4 * (h.get c).next_entry_idx - step)) = _
        rw [h2, List.range'_succ, List.map_cons]
      · simp only [popAux, stackPos.getStep, hdiv, h1, if_false, hwrap]
      · simp
      · intro _
        refine ⟨by simp, ?_, rfl⟩
        show step + 1 ≤ 4 * (h.get c).next_entry_idx
        omega
  -- ptrs
  · rename_i pos ptrs payload
    by_cases hlt : pos < ptrs
    · right
      refine ⟨(h.get payload).payload pos, false, posTypePtrs (pos + 1) ptrs payload,
        ptrsFrom h (pos + 1) ptrs payload, ptrsFrom_lt h _ _ _ hlt, ?_, ?_, ?_⟩ <;>
        simp [popAux, find_ptrs, hlt]
    · left
      simp [popAux, find_ptrs, hlt, ptrsFrom_ge h _ _ _ hlt]
  -- ptrsSrt, pointer cursor
  · rename_i pos ptrs payload
    by_cases hlt : pos < ptrs
    · right
      refine ⟨(h.get payload).payload pos, false, posTypePtrs (pos + 1) ptrs payload,
        ptrsFrom h (pos + 1) ptrs payload ++ (h.get c).srt.toList, ?_, ?_, ?_, ?_⟩
      · show ptrsFrom h pos ptrs payload ++ (h.get c).srt.toList = _
        rw [ptrsFrom_lt h _ _ _ hlt]; rfl
      all_goals simp [popAux, find_ptrs, hlt]
    · cases hsrt : (h.get c).srt with
      | none =>
        left
        simp [popAux, find_ptrs, find_srt, hlt, ptrsFrom_ge h _ _ _ hlt, hsrt]
      | some s =>
        right
        refine ⟨s, false, posTypeSRT none, [], ?_, ?_, ?_, ?_⟩ <;>
          simp [popAux, find_ptrs, find_srt, hlt, ptrsFrom_ge h _ _ _ hlt, hsrt]
  -- ptrsSrt, SRT position
  · rename_i srt
    cases srt with
    | none => left; simp [popAux, find_srt]
    | some s =>
      right
      refine ⟨s, false, posTypeSRT none, [], ?_, ?_, ?_, ?_⟩ <;> simp [popAux, find_srt]
  -- srt
  · rename_i srt
    cases srt with
    | none => left; simp [popAux, find_srt]
    | some s =>
      right
      refine ⟨s, false, posTypeSRT none, [], ?_, ?_, ?_, ?_⟩ <;> simp [popAux, find_srt]

theorem restOf_fresh (h : Heap) (se : stackElement) (hf : se.info = posTypeFresh) :
    restOf h se = [(se.c, se.cp, se.data)] := by
  simp [restOf, hf]

theorem restOf_cursor (h : Heap) (se : stackElement) (hf : se.info ≠ posTypeFresh) :
    restOf h se = (frameRest h se).map fun c => (c, se.c, se.data) := by
  simp [restOf, hf]

theorem AllOK_cons (h : Heap) (se : stackElement) (l : List stackElement) :
    AllOK h (se :: l) ↔ ElemOK h se ∧ AllOK h l := by
  simp [AllOK]

theorem AllOK_append (h : Heap) (l1 l2 : List stackElement) :
    AllOK h (l1 ++ l2) ↔ AllOK h l1 ∧ AllOK h l2 := by
  simp only [AllOK, List.mem_append]
  constructor
  · intro hall
    exact ⟨fun se hm => hall se (Or.inl hm), fun se hm => hall se (Or.inr hm)⟩
  · rintro ⟨h1, h2⟩ se (hm | hm)
    · exact h1 se hm
    · exact h2 se hm

theorem pendingOf_append (h : Heap) (l1 l2 : List stackElement) :
    pendingOf h (l1 ++ l2) = pendingOf h l1 ++ pendingOf h l2 := by
  induction l1 with
  | nil => rfl
  | cons se l ih => simp [pendingOf, ih]

/-- The loop of `traversePop` on a stack whose part above the boundary is
well formed: it hands out the first pending item, or reaches the boundary
when no item is pending; it never aborts. -/
theorem traversePop_loop_spec (h : Heap) (lower : List stackElement) :
    ∀ upper : List stackElement, AllOK h upper →
      (pendingOf h upper = [] ∧
        traversePop_loop h lower.length (upper ++ lower) = .ok (lower, none)) ∨
      ∃ item upper1, pendingOf h upper = item :: pendingOf h upper1 ∧ AllOK h upper1 ∧
        traversePop_loop h lower.length (upper ++ lower) = .ok (upper1 ++ lower, some item)
  | [], _ => by
    left
    refine ⟨rfl, ?_⟩
    cases lower with
    | nil => simp [traversePop_loop]
    | cons se rest => simp [traversePop_loop]
  | se :: u, hall => by
    have hse : ElemOK h se := ((AllOK_cons h se u).1 hall).1
    have hu : AllOK h u := ((AllOK_cons h se u).1 hall).2
    have hlen : ¬ (u.length + lower.length + 1 = lower.length) := by omega
    by_cases hf : se.info = posTypeFresh
    · right
      refine ⟨(se.c, se.cp, se.data), u, ?_, hu, ?_⟩
      · simp [pendingOf, restOf_fresh h se hf]
      · simp [traversePop_loop, hlen, hf]
    · have hfo : FrameOK h se := hse.resolve_left hf
      rcases traversePop_switch_spec h se hfo with ⟨hnil, hsw⟩ | ⟨c, last, info, rest, hrest, hsw, hl1, hl2⟩
      · have hpend : pendingOf h (se :: u) = pendingOf h u := by
          simp [pendingOf, restOf_cursor h se hf, hnil]
        have heq : traversePop_loop h lower.length (se :: u ++ lower)
            = traversePop_loop h lower.length (u ++ lower) := by
          simp [traversePop_loop, hlen, hf, hsw]
        rw [hpend, heq]
        exact traversePop_loop_spec h lower u hu
      · right
        cases last with
        | true =>
          refine ⟨(c, se.c, se.data), u, ?_, hu, ?_⟩
          · simp [pendingOf, restOf_cursor h se hf, hrest, hl1 rfl]
          · simp [traversePop_loop, hlen, hf, hsw]
        | false =>
          obtain ⟨hne, hok1, hrest1⟩ := hl2 rfl
          refine ⟨(c, se.c, se.data), { se with info := info } :: u, ?_, ?_, ?_⟩
          · simp [pendingOf, restOf_cursor h se hf, hrest,
              restOf_cursor h { se with info := info } hne, hrest1]
          · exact (AllOK_cons h _ u).2 ⟨Or.inr hok1, hu⟩
          · simp [traversePop_loop, hlen, hf, hsw]

set_option maxHeartbeats 1000000 in
theorem traversePushChildren_eq (h : Heap) (ts : traverseState) (c : Addr) (data : stackData) :
    traversePushChildren h ts c data = pushAux h ts c data (pushCase (h.get c).type) := by
  unfold traversePushChildren
  dsimp only
  generalize hty : (h.get c).type = t
  cases t <;> first | rfl | (simp only [pushAux, pushCase, hty])

theorem popCase_of_pushCase (t : ClosureType) (hn : t ≠ CONSTR_NOCAF) :
    (pushCase t = PushCase.constr2 → popCase t = PopCase.constr2) ∧
    (pushCase t = PushCase.mvar → popCase t = PopCase.mvar) ∧
    (pushCase t = PushCase.weak → popCase t = PopCase.weak) ∧
    (pushCase t = PushCase.ptrs → popCase t = PopCase.ptrs) ∧
    (pushCase t = PushCase.ptrsSrt → popCase t = PopCase.ptrsSrt) ∧
    (pushCase t = PushCase.oneSrt → popCase t = PopCase.srt) ∧
    (pushCase t = PushCase.srt → popCase t = PopCase.srt) ∧
    (pushCase t = PushCase.trec → popCase t = PopCase.trec) := by
  cases t <;> simp [pushCase, popCase] at hn ⊢

theorem single_frame_items (h : Heap) (c : Addr) (d : stackData) (info : stackPos)
    (fc : Addr) (rest : List Addr) (hne : info ≠ posTypeFresh)
    (hrest : frameRest h { info := info, c := c, cp := 0, data := d } = rest) :
    itemsFor c d [fc] ++ pendingOf h [{ info := info, c := c, cp := 0, data := d }]
      = itemsFor c d (fc :: rest) := by
  simp [pendingOf, restOf, hne, hrest, itemsFor]

/-- What `traversePushChildren` does, in terms of the list of children: it
aborts exactly when the list is not defined, and otherwise returns the first
child and pushes at most one well-formed cursor that stands for the rest. -/
theorem traversePushChildren_spec (h : Heap) (ts : traverseState) (c : Addr) (d : stackData)
    (hn : (h.get c).type ≠ CONSTR_NOCAF) :
    match pushChildrenList h c with
    | .error e => traversePushChildren h ts c d = .error e
    | .ok l => ∃ new fc, traversePushChildren h ts c d
          = .ok ({ ts with stack := new ++ ts.stack }, fc) ∧ AllOK h new ∧
        itemsFor c d fc.toList ++ pendingOf h new = itemsFor c d l := by
  rw [traversePushChildren_eq]
  unfold pushChildrenList
  dsimp only
  obtain ⟨p1, p2, p3, p4, p5, p6, p7, p8⟩ := popCase_of_pushCase (h.get c).type hn
  generalize hk : pushCase (h.get c).type = k at p1 p2 p3 p4 p5 p6 p7 p8 ⊢
  cases k
  case noChild => exact ⟨[], none, rfl, by simp [AllOK], rfl⟩
  case var => exact ⟨[], some _, rfl, by simp [AllOK], rfl⟩
  case selectee => exact ⟨[], some _, rfl, by simp [AllOK], rfl⟩
  case indirectee => exact ⟨[], some _, rfl, by simp [AllOK], rfl⟩
  case payload0 => exact ⟨[], some _, rfl, by simp [AllOK], rfl⟩
  case invalid => rfl
  case constr2 =>
    refine ⟨[{ info := posTypeStep 2, c := c, cp := 0, data := d }], some _, rfl, ?_, ?_⟩
    · simp [AllOK, ElemOK, FrameOK, p1 rfl]
    · exact single_frame_items h c d _ _ _ (by simp) (by simp [frameRest, p1 rfl])
  case mvar =>
    refine ⟨[{ info := posTypeStep 2, c := c, cp := 0, data := d }], some _, rfl, ?_, ?_⟩
    · simp [AllOK, ElemOK, FrameOK, p2 rfl]
    · exact single_frame_items h c d _ _ _ (by simp) (by simp [frameRest, p2 rfl])
  case weak =>
    refine ⟨[{ info := posTypeStep 2, c := c, cp := 0, data := d }], some _, rfl, ?_, ?_⟩
    · simp [AllOK, ElemOK, FrameOK, p3 rfl]
    · exact single_frame_items h c d _ _ _ (by simp) (by simp [frameRest, p3 rfl])
  case trec =>
    refine ⟨[{ info := posTypeStep 0, c := c, cp := 0, data := d }], some _, rfl, ?_, ?_⟩
    · simp [AllOK, ElemOK, FrameOK, p8 rfl]
    · exact single_frame_items h c d _ _ _ (by simp) (by simp [frameRest, p8 rfl])
  case oneSrt =>
    refine ⟨[{ info := posTypeSRT (h.get c).srt, c := c, cp := 0, data := d }], some _,
      rfl, ?_, ?_⟩
    · simp [AllOK, ElemOK, FrameOK, p6 rfl]
    · exact single_frame_items h c d _ _ _ (by simp) (by simp [frameRest, p6 rfl])
  case srt =>
    cases hsrt : (h.get c).srt with
    | none => exact ⟨[], none, by simp [pushAux, find_srt, hsrt], by simp [AllOK], rfl⟩
    | some s =>
      refine ⟨[{ info := posTypeSRT none, c := c, cp := 0, data := d }], some s,
        by simp [pushAux, find_srt, hsrt, pushStackElement], ?_, ?_⟩
      · simp [AllOK, ElemOK, FrameOK, p7 rfl]
      · exact single_frame_items h c d _ _ _ (by simp) (by simp [frameRest, p7 rfl])
  case ptrs =>
    simp only [pushAux]
    generalize (h.get c).ptrs % 2 ^ 32 = n
    by_cases hlt : 0 < n
    · refine ⟨[{ info := posTypePtrs 1 n c, c := c, cp := 0, data := d }],
        some ((h.get c).payload 0),
        by simp [find_ptrs, init_ptrs, hlt, pushStackElement], ?_, ?_⟩
      · simp [AllOK, ElemOK, FrameOK, p4 rfl]
      · rw [ptrsFrom_lt h _ _ _ hlt]
        exact single_frame_items h c d _ _ _ (by simp) (by simp [frameRest, p4 rfl])
    · refine ⟨[], none, by simp [find_ptrs, init_ptrs, hlt], by simp [AllOK], ?_⟩
      rw [ptrsFrom_ge h _ _ _ hlt]; rfl
  case ptrsSrt =>
    simp only [pushAux]
    generalize (h.get c).ptrs % 2 ^ 32 = n
    by_cases hlt : 0 < n
    · refine ⟨[{ info := posTypePtrs 1 n c, c := c, cp := 0, data := d }],
        some ((h.get c).payload 0),
        by simp [find_ptrs, init_ptrs, hlt, pushStackElement], ?_, ?_⟩
      · simp [AllOK, ElemOK, FrameOK, p5 rfl]
      · rw [ptrsFrom_lt h _ _ _ hlt]
        exact single_frame_items h c d _ _ _ (by simp) (by simp [frameRest, p5 rfl])
    · rw [ptrsFrom_ge h _ _ _ hlt]
      cases hsrt : (h.get c).srt with
      | none =>
        exact ⟨[], none, by simp [find_ptrs, find_srt, init_ptrs, hlt],
          by simp [AllOK], rfl⟩
      | some s =>
        refine ⟨[{ info := posTypeSRT none, c := c, cp := 0, data := d }], some s,
          by simp [find_ptrs, find_srt, init_ptrs, hlt, pushStackElement], ?_, ?_⟩
        · simp [AllOK, ElemOK, FrameOK, p5 rfl]
        · exact single_frame_items h c d _ _ _ (by simp) (by simp [frameRest, p5 rfl])

theorem pushAll_nil (ts : traverseState) (cp : Addr) (d : stackData) :
    pushAll ts cp d [] = ts := rfl

theorem traversePushClosure_eq (ts : traverseState) (c cp : Addr) (d : stackData) :
    traversePushClosure ts c cp d = pushAll ts cp d [c] := rfl

theorem pushAll_pushAll (ts : traverseState) (cp : Addr) (d : stackData) (l1 l2 : List Addr) :
    pushAll (pushAll ts cp d l1) cp d l2 = pushAll ts cp d (l1 ++ l2) := by
  simp [pushAll]

theorem traverseSmallBitmap_eq (p : Nat → Addr) (c : Addr) (d : stackData) :
    ∀ (size i bitmap : Nat) (ts : traverseState),
      traverseSmallBitmap ts p i size bitmap c d
        = (pushAll ts c d (smallBitmapPtrs p i size bitmap), i + size)
  | 0, i, bitmap, ts => by simp [traverseSmallBitmap, smallBitmapPtrs, pushAll_nil]
  | size + 1, i, bitmap, ts => by
    rw [traverseSmallBitmap, smallBitmapPtrs]
    rw [traverseSmallBitmap_eq p c d size]
    by_cases hb : bitmap &&& 1 = 0
    · simp only [hb, if_true, traversePushClosure_eq, pushAll_pushAll]
      congr 1; omega
    · simp only [hb, if_false, List.nil_append]
      congr 1; omega

theorem traverseLargeBitmap_loop_eq (p : Nat → Addr) (lb : StgLargeBitmap) (c : Addr)
    (d : stackData) :
    ∀ (n i b bitmap : Nat) (ts : traverseState),
      traverseLargeBitmap_loop ts p lb c d n i b bitmap
        = pushAll ts c d (largeBitmapPtrs_loop p lb n i b bitmap)
  | 0, i, b, bitmap, ts => by simp [traverseLargeBitmap_loop, largeBitmapPtrs_loop, pushAll_nil]
  | n + 1, i, b, bitmap, ts => by
    rw [traverseLargeBitmap_loop, largeBitmapPtrs_loop]
    by_cases hw : (i + 1) % BITS_IN_W = 0 <;> by_cases hb : bitmap &&& 1 = 0 <;>
      simp only [hw, hb, if_true, if_false, traverseLargeBitmap_loop_eq p lb c d n,
        traversePushClosure_eq, pushAll_pushAll, List.nil_append]

theorem traverseLargeBitmap_eq (p : Nat → Addr) (lb : StgLargeBitmap) (size : Nat) (c : Addr)
    (d : stackData) (ts : traverseState) :
    traverseLargeBitmap ts p lb size c d = pushAll ts c d (largeBitmapPtrs p lb size) :=
  traverseLargeBitmap_loop_eq p lb c d size 0 0 _ ts

theorem traverseFunArgs_eq (h : Heap) (ts : traverseState) (func : Addr) (p : Nat → Addr)
    (size : Nat) (viaBCO : Bool) (cp : Addr) (d : stackData) :
    traverseFunArgs h ts func p size viaBCO cp d
      = pushAll ts cp d (funArgPtrs h func p size viaBCO) := by
  unfold traverseFunArgs funArgPtrs
  dsimp only
  split_ifs <;> simp [traverseSmallBitmap_eq, traverseLargeBitmap_eq]

theorem follow_srt_eq (ts : traverseState) (srt : Option Addr) (cp : Addr) (d : stackData) :
    follow_srt ts srt cp d = pushAll ts cp d srt.toList := by
  cases srt <;> rfl

set_option maxHeartbeats 1000000 in
theorem traversePushStack_frame_eq (h : Heap) (ts : traverseState) (cp : Addr) (d : stackData)
    (f : StgRetFrame) :
    traversePushStack_frame h ts cp d f =
      match framePtrs h f with
      | .error e => .error e
      | .ok l => .ok (pushAll ts cp d l) := by
  unfold traversePushStack_frame framePtrs
  generalize f.type = t
  cases t <;>
    simp only [traverseSmallBitmap_eq, traverseLargeBitmap_eq, traverseFunArgs_eq,
      follow_srt_eq, traversePushClosure_eq, pushAll_pushAll, List.cons_append,
      List.nil_append, List.singleton_append]

theorem traversePushStack_loop_eq (h : Heap) (cp : Addr) (d : stackData) :
    ∀ (frames : List StgRetFrame) (ts : traverseState),
      traversePushStack_loop h cp d ts frames =
        match stackPtrs h frames with
        | .error e => .error e
        | .ok l => .ok (pushAll ts cp d l)
  | [], ts => rfl
  | f :: fs, ts => by
    rw [traversePushStack_loop, stackPtrs, traversePushStack_frame_eq]
    cases hf : framePtrs h f with
    | error e => rfl
    | ok l =>
      dsimp only
      rw [traversePushStack_loop_eq h cp d fs]
      cases hfs : stackPtrs h fs with
      | error e => rfl
      | ok ls => simp [pushAll_pushAll]

theorem traversePushStack_eq (h : Heap) (ts : traverseState) (cp : Addr) (d : stackData)
    (frames : List StgRetFrame) :
    traversePushStack h ts cp d frames =
      match stackPtrs h frames with
      | .error e => .error e
      | .ok l => .ok (pushAll ts cp d l) := by
  unfold traversePushStack
  dsimp only
  rw [traversePushStack_loop_eq]
  cases stackPtrs h frames with
  | error e => rfl
  | ok l => rfl

theorem pendingOf_fresh (h : Heap) (cp : Addr) (d : stackData) (l : List Addr) :
    pendingOf h (l.map (freshElem cp d)) = itemsFor cp d l := by
  induction l with
  | nil => rfl
  | cons c l ih => simp [pendingOf, restOf, freshElem, itemsFor] at ih ⊢; exact ih

theorem AllOK_fresh (h : Heap) (cp : Addr) (d : stackData) (l : List Addr) :
    AllOK h (l.map (freshElem cp d)) := by
  intro se hm
  rcases List.mem_map.1 hm with ⟨c, _, rfl⟩
  exact Or.inl rfl

/-- Pushing all children at once leaves the items of the reversed list. -/
theorem pushAll_spec (h : Heap) (ts : traverseState) (c : Addr) (d : stackData)
    (l : List Addr) :
    ∃ new, pushAll ts c d l = { ts with stack := new ++ ts.stack } ∧ AllOK h new ∧
      itemsFor c d (none : Option Addr).toList ++ pendingOf h new = itemsFor c d l.reverse := by
  refine ⟨(l.map (freshElem c d)).reverse, rfl, ?_, ?_⟩
  · rw [← List.map_reverse]; exact AllOK_fresh h c d _
  · rw [← List.map_reverse, pendingOf_fresh]; rfl

theorem processChildren_other (h : Heap) (ts : traverseState) (c : Addr) (d : stackData)
    (h1 : (h.get c).type ≠ STACK) (h2 : (h.get c).type ≠ TSO)
    (h3 : (h.get c).type ≠ BLOCKING_QUEUE) (h4 : (h.get c).type ≠ PAP)
    (h5 : (h.get c).type ≠ AP) (h6 : (h.get c).type ≠ AP_STACK) :
    processChildren h ts c d = traversePushChildren h ts c d ∧
      childrenOf h c = pushChildrenList h c := by
  unfold processChildren childrenOf
  dsimp only
  generalize (h.get c).type = t at h1 h2 h3 h4 h5 h6
  cases t <;> first | contradiction | exact ⟨rfl, rfl⟩

/-- What the enumeration of the children of a visited closure does, in terms
of `childrenOf`: it aborts exactly when the list of children is not defined,
and otherwise leaves well-formed new stack elements that, together with the
first child handed back, stand for the children. -/
theorem processChildren_spec (h : Heap) (ts : traverseState) (c : Addr) (d : stackData)
    (hn : (h.get c).type ≠ CONSTR_NOCAF) :
    match childrenOf h c with
    | .error e => processChildren h ts c d = .error e
    | .ok l => ∃ new fc, processChildren h ts c d
          = .ok ({ ts with stack := new ++ ts.stack }, fc) ∧ AllOK h new ∧
        itemsFor c d fc.toList ++ pendingOf h new = itemsFor c d l := by
  by_cases h1 : (h.get c).type = STACK
  · unfold processChildren childrenOf
    simp only [h1]
    rw [traversePushStack_eq]
    cases stackPtrs h (h.get c).frames with
    | error e => rfl
    | ok l =>
      obtain ⟨new, e1, e2, e3⟩ := pushAll_spec h ts c d l
      exact ⟨new, none, by simp only [e1], e2, e3⟩
  by_cases h2 : (h.get c).type = TSO
  · unfold processChildren childrenOf
    simp only [h2, traversePushClosure_eq, pushAll_pushAll]
    split_ifs
    · obtain ⟨new, e1, e2, e3⟩ := pushAll_spec h ts c d
        ([(h.get c).stackobj, (h.get c).blocked_exceptions, (h.get c).bq, (h.get c).trec]
          ++ [(h.get c).block_info_closure])
      exact ⟨new, none, by rw [← e1]; rfl, e2, e3⟩
    · obtain ⟨new, e1, e2, e3⟩ := pushAll_spec h ts c d
        ([(h.get c).stackobj, (h.get c).blocked_exceptions, (h.get c).bq, (h.get c).trec]
          ++ [])
      exact ⟨new, none, by rw [← e1]; rfl, e2, e3⟩
  by_cases h3 : (h.get c).type = BLOCKING_QUEUE
  · unfold processChildren childrenOf
    simp only [h3, traversePushClosure_eq, pushAll_pushAll]
    obtain ⟨new, e1, e2, e3⟩ := pushAll_spec h ts c d
      [(h.get c).link, (h.get c).bh, (h.get c).owner]
    exact ⟨new, none, by rw [← e1]; rfl, e2, e3⟩
  by_cases h4 : (h.get c).type = PAP
  · unfold processChildren childrenOf
    simp only [h4, traversePAP, traverseFunArgs_eq, traversePushClosure_eq, pushAll_pushAll]
    obtain ⟨new, e1, e2, e3⟩ := pushAll_spec h ts c d
      ((h.get c).func :: funArgPtrs h (h.get c).func (h.get c).args (h.get c).n_args true)
    exact ⟨new, none, by rw [← e1]; rfl, e2, e3⟩
  by_cases h5 : (h.get c).type = AP
  · unfold processChildren childrenOf
    simp only [h5, traversePAP, traverseFunArgs_eq, traversePushClosure_eq, pushAll_pushAll]
    obtain ⟨new, e1, e2, e3⟩ := pushAll_spec h ts c d
      ((h.get c).func :: funArgPtrs h (h.get c).func (h.get c).args (h.get c).n_args true)
    exact ⟨new, none, by rw [← e1]; rfl, e2, e3⟩
  by_cases h6 : (h.get c).type = AP_STACK
  · unfold processChildren childrenOf
    simp only [h6]
    rw [traversePushStack_eq]
    cases stackPtrs h (h.get c).frames with
    | error e => rfl
    | ok l =>
      simp only [traversePushClosure_eq, pushAll_pushAll]
      obtain ⟨new, e1, e2, e3⟩ := pushAll_spec h ts c d ((h.get c).func :: l)
      exact ⟨new, none, by rw [← e1]; rfl, e2, e3⟩
  obtain ⟨e1, e2⟩ := processChildren_other h ts c d h1 h2 h3 h4 h5 h6
  rw [e1, e2]
  exact traversePushChildren_spec h ts c d hn

theorem traverseMaybeInitClosureData_ts (st : RtsState) (c : Addr) :
    (traverseMaybeInitClosureData st c).ts = st.ts := by
  unfold traverseMaybeInitClosureData
  split <;> rfl

theorem retainVisitClosure_ts (h : Heap) (st : RtsState) (c cp : Addr) (d : stackData)
    (st1 : RtsState) (o : Option stackData)
    (hv : retainVisitClosure h st c cp d = .ok (st1, o)) : st1.ts = st.ts := by
  unfold retainVisitClosure at hv
  dsimp only at hv
  repeat' split at hv
  all_goals (cases hv <;> rfl)

theorem visitItem_ts (h : Heap) (st : RtsState) (it : Item) (st1 : RtsState)
    (new : List Item) (hv : visitItem h st it = .ok (st1, new)) : st1.ts = st.ts := by
  unfold visitItem at hv
  split at hv
  · simp only [Except.ok.injEq, Prod.mk.injEq] at hv; rw [← hv.1]
  · simp only [Except.ok.injEq, Prod.mk.injEq] at hv; rw [← hv.1]
  · split at hv
    · exact absurd hv (by simp)
    · rename_i st2 hr
      simp only [Except.ok.injEq, Prod.mk.injEq] at hv
      rw [← hv.1, retainVisitClosure_ts h _ _ _ _ _ _ hr, traverseMaybeInitClosureData_ts]
    · rename_i st2 cd hr
      split at hv
      · exact absurd hv (by simp)
      · simp only [Except.ok.injEq, Prod.mk.injEq] at hv
        rw [← hv.1, retainVisitClosure_ts h _ _ _ _ _ _ hr, traverseMaybeInitClosureData_ts]

theorem preVisit_visit_type (h : Heap) (c : Addr) (hp : preVisit h c = PreVisit.visit) :
    (h.get c).type ≠ CONSTR_NOCAF ∧ (h.get c).type ≠ IND_STATIC := by
  unfold preVisit at hp
  constructor <;> intro ht <;> simp [ht] at hp

/-- What a visit that returns has read and written. -/
theorem retainVisitClosure_ok (h : Heap) (st : RtsState) (c cp : Addr) (d : stackData)
    (st1 : RtsState) (o : Option stackData)
    (hv : retainVisitClosure h st c cp d = .ok (st1, o)) :
    ∃ rc cpRet s, retainerSetOf st.flip (st.trav c) = .ok rc ∧
      isRetainer h cp = .ok cpRet ∧
      (if cpRet then .ok none else retainerSetOf st.flip (st.trav cp)) = .ok s ∧
      st1.flip = st.flip ∧
      st1.trav = (match visitSet rc s d.c_child_r with
        | none => st.trav
        | some s1 => Function.update st.trav c { lsb := st.flip, rs := some s1 }) ∧
      ((visitSet rc s d.c_child_r = none ∧ o = none) ∨
        (visitSet rc s d.c_child_r ≠ none ∧ ∃ cRet, isRetainer h c = .ok cRet ∧
          o = visitChild rc cRet (getRetainerFrom h c) d.c_child_r)) := by
  unfold retainVisitClosure at hv
  dsimp only at hv
  cases hrc : retainerSetOf st.flip (st.trav c) with
  | error e => rw [hrc] at hv; cases hv
  | ok rc =>
    cases hcp : isRetainer h cp with
    | error e => simp only [hrc, hcp] at hv; cases hv
    | ok cpRet =>
      cases hs : (if cpRet then (Except.ok none : Except Fatal (Option RetainerSet))
          else retainerSetOf st.flip (st.trav cp)) with
      | error e => simp only [hrc, hcp, hs] at hv; cases hv
      | ok s =>
        refine ⟨rc, cpRet, s, rfl, rfl, hs, ?_⟩
        simp only [hrc, hcp, hs] at hv
        cases rc with
        | none =>
          dsimp only at hv
          cases hc : isRetainer h c with
          | error e => simp only [hc] at hv; cases hv
          | ok cRet =>
            simp only [hc] at hv
            cases s <;> cases hv <;>
              exact ⟨rfl, rfl, Or.inr ⟨by simp [visitSet], cRet, rfl, rfl⟩⟩
        | some S =>
          dsimp only at hv
          by_cases hm : isMember d.c_child_r S = true
          · simp only [hm, if_true] at hv
            cases hv
            exact ⟨rfl, by simp [visitSet, hm], Or.inl ⟨by simp [visitSet, hm], rfl⟩⟩
          · simp only [hm, if_false] at hv
            cases hc : isRetainer h c with
            | error e => simp only [hc] at hv; cases hv
            | ok cRet =>
              simp only [hc] at hv
              cases s with
              | none =>
                cases cRet <;> simp at hv <;> obtain ⟨rfl, rfl⟩ := hv <;>
                  exact ⟨rfl, by simp [visitSet, hm, associate],
                    Or.inr ⟨by simp [visitSet, hm], _, rfl, by simp [visitChild]⟩⟩
              | some s =>
                by_cases hnum : s.num = S.num + 1 <;>
                cases cRet <;> simp [hnum] at hv <;> obtain ⟨rfl, rfl⟩ := hv <;>
                  exact ⟨rfl, by simp [visitSet, hm, hnum, associate],
                    Or.inr ⟨by simp [visitSet, hm, hnum], _, rfl, by simp [visitChild]⟩⟩

theorem retainVisitClosure_withTs (h : Heap) (st : RtsState) (t : traverseState)
    (c cp : Addr) (d : stackData) :
    retainVisitClosure h (st.withTs t) c cp d =
      match retainVisitClosure h st c cp d with
      | .error e => .error e
      | .ok (s, o) => .ok (s.withTs t, o) := by
  unfold retainVisitClosure
  simp only [RtsState.withTs]
  generalize retainerSetOf st.flip (st.trav c) = a
  generalize isRetainer h cp = b
  generalize retainerSetOf st.flip (st.trav cp) = s0
  generalize isRetainer h c = g
  rcases a with _ | (_ | S) <;> try rfl
  all_goals rcases b with _ | (_ | _) <;> try rfl
  all_goals rcases s0 with _ | (_ | s) <;> try rfl
  all_goals rcases g with _ | (_ | _) <;> try rfl
  all_goals (try simp only [Bool.false_eq_true, if_false, if_true])
  all_goals (try split_ifs) <;> try rfl

theorem traverseMaybeInitClosureData_withTs (st : RtsState) (t : traverseState) (c : Addr) :
    traverseMaybeInitClosureData (st.withTs t) c
      = (traverseMaybeInitClosureData st c).withTs t := by
  unfold traverseMaybeInitClosureData RtsState.withTs
  dsimp only
  split <;> rfl

theorem visitItem_withTs (h : Heap) (st : RtsState) (t : traverseState) (it : Item) :
    visitItem h (st.withTs t) it =
      match visitItem h st it with
      | .error e => .error e
      | .ok (s, l) => .ok (s.withTs t, l) := by
  unfold visitItem
  cases preVisit h it.1 with
  | skip => rfl
  | follow c1 => rfl
  | visit =>
    simp only [traverseMaybeInitClosureData_withTs, retainVisitClosure_withTs]
    cases retainVisitClosure h (traverseMaybeInitClosureData st it.1) it.1 it.2.1 it.2.2 with
    | error e => rfl
    | ok p =>
      obtain ⟨s, o⟩ := p
      cases o with
      | none => rfl
      | some cd =>
        dsimp only
        cases childrenOf h it.1 <;> rfl

theorem runItems_withTs (h : Heap) (t : traverseState) :
    ∀ (n : Nat) (st : RtsState) (items : List Item),
      runItems h n (st.withTs t) items = resWithTs t (runItems h n st items)
  | 0, _, _ => rfl
  | _ + 1, _, [] => rfl
  | n + 1, st, it :: rest => by
    rw [runItems, runItems, visitItem_withTs]
    cases visitItem h st it with
    | error e => rfl
    | ok p =>
      obtain ⟨s, l⟩ := p
      exact runItems_withTs h t n s (l ++ rest)

theorem withTs_self (st : RtsState) : st.withTs st.ts = st := rfl

theorem withTs_withTs (st : RtsState) (t1 t2 : traverseState) :
    (st.withTs t1).withTs t2 = st.withTs t2 := rfl

theorem body_loop_eq (h : Heap) (st : RtsState) :
    traverseWorkStack_body h Label.loop st =
      match traversePop h st.ts with
      | .error e => Jump.done (.error e)
      | .ok (ts, none) => Jump.done (.ok { st with ts := ts })
      | .ok (ts, some (c, cp, data)) =>
        Jump.goto (Label.inner_loop c cp data) { st with ts := ts } := rfl

theorem body_inner_eq (h : Heap) (st : RtsState) (c cp : Addr) (data : stackData) :
    traverseWorkStack_body h (Label.inner_loop c cp data) st =
      match preVisit h c with
      | PreVisit.skip => Jump.goto Label.loop st
      | PreVisit.follow c1 => Jump.goto (Label.inner_loop c1 cp data) st
      | PreVisit.visit =>
        match retainVisitClosure h (traverseMaybeInitClosureData st c) c cp data with
        | .error e => Jump.done (.error e)
        | .ok (st, none) => Jump.goto Label.loop st
        | .ok (st, some child_data) =>
          match processChildren h st.ts c child_data with
          | .error e => Jump.done (.error e)
          | .ok (ts, none) => Jump.goto Label.loop { st with ts := ts }
          | .ok (ts, some first_child) =>
            Jump.goto (Label.inner_loop first_child c child_data) { st with ts := ts } := rfl

/-- The body of `traverseWorkStack` at the label `loop`, on a stack that is
well formed above the boundary. -/
theorem body_loop_spec (h : Heap) (st : RtsState) (upper lower : List stackElement)
    (hst : st.ts.stack = upper ++ lower) (hb : st.ts.currentStackBoundary = lower.length)
    (hok : AllOK h upper) :
    (pendingOf h upper = [] ∧
      traverseWorkStack_body h Label.loop st
        = Jump.done (.ok (st.withTs { st.ts with stack := lower }))) ∨
    ∃ c cp d upper1, pendingOf h upper = (c, cp, d) :: pendingOf h upper1 ∧ AllOK h upper1 ∧
      traverseWorkStack_body h Label.loop st
        = Jump.goto (Label.inner_loop c cp d)
            (st.withTs { st.ts with stack := upper1 ++ lower }) := by
  rw [body_loop_eq]
  unfold traversePop
  have hspec := traversePop_loop_spec h lower upper hok
  rw [← hb, ← hst] at hspec
  rcases hspec with ⟨hp, hl⟩ | ⟨⟨c, cp, d⟩, upper1, hp, hok1, hl⟩
  · left; rw [hl]; exact ⟨hp, rfl⟩
  · right; rw [hl]; exact ⟨c, cp, d, upper1, hp, hok1, rfl⟩

/-- The body of `traverseWorkStack` at the label `inner_loop`: it does what
`visitItem` says and leaves the stack standing for the new items. -/
theorem body_inner_spec (h : Heap) (st : RtsState) (c cp : Addr) (d : stackData)
    (upper lower : List stackElement)
    (hst : st.ts.stack = upper ++ lower) (hok : AllOK h upper) :
    match visitItem h st (c, cp, d) with
    | .error e => traverseWorkStack_body h (Label.inner_loop c cp d) st = Jump.done (.error e)
    | .ok (st1, items) => ∃ l1 upper1,
        traverseWorkStack_body h (Label.inner_loop c cp d) st
          = Jump.goto l1 (st1.withTs { st.ts with stack := upper1 ++ lower }) ∧
        AllOK h upper1 ∧
        labelItems l1 ++ pendingOf h upper1 = items ++ pendingOf h upper := by
  rw [body_inner_eq]
  unfold visitItem
  dsimp only
  cases hp : preVisit h c with
  | skip => exact ⟨Label.loop, upper, by rw [← hst]; rfl, hok, rfl⟩
  | follow c1 => exact ⟨Label.inner_loop c1 cp d, upper, by rw [← hst]; rfl, hok, rfl⟩
  | visit =>
    dsimp only
    cases hv : retainVisitClosure h (traverseMaybeInitClosureData st c) c cp d with
    | error e => rfl
    | ok p =>
      obtain ⟨s, o⟩ := p
      have hts : s.ts = st.ts := by
        rw [retainVisitClosure_ts h _ _ _ _ _ _ hv, traverseMaybeInitClosureData_ts]
      cases o with
      | none =>
        refine ⟨Label.loop, upper, ?_, hok, rfl⟩
        dsimp only
        rw [← hst, ← hts]; rfl
      | some cd =>
        dsimp only
        have hspec := processChildren_spec h s.ts c cd (preVisit_visit_type h c hp).1
        cases hch : childrenOf h c with
        | error e => rw [hch] at hspec; dsimp only at hspec; rw [hspec]
        | ok l =>
          rw [hch] at hspec
          obtain ⟨new, fc, e1, e2, e3⟩ := hspec
          rw [e1]
          dsimp only
          cases fc with
          | none =>
            refine ⟨Label.loop, new ++ upper, ?_, (AllOK_append h _ _).2 ⟨e2, hok⟩, ?_⟩
            · simp only [RtsState.withTs, hts, hst, List.append_assoc]
            · rw [pendingOf_append, ← List.append_assoc]
              simp only [labelItems, List.nil_append]
              rw [← e3]; rfl
          | some f =>
            refine ⟨Label.inner_loop f c cd, new ++ upper, ?_,
              (AllOK_append h _ _).2 ⟨e2, hok⟩, ?_⟩
            · simp only [RtsState.withTs, hts, hst, List.append_assoc]
            · rw [pendingOf_append, ← List.append_assoc, ← e3]; rfl

theorem resWithTs_resWithTs (t1 t2 : traverseState) (x : Option (Except Fatal RtsState)) :
    resWithTs t2 (resWithTs t1 x) = resWithTs t2 x := by
  rcases x with _ | (_ | _) <;> rfl

theorem runItems_keeps_ts (h : Heap) (n : Nat) (st : RtsState) (items : List Item) :
    resWithTs st.ts (runItems h n st items) = runItems h n st items := by
  have := runItems_withTs h st.ts n st items
  rw [withTs_self] at this
  exact this.symm

theorem traverseWorkStack_succ (h : Heap) (fuel : Nat) (l : Label) (st : RtsState) :
    traverseWorkStack h (fuel + 1) l st =
      match traverseWorkStack_body h l st with
      | Jump.done r => some r
      | Jump.goto l1 st1 => traverseWorkStack h fuel l1 st1 := rfl

/-- A run of `traverseWorkStack` is a run of the work list on the items that
its label and its stack above the boundary stand for; it returns with the
stack back at the boundary. -/
theorem traverseWorkStack_runItems (h : Heap) (lower : List stackElement) :
    ∀ (fuel : Nat) (l : Label) (st : RtsState) (upper : List stackElement)
      (r : Except Fatal RtsState),
      st.ts.stack = upper ++ lower → st.ts.currentStackBoundary = lower.length →
      AllOK h upper → traverseWorkStack h fuel l st = some r →
      (∃ n, runItems h n st (labelItems l ++ pendingOf h upper) = resWithTs st.ts (some r)) ∧
        ∀ s, r = .ok s → s.ts = { st.ts with stack := lower }
  | 0, _, _, _, _, _, _, _, hr => by simp [traverseWorkStack] at hr
  | fuel + 1, Label.loop, st, upper, r, hst, hb, hok, hr => by
    rw [traverseWorkStack_succ] at hr
    rcases body_loop_spec h st upper lower hst hb hok with
      ⟨hp, hbody⟩ | ⟨c, cp, d, upper1, hp, hok1, hbody⟩
    · rw [hbody] at hr
      simp only [Option.some.injEq] at hr
      subst hr
      refine ⟨⟨1, ?_⟩, ?_⟩
      · rw [hp]; rfl
      · intro s hs; cases hs; rfl
    · rw [hbody] at hr
      dsimp only at hr
      obtain ⟨⟨n, hn⟩, hts⟩ := traverseWorkStack_runItems h lower fuel (Label.inner_loop c cp d)
        (st.withTs { st.ts with stack := upper1 ++ lower }) upper1 r rfl hb hok1 hr
      refine ⟨⟨n, ?_⟩, ?_⟩
      · rw [runItems_withTs] at hn
        have h2 := congrArg (resWithTs st.ts) hn
        rw [resWithTs_resWithTs, resWithTs_resWithTs] at h2
        rw [hp, ← runItems_keeps_ts]
        exact h2
      · intro s hs; exact hts s hs
  | fuel + 1, Label.inner_loop c cp d, st, upper, r, hst, hb, hok, hr => by
    rw [traverseWorkStack_succ] at hr
    have hspec := body_inner_spec h st c cp d upper lower hst hok
    cases hv : visitItem h st (c, cp, d) with
    | error e =>
      rw [hv] at hspec
      dsimp only at hspec
      rw [hspec] at hr
      simp only [Option.some.injEq] at hr
      subst hr
      refine ⟨⟨1, ?_⟩, ?_⟩
      · simp [labelItems, runItems, hv, resWithTs]
      · intro s hs; cases hs
    | ok p =>
      obtain ⟨st1, items⟩ := p
      rw [hv] at hspec
      obtain ⟨l1, upper1, hbody, hok1, hitems⟩ := hspec
      rw [hbody] at hr
      dsimp only at hr
      have hts1 : st1.ts = st.ts := visitItem_ts h st _ st1 items hv
      obtain ⟨⟨n, hn⟩, hts⟩ := traverseWorkStack_runItems h lower fuel l1
        (st1.withTs { st.ts with stack := upper1 ++ lower }) upper1 r rfl hb hok1 hr
      refine ⟨⟨n + 1, ?_⟩, ?_⟩
      · rw [runItems_withTs, hitems] at hn
        have h2 := congrArg (resWithTs st.ts) hn
        rw [resWithTs_resWithTs, resWithTs_resWithTs] at h2
        have h3 : runItems h (n + 1) st (labelItems (Label.inner_loop c cp d) ++ pendingOf h upper)
            = runItems h n st1 (items ++ pendingOf h upper) := by
          simp [labelItems, runItems, hv]
        rw [h3, ← h2, ← hts1, runItems_keeps_ts]
      · intro s hs; exact hts s hs

theorem resWithTs_ne_none (t : traverseState) (x : Option (Except Fatal RtsState))
    (hx : x ≠ none) : resWithTs t x ≠ none := by
  rcases x with _ | (_ | _)
  · exact absurd rfl hx
  · simp [resWithTs]
  · simp [resWithTs]

/-- When the work list runs to its end on the items that a label and a stack
stand for, `traverseWorkStack` runs to its end from that label and stack. -/
theorem runItems_traverseWorkStack (h : Heap) (lower : List stackElement) :
    ∀ (n : Nat) (l : Label) (st : RtsState) (upper : List stackElement),
      st.ts.stack = upper ++ lower → st.ts.currentStackBoundary = lower.length →
      AllOK h upper → runItems h n st (labelItems l ++ pendingOf h upper) ≠ none →
      ∃ fuel, traverseWorkStack h fuel l st ≠ none
  | 0, _, _, _, _, _, _, hr => by simp [runItems] at hr
  | n + 1, l, st, upper, hst, hb, hok, hr => by
    -- the case of the label inner_loop, for any state and stack
    have inner : ∀ (st : RtsState) (upper : List stackElement) (c cp : Addr) (d : stackData),
        st.ts.stack = upper ++ lower → st.ts.currentStackBoundary = lower.length →
        AllOK h upper → runItems h (n + 1) st ((c, cp, d) :: pendingOf h upper) ≠ none →
        ∃ fuel, traverseWorkStack h fuel (Label.inner_loop c cp d) st ≠ none := by
      intro st upper c cp d hst hb hok hr
      have hspec := body_inner_spec h st c cp d upper lower hst hok
      cases hv : visitItem h st (c, cp, d) with
      | error e =>
        rw [hv] at hspec
        dsimp only at hspec
        exact ⟨1, by rw [traverseWorkStack_succ, hspec]; simp⟩
      | ok p =>
        obtain ⟨st1, items⟩ := p
        rw [hv] at hspec
        obtain ⟨l1, upper1, hbody, hok1, hitems⟩ := hspec
        have hr1 : runItems h n st1 (items ++ pendingOf h upper) ≠ none := by
          simpa [runItems, hv] using hr
        have hr2 : runItems h n (st1.withTs { st.ts with stack := upper1 ++ lower })
            (labelItems l1 ++ pendingOf h upper1) ≠ none := by
          rw [runItems_withTs, hitems]
          exact resWithTs_ne_none _ _ hr1
        obtain ⟨fuel, hf⟩ := runItems_traverseWorkStack h lower n l1
          (st1.withTs { st.ts with stack := upper1 ++ lower }) upper1 rfl hb hok1 hr2
        exact ⟨fuel + 1, by rw [traverseWorkStack_succ, hbody]; exact hf⟩
    cases l with
    | inner_loop c cp d => exact inner st upper c cp d hst hb hok hr
    | loop =>
      rcases body_loop_spec h st upper lower hst hb hok with
        ⟨hp, hbody⟩ | ⟨c, cp, d, upper1, hp, hok1, hbody⟩
      · exact ⟨1, by rw [traverseWorkStack_succ, hbody]; simp⟩
      · have hr1 : runItems h (n + 1) (st.withTs { st.ts with stack := upper1 ++ lower })
            ((c, cp, d) :: pendingOf h upper1) ≠ none := by
          rw [runItems_withTs, ← hp]
          exact resWithTs_ne_none _ _ hr
        obtain ⟨fuel, hf⟩ := inner (st.withTs { st.ts with stack := upper1 ++ lower })
          upper1 c cp d rfl hb hok1 hr1
        exact ⟨fuel + 1, by rw [traverseWorkStack_succ, hbody]; exact hf⟩

theorem retainRoot_eq (h : Heap) (fuel : Nat) (st : RtsState) (tl : Addr) :
    retainRoot h fuel st tl =
      match seedOf h tl with
      | .error e => some (.error e)
      | .ok data =>
        traverseWorkStack h fuel Label.loop
          ((traverseMaybeInitClosureData st tl).withTs
            { stack := freshElem tl data tl :: st.ts.stack,
              currentStackBoundary := st.ts.stack.length }) := by
  unfold retainRoot seedOf
  dsimp only
  by_cases he : tl ≠ h.END_TSO_QUEUE
  · simp only [he, if_true, ne_eq, not_false_eq_true]
    cases hr : isRetainer h tl with
    | error e => rfl
    | ok b =>
      cases b
      all_goals
        dsimp only
        congr 1
        unfold traverseMaybeInitClosureData RtsState.withTs
        dsimp only
        split <;> rfl
  · simp only [he, if_false]
    congr 1
    unfold traverseMaybeInitClosureData RtsState.withTs
    dsimp only
    split <;> rfl

/-- The generic invariant rule of the work list. -/
theorem runItems_invariant (h : Heap) (P : RtsState → List Item → Prop)
    (hstep : ∀ st it rest st1 new, P st (it :: rest) → visitItem h st it = .ok (st1, new) →
      P st1 (new ++ rest)) :
    ∀ (n : Nat) (st : RtsState) (items : List Item) (st1 : RtsState),
      P st items → runItems h n st items = some (.ok st1) → P st1 []
  | 0, _, _, _, _, hr => by simp [runItems] at hr
  | _ + 1, st, [], st1, hP, hr => by
    simp only [runItems, Option.some.injEq, Except.ok.injEq] at hr
    rw [← hr]; exact hP
  | n + 1, st, it :: rest, st1, hP, hr => by
    rw [runItems] at hr
    cases hv : visitItem h st it with
    | error e => rw [hv] at hr; simp at hr
    | ok p =>
      obtain ⟨s, new⟩ := p
      rw [hv] at hr
      exact runItems_invariant h P hstep n s (new ++ rest) st1 (hstep st it rest s new hP hv) hr

/-- The invariant rule for `retainRoot`: a property of the state and of the
pending items that every item keeps, and that does not depend on the stack,
holds at the return of `retainRoot` with no item pending. -/
theorem retainRoot_invariant (h : Heap) (P : RtsState → List Item → Prop)
    (hstep : ∀ st it rest st1 new, P st (it :: rest) → visitItem h st it = .ok (st1, new) →
      P st1 (new ++ rest))
    (hts : ∀ st t items, P st items → P (st.withTs t) items)
    (fuel : Nat) (st st1 : RtsState) (tl : Addr)
    (hinit : ∀ data, seedOf h tl = .ok data →
      P (traverseMaybeInitClosureData st tl) [(tl, tl, data)])
    (hr : retainRoot h fuel st tl = some (.ok st1)) :
    P st1 [] ∧ st1.ts = { stack := st.ts.stack, currentStackBoundary := st.ts.stack.length } := by
  rw [retainRoot_eq] at hr
  cases hs : seedOf h tl with
  | error e => rw [hs] at hr; simp at hr
  | ok data =>
    rw [hs] at hr
    dsimp only at hr
    obtain ⟨⟨n, hn⟩, hts1⟩ := traverseWorkStack_runItems h st.ts.stack fuel Label.loop _
      [freshElem tl data tl] (.ok st1) rfl rfl (AllOK_fresh h tl data [tl]) hr
    have hpend : labelItems Label.loop ++ pendingOf h [freshElem tl data tl]
        = [(tl, tl, data)] := rfl
    rw [hpend, runItems_withTs] at hn
    cases hrun : runItems h n (traverseMaybeInitClosureData st tl) [(tl, tl, data)] with
    | none => rw [hrun] at hn; simp [resWithTs] at hn
    | some res =>
      cases res with
      | error e => rw [hrun] at hn; simp [resWithTs] at hn
      | ok s2 =>
        rw [hrun] at hn
        simp only [resWithTs, Option.some.injEq, Except.ok.injEq] at hn
        have hP2 := runItems_invariant h P hstep n _ _ s2 (hinit data hs) hrun
        have h3 : st1 = (s2.withTs st1.ts) := by
          have h4 := congrArg (fun s => RtsState.withTs s st1.ts) hn
          exact h4.symm
        refine ⟨?_, hts1 st1 rfl⟩
        rw [h3]
        exact hts _ _ _ hP2

theorem traverseMaybeInitClosureData_flip (st : RtsState) (c : Addr) :
    (traverseMaybeInitClosureData st c).flip = st.flip := by
  unfold traverseMaybeInitClosureData
  split <;> rfl

theorem rsetOf_init (st : RtsState) (c a : Addr) :
    rsetOf (traverseMaybeInitClosureData st c) a = rsetOf st a := by
  unfold traverseMaybeInitClosureData rsetOf
  by_cases hv : (st.trav c).lsb = st.flip
  · simp [hv, isTravDataValid]
  · by_cases hac : a = c
    · subst hac
      simp [Function.update_same, setTravDataToZero, isTravDataValid, hv]
    · simp [Function.update_noteq hac, isTravDataValid, hv]

theorem retainerSetOf_init_self (st : RtsState) (c : Addr) :
    retainerSetOf (traverseMaybeInitClosureData st c).flip
      ((traverseMaybeInitClosureData st c).trav c) = .ok (rsetOf st c) := by
  unfold traverseMaybeInitClosureData rsetOf retainerSetOf
  by_cases hv : (st.trav c).lsb = st.flip
  · simp [hv, isTravDataValid]
  · simp [hv, Function.update_same, setTravDataToZero, isTravDataValid]

theorem retainerSetOf_ok (st : RtsState) (a : Addr) (s : Option RetainerSet)
    (hs : retainerSetOf st.flip (st.trav a) = .ok s) :
    s = rsetOf st a ∧ isTravDataValid st.flip (st.trav a) = true := by
  unfold retainerSetOf at hs
  unfold rsetOf
  by_cases hv : isTravDataValid st.flip (st.trav a) = true
  · simp only [hv, if_true, Except.ok.injEq] at hs ⊢
    exact ⟨hs.symm, trivial⟩
  · simp [hv] at hs

theorem rsetOf_update (st st1 : RtsState) (c : Addr) (S : RetainerSet)
    (hf : st1.flip = st.flip)
    (ht : st1.trav = Function.update st.trav c { lsb := st.flip, rs := some S }) (a : Addr) :
    rsetOf st1 a = if a = c then some S else rsetOf st a := by
  unfold rsetOf
  rw [hf, ht]
  by_cases hac : a = c
  · subst hac; simp [Function.update_same, isTravDataValid]
  · simp [Function.update_noteq hac, hac]

/-- What one item does to the retainer sets and which items take its place. -/
theorem visitItem_cases (h : Heap) (st : RtsState) (c cp : Addr) (d : stackData)
    (st1 : RtsState) (new : List Item) (hv : visitItem h st (c, cp, d) = .ok (st1, new)) :
    (preVisit h c = PreVisit.skip ∧ st1 = st ∧ new = []) ∨
    (∃ c1, preVisit h c = PreVisit.follow c1 ∧ st1 = st ∧ new = [(c1, cp, d)]) ∨
    (preVisit h c = PreVisit.visit ∧ st1.flip = st.flip ∧
      ∃ cpRet s, isRetainer h cp = .ok cpRet ∧
        s = (if cpRet then none else rsetOf st cp) ∧
        match visitSet (rsetOf st c) s d.c_child_r with
        | none => (∀ a, rsetOf st1 a = rsetOf st a) ∧ new = []
        | some S1 => (∀ a, rsetOf st1 a = if a = c then some S1 else rsetOf st a) ∧
          ∃ cRet, isRetainer h c = .ok cRet ∧
            match visitChild (rsetOf st c) cRet (getRetainerFrom h c) d.c_child_r with
            | none => new = []
            | some cd => ∃ l, childrenOf h c = .ok l ∧ new = itemsFor c cd l) := by
  unfold visitItem at hv
  dsimp only at hv
  cases hp : preVisit h c with
  | skip =>
    rw [hp] at hv
    simp only [Except.ok.injEq, Prod.mk.injEq] at hv
    exact Or.inl ⟨rfl, hv.1.symm, hv.2.symm⟩
  | follow c1 =>
    rw [hp] at hv
    simp only [Except.ok.injEq, Prod.mk.injEq] at hv
    exact Or.inr (Or.inl ⟨c1, rfl, hv.1.symm, hv.2.symm⟩)
  | visit =>
    rw [hp] at hv
    dsimp only at hv
    right; right
    cases hr : retainVisitClosure h (traverseMaybeInitClosureData st c) c cp d with
    | error e => rw [hr] at hv; cases hv
    | ok p =>
      obtain ⟨s1, o⟩ := p
      rw [hr] at hv
      obtain ⟨rc, cpRet, s, hrc, hcp, hs, hflip, htrav, hout⟩ :=
        retainVisitClosure_ok h _ c cp d s1 o hr
      rw [retainerSetOf_init_self] at hrc
      simp only [Except.ok.injEq] at hrc
      subst hrc
      have hs2 : s = (if cpRet then none else rsetOf st cp) := by
        cases cpRet with
        | true => simpa using hs.symm
        | false =>
          simp only [Bool.false_eq_true, if_false] at hs ⊢
          rw [(retainerSetOf_ok _ _ _ hs).1, rsetOf_init]
      have hflip1 : s1.flip = st.flip := by rw [hflip, traverseMaybeInitClosureData_flip]
      have hst1 : st1 = s1 := by
        cases o with
        | none => simp only [Except.ok.injEq, Prod.mk.injEq] at hv; exact hv.1.symm
        | some cd =>
          dsimp only at hv
          cases hch : childrenOf h c with
          | error e => rw [hch] at hv; cases hv
          | ok l =>
            rw [hch] at hv
            simp only [Except.ok.injEq, Prod.mk.injEq] at hv; exact hv.1.symm
      subst hst1
      refine ⟨rfl, hflip1, cpRet, s, hcp, hs2, ?_⟩
      cases hvs : visitSet (rsetOf st c) s d.c_child_r with
      | none =>
        rw [hvs] at htrav hout
        dsimp only at htrav ⊢
        rcases hout with ⟨_, ho⟩ | ⟨hne, _⟩
        · subst ho
          simp only [Except.ok.injEq, Prod.mk.injEq] at hv
          refine ⟨fun a => ?_, hv.2.symm⟩
          have : rsetOf st1 a = rsetOf (traverseMaybeInitClosureData st c) a := by
            unfold rsetOf; rw [hflip, htrav]
          rw [this, rsetOf_init]
        · exact absurd rfl hne
      | some S1 =>
        rw [hvs] at htrav hout
        dsimp only at htrav ⊢
        rcases hout with ⟨hn, _⟩ | ⟨_, cRet, hc, ho⟩
        · cases hn
        · refine ⟨fun a => ?_, cRet, hc, ?_⟩
          · rw [rsetOf_update _ _ c S1 hflip htrav a]
            split
            · rfl
            · exact rsetOf_init st c a
          · subst ho
            cases hvc : visitChild (rsetOf st c) cRet (getRetainerFrom h c) d.c_child_r with
            | none =>
              rw [hvc] at hv
              simp only [Except.ok.injEq, Prod.mk.injEq] at hv
              exact hv.2.symm
            | some cd =>
              rw [hvc] at hv
              dsimp only at hv ⊢
              cases hch : childrenOf h c with
              | error e => rw [hch] at hv; cases hv
              | ok l =>
                rw [hch] at hv
                simp only [Except.ok.injEq, Prod.mk.injEq] at hv
                exact ⟨l, rfl, hv.2.symm⟩

theorem mem_singleton (e r : retainer) : e ∈ (singleton r).element ↔ e = r := by
  simp [singleton]

theorem mem_addElement (e r : retainer) (S : RetainerSet) :
    e ∈ (addElement r S).element ↔ e = r ∨ e ∈ S.element := by
  unfold addElement
  split
  · rename_i hm
    constructor
    · exact Or.inr
    · rintro (rfl | he)
      · exact hm
      · exact he
  · exact List.mem_orderedInsert (· ≤ ·)

theorem NRPath_trans (h : Heap) (p m c : Addr) (h1 : NRPath h p m)
    (hm : isRetainer h m = .ok false) (h2 : NRPath h m c) : NRPath h p c := by
  induction h2 with
  | edge c he => exact NRPath.step p m c h1 hm he
  | step k c _ hk he ih => exact NRPath.step p k c ih hk he

theorem Just_extend (h : Heap) (roots : List Addr) (e : retainer) (m c : Addr)
    (hj : Just h roots e m) (hm : isRetainer h m = .ok false) (hp : NRPath h m c) :
    Just h roots e c := by
  rcases hj with ⟨p, hp1, hp2, hp3⟩ | ⟨ρ, hρ, hseed, hρc⟩
  · exact Or.inl ⟨p, hp1, hp2, NRPath_trans h p m c hp3 hm hp⟩
  · right
    refine ⟨ρ, hρ, hseed, Or.inr ?_⟩
    rcases hρc with rfl | ⟨hr, hpath⟩
    · exact ⟨hm, hp⟩
    · exact ⟨hr, NRPath_trans h ρ m c hpath hm hp⟩

/-- The retainer of a pending item is justified for the closure of the
item. -/
theorem ItemOK_just (h : Heap) (roots : List Addr) (c cp : Addr) (d : stackData)
    (hok : ItemOK h roots (c, cp, d)) : Just h roots d.c_child_r c := by
  rcases hok with ⟨_, hroot, hseed⟩ | ⟨hpath, hcar⟩
  · exact Or.inr ⟨c, hroot, hseed, Or.inl rfl⟩
  · rcases hcar with ⟨hr, he⟩ | ⟨hr, hj⟩
    · exact Or.inl ⟨cp, hr, he.symm, hpath⟩
    · exact Just_extend h roots _ cp c hj hr hpath

theorem preVisit_follow (h : Heap) (c c1 : Addr) (hp : preVisit h c = PreVisit.follow c1) :
    (h.get c).type = IND_STATIC ∧ c1 = (h.get c).indirectee := by
  unfold preVisit at hp
  dsimp only at hp
  generalize hty : (h.get c).type = t at hp
  cases t <;> simp at hp
  all_goals first
    | exact ⟨rfl, hp.symm⟩
    | (split at hp <;> simp at hp)
    | (split_ifs at hp)

theorem isRetainer_ind_static (h : Heap) (c : Addr) (ht : (h.get c).type = IND_STATIC) :
    isRetainer h c = .ok false := by
  unfold isRetainer Heap.typeOf
  rw [ht]; rfl

theorem visitSet_mem (rc s : Option RetainerSet) (r : retainer) (S1 : RetainerSet)
    (hv : visitSet rc s r = some S1) (e : retainer) (he : e ∈ S1.element) :
    e = r ∨ (∃ S0, s = some S0 ∧ e ∈ S0.element) ∨ (∃ S, rc = some S ∧ e ∈ S.element) := by
  unfold visitSet at hv
  cases rc with
  | none =>
    cases s with
    | none =>
      simp only [Option.some.injEq] at hv
      subst hv
      exact Or.inl ((mem_singleton e r).1 he)
    | some S0 =>
      simp only [Option.some.injEq] at hv
      subst hv
      exact Or.inr (Or.inl ⟨_, rfl, he⟩)
  | some S =>
    dsimp only at hv
    split at hv
    · cases hv
    · cases s with
      | none =>
        simp only [Option.some.injEq] at hv
        subst hv
        rcases (mem_addElement e r S).1 he with h1 | h1
        · exact Or.inl h1
        · exact Or.inr (Or.inr ⟨S, rfl, h1⟩)
      | some S0 =>
        dsimp only at hv
        split at hv
        · simp only [Option.some.injEq] at hv
          subst hv
          exact Or.inr (Or.inl ⟨_, rfl, he⟩)
        · simp only [Option.some.injEq] at hv
          subst hv
          rcases (mem_addElement e r S).1 he with h1 | h1
          · exact Or.inl h1
          · exact Or.inr (Or.inr ⟨S, rfl, h1⟩)

theorem visitChild_some (rc : Option RetainerSet) (cRet : Bool) (ccs r : retainer)
    (cd : stackData) (hv : visitChild rc cRet ccs r = some cd) :
    (cRet = true ∧ cd.c_child_r = ccs ∧ rc = none) ∨ (cRet = false ∧ cd.c_child_r = r) := by
  unfold visitChild at hv
  cases rc <;> cases cRet <;> simp at hv <;> subst hv <;> simp

theorem mem_itemsFor (cp : Addr) (d : stackData) (l : List Addr) (it : Item) :
    it ∈ itemsFor cp d l ↔ ∃ c ∈ l, it = (c, cp, d) := by
  unfold itemsFor
  simp only [List.mem_map]
  constructor
  · rintro ⟨c, hc, rfl⟩; exact ⟨c, hc, rfl⟩
  · rintro ⟨c, hc, rfl⟩; exact ⟨c, hc, rfl⟩

/-- Every item keeps the soundness invariant. -/
theorem SoundInv_step (h : Heap) (roots : List Addr) (st : RtsState) (it : Item)
    (rest : List Item) (st1 : RtsState) (new : List Item)
    (hinv : SoundInv h roots st (it :: rest)) (hv : visitItem h st it = .ok (st1, new)) :
    SoundInv h roots st1 (new ++ rest) := by
  obtain ⟨c, cp, d⟩ := it
  obtain ⟨hsets, hitems⟩ := hinv
  have hit : ItemOK h roots (c, cp, d) := hitems _ (List.mem_cons_self _ _)
  have hrest : ∀ it ∈ rest, ItemOK h roots it :=
    fun it hm => hitems it (List.mem_cons_of_mem _ hm)
  rcases visitItem_cases h st c cp d st1 new hv with
    ⟨_, rfl, rfl⟩ | ⟨c1, hp, rfl, rfl⟩ | ⟨hp, hflip, cpRet, s, hcp, hs, hcase⟩
  · exact ⟨hsets, hrest⟩
  · refine ⟨hsets, ?_⟩
    intro it hm
    rcases List.mem_append.1 hm with hm | hm
    · simp only [List.mem_singleton] at hm
      subst hm
      obtain ⟨hty, hc1⟩ := preVisit_follow h c c1 hp
      have hedge : Edge h c c1 := Or.inr ⟨hty, hc1⟩
      have hnr : isRetainer h c = .ok false := isRetainer_ind_static h c hty
      rcases hit with ⟨hcc, hroot, hseed⟩ | ⟨hpath, hcar⟩
      · right
        dsimp only at hcc hroot hseed ⊢
        subst hcc
        refine ⟨NRPath.edge _ _ hedge, Or.inr ⟨hnr, Or.inr ⟨c, hroot, ?_, Or.inl rfl⟩⟩⟩
        rw [hseed]
      · exact Or.inr ⟨NRPath.step _ _ _ hpath hnr hedge, hcar⟩
    · exact hrest it hm
  · have hjd : Just h roots d.c_child_r c := ItemOK_just h roots c cp d hit
    have hjs : ∀ S0, s = some S0 → ∀ e ∈ S0.element, Just h roots e c := by
      intro S0 hS0 e he
      cases cpRet with
      | true => rw [hs] at hS0; simp at hS0
      | false =>
        simp only [Bool.false_eq_true, if_false] at hs
        have hjcp : Just h roots e cp := hsets cp S0 (by rw [← hs, hS0]) e he
        rcases hit with ⟨hcc, _, _⟩ | ⟨hpath, _⟩
        · dsimp only at hcc; rw [hcc]; exact hjcp
        · exact Just_extend h roots e cp c hjcp hcp hpath
    cases hvs : visitSet (rsetOf st c) s d.c_child_r with
    | none =>
      rw [hvs] at hcase
      obtain ⟨hsame, rfl⟩ := hcase
      refine ⟨?_, hrest⟩
      intro a S ha
      rw [hsame] at ha
      exact hsets a S ha
    | some S1 =>
      rw [hvs] at hcase
      obtain ⟨hupd, cRet, hc, hchild⟩ := hcase
      have hS1 : ∀ e ∈ S1.element, Just h roots e c := by
        intro e he
        rcases visitSet_mem _ _ _ _ hvs e he with rfl | ⟨S0, hS0, he0⟩ | ⟨S, hS, he0⟩
        · exact hjd
        · exact hjs S0 hS0 e he0
        · exact hsets c S hS e he0
      refine ⟨?_, ?_⟩
      · intro a S ha
        rw [hupd] at ha
        by_cases hac : a = c
        · subst hac
          simp only [if_true, Option.some.injEq] at ha
          subst ha
          exact hS1
        · simp only [hac, if_false] at ha
          exact hsets a S ha
      · intro it hm
        rcases List.mem_append.1 hm with hm | hm
        · cases hvc : visitChild (rsetOf st c) cRet (getRetainerFrom h c) d.c_child_r with
          | none => rw [hvc] at hchild; dsimp only at hchild; subst hchild; simp at hm
          | some cd =>
            rw [hvc] at hchild
            obtain ⟨l, hl, rfl⟩ := hchild
            obtain ⟨x, hx, rfl⟩ := (mem_itemsFor c cd l it).1 hm
            right
            refine ⟨NRPath.edge _ _ (Or.inl ⟨l, hl, hx⟩), ?_⟩
            rcases visitChild_some _ _ _ _ _ hvc with ⟨rfl, hcd, _⟩ | ⟨rfl, hcd⟩
            · exact Or.inl ⟨hc, hcd⟩
            · refine Or.inr ⟨hc, ?_⟩
              show Just h roots cd.c_child_r c
              rw [hcd]; exact hjd
        · exact hrest it hm

theorem rsetOf_beginPass (st : RtsState) (hc : Clean st) (a : Addr) :
    rsetOf (beginPass st) a = none := by
  unfold rsetOf beginPass isTravDataValid
  dsimp only
  by_cases hl : (st.trav a).lsb = st.flip
  · cases hf : st.flip <;> simp [hl, hf]
  · have := hc a hl
    simp [this]

theorem rsetOf_withTs (st : RtsState) (t : traverseState) (a : Addr) :
    rsetOf (st.withTs t) a = rsetOf st a := rfl

theorem rsetOf_foldl_init (l : List Addr) (st : RtsState) (a : Addr) :
    rsetOf (l.foldl traverseMaybeInitClosureData st) a = rsetOf st a := by
  induction l generalizing st with
  | nil => rfl
  | cons c l ih => rw [List.foldl_cons, ih, rsetOf_init]

/-- The invariant rule for a list of roots: `Q done st` is a property of the
roots seeded so far and of the state. -/
theorem retainRoots_invariant (h : Heap) (fuel : Nat) (Q : List Addr → RtsState → Prop)
    (hroot : ∀ done st tl st1, Q done st → retainRoot h fuel st tl = some (.ok st1) →
      Q (done ++ [tl]) st1) :
    ∀ (tls done : List Addr) (st st1 : RtsState), Q done st →
      retainRoots h fuel st tls = some (.ok st1) → Q (done ++ tls) st1
  | [], done, st, st1, hQ, hr => by
    simp only [retainRoots, Option.some.injEq, Except.ok.injEq] at hr
    rw [← hr, List.append_nil]; exact hQ
  | tl :: tls, done, st, st1, hQ, hr => by
    rw [retainRoots] at hr
    cases h1 : retainRoot h fuel st tl with
    | none => rw [h1] at hr; simp at hr
    | some res =>
      cases res with
      | error e => rw [h1] at hr; simp at hr
      | ok s =>
        rw [h1] at hr
        dsimp only at hr
        have := retainRoots_invariant h fuel Q hroot tls (done ++ [tl]) s st1
          (hroot done st tl s hQ h1) hr
        rwa [List.append_assoc, List.singleton_append] at this

/-- What `retainerProfile` is made of. -/
theorem retainerProfile_ok (h : Heap) (roots : Roots) (fuel : Nat) (st st1 : RtsState)
    (hr : retainerProfile h roots fuel st = some (.ok st1)) :
    ∃ s, retainRoots h fuel (beginPass st) roots.all = some (.ok s) ∧
      ∀ a, rsetOf st1 a = rsetOf s a := by
  unfold retainerProfile computeRetainerSet at hr
  dsimp only at hr
  cases h1 : retainRoots h fuel (beginPass st) roots.all with
  | none =>
    unfold beginPass Roots.all at h1
    rw [h1] at hr; simp at hr
  | some res =>
    unfold beginPass Roots.all at h1
    rw [h1] at hr
    cases res with
    | error e => simp at hr
    | ok s =>
      simp only [Option.some.injEq, Except.ok.injEq] at hr
      refine ⟨s, rfl, fun a => ?_⟩
      rw [← hr]
      exact rsetOf_foldl_init roots.mut_lists s a

/-- The soundness invariant holds after every root. -/
theorem retainRoot_sound (h : Heap) (roots : List Addr) (fuel : Nat) (st st1 : RtsState)
    (tl : Addr) (htl : tl ∈ roots)
    (hsets : ∀ a S, rsetOf st a = some S → ∀ e ∈ S.element, Just h roots e a)
    (hr : retainRoot h fuel st tl = some (.ok st1)) :
    ∀ a S, rsetOf st1 a = some S → ∀ e ∈ S.element, Just h roots e a := by
  have := retainRoot_invariant h (SoundInv h roots) (SoundInv_step h roots)
    (fun st t items hP => hP) fuel st st1 tl ?_ hr
  · exact this.1.1
  · intro data hseed
    refine ⟨fun a S ha => hsets a S (by rwa [rsetOf_init] at ha), ?_⟩
    intro it hm
    simp only [List.mem_singleton] at hm
    subst hm
    exact Or.inl ⟨rfl, htl, hseed⟩

theorem Just_to_claim (h : Heap) (roots : List Addr)
    (hend : isRetainer h h.END_TSO_QUEUE ≠ .ok true) (e : retainer) (c : Addr)
    (hj : Just h roots e c) :
    (∃ p, isRetainer h p = .ok true ∧ getRetainerFrom h p = e ∧
        ((p = c ∧ c ∈ roots) ∨ NRPath h p c)) ∨
      ∃ ρ, ρ ∈ roots ∧ isRetainer h ρ ≠ .ok true ∧ e = h.CCS_SYSTEM ∧
        (ρ = c ∨ NRPath h ρ c) := by
  rcases hj with ⟨p, h1, h2, h3⟩ | ⟨ρ, hρ, hseed, hρc⟩
  · exact Or.inl ⟨p, h1, h2, Or.inr h3⟩
  · unfold seedOf at hseed
    by_cases he : ρ ≠ h.END_TSO_QUEUE
    · simp only [he, if_true, ne_eq, not_false_eq_true] at hseed
      cases hr : isRetainer h ρ with
      | error x => rw [hr] at hseed; cases hseed
      | ok b =>
        rw [hr] at hseed
        cases b with
        | true =>
          simp only [Except.ok.injEq, stackData.mk.injEq] at hseed
          left
          refine ⟨ρ, hr, hseed, ?_⟩
          rcases hρc with rfl | ⟨hnr, _⟩
          · exact Or.inl ⟨rfl, hρ⟩
          · rw [hr] at hnr; cases hnr
        | false =>
          simp only [Except.ok.injEq, stackData.mk.injEq] at hseed
          right
          refine ⟨ρ, hρ, by rw [hr]; simp, hseed.symm, ?_⟩
          rcases hρc with rfl | ⟨_, hp⟩
          · exact Or.inl rfl
          · exact Or.inr hp
    · simp only [he, if_false, Except.ok.injEq, stackData.mk.injEq] at hseed
      have he2 : ρ = h.END_TSO_QUEUE := by simpa using he
      right
      refine ⟨ρ, hρ, by rw [he2]; exact hend, hseed.symm, ?_⟩
      rcases hρc with rfl | ⟨_, hp⟩
      · exact Or.inl rfl
      · exact Or.inr hp

/-- The soundness of the retainer sets, in terms of `Just`. -/
theorem retainerProfile_just (h : Heap) (roots : Roots) (fuel : Nat) (st st1 : RtsState)
    (hclean : Clean st) (hrun : retainerProfile h roots fuel st = some (.ok st1))
    (c : Addr) (S : RetainerSet) (hS : rsetOf st1 c = some S) (e : retainer)
    (he : e ∈ S.element) : Just h roots.all e c := by
  obtain ⟨s, hs, hsame⟩ := retainerProfile_ok h roots fuel st st1 hrun
  have hQ := retainRoots_invariant h fuel
    (fun done st0 => done ⊆ roots.all →
      ∀ a S, rsetOf st0 a = some S → ∀ e ∈ S.element, Just h roots.all e a)
    (fun done st0 tl st2 hQ hr hsub =>
      retainRoot_sound h roots.all fuel st0 st2 tl
        (hsub (List.mem_append_right _ (List.mem_singleton_self tl)))
        (hQ (fun x hx => hsub (List.mem_append_left _ hx))) hr)
    roots.all [] (beginPass st) s
    (fun _ a S ha => by rw [rsetOf_beginPass st hclean] at ha; cases ha) hs
  rw [hsame] at hS
  exact hQ (by simp) c S hS e he

theorem initState_clean : Clean initState := fun _ _ => rfl

/-- C2 (completeness of retainer sets), evaluated on `sharedHeap` with the
roots 0 and 1 seeded in this order: the pass returns; closure 0 is a visited
retainer with the identity 10 and closure 4 is its child, so 10 is a retainer
of 4; yet the retainer set of 4 after the pass is {11, 12}. -/
theorem completeness_fails_on_sharedHeap :
    retainerProfile sharedHeap { capabilities := [0, 1] } 100 initState
        = some (.ok (passResult sharedHeap { capabilities := [0, 1] } 100 initState)) ∧
      isRetainer sharedHeap 0 = .ok true ∧ getRetainerFrom sharedHeap 0 = 10 ∧
      childrenOf sharedHeap 0 = .ok [4] ∧
      rsetOf (passResult sharedHeap { capabilities := [0, 1] } 100 initState) 0
        = some (RetainerSet.ofList [10]) ∧
      rsetOf (passResult sharedHeap { capabilities := [0, 1] } 100 initState) 4
        = some (RetainerSet.ofList [11, 12]) ∧
      isMember 10 (RetainerSet.ofList [11, 12]) = false :=
  ⟨rfl, by decide, by decide, by decide, by decide, by decide, by decide⟩

/-- C5 (growth invariant), evaluated on `sharedHeap`: in one pass, after the
root 0 was seeded the retainer set of closure 4 is {10}; seeding the root 1
then reassigns it to {11, 12}, which does not contain 10.  The reassignment
is the visit of 4 from its parent 3 with the retainer 12, at a moment when
the set of 3 is {11, 12}: the set of the parent is taken over as it is. -/
theorem growth_fails_on_sharedHeap :
    rsetOf (rootResult sharedHeap 100 (beginPass initState) 0) 4
        = some (RetainerSet.ofList [10]) ∧
      rsetOf (rootResult sharedHeap 100
          (rootResult sharedHeap 100 (beginPass initState) 0) 1) 4
        = some (RetainerSet.ofList [11, 12]) ∧
      visitSet (some (RetainerSet.ofList [10])) (some (RetainerSet.ofList [11, 12])) 12
        = some (RetainerSet.ofList [11, 12]) ∧
      isMember 10 (RetainerSet.ofList [10]) = true ∧
      isMember 10 (RetainerSet.ofList [11, 12]) = false :=
  ⟨by decide, by decide, by decide, by decide, by decide⟩

/-- C6 (order independence), evaluated on `sharedHeap`: with the roots seeded
in the order 0, 1 the retainer set of closure 4 is {11, 12}; with the same
roots seeded in the order 1, 0 it is {10, 11, 12}. -/
theorem order_dependence_on_sharedHeap :
    rsetOf (passResult sharedHeap { capabilities := [0, 1] } 100 initState) 4
        = some (RetainerSet.ofList [11, 12]) ∧
      rsetOf (passResult sharedHeap { capabilities := [1, 0] } 100 initState) 4
        = some (RetainerSet.ofList [10, 11, 12]) ∧
      rsetOf (passResult sharedHeap { capabilities := [0, 1] } 100 initState) 4
        ≠ rsetOf (passResult sharedHeap { capabilities := [1, 0] } 100 initState) 4 :=
  ⟨by decide, by decide, by decide⟩

/-- The scenario R -> A -> B -> {C, D} evaluated on the scenario heap:
`retainRoot` on R returns with the retainer sets of A, B, C and D all equal to
{R}; and in the heap in which C has a child E that nothing else points to, the
set of E is {C}. -/
theorem scenario_chain :
    retainRoot scenarioHeap 100 (beginPass initState) 0
        = some (.ok (rootResult scenarioHeap 100 (beginPass initState) 0)) ∧
      rsetOf (rootResult scenarioHeap 100 (beginPass initState) 0) 1
        = some (singleton 20) ∧
      rsetOf (rootResult scenarioHeap 100 (beginPass initState) 0) 2
        = some (singleton 20) ∧
      rsetOf (rootResult scenarioHeap 100 (beginPass initState) 0) 3
        = some (singleton 20) ∧
      rsetOf (rootResult scenarioHeap 100 (beginPass initState) 0) 4
        = some (singleton 20) ∧
      retainRoot scenarioHeapBelowC 100 (beginPass initState) 0
        = some (.ok (rootResult scenarioHeapBelowC 100 (beginPass initState) 0)) ∧
      rsetOf (rootResult scenarioHeapBelowC 100 (beginPass initState) 0) 3
        = some (singleton 20) ∧
      rsetOf (rootResult scenarioHeapBelowC 100 (beginPass initState) 0) 5
        = some (singleton 23) :=
  ⟨rfl, by decide, by decide, by decide, by decide, rfl, by decide, by decide⟩

set_option maxHeartbeats 4000000 in
set_option maxRecDepth 10000 in
theorem twoRoots_first_order (r1 r2 : retainer) (hne : r1 ≠ r2) :
    ∃ s, retainerProfile (twoRootsHeap r1 r2) { capabilities := [0, 1] } 20 initState
        = some (.ok s) ∧
      rsetOf s 2 = some (addElement r2 (singleton r1)) := by
  have hne2 : ¬ r2 = r1 := fun e => hne e.symm
  simp [retainerProfile, computeRetainerSet, retainRoots, retainRoot, traverseWorkStack,
    traverseWorkStack_body, traversePop, traversePop_loop, preVisit, twoRootsHeap, Heap.get,
    initState, initializeTraverseStack, traverseMaybeInitClosureData, isTravDataValid,
    setTravDataToZero, isRetainer, isRetainerType, Heap.typeOf, getRetainerFrom,
    traversePushClosure, pushStackElement, retainVisitClosure, retainerSetOf, associate,
    processChildren, traversePushChildren, Function.update, isMember, singleton, hne, hne2,
    popStackElement, rsetOf]

set_option maxHeartbeats 4000000 in
set_option maxRecDepth 10000 in
theorem twoRoots_second_order (r1 r2 : retainer) (hne : r1 ≠ r2) :
    ∃ s, retainerProfile (twoRootsHeap r1 r2) { capabilities := [1, 0] } 20 initState
        = some (.ok s) ∧
      rsetOf s 2 = some (addElement r1 (singleton r2)) := by
  have hne2 : ¬ r2 = r1 := fun e => hne e.symm
  simp [retainerProfile, computeRetainerSet, retainRoots, retainRoot, traverseWorkStack,
    traverseWorkStack_body, traversePop, traversePop_loop, preVisit, twoRootsHeap, Heap.get,
    initState, initializeTraverseStack, traverseMaybeInitClosureData, isTravDataValid,
    setTravDataToZero, isRetainer, isRetainerType, Heap.typeOf, getRetainerFrom,
    traversePushClosure, pushStackElement, retainVisitClosure, retainerSetOf, associate,
    processChildren, traversePushChildren, Function.update, isMember, singleton, hne, hne2,
    popStackElement, rsetOf]

/-- The scenario of two roots sharing a child on the heap of the two roots:
for two mutable variables R1 and R2 with the distinct identities `r1` and `r2`
that both point to the constructor X, a pass that seeds R1 then R2, and a pass
that seeds R2 then R1, both return with a retainer set of X whose elements are
exactly `r1` and `r2`. -/
theorem two_roots_scenario (r1 r2 : retainer) (hne : r1 ≠ r2) :
    (∃ s S, retainerProfile (twoRootsHeap r1 r2) { capabilities := [0, 1] } 20 initState
        = some (.ok s) ∧ rsetOf s 2 = some S ∧ ∀ e, e ∈ S.element ↔ e = r1 ∨ e = r2) ∧
    (∃ s S, retainerProfile (twoRootsHeap r1 r2) { capabilities := [1, 0] } 20 initState
        = some (.ok s) ∧ rsetOf s 2 = some S ∧ ∀ e, e ∈ S.element ↔ e = r1 ∨ e = r2) := by
  obtain ⟨s1, h1, h2⟩ := twoRoots_first_order r1 r2 hne
  obtain ⟨s2, h3, h4⟩ := twoRoots_second_order r1 r2 hne
  refine ⟨⟨s1, _, h1, h2, fun e => ?_⟩, ⟨s2, _, h3, h4, fun e => ?_⟩⟩
  · rw [mem_addElement, mem_singleton]; exact Or.comm
  · rw [mem_addElement, mem_singleton]

theorem two_roots_scenario_witness :
    (31 : retainer) ≠ 32 ∧
    ((∃ s S, retainerProfile (twoRootsHeap 31 32) { capabilities := [0, 1] } 20 initState
        = some (.ok s) ∧ rsetOf s 2 = some S ∧ ∀ e, e ∈ S.element ↔ e = 31 ∨ e = 32) ∧
    (∃ s S, retainerProfile (twoRootsHeap 31 32) { capabilities := [1, 0] } 20 initState
        = some (.ok s) ∧ rsetOf s 2 = some S ∧ ∀ e, e ∈ S.element ↔ e = 31 ∨ e = 32)) :=
  ⟨by decide, two_roots_scenario 31 32 (by decide)⟩

theorem isRetainer_ok_lt (h : Heap) (c : Addr) (b : Bool) (hr : isRetainer h c = .ok b) :
    c < h.closures.length := by
  by_contra hge
  have hge2 : h.closures.length ≤ c := Nat.le_of_not_lt hge
  have hget : h.get c = { type := INVALID_OBJECT } := by
    unfold Heap.get
    exact List.getD_eq_default _ _ hge2
  unfold isRetainer Heap.typeOf at hr
  rw [hget] at hr
  cases hr

theorem num_le_card (S : RetainerSet) (U : Finset retainer)
    (hsub : ∀ e ∈ S.element, e ∈ U) : S.num ≤ U.card := by
  have hnd : S.element.Nodup := S.sorted.nodup
  have : S.element.toFinset ⊆ U := fun e he => hsub e (List.mem_toFinset.1 he)
  have hc := Finset.card_le_card this
  rw [List.toFinset_card_of_nodup hnd] at hc
  exact hc

theorem num_addElement (r : retainer) (S : RetainerSet) (hm : isMember r S = false) :
    (addElement r S).num = S.num + 1 := by
  unfold isMember at hm
  have hm2 : r ∉ S.element := by simpa using hm
  unfold addElement RetainerSet.num
  simp only [hm2, dite_false]
  exact List.orderedInsert_length _ _ _

theorem visitSet_num (S : RetainerSet) (s : Option RetainerSet) (r : retainer)
    (S1 : RetainerSet) (hv : visitSet (some S) s r = some S1) : S1.num = S.num + 1 := by
  unfold visitSet at hv
  dsimp only at hv
  by_cases hm : isMember r S = true
  · simp [hm] at hv
  · have hm2 : isMember r S = false := by simpa using hm
    simp only [hm2, Bool.false_eq_true, if_false] at hv
    cases s with
    | none =>
      simp only [Option.some.injEq] at hv
      rw [← hv]; exact num_addElement r S hm2
    | some s0 =>
      dsimp only at hv
      split at hv
      · rename_i hnum
        simp only [Option.some.injEq] at hv
        rw [← hv]; exact hnum
      · simp only [Option.some.injEq] at hv
        rw [← hv]; exact num_addElement r S hm2

theorem sum_map_lt (l : List Nat) (f g : Nat → Nat) (hle : ∀ a ∈ l, f a ≤ g a)
    (c : Nat) (hc : c ∈ l) (hlt : f c < g c) : (l.map f).sum < (l.map g).sum := by
  induction l with
  | nil => cases hc
  | cons a l ih =>
    simp only [List.map_cons, List.sum_cons]
    have hle2 : (l.map f).sum ≤ (l.map g).sum :=
      List.sum_le_sum (fun x hx => hle x (List.mem_cons_of_mem _ hx))
    rcases List.mem_cons.1 hc with rfl | hc
    · omega
    · have := ih (fun x hx => hle x (List.mem_cons_of_mem _ hx)) hc
      have := hle a (List.mem_cons_self _ _)
      omega

/-- A visit that associates a retainer set lowers the potential. -/
theorem potential_lt (h : Heap) (U : Finset retainer) (st st1 : RtsState) (c : Addr)
    (S1 : RetainerSet) (s : Option RetainerSet) (r : retainer)
    (hc : c < h.closures.length)
    (hvs : visitSet (rsetOf st c) s r = some S1)
    (hsub : ∀ e ∈ S1.element, e ∈ U)
    (hupd : ∀ a, rsetOf st1 a = if a = c then some S1 else rsetOf st a) :
    potential h U.card st1 < potential h U.card st := by
  unfold potential
  refine sum_map_lt _ _ _ ?_ c (List.mem_range.2 hc) ?_
  · intro a _
    rw [hupd a]
    by_cases hac : a = c
    · subst hac
      simp only [if_true]
      cases hrc : rsetOf st a with
      | none => simp only [slotPot]; omega
      | some S =>
        rw [hrc] at hvs
        have := visitSet_num S s r S1 hvs
        simp only [slotPot]; omega
    · simp [hac]
  · rw [hupd c]
    simp only [if_true]
    cases hrc : rsetOf st c with
    | none => simp only [slotPot]; omega
    | some S =>
      rw [hrc] at hvs
      have h1 := visitSet_num S s r S1 hvs
      have h2 := num_le_card S1 U hsub
      simp only [slotPot]; omega

theorem potential_eq (h : Heap) (u : Nat) (st st1 : RtsState)
    (hsame : ∀ a, rsetOf st1 a = rsetOf st a) : potential h u st1 = potential h u st := by
  unfold potential
  congr 1
  apply List.map_congr_left
  intro a _
  rw [hsame]

theorem runItems_succ_of (h : Heap) (n : Nat) (st : RtsState) (it : Item) (rest : List Item)
    (st1 : RtsState) (new : List Item) (hv : visitItem h st it = .ok (st1, new))
    (hn : runItems h n st1 (new ++ rest) ≠ none) :
    runItems h (n + 1) st (it :: rest) ≠ none := by
  rw [runItems, hv]; exact hn

theorem weight_cons (rank : Addr → Nat) (it : Item) (rest : List Item) :
    weight rank (it :: rest) = 1 + rank it.1 + weight rank rest := by
  simp [weight]

/-- The work list runs to its end from every state in which the termination
invariant holds, when every chain of static indirections comes to an end. -/
theorem runItems_terminates (h : Heap) (U : Finset retainer) (rank : Addr → Nat)
    (hrank : ∀ a, (h.get a).type = IND_STATIC → rank (h.get a).indirectee < rank a) :
    ∀ (p w : Nat) (st : RtsState) (items : List Item), BoundInv h U st items →
      potential h U.card st ≤ p → weight rank items ≤ w →
      ∃ n, runItems h n st items ≠ none := by
  intro p
  induction p using Nat.strong_induction_on with
  | _ p ihp =>
    intro w
    induction w using Nat.strong_induction_on with
    | _ w ihw =>
      intro st items hinv hp hw
      cases items with
      | nil => exact ⟨1, by simp [runItems]⟩
      | cons it rest =>
        obtain ⟨c, cp, d⟩ := it
        obtain ⟨hsets, hdata, hccs⟩ := hinv
        have hd : d.c_child_r ∈ U := hdata _ (List.mem_cons_self _ _)
        have hdrest : ∀ it ∈ rest, it.2.2.c_child_r ∈ U :=
          fun it hm => hdata it (List.mem_cons_of_mem _ hm)
        rw [weight_cons] at hw
        cases hv : visitItem h st (c, cp, d) with
        | error e => exact ⟨1, by simp [runItems, hv]⟩
        | ok res =>
          obtain ⟨st1, new⟩ := res
          rcases visitItem_cases h st c cp d st1 new hv with
            ⟨_, rfl, rfl⟩ | ⟨c1, hpv, rfl, rfl⟩ | ⟨hpv, hflip, cpRet, s, hcp, hs, hcase⟩
          · -- skipped
            obtain ⟨n, hn⟩ := ihw (weight rank rest) (by omega) st1 rest
              ⟨hsets, hdrest, hccs⟩ hp le_rfl
            exact ⟨n + 1, runItems_succ_of h n _ _ _ _ _ hv hn⟩
          · -- a static indirection is followed
            obtain ⟨hty, hc1⟩ := preVisit_follow h c c1 hpv
            have hr := hrank c hty
            rw [← hc1] at hr
            obtain ⟨n, hn⟩ := ihw (weight rank ((c1, cp, d) :: rest))
              (by rw [weight_cons]; dsimp only at hw ⊢; omega) st1 ([(c1, cp, d)] ++ rest)
              ⟨hsets, fun it hm => by
                rcases List.mem_cons.1 hm with rfl | hm
                · exact hd
                · exact hdrest it hm, hccs⟩ hp le_rfl
            exact ⟨n + 1, runItems_succ_of h n _ _ _ _ _ hv hn⟩
          · cases hvs : visitSet (rsetOf st c) s d.c_child_r with
            | none =>
              rw [hvs] at hcase
              obtain ⟨hsame, rfl⟩ := hcase
              obtain ⟨n, hn⟩ := ihw (weight rank rest) (by omega) st1 rest
                ⟨fun a ha S hS => hsets a ha S (by rwa [hsame] at hS), hdrest, hccs⟩
                (by rw [potential_eq h _ st st1 hsame]; exact hp) le_rfl
              exact ⟨n + 1, runItems_succ_of h n _ _ _ _ _ hv hn⟩
            | some S1 =>
              rw [hvs] at hcase
              obtain ⟨hupd, cRet, hc, hchild⟩ := hcase
              have hclt : c < h.closures.length := isRetainer_ok_lt h c cRet hc
              have hcplt : cp < h.closures.length := isRetainer_ok_lt h cp cpRet hcp
              have hS1 : ∀ e ∈ S1.element, e ∈ U := by
                intro e he
                rcases visitSet_mem _ _ _ _ hvs e he with rfl | ⟨S0, hS0, he0⟩ | ⟨S, hS, he0⟩
                · exact hd
                · cases cpRet with
                  | true => rw [hs] at hS0; simp at hS0
                  | false =>
                    simp only [Bool.false_eq_true, if_false] at hs
                    exact hsets cp hcplt S0 (by rw [← hs, hS0]) e he0
                · exact hsets c hclt S hS e he0
              have hlt := potential_lt h U st st1 c S1 s d.c_child_r hclt hvs hS1 hupd
              have hnew : ∀ it ∈ new, it.2.2.c_child_r ∈ U := by
                intro it hm
                cases hvc : visitChild (rsetOf st c) cRet (getRetainerFrom h c) d.c_child_r with
                | none => rw [hvc] at hchild; dsimp only at hchild; subst hchild; simp at hm
                | some cd =>
                  rw [hvc] at hchild
                  obtain ⟨l, _, rfl⟩ := hchild
                  obtain ⟨x, _, rfl⟩ := (mem_itemsFor c cd l it).1 hm
                  show cd.c_child_r ∈ U
                  rcases visitChild_some _ _ _ _ _ hvc with ⟨_, hcd, _⟩ | ⟨_, hcd⟩
                  · rw [hcd]; exact hccs c hclt
                  · rw [hcd]; exact hd
              obtain ⟨n, hn⟩ := ihp (potential h U.card st1) (by omega)
                (weight rank (new ++ rest)) st1 (new ++ rest)
                ⟨fun a ha S hS e he => by
                  rw [hupd] at hS
                  by_cases hac : a = c
                  · simp only [hac, if_true, Option.some.injEq] at hS
                    subst hS; exact hS1 e he
                  · simp only [hac, if_false] at hS
                    exact hsets a ha S hS e he,
                 fun it hm => by
                  rcases List.mem_append.1 hm with hm | hm
                  · exact hnew it hm
                  · exact hdrest it hm, hccs⟩ le_rfl le_rfl
              exact ⟨n + 1, runItems_succ_of h n _ _ _ _ _ hv hn⟩

/-- When every chain of static indirections comes to an end, the length of
the chain is a rank that falls along every static indirection. -/
theorem exists_rank (h : Heap) (hind : IndChainsEnd h) :
    ∃ rank : Addr → Nat,
      ∀ a, (h.get a).type = IND_STATIC → rank (h.get a).indirectee < rank a := by
  classical
  refine ⟨fun a => Nat.find (hind a), fun a hty => ?_⟩
  show Nat.find (hind (h.get a).indirectee) < Nat.find (hind a)
  have hspec := Nat.find_spec (hind a)
  cases hk : Nat.find (hind a) with
  | zero =>
    rw [hk] at hspec
    exact absurd hty hspec
  | succ k =>
    rw [hk] at hspec
    rw [Function.iterate_succ_apply] at hspec
    have := Nat.find_min' (hind (h.get a).indirectee) hspec
    omega

/-- The work list runs to its end from every state and every list of items,
when every chain of static indirections comes to an end. -/
theorem runItems_terminates_all (h : Heap) (hind : IndChainsEnd h) (st : RtsState)
    (items : List Item) : ∃ n, runItems h n st items ≠ none := by
  classical
  obtain ⟨rank, hrank⟩ := exists_rank h hind
  let U : Finset retainer :=
    ((Finset.range h.closures.length).image (getRetainerFrom h)) ∪
      (items.map fun it => it.2.2.c_child_r).toFinset ∪
      (Finset.range h.closures.length).biUnion fun a =>
        match rsetOf st a with
        | some S => S.element.toFinset
        | none => ∅
  refine runItems_terminates h U rank hrank _ _ st items ⟨?_, ?_, ?_⟩ le_rfl le_rfl
  · intro a ha S hS e he
    refine Finset.mem_union_right _ (Finset.mem_biUnion.2 ⟨a, Finset.mem_range.2 ha, ?_⟩)
    rw [hS]
    exact List.mem_toFinset.2 he
  · intro it hm
    refine Finset.mem_union_left _ (Finset.mem_union_right _ (List.mem_toFinset.2 ?_))
    exact List.mem_map.2 ⟨it, hm, rfl⟩
  · intro a ha
    exact Finset.mem_union_left _ (Finset.mem_union_left _
      (Finset.mem_image.2 ⟨a, Finset.mem_range.2 ha, rfl⟩))

/-- C3 (termination), as amended: for every heap in which every chain of
static indirections comes to an end, every state and every root, `retainRoot`
terminates: with enough fuel it returns or aborts with a fatal error. -/
theorem retainRoot_terminates (h : Heap) (st : RtsState) (tl : Addr)
    (hind : IndChainsEnd h) : ∃ fuel, retainRoot h fuel st tl ≠ none := by
  cases hs : seedOf h tl with
  | error e => exact ⟨0, by rw [retainRoot_eq, hs]; simp⟩
  | ok data =>
    obtain ⟨n, hn⟩ := runItems_terminates_all h hind
      ((traverseMaybeInitClosureData st tl).withTs
        { stack := freshElem tl data tl :: st.ts.stack,
          currentStackBoundary := st.ts.stack.length })
      [(tl, tl, data)]
    obtain ⟨fuel, hf⟩ := runItems_traverseWorkStack h st.ts.stack n Label.loop _
      [freshElem tl data tl] rfl rfl (AllOK_fresh h tl data [tl]) hn
    exact ⟨fuel, by rw [retainRoot_eq, hs]; exact hf⟩

theorem indHeap_chains_end : IndChainsEnd indHeap := by
  intro a
  rcases a with _ | _ | _ | a
  · exact ⟨0, by decide⟩
  · exact ⟨1, by decide⟩
  · exact ⟨0, by decide⟩
  · refine ⟨0, ?_⟩
    simp [Heap.typeOf, Heap.get, indHeap]

theorem retainRoot_terminates_witness :
    IndChainsEnd indHeap ∧ ∃ fuel, retainRoot indHeap fuel (beginPass initState) 0 ≠ none :=
  ⟨indHeap_chains_end, retainRoot_terminates indHeap (beginPass initState) 0 indHeap_chains_end⟩

theorem indLoop_inner (d : stackData) :
    ∀ (fuel : Nat) (st : RtsState),
      traverseWorkStack indLoopHeap fuel (Label.inner_loop 0 0 d) st = none
  | 0, _ => rfl
  | fuel + 1, st => by
    rw [traverseWorkStack_succ]
    have : traverseWorkStack_body indLoopHeap (Label.inner_loop 0 0 d) st
        = Jump.goto (Label.inner_loop 0 0 d) st := rfl
    rw [this]
    exact indLoop_inner d fuel st

/-- C3 (termination), as stated, fails: on the heap whose only closure is a
static indirection that points to itself, `retainRoot` on that closure does
not terminate, whatever the fuel. -/
theorem retainRoot_loops_on_indLoopHeap :
    ¬ ∃ fuel, retainRoot indLoopHeap fuel (beginPass initState) 0 ≠ none := by
  rintro ⟨fuel, hf⟩
  apply hf
  cases fuel with
  | zero => rfl
  | succ fuel =>
    have : retainRoot indLoopHeap (fuel + 1) (beginPass initState) 0
        = traverseWorkStack indLoopHeap fuel (Label.inner_loop 0 0 { c_child_r := 1 })
            ((traverseMaybeInitClosureData (beginPass initState) 0).withTs
              { stack := [], currentStackBoundary := 0 }) := rfl
    rw [this]
    exact indLoop_inner _ fuel _

theorem visitSet_none (rc s : Option RetainerSet) (r : retainer)
    (hv : visitSet rc s r = none) : ∃ S, rc = some S := by
  unfold visitSet at hv
  cases rc with
  | none => cases s <;> simp at hv
  | some S => exact ⟨S, rfl⟩

theorem visitSet_nonempty (rc s : Option RetainerSet) (r : retainer) (S1 : RetainerSet)
    (hv : visitSet rc s r = some S1) (hs : ∀ S0, s = some S0 → S0.element ≠ []) :
    S1.element ≠ [] := by
  intro hnil
  have hno : ∀ e, e ∉ S1.element := by rw [hnil]; simp
  unfold visitSet at hv
  have hadd : ∀ S, (addElement r S) = S1 → False := fun S hS =>
    hno r (by rw [← hS]; exact (mem_addElement r r S).2 (Or.inl rfl))
  cases rc with
  | none =>
    cases s with
    | none =>
      simp only [Option.some.injEq] at hv
      exact hno r (by rw [← hv]; exact (mem_singleton r r).2 rfl)
    | some S0 =>
      simp only [Option.some.injEq] at hv
      exact hs S0 rfl (by rw [hv]; exact hnil)
  | some S =>
    dsimp only at hv
    split at hv
    · cases hv
    · cases s with
      | none =>
        simp only [Option.some.injEq] at hv
        exact hadd S hv
      | some S0 =>
        dsimp only at hv
        split at hv
        · simp only [Option.some.injEq] at hv
          exact hs S0 rfl (by rw [hv]; exact hnil)
        · simp only [Option.some.injEq] at hv
          exact hadd S hv

/-- A closure that was settled or waiting before an item is settled or
waiting after it, when no retainer set was lost, the closure of the item is
taken care of, and the other items are still pending. -/
theorem handled_step (h : Heap) (st st1 : RtsState) (c cp : Addr) (d : stackData)
    (rest new : List Item)
    (hmono : ∀ a, (rsetOf st a).isSome = true → (rsetOf st1 a).isSome = true)
    (hhead : preVisit h c = PreVisit.skip ∨ (rsetOf st1 c).isSome = true ∨
      ((h.get c).type = IND_STATIC ∧ ∃ it ∈ new, it.1 = (h.get c).indirectee))
    (x : Addr) (hx : Settled h st x ∨ Waiting h ((c, cp, d) :: rest) x) :
    Settled h st1 x ∨ Waiting h (new ++ rest) x := by
  rcases hx with ⟨y, hy, hskip | hset⟩ | ⟨it, hm, hreach⟩
  · exact Or.inl ⟨y, hy, Or.inl hskip⟩
  · exact Or.inl ⟨y, hy, Or.inr (hmono y hset)⟩
  · rcases List.mem_cons.1 hm with rfl | hm
    · rcases hhead with hskip | hset | ⟨hty, it1, hm1, hit1⟩
      · exact Or.inl ⟨c, hreach, Or.inl hskip⟩
      · exact Or.inl ⟨c, hreach, Or.inr hset⟩
      · refine Or.inr ⟨it1, List.mem_append_left _ hm1, ?_⟩
        rw [hit1]
        exact IndReach.step x c hreach hty
    · exact Or.inr ⟨it, List.mem_append_right _ hm, hreach⟩

/-- Every item keeps the coverage invariant. -/
theorem CoverInv_step (h : Heap) (done : List Addr) (st : RtsState) (it : Item)
    (rest : List Item) (st1 : RtsState) (new : List Item)
    (hinv : CoverInv h done st (it :: rest)) (hv : visitItem h st it = .ok (st1, new)) :
    CoverInv h done st1 (new ++ rest) := by
  obtain ⟨c, cp, d⟩ := it
  obtain ⟨hroots, hsets, hne⟩ := hinv
  rcases visitItem_cases h st c cp d st1 new hv with
    ⟨hpv, rfl, rfl⟩ | ⟨c1, hpv, rfl, rfl⟩ | ⟨hpv, hflip, cpRet, s, hcp, hs, hcase⟩
  · have key := handled_step h st1 st1 c cp d rest [] (fun a ha => ha) (Or.inl hpv)
    exact ⟨fun ρ hρ => key ρ (hroots ρ hρ),
      fun a ha => ⟨(hsets a ha).1, fun l hl x hx => key x ((hsets a ha).2 l hl x hx)⟩, hne⟩
  · obtain ⟨hty, hc1⟩ := preVisit_follow h c c1 hpv
    have key := handled_step h st1 st1 c cp d rest [(c1, cp, d)] (fun a ha => ha)
      (Or.inr (Or.inr ⟨hty, (c1, cp, d), List.mem_singleton_self _, hc1⟩))
    exact ⟨fun ρ hρ => key ρ (hroots ρ hρ),
      fun a ha => ⟨(hsets a ha).1, fun l hl x hx => key x ((hsets a ha).2 l hl x hx)⟩, hne⟩
  · cases hvs : visitSet (rsetOf st c) s d.c_child_r with
    | none =>
      rw [hvs] at hcase
      obtain ⟨hsame, rfl⟩ := hcase
      obtain ⟨S, hS⟩ := visitSet_none _ _ _ hvs
      have key := handled_step h st st1 c cp d rest [] (fun a ha => by rw [hsame]; exact ha)
        (Or.inr (Or.inl (by rw [hsame, hS]; rfl)))
      refine ⟨fun ρ hρ => key ρ (hroots ρ hρ), fun a ha => ?_, fun a S ha => ?_⟩
      · rw [hsame] at ha
        exact ⟨(hsets a ha).1, fun l hl x hx => key x ((hsets a ha).2 l hl x hx)⟩
      · rw [hsame] at ha; exact hne a S ha
    | some S1 =>
      rw [hvs] at hcase
      obtain ⟨hupd, cRet, hc, hchild⟩ := hcase
      have hmono : ∀ a, (rsetOf st a).isSome = true → (rsetOf st1 a).isSome = true := by
        intro a ha
        rw [hupd]
        split
        · rfl
        · exact ha
      have hcset : (rsetOf st1 c).isSome = true := by rw [hupd]; simp
      have key := handled_step h st st1 c cp d rest new hmono (Or.inr (Or.inl hcset))
      refine ⟨fun ρ hρ => key ρ (hroots ρ hρ), fun a ha => ?_, fun a S ha => ?_⟩
      · by_cases hold : (rsetOf st a).isSome = true
        · exact ⟨(hsets a hold).1, fun l hl x hx => key x ((hsets a hold).2 l hl x hx)⟩
        · have hac : a = c := by
            by_contra hac
            rw [hupd] at ha
            simp only [hac, if_false] at ha
            exact hold ha
          subst hac
          have hrc : rsetOf st a = none := by
            cases hr : rsetOf st a with
            | none => rfl
            | some S => rw [hr] at hold; simp at hold
          refine ⟨hpv, fun l hl x hx => Or.inr ?_⟩
          rw [hrc] at hchild
          simp only [visitChild] at hchild
          obtain ⟨l1, hl1, rfl⟩ := hchild
          rw [hl] at hl1
          simp only [Except.ok.injEq] at hl1
          subst hl1
          exact ⟨(x, a, _), List.mem_append_left _ ((mem_itemsFor _ _ _ _).2 ⟨x, hx, rfl⟩),
            IndReach.refl x⟩
      · rw [hupd] at ha
        by_cases hac : a = c
        · simp only [hac, if_true, Option.some.injEq] at ha
          subst ha
          refine visitSet_nonempty _ _ _ _ hvs ?_
          intro S0 hS0
          cases cpRet with
          | true => rw [hs] at hS0; simp at hS0
          | false =>
            simp only [Bool.false_eq_true, if_false] at hs
            exact hne cp S0 (by rw [← hs, hS0])
        · simp only [hac, if_false] at ha
          exact hne a S ha

theorem preVisit_ind (h : Heap) (a : Addr) (hty : (h.get a).type = IND_STATIC) :
    preVisit h a = PreVisit.follow (h.get a).indirectee := by
  unfold preVisit
  simp only [hty]

theorem IndReach_cases (h : Heap) (a y : Addr) (hr : IndReach h a y) :
    y = a ∨ ((h.get a).type = IND_STATIC ∧ IndReach h (h.get a).indirectee y) := by
  induction hr with
  | refl => exact Or.inl rfl
  | step m _ hty ih =>
    right
    rcases ih with rfl | ⟨hta, hreach⟩
    · exact ⟨hty, IndReach.refl _⟩
    · exact ⟨hta, IndReach.step _ m hreach hty⟩

/-- With no item pending, the coverage invariant settles every closure that
the pass reaches. -/
theorem reach_settled (h : Heap) (roots : List Addr) (st : RtsState)
    (hinv : CoverInv h roots st []) (c : Addr) (hc : Reach h roots c) : Settled h st c := by
  obtain ⟨hroots, hsets, _⟩ := hinv
  have hnow : ∀ x, Settled h st x ∨ Waiting h [] x → Settled h st x := by
    rintro x (hx | ⟨it, hm, _⟩)
    · exact hx
    · cases hm
  induction hc with
  | root ρ hρ => exact hnow ρ (hroots ρ hρ)
  | ind a _ hty ih =>
    obtain ⟨y, hy, hfin⟩ := ih
    rcases IndReach_cases h a y hy with rfl | ⟨_, hreach⟩
    · exfalso
      have hpv := preVisit_ind h y hty
      rcases hfin with hskip | hset
      · rw [hpv] at hskip; cases hskip
      · have := (hsets y hset).1
        rw [hpv] at this; cases this
    · exact ⟨y, hreach, hfin⟩
  | child a c l _ hpv hl hcl ih =>
    obtain ⟨y, hy, hfin⟩ := ih
    have hya : y = a := by
      rcases IndReach_cases h a y hy with rfl | ⟨hty, _⟩
      · rfl
      · exact absurd hty (preVisit_visit_type h a hpv).2
    subst hya
    rcases hfin with hskip | hset
    · rw [hpv] at hskip; cases hskip
    · exact hnow c ((hsets y hset).2 l hl c hcl)

theorem settled_visit (h : Heap) (st : RtsState) (c : Addr) (hs : Settled h st c)
    (hpv : preVisit h c = PreVisit.visit) : (rsetOf st c).isSome = true := by
  obtain ⟨y, hy, hfin⟩ := hs
  have hyc : y = c := by
    rcases IndReach_cases h c y hy with rfl | ⟨hty, _⟩
    · rfl
    · exact absurd hty (preVisit_visit_type h c hpv).2
  subst hyc
  rcases hfin with hskip | hset
  · rw [hpv] at hskip; cases hskip
  · exact hset

theorem settled_mono (h : Heap) (st st1 : RtsState) (x : Addr)
    (hsame : ∀ a, rsetOf st1 a = rsetOf st a) (hs : Settled h st x) : Settled h st1 x := by
  obtain ⟨y, hy, hfin⟩ := hs
  exact ⟨y, hy, by rw [hsame]; exact hfin⟩

/-- The coverage invariant holds after every root. -/
theorem retainRoot_cover (h : Heap) (done : List Addr) (fuel : Nat) (st st1 : RtsState)
    (tl : Addr) (hinv : CoverInv h done st [])
    (hr : retainRoot h fuel st tl = some (.ok st1)) : CoverInv h (done ++ [tl]) st1 [] := by
  refine (retainRoot_invariant h (CoverInv h (done ++ [tl])) (CoverInv_step h _)
    (fun st t items hP => hP) fuel st st1 tl ?_ hr).1
  intro data _
  obtain ⟨hroots, hsets, hne⟩ := hinv
  have hnow : ∀ x, Settled h st x ∨ Waiting h [] x →
      Settled h (traverseMaybeInitClosureData st tl) x ∨ Waiting h [(tl, tl, data)] x := by
    rintro x (hx | ⟨it, hm, _⟩)
    · exact Or.inl (settled_mono h st _ x (fun a => rsetOf_init st tl a) hx)
    · cases hm
  refine ⟨fun ρ hρ => ?_, fun a ha => ?_, fun a S ha => ?_⟩
  · rcases List.mem_append.1 hρ with hρ | hρ
    · exact hnow ρ (hroots ρ hρ)
    · simp only [List.mem_singleton] at hρ
      subst hρ
      exact Or.inr ⟨(ρ, ρ, data), List.mem_singleton_self _, IndReach.refl ρ⟩
  · rw [rsetOf_init] at ha
    exact ⟨(hsets a ha).1, fun l hl x hx => hnow x ((hsets a ha).2 l hl x hx)⟩
  · rw [rsetOf_init] at ha
    exact hne a S ha

/-- The coverage invariant holds after a pass that started from a clean
state. -/
theorem retainerProfile_cover (h : Heap) (roots : Roots) (fuel : Nat) (st st1 : RtsState)
    (hclean : Clean st) (hrun : retainerProfile h roots fuel st = some (.ok st1)) :
    CoverInv h roots.all st1 [] := by
  obtain ⟨s, hs, hsame⟩ := retainerProfile_ok h roots fuel st st1 hrun
  have hQ := retainRoots_invariant h fuel (fun done st0 => CoverInv h done st0 [])
    (fun done st0 tl st2 hQ hr => retainRoot_cover h done fuel st0 st2 tl hQ hr)
    roots.all [] (beginPass st) s ?_ hs
  · rw [List.nil_append] at hQ
    obtain ⟨hroots, hsets, hne⟩ := hQ
    have hnow : ∀ x, Settled h s x ∨ Waiting h [] x → Settled h st1 x ∨ Waiting h [] x :=
      fun x hx => hx.imp (settled_mono h s st1 x hsame) id
    refine ⟨fun ρ hρ => hnow ρ (hroots ρ hρ), fun a ha => ?_, fun a S ha => ?_⟩
    · rw [hsame] at ha
      exact ⟨(hsets a ha).1, fun l hl x hx => hnow x ((hsets a ha).2 l hl x hx)⟩
    · rw [hsame] at ha; exact hne a S ha
  · refine ⟨fun ρ hρ => (by cases hρ), fun a ha => ?_, fun a S ha => ?_⟩
    · rw [rsetOf_beginPass st hclean] at ha; cases ha
    · rw [rsetOf_beginPass st hclean] at ha; cases ha

/-- C4 (every reachable closure has a sound, non-empty retainer set), as
amended: after a pass that started from a clean state, every closure that
the pass reaches from the roots through closures that it visits, and that is
itself visited (neither skipped nor a static indirection), has a retainer
set; the set is not empty, and every element of it is the identity of a
retainer that reaches the closure, or the seed `CCS_SYSTEM` of a root that is
not a retainer. -/
theorem reached_closures_have_sets (h : Heap) (roots : Roots) (fuel : Nat)
    (st st1 : RtsState) (hclean : Clean st)
    (hend : isRetainer h h.END_TSO_QUEUE ≠ .ok true)
    (hrun : retainerProfile h roots fuel st = some (.ok st1))
    (c : Addr) (hreach : Reach h roots.all c) (hvis : preVisit h c = PreVisit.visit) :
    ∃ S, rsetOf st1 c = some S ∧ S.element ≠ [] ∧ ∀ e ∈ S.element,
      (∃ p, isRetainer h p = .ok true ∧ getRetainerFrom h p = e ∧
          ((p = c ∧ c ∈ roots.all) ∨ NRPath h p c)) ∨
        ∃ ρ, ρ ∈ roots.all ∧ isRetainer h ρ ≠ .ok true ∧ e = h.CCS_SYSTEM ∧
          (ρ = c ∨ NRPath h ρ c) := by
  have hinv := retainerProfile_cover h roots fuel st st1 hclean hrun
  have hset := settled_visit h st1 c (reach_settled h roots.all st1 hinv c hreach) hvis
  cases hS : rsetOf st1 c with
  | none => rw [hS] at hset; cases hset
  | some S =>
    exact ⟨S, rfl, hinv.2.2 c S hS, fun e he =>
      Just_to_claim h roots.all hend e c
        (retainerProfile_just h roots fuel st st1 hclean hrun c S hS e he)⟩

/-- C4, as stated, fails on `indHeap` with the roots 0 and 2: the static
indirection 1 is a child of the root 0, yet it has no retainer set after the
pass; and the retainer set of the root 2, which is not a retainer, holds the
seed `CCS_SYSTEM` (here 1), which is the identity of no retainer. -/
theorem reachable_without_set_on_indHeap :
    retainerProfile indHeap { capabilities := [0, 2] } 100 initState
        = some (.ok (passResult indHeap { capabilities := [0, 2] } 100 initState)) ∧
      childrenOf indHeap 0 = .ok [1] ∧
      rsetOf (passResult indHeap { capabilities := [0, 2] } 100 initState) 1 = none ∧
      rsetOf (passResult indHeap { capabilities := [0, 2] } 100 initState) 2
        = some (RetainerSet.ofList [1, 40]) ∧
      indHeap.CCS_SYSTEM = 1 ∧
      ¬ ∃ p, isRetainer indHeap p = .ok true ∧ getRetainerFrom indHeap p = 1 := by
  refine ⟨rfl, by decide, by decide, by decide, rfl, ?_⟩
  rintro ⟨p, h1, h2⟩
  rcases p with _ | _ | _ | p
  · revert h2; decide
  · revert h1; decide
  · revert h1; decide
  · have := isRetainer_ok_lt indHeap _ true h1
    exact Nat.not_lt.2 (Nat.le_add_left 3 p) this

theorem reached_closures_have_sets_witness :
    Clean initState ∧ isRetainer indHeap indHeap.END_TSO_QUEUE ≠ .ok true ∧
      retainerProfile indHeap { capabilities := [0, 2] } 100 initState
        = some (.ok (passResult indHeap { capabilities := [0, 2] } 100 initState)) ∧
      Reach indHeap ({ capabilities := [0, 2] } : Roots).all 2 ∧
      preVisit indHeap 2 = PreVisit.visit ∧
      ∃ S, rsetOf (passResult indHeap { capabilities := [0, 2] } 100 initState) 2 = some S ∧
        S.element ≠ [] ∧ ∀ e ∈ S.element,
          (∃ p, isRetainer indHeap p = .ok true ∧ getRetainerFrom indHeap p = e ∧
              ((p = 2 ∧ 2 ∈ ({ capabilities := [0, 2] } : Roots).all) ∨ NRPath indHeap p 2)) ∨
            ∃ ρ, ρ ∈ ({ capabilities := [0, 2] } : Roots).all ∧
              isRetainer indHeap ρ ≠ .ok true ∧ e = indHeap.CCS_SYSTEM ∧
              (ρ = 2 ∨ NRPath indHeap ρ 2) :=
  have hreach : Reach indHeap ({ capabilities := [0, 2] } : Roots).all 2 :=
    Reach.ind 1 (Reach.child 0 1 [1] (Reach.root 0 (by decide)) (by decide) (by decide)
      (by decide)) (by decide)
  ⟨initState_clean, by decide, rfl, hreach, by decide,
    reached_closures_have_sets indHeap { capabilities := [0, 2] } 100 initState _
      initState_clean (by decide) rfl 2 hreach (by decide)⟩

theorem RetainerSet.ext_element (S T : RetainerSet) (he : S.element = T.element) : S = T := by
  cases S; cases T
  simp only [RetainerSet.mk.injEq]
  exact he

theorem eq_singleton_of_forall (S : RetainerSet) (r : retainer) (hne : S.element ≠ [])
    (hall : ∀ e ∈ S.element, e = r) : S = singleton r := by
  apply RetainerSet.ext_element
  have hnd : S.element.Nodup := S.sorted.nodup
  show S.element = [r]
  cases hl : S.element with
  | nil => exact absurd hl hne
  | cons a l =>
    rw [hl] at hall hnd
    have ha : a = r := hall a (List.mem_cons_self _ _)
    subst ha
    cases l with
    | nil => rfl
    | cons b l =>
      have hb : b = a := hall b (List.mem_cons_of_mem _ (List.mem_cons_self _ _))
      subst hb
      simp at hnd

theorem seedOf_retainer (h : Heap) (R : Addr) (hret : isRetainer h R = .ok true)
    (hend : R ≠ h.END_TSO_QUEUE) : seedOf h R = .ok { c_child_r := getRetainerFrom h R } := by
  unfold seedOf
  simp only [hend, ne_eq, not_false_eq_true, if_true, hret]

/-- C10 (cycle safety), as amended: let R be a retainer root, seeded by
`retainRoot` in a state in which no closure has a retainer set yet, and let
`c` be a closure (for instance a member of a cycle of non-retainers) that the
traversal reaches from R and visits, so that `c` is not a static indirection,
and that no retainer other than R reaches without a retainer in between.
Then `retainRoot` returns with the retainer set of `c` exactly
{identity of R}. -/
theorem cycle_members_get_root (h : Heap) (fuel : Nat) (st st1 : RtsState) (R c : Addr)
    (hfresh : ∀ a, rsetOf st a = none)
    (hret : isRetainer h R = .ok true) (hend : R ≠ h.END_TSO_QUEUE)
    (hrun : retainRoot h fuel st R = some (.ok st1))
    (hreach : Reach h [R] c) (hvis : preVisit h c = PreVisit.visit)
    (honly : ∀ p, isRetainer h p = .ok true → NRPath h p c → p = R) :
    rsetOf st1 c = some (singleton (getRetainerFrom h R)) := by
  have hsound := retainRoot_sound h [R] fuel st st1 R (List.mem_singleton_self R)
    (fun a S ha => by rw [hfresh] at ha; cases ha) hrun
  have hcover : CoverInv h ([] ++ [R]) st1 [] :=
    retainRoot_cover h [] fuel st st1 R
      ⟨fun ρ hρ => (by cases hρ), fun a ha => (by rw [hfresh] at ha; cases ha),
        fun a S ha => (by rw [hfresh] at ha; cases ha)⟩ hrun
  rw [List.nil_append] at hcover
  have hset := settled_visit h st1 c (reach_settled h [R] st1 hcover c hreach) hvis
  cases hS : rsetOf st1 c with
  | none => rw [hS] at hset; cases hset
  | some S =>
    have hall : ∀ e ∈ S.element, e = getRetainerFrom h R := by
      intro e he
      rcases hsound c S hS e he with ⟨p, hp, hpe, hpath⟩ | ⟨ρ, hρ, hseed, _⟩
      · rw [← hpe, honly p hp hpath]
      · simp only [List.mem_singleton] at hρ
        subst hρ
        rw [seedOf_retainer h ρ hret hend] at hseed
        simp only [Except.ok.injEq, stackData.mk.injEq] at hseed
        exact hseed.symm
    rw [eq_singleton_of_forall S _ (hcover.2.2 c S hS) hall]

theorem cycleHeap_only_retainer (p : Addr) (hp : isRetainer cycleHeap p = .ok true) :
    p = 0 := by
  rcases p with _ | _ | _ | _ | p
  · rfl
  · revert hp; decide
  · revert hp; decide
  · revert hp; decide
  · exact absurd (isRetainer_ok_lt cycleHeap _ true hp)
      (Nat.not_lt.2 (Nat.le_add_left 4 p))

theorem cycle_members_get_root_witness :
    (∀ a, rsetOf (beginPass initState) a = none) ∧
      isRetainer cycleHeap 0 = .ok true ∧ 0 ≠ cycleHeap.END_TSO_QUEUE ∧
      retainRoot cycleHeap 100 (beginPass initState) 0
        = some (.ok (rootResult cycleHeap 100 (beginPass initState) 0)) ∧
      Reach cycleHeap [0] 3 ∧ preVisit cycleHeap 3 = PreVisit.visit ∧
      (∀ p, isRetainer cycleHeap p = .ok true → NRPath cycleHeap p 3 → p = 0) ∧
      rsetOf (rootResult cycleHeap 100 (beginPass initState) 0) 3
        = some (singleton (getRetainerFrom cycleHeap 0)) :=
  have hreach : Reach cycleHeap [0] 3 :=
    Reach.child 1 3 [2, 3]
      (Reach.child 0 1 [1] (Reach.root 0 (by decide)) (by decide) (by decide) (by decide))
      (by decide) (by decide) (by decide)
  ⟨rsetOf_beginPass initState initState_clean, by decide, by decide, rfl, hreach, by decide,
    fun p hp _ => cycleHeap_only_retainer p hp,
    cycle_members_get_root cycleHeap 100 (beginPass initState) _ 0 3
      (rsetOf_beginPass initState initState_clean) (by decide) (by decide) rfl hreach
      (by decide) (fun p hp _ => cycleHeap_only_retainer p hp)⟩

/-- C10, as stated, fails on `cycleHeap`: the closures 1 and 2 form a cycle of
non-retainers that is reached only through the retainer root 0, yet after
`retainRoot` on 0 the member 2, a static indirection, has no retainer set;
the member 1 has the set {60}. -/
theorem ind_static_on_cycle_has_no_set :
    isRetainer cycleHeap 1 = .ok false ∧ isRetainer cycleHeap 2 = .ok false ∧
      childrenOf cycleHeap 1 = .ok [2, 3] ∧
      (cycleHeap.get 2).type = IND_STATIC ∧ (cycleHeap.get 2).indirectee = 1 ∧
      retainRoot cycleHeap 100 (beginPass initState) 0
        = some (.ok (rootResult cycleHeap 100 (beginPass initState) 0)) ∧
      rsetOf (rootResult cycleHeap 100 (beginPass initState) 0) 1 = some (singleton 60) ∧
      rsetOf (rootResult cycleHeap 100 (beginPass initState) 0) 2 = none :=
  ⟨by decide, by decide, by decide, by decide, by decide, rfl, by decide, by decide⟩

/-- The visit callback as a function of what it reads. -/
theorem retainVisitClosure_eq (h : Heap) (st : RtsState) (c cp : Addr) (d : stackData) :
    retainVisitClosure h st c cp d =
      match retainerSetOf st.flip (st.trav c) with
      | .error e => .error e
      | .ok rc =>
        match visitPure rc (isRetainer h cp) (retainerSetOf st.flip (st.trav cp))
            (isRetainer h c) (getRetainerFrom h c) d.c_child_r with
        | .error e => .error e
        | .ok (ns, o) => .ok (visitState st c rc ns, o) := by
  unfold retainVisitClosure visitPure visitState visitSet visitChild
  simp only []
  generalize retainerSetOf st.flip (st.trav c) = a
  generalize isRetainer h cp = b
  generalize retainerSetOf st.flip (st.trav cp) = s0
  generalize isRetainer h c = g
  rcases a with _ | (_ | S) <;> try rfl
  all_goals rcases b with _ | (_ | _) <;> try rfl
  all_goals rcases s0 with _ | (_ | s) <;> try rfl
  all_goals rcases g with _ | (_ | _) <;> try rfl
  all_goals (try simp only [Bool.false_eq_true, if_false, if_true, associate])
  all_goals (try split_ifs) <;> try rfl

theorem retainerSetOf_valid (st : RtsState) (a : Addr) (hv : validAt st a) :
    retainerSetOf st.flip (st.trav a) = .ok (rsetOf st a) := by
  unfold retainerSetOf rsetOf
  unfold validAt at hv
  simp only [hv, if_true]

theorem validAt_init (st : RtsState) (c a : Addr) (hv : validAt st a) :
    validAt (traverseMaybeInitClosureData st c) a := by
  unfold validAt traverseMaybeInitClosureData at *
  by_cases hc : isTravDataValid st.flip (st.trav c) = true
  · simp only [hc, Bool.not_true, Bool.false_eq_true, if_false]; exact hv
  · simp only [hc, Bool.not_false, if_true]
    by_cases hac : a = c
    · subst hac; exact absurd hv hc
    · simp only [Function.update_noteq hac]; exact hv

theorem validAt_init_self (st : RtsState) (c : Addr) :
    validAt (traverseMaybeInitClosureData st c) c := by
  unfold validAt traverseMaybeInitClosureData
  by_cases hc : (st.trav c).lsb = st.flip
  · simp [hc, isTravDataValid]
  · simp [hc, Function.update_same, setTravDataToZero, isTravDataValid]

theorem validAt_visitState (st : RtsState) (c : Addr) (rc ns : Option RetainerSet) (a : Addr)
    (hv : validAt st a) : validAt (visitState st c rc ns) a := by
  unfold validAt visitState at *
  cases ns with
  | none => exact hv
  | some S1 =>
    dsimp only
    by_cases hac : a = c
    · subst hac; simp [Function.update_same, isTravDataValid]
    · simp only [Function.update_noteq hac]; exact hv

theorem rsetOf_visitState (st : RtsState) (c : Addr) (rc ns : Option RetainerSet) (a : Addr) :
    rsetOf (visitState st c rc ns) a =
      match ns with
      | none => rsetOf st a
      | some S1 => if a = c then some S1 else rsetOf st a := by
  cases ns with
  | none => rfl
  | some S1 => exact rsetOf_update st (visitState st c rc (some S1)) c S1 rfl rfl a

theorem validAt_afterItem (st : RtsState) (c : Addr) (o : Option (Option RetainerSet))
    (a : Addr) (hv : validAt st a) : validAt (afterItem st c o) a := by
  cases o with
  | none => exact hv
  | some ns => exact validAt_visitState _ c _ ns a (validAt_init st c a hv)

theorem validAt_afterItem_self (st : RtsState) (c : Addr) (ns : Option RetainerSet) :
    validAt (afterItem st c (some ns)) c :=
  validAt_visitState _ c _ ns c (validAt_init_self st c)

theorem rsetOf_afterItem (st : RtsState) (c : Addr) (o : Option (Option RetainerSet))
    (a : Addr) :
    rsetOf (afterItem st c o) a =
      match o with
      | some (some S1) => if a = c then some S1 else rsetOf st a
      | _ => rsetOf st a := by
  cases o with
  | none => rfl
  | some ns =>
    cases ns with
    | none => exact (rsetOf_visitState _ c _ none a).trans (rsetOf_init st c a)
    | some S1 =>
      rw [afterItem, rsetOf_visitState]
      dsimp only
      rw [rsetOf_init]

/-- The function `visitItem` in terms of the retainer sets, for an item whose
parent has a valid traversal slot. -/
theorem visitItem_eq (h : Heap) (st : RtsState) (it : Item) (hv : validAt st it.2.1) :
    visitItem h st it =
      match visitOutcome h (rsetOf st it.1) (rsetOf st it.2.1) it with
      | .error e => .error e
      | .ok (o, new) => .ok (afterItem st it.1 o, new) := by
  obtain ⟨c, cp, d⟩ := it
  unfold visitItem visitOutcome
  dsimp only
  cases preVisit h c with
  | skip => rfl
  | follow c1 => rfl
  | visit =>
    dsimp only
    rw [retainVisitClosure_eq, retainerSetOf_init_self]
    dsimp only
    have hcp : retainerSetOf (traverseMaybeInitClosureData st c).flip
        ((traverseMaybeInitClosureData st c).trav cp) = .ok (rsetOf st cp) := by
      rw [retainerSetOf_valid _ cp (validAt_init st c cp hv), rsetOf_init]
    rw [hcp]
    cases visitPure (rsetOf st c) (isRetainer h cp) (.ok (rsetOf st cp)) (isRetainer h c)
        (getRetainerFrom h c) d.c_child_r with
    | error e => rfl
    | ok p =>
      obtain ⟨ns, o⟩ := p
      cases o with
      | none => rfl
      | some cd =>
        dsimp only
        cases childrenOf h c <;> rfl

/-- The visit of a closure after the lazy reset, in terms of the retainer
sets, when the parent has a valid traversal slot. -/
theorem retainVisitClosure_view (h : Heap) (st : RtsState) (c cp : Addr) (d : stackData)
    (hv : validAt st cp) :
    retainVisitClosure h (traverseMaybeInitClosureData st c) c cp d =
      match visitPure (rsetOf st c) (isRetainer h cp) (.ok (rsetOf st cp)) (isRetainer h c)
          (getRetainerFrom h c) d.c_child_r with
      | .error e => .error e
      | .ok (ns, o) => .ok (afterItem st c (some ns), o) := by
  rw [retainVisitClosure_eq, retainerSetOf_init_self]
  dsimp only
  have hcp : retainerSetOf (traverseMaybeInitClosureData st c).flip
      ((traverseMaybeInitClosureData st c).trav cp) = .ok (rsetOf st cp) := by
    rw [retainerSetOf_valid _ cp (validAt_init st c cp hv), rsetOf_init]
  rw [hcp]
  cases visitPure (rsetOf st c) (isRetainer h cp) (.ok (rsetOf st cp)) (isRetainer h c)
      (getRetainerFrom h c) d.c_child_r with
  | error e => rfl
  | ok p => rfl

/-- The visit callback, given what it reads: the retainer set `rc` of the
closure, whether the parent is a retainer, the retainer set `s` of a parent
that is not one, and whether the closure is a retainer. -/
theorem retainVisitClosure_reads (h : Heap) (st : RtsState) (c cp : Addr) (d : stackData)
    (rc s : Option RetainerSet) (cpRet cRet : Bool)
    (hrc : retainerSetOf st.flip (st.trav c) = .ok rc)
    (hcp : isRetainer h cp = .ok cpRet)
    (hs : cpRet = false → retainerSetOf st.flip (st.trav cp) = .ok s)
    (hc : isRetainer h c = .ok cRet) :
    retainVisitClosure h st c cp d =
      match visitSet rc (if cpRet then none else s) d.c_child_r with
      | none => .ok (visitState st c rc none, none)
      | some S1 =>
        .ok (visitState st c rc (some S1), visitChild rc cRet (getRetainerFrom h c) d.c_child_r)
        := by
  rw [retainVisitClosure_eq, hrc, hcp, hc]
  unfold visitPure
  cases cpRet with
  | true =>
    simp only [if_true]
    cases visitSet rc none d.c_child_r <;> rfl
  | false =>
    rw [hs rfl]
    simp only [Bool.false_eq_true, if_false]
    cases visitSet rc s d.c_child_r <;> rfl

theorem rsetOf_some_valid (st : RtsState) (a : Addr) (S : RetainerSet)
    (hS : rsetOf st a = some S) : validAt st a := by
  unfold rsetOf at hS
  unfold validAt
  by_cases hv : isTravDataValid st.flip (st.trav a) = true
  · exact hv
  · simp [hv] at hS

theorem init_of_valid (st : RtsState) (c : Addr) (hv : validAt st c) :
    traverseMaybeInitClosureData st c = st := by
  unfold validAt at hv
  unfold traverseMaybeInitClosureData
  simp [hv]

/-- The visit callback on a closure whose retainer set holds the retainer
handed down: only the counter of all visits changes, and the children are
skipped. -/
theorem retainVisitClosure_member (h : Heap) (st : RtsState) (c cp : Addr) (d : stackData)
    (S : RetainerSet) (cpRet : Bool)
    (hset : rsetOf st c = some S) (hmem : isMember d.c_child_r S = true)
    (hcp : isRetainer h cp = .ok cpRet) (hvcp : cpRet = false → validAt st cp) :
    retainVisitClosure h st c cp d =
      .ok ({ st with timesAnyObjectVisited := (st.timesAnyObjectVisited + 1) % 2 ^ 32 },
        none) := by
  have hvc := rsetOf_some_valid st c S hset
  have hrc := retainerSetOf_valid st c hvc
  rw [hset] at hrc
  rw [retainVisitClosure_eq, hrc, hcp]
  unfold visitPure
  cases cpRet with
  | true =>
    simp only [if_true, visitSet, hmem]
    rfl
  | false =>
    rw [retainerSetOf_valid st cp (hvcp rfl)]
    simp only [Bool.false_eq_true, if_false, visitSet, hmem, if_true]
    rfl

/-- C11 (short-circuit correctness): when `traverseWorkStack` is at a closure
`c` that it visits, that has a retainer set already, and the retainer `r`
handed down is a member of that set, then the visit callback returns 1 and
the traversal goes back to the label `loop`, to the next pop, with none of
the children of `c`; the stack is the same (no frame is pushed), and so is the
traversal slot of every closure, the one of `c` included: only the counter of
all visits has advanced. -/
theorem short_circuit_keeps_sets (h : Heap) (st : RtsState) (c cp : Addr) (d : stackData)
    (S : RetainerSet) (cpRet : Bool)
    (hvis : preVisit h c = PreVisit.visit)
    (hset : rsetOf st c = some S) (hmem : isMember d.c_child_r S = true)
    (hcp : isRetainer h cp = .ok cpRet) (hvcp : cpRet = false → validAt st cp) :
    ∃ st1, retainVisitClosure h (traverseMaybeInitClosureData st c) c cp d = .ok (st1, none) ∧
      traverseWorkStack_body h (Label.inner_loop c cp d) st = Jump.goto Label.loop st1 ∧
      st1.ts = st.ts ∧ st1.trav = st.trav ∧ st1.flip = st.flip ∧
      st1.numObjectVisited = st.numObjectVisited ∧
      st1.timesAnyObjectVisited = (st.timesAnyObjectVisited + 1) % 2 ^ 32 ∧
      ∀ a, rsetOf st1 a = rsetOf st a := by
  have hinit := init_of_valid st c (rsetOf_some_valid st c S hset)
  have hv := retainVisitClosure_member h st c cp d S cpRet hset hmem hcp hvcp
  refine ⟨{ st with timesAnyObjectVisited := (st.timesAnyObjectVisited + 1) % 2 ^ 32 },
    ?_, ?_, rfl, rfl, rfl, rfl, rfl, fun _ => rfl⟩
  · rw [hinit]; exact hv
  · rw [body_inner_eq, hvis]
    dsimp only
    rw [hinit, hv]

theorem short_circuit_keeps_sets_witness :
    preVisit scenarioHeap 1 = PreVisit.visit ∧
      rsetOf afterRootR 1 = some (singleton 20) ∧
      isMember 20 (singleton 20) = true ∧
      isRetainer scenarioHeap 0 = .ok true ∧
      ∃ st1, retainVisitClosure scenarioHeap (traverseMaybeInitClosureData afterRootR 1) 1 0
          { c_child_r := 20 } = .ok (st1, none) ∧
        traverseWorkStack_body scenarioHeap (Label.inner_loop 1 0 { c_child_r := 20 })
          afterRootR = Jump.goto Label.loop st1 ∧
        st1.ts = afterRootR.ts ∧ st1.trav = afterRootR.trav ∧ st1.flip = afterRootR.flip ∧
        st1.numObjectVisited = afterRootR.numObjectVisited ∧
        st1.timesAnyObjectVisited = (afterRootR.timesAnyObjectVisited + 1) % 2 ^ 32 ∧
        ∀ a, rsetOf st1 a = rsetOf afterRootR a :=
  ⟨by decide, by decide, by decide, by decide,
    short_circuit_keeps_sets scenarioHeap afterRootR 1 0 { c_child_r := 20 } (singleton 20)
      true (by decide) (by decide) (by decide) (by decide) (fun hf => by cases hf)⟩

/-- C12 (first-visit rule): on a visit to a closure `c` that has no retainer
set yet, and whose reads succeed, `retainVisitClosure` returns with the
retainer set of `c` the one of the parent `cp` when `cp` is not a retainer
and has a retainer set, and `singleton(r)` in every other case. -/
theorem first_visit_rule (h : Heap) (st : RtsState) (c cp : Addr) (d : stackData)
    (cpRet cRet : Bool) (s : Option RetainerSet)
    (hfirst : retainerSetOf st.flip (st.trav c) = .ok none)
    (hcp : isRetainer h cp = .ok cpRet)
    (hs : cpRet = false → retainerSetOf st.flip (st.trav cp) = .ok s)
    (hc : isRetainer h c = .ok cRet) :
    ∃ st1 o, retainVisitClosure h st c cp d = .ok (st1, o) ∧
      rsetOf st1 c = some (match cpRet, s with
        | false, some scp => scp
        | _, _ => singleton d.c_child_r) := by
  have hv := retainVisitClosure_reads h st c cp d none s cpRet cRet hfirst hcp hs hc
  cases cpRet with
  | true =>
    simp only [if_true, visitSet] at hv
    exact ⟨_, _, hv, by rw [rsetOf_visitState]; simp⟩
  | false =>
    cases s with
    | none =>
      simp only [Bool.false_eq_true, if_false, visitSet] at hv
      exact ⟨_, _, hv, by rw [rsetOf_visitState]; simp⟩
    | some scp =>
      simp only [Bool.false_eq_true, if_false, visitSet] at hv
      exact ⟨_, _, hv, by rw [rsetOf_visitState]; simp⟩

theorem first_visit_rule_witness :
    retainerSetOf atFirstVisitOfB.flip (atFirstVisitOfB.trav 2) = .ok none ∧
      isRetainer scenarioHeap 1 = .ok false ∧
      retainerSetOf atFirstVisitOfB.flip (atFirstVisitOfB.trav 1) = .ok (some (singleton 20)) ∧
      isRetainer scenarioHeap 2 = .ok false ∧
      ∃ st1 o, retainVisitClosure scenarioHeap atFirstVisitOfB 2 1 { c_child_r := 20 }
          = .ok (st1, o) ∧
        rsetOf st1 2 = some (singleton 20) :=
  ⟨by decide, by decide, by decide, by decide,
    first_visit_rule scenarioHeap atFirstVisitOfB 2 1 { c_child_r := 20 } false false
      (some (singleton 20)) (by decide) (by decide) (fun _ => by decide) (by decide)⟩

/-- C13 (extension rule): on a visit to a closure `c` that has the retainer
set `Sc` already, with a retainer `r` handed down that is not a member of
`Sc`, and whose reads succeed, `retainVisitClosure` returns with the retainer
set of `c` the set `s` of the parent `cp` when `cp` is not a retainer, has a
retainer set, and `s` has one element more than `Sc`, and `addElement(r, Sc)`
in every other case; in both cases the new set has exactly one element more
than `Sc`. -/
theorem extension_rule (h : Heap) (st : RtsState) (c cp : Addr) (d : stackData)
    (Sc : RetainerSet) (cpRet cRet : Bool) (s : Option RetainerSet)
    (hrep : retainerSetOf st.flip (st.trav c) = .ok (some Sc))
    (hnot : isMember d.c_child_r Sc = false)
    (hcp : isRetainer h cp = .ok cpRet)
    (hs : cpRet = false → retainerSetOf st.flip (st.trav cp) = .ok s)
    (hc : isRetainer h c = .ok cRet) :
    ∃ st1 o S1, retainVisitClosure h st c cp d = .ok (st1, o) ∧
      rsetOf st1 c = some S1 ∧
      S1 = (match cpRet, s with
        | false, some scp =>
          if scp.num = Sc.num + 1 then scp else addElement d.c_child_r Sc
        | _, _ => addElement d.c_child_r Sc) ∧
      S1.num = Sc.num + 1 := by
  have hv := retainVisitClosure_reads h st c cp d (some Sc) s cpRet cRet hrep hcp hs hc
  have hadd := num_addElement d.c_child_r Sc hnot
  cases cpRet with
  | true =>
    simp only [if_true, visitSet, hnot, Bool.false_eq_true, if_false] at hv
    exact ⟨_, _, _, hv, by rw [rsetOf_visitState]; simp, rfl, hadd⟩
  | false =>
    cases s with
    | none =>
      simp only [Bool.false_eq_true, if_false, visitSet, hnot] at hv
      exact ⟨_, _, _, hv, by rw [rsetOf_visitState]; simp, rfl, hadd⟩
    | some scp =>
      simp only [Bool.false_eq_true, if_false, visitSet, hnot] at hv
      by_cases hn : scp.num = Sc.num + 1
      · simp only [hn, if_true] at hv
        refine ⟨_, _, scp, hv, by rw [rsetOf_visitState]; simp, ?_, hn⟩
        simp only [hn, if_true]
      · simp only [hn, if_false] at hv
        refine ⟨_, _, addElement d.c_child_r Sc, hv, by rw [rsetOf_visitState]; simp, ?_, hadd⟩
        simp only [hn, if_false]

theorem extension_rule_witness :
    retainerSetOf afterRootR1.flip (afterRootR1.trav 2) = .ok (some (singleton 30)) ∧
      isMember 31 (singleton 30) = false ∧
      isRetainer (twoRootsHeap 30 31) 1 = .ok true ∧
      isRetainer (twoRootsHeap 30 31) 2 = .ok false ∧
      ∃ st1 o S1, retainVisitClosure (twoRootsHeap 30 31) afterRootR1 2 1 { c_child_r := 31 }
          = .ok (st1, o) ∧
        rsetOf st1 2 = some S1 ∧ S1 = addElement 31 (singleton 30) ∧
        S1.num = (singleton 30).num + 1 :=
  ⟨by decide, by decide, by decide, by decide,
    extension_rule (twoRootsHeap 30 31) afterRootR1 2 1 { c_child_r := 31 } (singleton 30)
      true false none (by decide) (by decide) (by decide) (fun hf => by cases hf) (by decide)⟩

/-- C14 (when the children are skipped): a call of `retainVisitClosure` whose
reads succeed returns, and it returns 1, so that the traversal skips the
children of `c`, exactly when `c` had a retainer set already and either the
retainer `r` handed down is a member of it or `c` is a retainer.  So a
retainer whose set was just extended has its children skipped, and a first
visit never skips. -/
theorem children_skipped_iff (h : Heap) (st : RtsState) (c cp : Addr) (d : stackData)
    (rc s : Option RetainerSet) (cpRet cRet : Bool)
    (hrc : retainerSetOf st.flip (st.trav c) = .ok rc)
    (hcp : isRetainer h cp = .ok cpRet)
    (hs : cpRet = false → retainerSetOf st.flip (st.trav cp) = .ok s)
    (hc : isRetainer h c = .ok cRet) :
    ∃ st1 o, retainVisitClosure h st c cp d = .ok (st1, o) ∧
      (o = none ↔ ∃ Sc, rc = some Sc ∧ (isMember d.c_child_r Sc = true ∨ cRet = true)) := by
  have hv := retainVisitClosure_reads h st c cp d rc s cpRet cRet hrc hcp hs hc
  cases rc with
  | none =>
    have hsome : ∃ S1, visitSet none (if cpRet then none else s) d.c_child_r = some S1 := by
      unfold visitSet
      cases (if cpRet then none else s) with
      | none => exact ⟨_, rfl⟩
      | some x => exact ⟨_, rfl⟩
    obtain ⟨S1, hS1⟩ := hsome
    rw [hS1] at hv
    refine ⟨_, _, hv, ?_⟩
    simp [visitChild]
  | some Sc =>
    by_cases hm : isMember d.c_child_r Sc = true
    · have hnone : visitSet (some Sc) (if cpRet then none else s) d.c_child_r = none := by
        simp [visitSet, hm]
      rw [hnone] at hv
      refine ⟨_, _, hv, ?_⟩
      simp [hm]
    · have hsome : ∃ S1, visitSet (some Sc) (if cpRet then none else s) d.c_child_r
          = some S1 := by
        unfold visitSet
        simp only [hm, Bool.false_eq_true, if_false]
        cases (if cpRet then none else s) with
        | none => exact ⟨_, rfl⟩
        | some x =>
          dsimp only
          split
          · exact ⟨_, rfl⟩
          · exact ⟨_, rfl⟩
      obtain ⟨S1, hS1⟩ := hsome
      rw [hS1] at hv
      refine ⟨_, _, hv, ?_⟩
      cases cRet <;> simp [visitChild, hm]

theorem children_skipped_iff_witness :
    retainerSetOf afterRootR1.flip (afterRootR1.trav 0) = .ok (some (singleton 30)) ∧
      isRetainer (twoRootsHeap 30 31) 1 = .ok true ∧
      isRetainer (twoRootsHeap 30 31) 0 = .ok true ∧
      ∃ st1 o, retainVisitClosure (twoRootsHeap 30 31) afterRootR1 0 1 { c_child_r := 31 }
          = .ok (st1, o) ∧
        (o = none ↔ ∃ Sc, some (singleton 30) = some Sc ∧
          (isMember 31 Sc = true ∨ true = true)) :=
  ⟨by decide, by decide, by decide,
    children_skipped_iff (twoRootsHeap 30 31) afterRootR1 0 1 { c_child_r := 31 }
      (some (singleton 30)) none true true (by decide) (by decide) (fun hf => by cases hf)
      (by decide)⟩

/-- C15 (the retainer handed on to the children): a call of
`retainVisitClosure` whose reads succeed returns, and when it returns 0, so
that the traversal goes on to the children of `c`, the retainer in
`*out_data` is the retainer identity of `c` if `c` had no retainer set yet
and is a retainer, and the retainer `r` that came in in every other case. -/
theorem child_retainer_rule (h : Heap) (st : RtsState) (c cp : Addr) (d : stackData)
    (rc s : Option RetainerSet) (cpRet cRet : Bool)
    (hrc : retainerSetOf st.flip (st.trav c) = .ok rc)
    (hcp : isRetainer h cp = .ok cpRet)
    (hs : cpRet = false → retainerSetOf st.flip (st.trav cp) = .ok s)
    (hc : isRetainer h c = .ok cRet) :
    ∃ st1 o, retainVisitClosure h st c cp d = .ok (st1, o) ∧
      ∀ child_data, o = some child_data →
        child_data.c_child_r =
          if rc = none ∧ cRet = true then getRetainerFrom h c else d.c_child_r := by
  have hv := retainVisitClosure_reads h st c cp d rc s cpRet cRet hrc hcp hs hc
  cases hvs : visitSet rc (if cpRet then none else s) d.c_child_r with
  | none =>
    rw [hvs] at hv
    exact ⟨_, _, hv, fun cd hcd => by cases hcd⟩
  | some S1 =>
    rw [hvs] at hv
    refine ⟨_, _, hv, fun cd hcd => ?_⟩
    cases rc with
    | none =>
      simp only [visitChild, Option.some.injEq] at hcd
      rw [← hcd]
      cases cRet <;> simp
    | some Sc =>
      cases cRet with
      | true => simp [visitChild] at hcd
      | false =>
        simp only [visitChild, Bool.false_eq_true, if_false, Option.some.injEq] at hcd
        rw [← hcd]
        simp

theorem child_retainer_rule_witness :
    retainerSetOf atFirstVisitOfB.flip (atFirstVisitOfB.trav 2) = .ok none ∧
      isRetainer scenarioHeap 1 = .ok false ∧
      retainerSetOf atFirstVisitOfB.flip (atFirstVisitOfB.trav 1) = .ok (some (singleton 20)) ∧
      isRetainer scenarioHeap 2 = .ok false ∧
      retainVisitClosure scenarioHeap atFirstVisitOfB 2 1 { c_child_r := 20 }
        = .ok (visitState atFirstVisitOfB 2 none (some (singleton 20)),
            some { c_child_r := 20 }) ∧
      ∃ st1 o, retainVisitClosure scenarioHeap atFirstVisitOfB 2 1 { c_child_r := 20 }
          = .ok (st1, o) ∧
        ∀ child_data, o = some child_data →
          child_data.c_child_r =
            if (none : Option RetainerSet) = none ∧ false = true
              then getRetainerFrom scenarioHeap 2 else 20 :=
  ⟨by decide, by decide, by decide, by decide, rfl,
    child_retainer_rule scenarioHeap atFirstVisitOfB 2 1 { c_child_r := 20 } none
      (some (singleton 20)) false false (by decide) (by decide) (fun _ => by decide)
      (by decide)⟩

/-- The loop of `traversePop` leaves the stack below the boundary as it is,
whatever the elements above it are, and reports no element only with the
stack back at the boundary. -/
theorem traversePop_loop_keeps (h : Heap) (lower : List stackElement) :
    ∀ (upper stk : List stackElement) (r : Option (Addr × Addr × stackData)),
      traversePop_loop h lower.length (upper ++ lower) = .ok (stk, r) →
      ∃ upper1, stk = upper1 ++ lower ∧ (r = none → upper1 = [])
  | [], stk, r, hr => by
    cases lower with
    | nil =>
      simp only [List.append_nil, traversePop_loop, List.length_nil, if_true, Except.ok.injEq,
        Prod.mk.injEq] at hr
      exact ⟨[], by rw [← hr.1]; rfl, fun _ => rfl⟩
    | cons se rest =>
      simp only [List.nil_append, traversePop_loop, List.length_cons, if_true, Except.ok.injEq,
        Prod.mk.injEq] at hr
      exact ⟨[], by rw [← hr.1]; rfl, fun _ => rfl⟩
  | se :: u, stk, r, hr => by
    have hlen : ¬ ((u ++ lower).length + 1 = lower.length) := by
      rw [List.length_append]; omega
    rw [List.cons_append, traversePop_loop] at hr
    simp only [hlen, if_false] at hr
    by_cases hf : se.info = posTypeFresh
    · simp only [hf, if_true, Except.ok.injEq, Prod.mk.injEq] at hr
      exact ⟨u, hr.1.symm, fun hn => by rw [hn] at hr; cases hr.2⟩
    · simp only [hf, if_false] at hr
      generalize traversePop_switch h se = sw at hr
      cases sw with
      | error e => cases hr
      | ok ps =>
        cases ps with
        | out c last info =>
          simp only [Except.ok.injEq, Prod.mk.injEq] at hr
          refine ⟨if last then u else { se with info := info } :: u, ?_,
            fun hn => by rw [hn] at hr; cases hr.2⟩
          rw [← hr.1]
          cases last <;> rfl
        | depleted =>
          exact traversePop_loop_keeps h lower u stk r hr

/-- Whenever `traverseWorkStack` returns, the stack is back at the boundary
and what was below the boundary is as it was, whatever the elements above the
boundary were. -/
theorem traverseWorkStack_scoped (h : Heap) (lower : List stackElement) :
    ∀ (fuel : Nat) (l : Label) (st : RtsState) (upper : List stackElement) (s : RtsState),
      st.ts.stack = upper ++ lower → st.ts.currentStackBoundary = lower.length →
      traverseWorkStack h fuel l st = some (.ok s) →
      s.ts = { stack := lower, currentStackBoundary := lower.length }
  | 0, _, _, _, _, _, _, hr => by simp [traverseWorkStack] at hr
  | fuel + 1, Label.loop, st, upper, s, hst, hb, hr => by
    rw [traverseWorkStack_succ, body_loop_eq] at hr
    unfold traversePop at hr
    rw [hst, hb] at hr
    cases hp : traversePop_loop h lower.length (upper ++ lower) with
    | error e => rw [hp] at hr; simp at hr
    | ok p =>
      obtain ⟨stk, r⟩ := p
      obtain ⟨upper1, hstk, hnone⟩ := traversePop_loop_keeps h lower upper stk r hp
      rw [hp] at hr
      cases r with
      | none =>
        simp only [Option.some.injEq, Except.ok.injEq] at hr
        rw [← hr, hstk, hnone rfl]
        simp [hb]
      | some x =>
        obtain ⟨c, cp, d⟩ := x
        dsimp only at hr
        exact traverseWorkStack_scoped h lower fuel _ _ upper1 s (by simp [hstk])
          (by simp [hb]) hr
  | fuel + 1, Label.inner_loop c cp d, st, upper, s, hst, hb, hr => by
    rw [traverseWorkStack_succ, body_inner_eq] at hr
    cases hp : preVisit h c with
    | skip =>
      rw [hp] at hr
      exact traverseWorkStack_scoped h lower fuel _ st upper s hst hb hr
    | follow c1 =>
      rw [hp] at hr
      exact traverseWorkStack_scoped h lower fuel _ st upper s hst hb hr
    | visit =>
      rw [hp] at hr
      dsimp only at hr
      cases hv : retainVisitClosure h (traverseMaybeInitClosureData st c) c cp d with
      | error e => rw [hv] at hr; simp at hr
      | ok p =>
        obtain ⟨st1, o⟩ := p
        have hts : st1.ts = st.ts :=
          (retainVisitClosure_ts h _ c cp d st1 o hv).trans
            (traverseMaybeInitClosureData_ts st c)
        rw [hv] at hr
        cases o with
        | none =>
          dsimp only at hr
          exact traverseWorkStack_scoped h lower fuel _ st1 upper s (by rw [hts, hst])
            (by rw [hts, hb]) hr
        | some cd =>
          dsimp only at hr
          have hspec := processChildren_spec h st1.ts c cd (preVisit_visit_type h c hp).1
          cases hch : childrenOf h c with
          | error e =>
            rw [hch] at hspec
            dsimp only at hspec
            rw [hspec] at hr
            simp at hr
          | ok l =>
            rw [hch] at hspec
            obtain ⟨new, fc, hpc, _, _⟩ := hspec
            rw [hpc] at hr
            cases fc with
            | none =>
              dsimp only at hr
              exact traverseWorkStack_scoped h lower fuel _ _ (new ++ upper) s
                (by simp [hts, hst]) (by simp [hts, hb]) hr
            | some first_child =>
              dsimp only at hr
              exact traverseWorkStack_scoped h lower fuel _ _ (new ++ upper) s
                (by simp [hts, hst]) (by simp [hts, hb]) hr

theorem foldl_pushStackElement (frames : List stackElement) (ts : traverseState) :
    frames.foldl pushStackElement ts =
      { stack := frames.reverse ++ ts.stack, currentStackBoundary := ts.currentStackBoundary }
        := by
  induction frames generalizing ts with
  | nil => rfl
  | cons se l ih =>
    rw [List.foldl_cons, ih]
    simp [pushStackElement]

/-- At the boundary `traversePop` hands out no closure and leaves the stack
as it is. -/
theorem traversePop_on_boundary (h : Heap) (ts : traverseState)
    (hb : isOnBoundary ts = true) : traversePop h ts = .ok (ts, none) := by
  obtain ⟨stack, b⟩ := ts
  unfold isOnBoundary at hb
  have hlen : stack.length = b := by simpa using hb
  subst hlen
  unfold traversePop
  cases stack with
  | nil => simp [traversePop_loop]
  | cons se rest => simp [traversePop_loop]

/-- C17 (boundary scoping), as stated, fails: on the heap whose only closure
is a static indirection that points to itself, with the boundary set to the
top of a stack that holds one element and a fresh element for that closure
pushed, `traverseWorkStack` does not return, whatever the fuel. -/
theorem traverseWorkStack_loops_above_boundary :
    ¬ ∃ fuel, traverseWorkStack indLoopHeap fuel Label.loop
      (withOneFrame.withTs
        ([freshElem 0 { c_child_r := 1 } 0].foldl pushStackElement
          { withOneFrame.ts with currentStackBoundary := withOneFrame.ts.stack.length }))
      ≠ none := by
  rintro ⟨fuel, hf⟩
  apply hf
  cases fuel with
  | zero => rfl
  | succ fuel =>
    rw [traverseWorkStack_succ]
    have hb : traverseWorkStack_body indLoopHeap Label.loop
        (withOneFrame.withTs
          ([freshElem 0 { c_child_r := 1 } 0].foldl pushStackElement
            { withOneFrame.ts with currentStackBoundary := withOneFrame.ts.stack.length }))
        = Jump.goto (Label.inner_loop 0 0 { c_child_r := 1 })
            (withOneFrame.withTs
              { withOneFrame.ts with currentStackBoundary := withOneFrame.ts.stack.length })
        := rfl
    rw [hb]
    exact indLoop_inner _ fuel _

/-- C17 (boundary scoping), as amended: let the boundary be set to the current
top of the stack and any elements `frames` be pushed then.  Whenever
`traverseWorkStack` returns from there, the stack is back at the boundary and
is the stack that the boundary was taken on, element by element; and it does
terminate, returning or aborting with a fatal error, when every chain of
static indirections of the heap comes to an end and the elements pushed are
fresh or well-formed cursors.  And whenever the top is at the boundary,
`traversePop` hands out no closure and changes nothing. -/
theorem boundary_scoping (h : Heap) (st : RtsState) (frames : List stackElement) :
    (∀ fuel s, traverseWorkStack h fuel Label.loop
        (st.withTs (frames.foldl pushStackElement
          { st.ts with currentStackBoundary := st.ts.stack.length })) = some (.ok s) →
      s.ts.stack = st.ts.stack ∧ s.ts.currentStackBoundary = st.ts.stack.length ∧
        isOnBoundary s.ts = true) ∧
    (IndChainsEnd h → AllOK h frames →
      ∃ fuel, traverseWorkStack h fuel Label.loop
        (st.withTs (frames.foldl pushStackElement
          { st.ts with currentStackBoundary := st.ts.stack.length })) ≠ none) ∧
    (∀ ts, isOnBoundary ts = true → traversePop h ts = .ok (ts, none)) := by
  refine ⟨fun fuel s hr => ?_, fun hind hok => ?_, fun ts hb => traversePop_on_boundary h ts hb⟩
  · rw [foldl_pushStackElement] at hr
    have := traverseWorkStack_scoped h st.ts.stack fuel Label.loop _ frames.reverse s rfl rfl hr
    rw [this]
    exact ⟨rfl, rfl, by simp [isOnBoundary]⟩
  · rw [foldl_pushStackElement]
    have hok2 : AllOK h frames.reverse := fun se hm => hok se (List.mem_reverse.1 hm)
    obtain ⟨n, hn⟩ := runItems_terminates_all h hind
      (st.withTs { stack := frames.reverse ++ st.ts.stack,
                   currentStackBoundary := st.ts.stack.length })
      (labelItems Label.loop ++ pendingOf h frames.reverse)
    exact runItems_traverseWorkStack h st.ts.stack n Label.loop _ frames.reverse rfl rfl hok2 hn

theorem boundary_scoping_witness :
    IndChainsEnd indHeap ∧ AllOK indHeap [freshElem 0 { c_child_r := 40 } 0] ∧
    traverseWorkStack indHeap 100 Label.loop
        (withOneFrame.withTs ([freshElem 0 { c_child_r := 40 } 0].foldl pushStackElement
          { withOneFrame.ts with currentStackBoundary := withOneFrame.ts.stack.length }))
      = some (.ok (rootResult indHeap 100 withOneFrame 0)) ∧
    (rootResult indHeap 100 withOneFrame 0).ts.stack = withOneFrame.ts.stack ∧
    ((∀ fuel s, traverseWorkStack indHeap fuel Label.loop
        (withOneFrame.withTs ([freshElem 0 { c_child_r := 40 } 0].foldl pushStackElement
          { withOneFrame.ts with currentStackBoundary := withOneFrame.ts.stack.length }))
          = some (.ok s) →
      s.ts.stack = withOneFrame.ts.stack ∧
        s.ts.currentStackBoundary = withOneFrame.ts.stack.length ∧
        isOnBoundary s.ts = true) ∧
    (IndChainsEnd indHeap → AllOK indHeap [freshElem 0 { c_child_r := 40 } 0] →
      ∃ fuel, traverseWorkStack indHeap fuel Label.loop
        (withOneFrame.withTs ([freshElem 0 { c_child_r := 40 } 0].foldl pushStackElement
          { withOneFrame.ts with currentStackBoundary := withOneFrame.ts.stack.length }))
          ≠ none) ∧
    (∀ ts, isOnBoundary ts = true → traversePop indHeap ts = .ok (ts, none))) :=
  ⟨indHeap_chains_end, AllOK_fresh indHeap 0 { c_child_r := 40 } [0], rfl, rfl,
    boundary_scoping indHeap withOneFrame [freshElem 0 { c_child_r := 40 } 0]⟩

/-- The states after `k` jumps are the states that a run of
`traverseWorkStack` passes through. -/
theorem traverseWorkStack_steps_run (h : Heap) :
    ∀ (k n : Nat) (l : Label) (st : RtsState) (l1 : Label) (st1 : RtsState),
      traverseWorkStack_steps h k l st = some (l1, st1) →
      traverseWorkStack h (k + n) l st = traverseWorkStack h n l1 st1
  | 0, n, l, st, l1, st1, hs => by
    simp only [traverseWorkStack_steps, Option.some.injEq, Prod.mk.injEq] at hs
    rw [Nat.zero_add, hs.1, hs.2]
  | k + 1, n, l, st, l1, st1, hs => by
    rw [traverseWorkStack_steps] at hs
    have he : k + 1 + n = (k + n) + 1 := by omega
    rw [he, traverseWorkStack_succ]
    generalize traverseWorkStack_body h l st = j at hs ⊢
    cases j with
    | done r => cases hs
    | goto l2 st2 => exact traverseWorkStack_steps_run h k n l2 st2 l1 st1 hs

/-- An element that `traversePushChildren` pushes is not fresh, and it is the
only one pushed. -/
theorem traversePushChildren_not_fresh (h : Heap) (ts : traverseState) (c : Addr)
    (d : stackData) (ts1 : traverseState) (fc : Option Addr)
    (hp : traversePushChildren h ts c d = .ok (ts1, fc)) :
    ts1 = ts ∨ ∃ se, ts1 = pushStackElement ts se ∧ se.info ≠ posTypeFresh ∧ se.c = c := by
  rw [traversePushChildren_eq] at hp
  generalize pushCase (h.get c).type = k at hp
  cases k
  case noChild => cases hp; exact Or.inl rfl
  case var => cases hp; exact Or.inl rfl
  case selectee => cases hp; exact Or.inl rfl
  case indirectee => cases hp; exact Or.inl rfl
  case payload0 => cases hp; exact Or.inl rfl
  case invalid => cases hp
  case constr2 => cases hp; exact Or.inr ⟨_, rfl, by simp, rfl⟩
  case mvar => cases hp; exact Or.inr ⟨_, rfl, by simp, rfl⟩
  case weak => cases hp; exact Or.inr ⟨_, rfl, by simp, rfl⟩
  case trec => cases hp; exact Or.inr ⟨_, rfl, by simp, rfl⟩
  case oneSrt => cases hp; exact Or.inr ⟨_, rfl, by simp, rfl⟩
  case ptrs =>
    simp only [pushAux, find_ptrs, init_ptrs] at hp
    split_ifs at hp
    · cases hp; exact Or.inr ⟨_, rfl, by simp, rfl⟩
    · cases hp; exact Or.inl rfl
  case ptrsSrt =>
    simp only [pushAux, find_ptrs, init_ptrs, find_srt] at hp
    split_ifs at hp
    · cases hp; exact Or.inr ⟨_, rfl, by simp, rfl⟩
    · cases hs : (h.get c).srt with
      | none => rw [hs] at hp; cases hp; exact Or.inl rfl
      | some x => rw [hs] at hp; cases hp; exact Or.inr ⟨_, rfl, by simp, rfl⟩
  case srt =>
    simp only [pushAux, find_srt] at hp
    cases hs : (h.get c).srt with
    | none => rw [hs] at hp; cases hp; exact Or.inl rfl
    | some x => rw [hs] at hp; cases hp; exact Or.inr ⟨_, rfl, by simp, rfl⟩

/-- The position that `traversePop` writes back into a cursor is not fresh. -/
theorem traversePop_switch_not_fresh (h : Heap) (se : stackElement) (c : Addr) (last : Bool)
    (info : stackPos) (hf : se.info ≠ posTypeFresh)
    (hp : traversePop_switch h se = .ok (PopStep.out c last info)) : info ≠ posTypeFresh := by
  rw [traversePop_switch_eq] at hp
  rcases se with ⟨sinfo, sc, scp, sd⟩
  dsimp only at hf
  generalize popCase (h.get sc).type = k at hp
  cases k
  case ptrsSrt =>
    cases sinfo with
    | posTypeFresh => contradiction
    | posTypeStep n => simp only [popAux, find_srt] at hp; cases hp
    | posTypePtrs pos ptrs payload =>
      simp only [popAux, find_ptrs, find_srt] at hp
      by_cases hlt : pos < ptrs
      · simp only [hlt, if_true] at hp
        cases hp; simp
      · simp only [hlt, if_false] at hp
        cases hs : (h.get sc).srt with
        | none => rw [hs] at hp; cases hp
        | some x => rw [hs] at hp; cases hp; simp
    | posTypeSRT srt =>
      simp only [popAux, find_srt] at hp
      cases srt with
      | none => cases hp
      | some x => cases hp; simp
  case srt =>
    cases sinfo with
    | posTypeFresh => contradiction
    | posTypeStep n => simp only [popAux, find_srt] at hp; cases hp
    | posTypePtrs pos ptrs payload => simp only [popAux, find_srt] at hp; cases hp
    | posTypeSRT srt =>
      simp only [popAux, find_srt] at hp
      cases srt with
      | none => cases hp
      | some x => cases hp; simp
  all_goals
    cases sinfo <;>
    simp only [popAux, stackPos.getStep, find_ptrs, find_srt] at hp <;>
    first
    | contradiction
    | (cases hp; simp)
    | (split_ifs at hp <;> first | (cases hp; simp) | cases hp)

/-- After the loop of `traversePop`, every element of the stack was there
before, or is a cursor that is not fresh. -/
theorem traversePop_loop_mem (h : Heap) (b : Nat) :
    ∀ (stack stk : List stackElement) (r : Option (Addr × Addr × stackData)),
      traversePop_loop h b stack = .ok (stk, r) →
      ∀ se ∈ stk, se ∈ stack ∨ se.info ≠ posTypeFresh
  | [], stk, r, hr => by
    rw [traversePop_loop] at hr
    split_ifs at hr
    · cases hr; intro se hm; cases hm
  | se :: rest, stk, r, hr => by
    rw [traversePop_loop] at hr
    by_cases hb : rest.length + 1 = b
    · simp only [hb, if_true, Except.ok.injEq, Prod.mk.injEq] at hr
      rw [← hr.1]; exact fun s hm => Or.inl hm
    · simp only [hb, if_false] at hr
      by_cases hf : se.info = posTypeFresh
      · simp only [hf, if_true, Except.ok.injEq, Prod.mk.injEq] at hr
        rw [← hr.1]; exact fun s hm => Or.inl (List.mem_cons_of_mem _ hm)
      · simp only [hf, if_false] at hr
        cases hsw : traversePop_switch h se with
        | error e => rw [hsw] at hr; cases hr
        | ok ps =>
          rw [hsw] at hr
          cases ps with
          | out c last info =>
            simp only [Except.ok.injEq, Prod.mk.injEq] at hr
            have hinfo := traversePop_switch_not_fresh h se c last info hf hsw
            rw [← hr.1]
            intro s hm
            cases last with
            | true => exact Or.inl (List.mem_cons_of_mem _ hm)
            | false =>
              simp only [Bool.false_eq_true, if_false] at hm
              rcases List.mem_cons.1 hm with rfl | hm
              · exact Or.inr hinfo
              · exact Or.inl (List.mem_cons_of_mem _ hm)
          | depleted =>
            intro s hm
            rcases traversePop_loop_mem h b rest stk r hr s hm with h1 | h1
            · exact Or.inl (List.mem_cons_of_mem _ h1)
            · exact Or.inr h1

/-- For the kinds whose children are pushed all at once, the enumeration
pushes every child as a fresh element and hands back no first child. -/
theorem processChildren_eager (h : Heap) (ts : traverseState) (c : Addr) (d : stackData)
    (he : eagerKind (h.get c).type = true) :
    processChildren h ts c d =
      match childrenOf h c with
      | .error e => .error e
      | .ok l => .ok (pushAll ts c d l.reverse, none) := by
  by_cases h1 : (h.get c).type = STACK
  · unfold processChildren childrenOf
    simp only [h1]
    rw [traversePushStack_eq]
    cases stackPtrs h (h.get c).frames with
    | error e => rfl
    | ok l => simp
  by_cases h2 : (h.get c).type = TSO
  · unfold processChildren childrenOf
    simp only [h2, traversePushClosure_eq, pushAll_pushAll]
    split_ifs <;> simp
  by_cases h3 : (h.get c).type = BLOCKING_QUEUE
  · unfold processChildren childrenOf
    simp only [h3, traversePushClosure_eq, pushAll_pushAll]
    simp
  by_cases h4 : (h.get c).type = PAP
  · unfold processChildren childrenOf
    simp only [h4, traversePAP, traverseFunArgs_eq, traversePushClosure_eq, pushAll_pushAll]
    simp
  by_cases h5 : (h.get c).type = AP
  · unfold processChildren childrenOf
    simp only [h5, traversePAP, traverseFunArgs_eq, traversePushClosure_eq, pushAll_pushAll]
    simp
  by_cases h6 : (h.get c).type = AP_STACK
  · unfold processChildren childrenOf
    simp only [h6]
    rw [traversePushStack_eq]
    cases stackPtrs h (h.get c).frames with
    | error e => rfl
    | ok l => simp [traversePushClosure_eq, pushAll_pushAll]
  exfalso
  revert he
  generalize (h.get c).type = t at h1 h2 h3 h4 h5 h6
  cases t <;> simp [eagerKind] at h1 h2 h3 h4 h5 h6 ⊢

/-- After the enumeration of the children of `c`, every element of the stack
was there before, or is not fresh, or is a fresh element with parent `c`, a
closure of one of the kinds whose children are pushed all at once. -/
theorem processChildren_mem (h : Heap) (ts : traverseState) (c : Addr) (d : stackData)
    (ts1 : traverseState) (fc : Option Addr)
    (hp : processChildren h ts c d = .ok (ts1, fc)) :
    ∀ se ∈ ts1.stack, se ∈ ts.stack ∨ se.info ≠ posTypeFresh ∨
      (se.cp = c ∧ eagerKind (h.get c).type = true) := by
  by_cases he : eagerKind (h.get c).type = true
  · rw [processChildren_eager h ts c d he] at hp
    cases hch : childrenOf h c with
    | error e => rw [hch] at hp; cases hp
    | ok l =>
      rw [hch] at hp
      simp only [Except.ok.injEq, Prod.mk.injEq] at hp
      rw [← hp.1]
      intro se hm
      simp only [pushAll, List.mem_append, List.mem_reverse, List.mem_map] at hm
      rcases hm with ⟨x, _, rfl⟩ | hm
      · exact Or.inr (Or.inr ⟨rfl, he⟩)
      · exact Or.inl hm
  · have hne : ∀ t, eagerKind t ≠ true → t ≠ STACK ∧ t ≠ TSO ∧ t ≠ BLOCKING_QUEUE ∧ t ≠ PAP ∧
        t ≠ AP ∧ t ≠ AP_STACK := by
      intro t ht
      cases t <;> simp [eagerKind] at ht ⊢
    obtain ⟨h1, h2, h3, h4, h5, h6⟩ := hne _ he
    rw [(processChildren_other h ts c d h1 h2 h3 h4 h5 h6).1] at hp
    rcases traversePushChildren_not_fresh h ts c d ts1 fc hp with rfl | ⟨x, rfl, hx, _⟩
    · exact fun se hm => Or.inl hm
    · intro se hm
      simp only [pushStackElement, List.mem_cons] at hm
      rcases hm with rfl | hm
      · exact Or.inr (Or.inl hx)
      · exact Or.inl hm

/-- One jump of `traverseWorkStack` keeps the invariant of the fresh
elements. -/
theorem body_fresh (h : Heap) (tl : Addr) (l : Label) (st : RtsState) (l1 : Label)
    (st1 : RtsState) (hinv : FreshInv h tl st.ts.stack)
    (hb : traverseWorkStack_body h l st = Jump.goto l1 st1) : FreshInv h tl st1.ts.stack := by
  cases l with
  | loop =>
    rw [body_loop_eq] at hb
    unfold traversePop at hb
    cases hp : traversePop_loop h st.ts.currentStackBoundary st.ts.stack with
    | error e => rw [hp] at hb; cases hb
    | ok p =>
      obtain ⟨stk, r⟩ := p
      rw [hp] at hb
      have hmem := traversePop_loop_mem h _ _ stk r hp
      cases r with
      | none => cases hb
      | some x =>
        obtain ⟨c, cp, d⟩ := x
        cases hb
        intro se hm hf
        rcases hmem se hm with h1 | h1
        · exact hinv se h1 hf
        · exact absurd hf h1
  | inner_loop c cp d =>
    rw [body_inner_eq] at hb
    cases hp : preVisit h c with
    | skip => rw [hp] at hb; cases hb; exact hinv
    | follow c1 => rw [hp] at hb; cases hb; exact hinv
    | visit =>
      rw [hp] at hb
      dsimp only at hb
      cases hv : retainVisitClosure h (traverseMaybeInitClosureData st c) c cp d with
      | error e => rw [hv] at hb; cases hb
      | ok p =>
        obtain ⟨st2, o⟩ := p
        have hts : st2.ts = st.ts :=
          (retainVisitClosure_ts h _ c cp d st2 o hv).trans
            (traverseMaybeInitClosureData_ts st c)
        rw [hv] at hb
        cases o with
        | none => cases hb; rw [hts]; exact hinv
        | some cd =>
          dsimp only at hb
          cases hpc : processChildren h st2.ts c cd with
          | error e => rw [hpc] at hb; cases hb
          | ok q =>
            obtain ⟨ts1, fc⟩ := q
            rw [hpc] at hb
            have hmem := processChildren_mem h st2.ts c cd ts1 fc hpc
            have hres : st1.ts = ts1 := by
              cases fc with
              | none => cases hb; rfl
              | some x => cases hb; rfl
            rw [hres]
            intro se hm hf
            rcases hmem se hm with h1 | h1 | ⟨h1, h2⟩
            · rw [hts] at h1; exact hinv se h1 hf
            · exact absurd hf h1
            · right; rw [h1]; exact h2

/-- The invariant of the fresh elements holds in every state that a run of
`traverseWorkStack` passes through. -/
theorem traverseWorkStack_steps_fresh (h : Heap) (tl : Addr) :
    ∀ (k : Nat) (l : Label) (st : RtsState) (l1 : Label) (st1 : RtsState),
      FreshInv h tl st.ts.stack → traverseWorkStack_steps h k l st = some (l1, st1) →
      FreshInv h tl st1.ts.stack
  | 0, l, st, l1, st1, hinv, hs => by
    simp only [traverseWorkStack_steps, Option.some.injEq, Prod.mk.injEq] at hs
    rw [← hs.2]; exact hinv
  | k + 1, l, st, l1, st1, hinv, hs => by
    rw [traverseWorkStack_steps] at hs
    cases hb : traverseWorkStack_body h l st with
    | done r => rw [hb] at hs; cases hs
    | goto l2 st2 =>
      rw [hb] at hs
      exact traverseWorkStack_steps_fresh h tl k l2 st2 l1 st1
        (body_fresh h tl l st l2 st2 hinv hb) hs

theorem retainRoot_start_eq (h : Heap) (fuel : Nat) (st : RtsState) (tl : Addr)
    (data : stackData) (hseed : seedOf h tl = .ok data) :
    retainRoot h fuel st tl
      = traverseWorkStack h fuel Label.loop (retainRoot_start st tl data) := by
  rw [retainRoot_eq, hseed]
  rfl

/-- C20 (fresh positions), as stated, fails: on the heap with a thread,
`retainRoot` on the TSO at address 0 visits it and pushes its four children,
the closures 1, 2, 2 and 2, as fresh elements with the TSO as parent; after
two jumps these four fresh elements, none of them pushed by root seeding, are
the stack. -/
theorem children_of_tso_are_fresh :
    seedOf tsoHeap 0 = .ok { c_child_r := 70 } ∧
      (tsoHeap.get 0).type = TSO ∧
      (traverseWorkStack_steps tsoHeap 2 Label.loop
          (retainRoot_start (beginPass initState) 0 { c_child_r := 70 })).map
          (fun p => p.2.ts.stack)
        = some [
            { info := posTypeFresh, c := 2, cp := 0, data := { c_child_r := 70 } },
            { info := posTypeFresh, c := 2, cp := 0, data := { c_child_r := 70 } },
            { info := posTypeFresh, c := 2, cp := 0, data := { c_child_r := 70 } },
            { info := posTypeFresh, c := 1, cp := 0, data := { c_child_r := 70 } }] :=
  ⟨by decide, by decide, by decide⟩

/-- C20 (fresh positions), as amended: in every state that `retainRoot`
passes through, begun with an empty work stack, every element of the stack
whose position is fresh is the seed of the root (closure and parent are the
root) or was pushed for a child of a closure of one of the kinds whose
children `traverseWorkStack` pushes all at once with `traversePushClosure`
(STACK, TSO, BLOCKING_QUEUE, PAP, AP, AP_STACK), that closure being its
parent; and an element that `traversePushChildren` pushes for the children of
a closure is never in a fresh position. -/
theorem fresh_elements_origin (h : Heap) (st : RtsState) (tl : Addr) (data : stackData)
    (k : Nat) (l1 : Label) (st1 : RtsState)
    (hempty : isEmptyWorkStack st.ts = true)
    (hseed : seedOf h tl = .ok data)
    (hsteps : traverseWorkStack_steps h k Label.loop (retainRoot_start st tl data)
      = some (l1, st1)) :
    (∀ se ∈ st1.ts.stack, se.info = posTypeFresh →
      (se.c = tl ∧ se.cp = tl) ∨ eagerKind (h.get se.cp).type = true) ∧
    (∀ fuel, retainRoot h (k + fuel) st tl = traverseWorkStack h fuel l1 st1) ∧
    ∀ ts c d ts1 fc, traversePushChildren h ts c d = .ok (ts1, fc) →
      ts1 = ts ∨ ∃ se, ts1 = pushStackElement ts se ∧ se.info ≠ posTypeFresh ∧ se.c = c := by
  have hnil : st.ts.stack = [] := by
    unfold isEmptyWorkStack at hempty
    exact List.isEmpty_iff.1 hempty
  refine ⟨?_, fun fuel => ?_, fun ts c d ts1 fc hp =>
    traversePushChildren_not_fresh h ts c d ts1 fc hp⟩
  · refine traverseWorkStack_steps_fresh h tl k Label.loop _ l1 st1 ?_ hsteps
    intro se hm _
    have hm2 : se ∈ [freshElem tl data tl] := by
      have : (retainRoot_start st tl data).ts.stack = [freshElem tl data tl] := by
        simp [retainRoot_start, RtsState.withTs, hnil]
      rw [this] at hm
      exact hm
    rw [List.mem_singleton] at hm2
    rw [hm2]
    exact Or.inl ⟨rfl, rfl⟩
  · rw [retainRoot_start_eq h (k + fuel) st tl data hseed]
    exact traverseWorkStack_steps_run h k fuel Label.loop _ l1 st1 hsteps

theorem fresh_elements_origin_witness :
    isEmptyWorkStack (beginPass initState).ts = true ∧
      seedOf tsoHeap 0 = .ok { c_child_r := 70 } ∧
      traverseWorkStack_steps tsoHeap 2 Label.loop
          (retainRoot_start (beginPass initState) 0 { c_child_r := 70 })
        = some (Label.loop, (stepsResult tsoHeap 2 Label.loop
            (retainRoot_start (beginPass initState) 0 { c_child_r := 70 })).2) ∧
      (∀ se ∈ (stepsResult tsoHeap 2 Label.loop
            (retainRoot_start (beginPass initState) 0 { c_child_r := 70 })).2.ts.stack,
          se.info = posTypeFresh →
          (se.c = 0 ∧ se.cp = 0) ∨ eagerKind (tsoHeap.get se.cp).type = true) ∧
      (∀ fuel, retainRoot tsoHeap (2 + fuel) (beginPass initState) 0
        = traverseWorkStack tsoHeap fuel Label.loop
            (stepsResult tsoHeap 2 Label.loop
              (retainRoot_start (beginPass initState) 0 { c_child_r := 70 })).2) ∧
      ∀ ts c d ts1 fc, traversePushChildren tsoHeap ts c d = .ok (ts1, fc) →
        ts1 = ts ∨ ∃ se, ts1 = pushStackElement ts se ∧ se.info ≠ posTypeFresh ∧ se.c = c :=
  ⟨rfl, by decide, rfl,
    fresh_elements_origin tsoHeap (beginPass initState) 0 { c_child_r := 70 } 2 Label.loop _
      rfl (by decide) rfl⟩

theorem Chunked.descr_setDescr (ts : Chunked.traverseState) (bd : Nat) (f : bdescr → bdescr)
    (a : Nat) :
    (ts.setDescr bd f).descr a =
      if a = bd ∧ a < ts.descrs.length then f (ts.descr a) else ts.descr a := by
  unfold Chunked.traverseState.descr Chunked.traverseState.setDescr
  simp only [List.getD_eq_getElem?_getD, List.getElem?_modify]
  by_cases hlt : a < ts.descrs.length
  · rw [List.getElem?_eq_getElem hlt]
    by_cases hab : a = bd
    · subst hab; simp [hlt]
    · have : ¬ bd = a := fun e => hab e.symm
      simp [hab, this]
  · have hn : ts.descrs[a]? = none := List.getElem?_eq_none (Nat.le_of_not_lt hlt)
    simp [hn, hlt]

theorem Chunked.length_setDescr (ts : Chunked.traverseState) (bd : Nat) (f : bdescr → bdescr) :
    (ts.setDescr bd f).descrs.length = ts.descrs.length := by
  unfold Chunked.traverseState.setDescr
  simp

theorem Chunked.descr_allocGroup (ts : Chunked.traverseState) (n a : Nat) :
    (Chunked.allocGroup ts n).1.descr a =
      if a = ts.descrs.length then
        { free := ⟨ts.descrs.length, 0⟩, link := none, back := none, blocks := n }
      else ts.descr a := by
  unfold Chunked.traverseState.descr Chunked.allocGroup
  simp only [List.getD_eq_getElem?_getD]
  by_cases hlt : a < ts.descrs.length
  · rw [List.getElem?_append_left hlt]
    have : a ≠ ts.descrs.length := Nat.ne_of_lt hlt
    simp [this]
  · by_cases he : a = ts.descrs.length
    · subst he
      simp
    · have h2 : ts.descrs.length < a := by omega
      have h3 : ts.descrs[a]? = none := List.getElem?_eq_none (Nat.le_of_not_lt hlt)
      rw [List.getElem?_eq_none (by simp; omega), h3]
      simp [he]

theorem Chunked.slot_bd (L : Layout) (bd m : Nat) : (Chunked.slot L bd m).bd = bd := rfl

theorem Chunked.slot_push (L : Layout) (bd m : Nat) :
    (⟨(Chunked.slot L bd m).bd, (Chunked.slot L bd m).off - L.sizeofW_stackElement⟩ : Ptr)
      = Chunked.slot L bd (m + 1) := by
  unfold Chunked.slot
  simp only [Ptr.mk.injEq, true_and]
  push_cast
  ring

theorem Chunked.slot_pop (L : Layout) (bd m : Nat) :
    (⟨(Chunked.slot L bd (m + 1)).bd,
        (Chunked.slot L bd (m + 1)).off + L.sizeofW_stackElement⟩ : Ptr)
      = Chunked.slot L bd m := by
  unfold Chunked.slot
  simp only [Ptr.mk.injEq, true_and]
  push_cast
  ring

theorem Chunked.slot_inj (L : Layout) (hE : 0 < L.sizeofW_stackElement) (bd bd1 m m1 : Nat) :
    Chunked.slot L bd m = Chunked.slot L bd1 m1 ↔ bd = bd1 ∧ m = m1 := by
  unfold Chunked.slot
  simp only [Ptr.mk.injEq]
  constructor
  · rintro ⟨h1, h2⟩
    refine ⟨h1, ?_⟩
    have h3 : (m : Int) * (L.sizeofW_stackElement : Int)
        = (m1 : Int) * (L.sizeofW_stackElement : Int) := by omega
    have hE2 : (L.sizeofW_stackElement : Int) ≠ 0 := by exact_mod_cast Nat.pos_iff_ne_zero.1 hE
    exact_mod_cast mul_right_cancel₀ hE2 h3
  · rintro ⟨h1, h2⟩
    subst h1; subst h2
    exact ⟨rfl, rfl⟩

/-- The test of `pushStackElement` for a full chunk, with `n` elements in the
chunk. -/
theorem Chunked.full_test (L : Layout) (hE : 0 < L.sizeofW_stackElement) (bd n : Nat) :
    (Chunked.slot L bd n).off - L.sizeofW_stackElement < (⟨bd, 0⟩ : Ptr).off
      ↔ ¬ n + 1 ≤ Chunked.capacity L := by
  unfold Chunked.slot Chunked.capacity
  rw [Nat.le_div_iff_mul_le hE]
  dsimp only
  constructor
  · intro h1 h2
    have h3 : (((n + 1) * L.sizeofW_stackElement : Nat) : Int)
        ≤ ((L.BLOCK_SIZE_W * BLOCKS_IN_STACK : Nat) : Int) := by exact_mod_cast h2
    push_cast at h3 h1
    nlinarith
  · intro h1
    have h2 : L.BLOCK_SIZE_W * BLOCKS_IN_STACK < (n + 1) * L.sizeofW_stackElement :=
      Nat.lt_of_not_le h1
    have h3 : ((L.BLOCK_SIZE_W * BLOCKS_IN_STACK : Nat) : Int)
        < (((n + 1) * L.sizeofW_stackElement : Nat) : Int) := by exact_mod_cast h2
    push_cast at h3 ⊢
    nlinarith

/-- The test of `popStackElement` for more than one element in the chunk,
with `n` elements in the chunk. -/
theorem Chunked.pop_test (L : Layout) (hE : 0 < L.sizeofW_stackElement) (bd n : Nat) :
    (Chunked.slot L bd n).off + L.sizeofW_stackElement < (Chunked.slot L bd 0).off
      ↔ 1 < n := by
  unfold Chunked.slot
  dsimp only
  have hE2 : (0 : Int) < (L.sizeofW_stackElement : Int) := by exact_mod_cast hE
  constructor
  · intro h1
    by_contra h2
    have h3 : n ≤ 1 := Nat.le_of_not_lt h2
    have h4 : (n : Int) ≤ 1 := by exact_mod_cast h3
    push_cast at h1
    nlinarith
  · intro h1
    have h4 : (2 : Int) ≤ (n : Int) := by exact_mod_cast h1
    push_cast
    nlinarith

theorem Chunked.capacity_pos (L : Layout) (hE : 0 < L.sizeofW_stackElement)
    (hB : L.sizeofW_stackElement ≤ L.BLOCK_SIZE_W) : 0 < Chunked.capacity L := by
  unfold Chunked.capacity BLOCKS_IN_STACK
  rw [Nat.mul_one]
  exact Nat.div_pos hB hE

theorem Chunked.Holds_update_other (L : Layout) (mem : Ptr → stackElement) (bd : Nat)
    (els : List stackElement) (p : Ptr) (se : stackElement)
    (hne : ∀ m, m < els.length → p ≠ Chunked.slot L bd (m + 1))
    (hh : Chunked.Holds L mem bd els) : Chunked.Holds L (Function.update mem p se) bd els := by
  intro m hm
  rw [hh m hm, Function.update_noteq (fun e => hne m hm e.symm)]

theorem Chunked.Holds_update_bd (L : Layout) (mem : Ptr → stackElement) (bd : Nat)
    (els : List stackElement) (p : Ptr) (se : stackElement) (hne : p.bd ≠ bd)
    (hh : Chunked.Holds L mem bd els) : Chunked.Holds L (Function.update mem p se) bd els :=
  Chunked.Holds_update_other L mem bd els p se
    (fun m _ e => hne (by rw [e]; rfl)) hh

theorem Chunked.Holds_push (L : Layout) (hE : 0 < L.sizeofW_stackElement)
    (mem : Ptr → stackElement) (bd : Nat) (els : List stackElement) (se : stackElement)
    (hh : Chunked.Holds L mem bd els) :
    Chunked.Holds L (Function.update mem (Chunked.slot L bd (els.length + 1)) se) bd
      (se :: els) := by
  intro m hm
  rw [List.length_cons] at hm
  rw [List.reverse_cons]
  by_cases hlt : m < els.length
  · rw [List.getElem?_append_left (by rw [List.length_reverse]; exact hlt), hh m hlt,
      Function.update_noteq]
    intro e
    have := ((Chunked.slot_inj L hE bd bd (m + 1) (els.length + 1)).1 e).2
    omega
  · have hm2 : m = els.length := by omega
    subst hm2
    have := List.getElem?_concat_length els.reverse se
    rw [List.length_reverse] at this
    rw [this, Function.update_same]

theorem Chunked.Holds_tail (L : Layout) (mem : Ptr → stackElement) (bd : Nat)
    (els : List stackElement) (se : stackElement) (hh : Chunked.Holds L mem bd (se :: els)) :
    Chunked.Holds L mem bd els := by
  intro m hm
  have := hh m (by rw [List.length_cons]; omega)
  rw [List.reverse_cons, List.getElem?_append_left (by rw [List.length_reverse]; exact hm)]
    at this
  exact this

theorem Chunked.Holds_top (L : Layout) (mem : Ptr → stackElement) (bd : Nat)
    (els : List stackElement) (se : stackElement) (hh : Chunked.Holds L mem bd (se :: els)) :
    mem (Chunked.slot L bd (els.length + 1)) = se := by
  have := hh els.length (by rw [List.length_cons]; omega)
  rw [List.reverse_cons] at this
  have h2 := List.getElem?_concat_length els.reverse se
  rw [List.length_reverse] at h2
  rw [h2] at this
  exact (Option.some.inj this).symm

theorem Chunked.BackLinked_congr (ts ts1 : Chunked.traverseState)
    (hf : ts1.firstStack = ts.firstStack) :
    ∀ (before : List Nat) (cur : Nat),
      (∀ a ∈ cur :: before, (ts1.descr a).link = (ts.descr a).link ∧
        (ts1.descr a).back = (ts.descr a).back) →
      Chunked.BackLinked ts cur before → Chunked.BackLinked ts1 cur before
  | [], cur, _, hb => by
    unfold Chunked.BackLinked at hb ⊢
    rw [hf]; exact hb
  | pb :: rest, cur, hs, hb => by
    unfold Chunked.BackLinked at hb ⊢
    obtain ⟨h1, h2, h3⟩ := hb
    refine ⟨?_, ?_, Chunked.BackLinked_congr ts ts1 hf rest pb
      (fun a ha => hs a (List.mem_cons_of_mem _ ha)) h3⟩
    · rw [(hs cur (List.mem_cons_self _ _)).2]; exact h1
    · rw [(hs pb (List.mem_cons_of_mem _ (List.mem_cons_self _ _))).1]; exact h2

theorem Chunked.FwdLinked_congr (ts ts1 : Chunked.traverseState) :
    ∀ (after : List Nat) (cur : Nat),
      (∀ a ∈ cur :: after, (ts1.descr a).link = (ts.descr a).link ∧
        (ts1.descr a).back = (ts.descr a).back) →
      Chunked.FwdLinked ts cur after → Chunked.FwdLinked ts1 cur after
  | [], cur, hs, hb => by
    unfold Chunked.FwdLinked at hb ⊢
    rw [(hs cur (List.mem_cons_self _ _)).1]; exact hb
  | nb :: rest, cur, hs, hb => by
    unfold Chunked.FwdLinked at hb ⊢
    obtain ⟨h1, h2, h3⟩ := hb
    refine ⟨?_, ?_, Chunked.FwdLinked_congr ts ts1 rest nb
      (fun a ha => hs a (List.mem_cons_of_mem _ ha)) h3⟩
    · rw [(hs cur (List.mem_cons_self _ _)).1]; exact h1
    · rw [(hs nb (List.mem_cons_of_mem _ (List.mem_cons_self _ _))).2]; exact h2

theorem Chunked.forall₂_congr {R R1 : Nat → List stackElement → Prop} :
    ∀ (before : List Nat) (full : List (List stackElement)),
      (∀ bd ∈ before, ∀ els, R bd els → R1 bd els) →
      List.Forall₂ R before full → List.Forall₂ R1 before full
  | _, _, _, List.Forall₂.nil => List.Forall₂.nil
  | bd :: before, els :: full, hs, List.Forall₂.cons h1 h2 =>
    List.Forall₂.cons (hs bd (List.mem_cons_self _ _) els h1)
      (Chunked.forall₂_congr before full (fun b hb => hs b (List.mem_cons_of_mem _ hb)) h2)

/-- A push into a chunk that is not full. -/
theorem Chunked.push_rep_room (L : Layout) (hE : 0 < L.sizeofW_stackElement)
    (ts : Chunked.traverseState) (l cur : List stackElement) (full : List (List stackElement))
    (before after : List Nat) (se : stackElement)
    (hr : Chunked.Rep L ts l cur full before after)
    (hroom : cur.length + 1 ≤ Chunked.capacity L) :
    Chunked.Rep L (Chunked.pushStackElement L ts se) (se :: l) (se :: cur) full before after := by
  have htest : ¬ (ts.stackTop.off - L.sizeofW_stackElement < ts.stackBottom.off) := by
    rw [hr.top, hr.bottom, Chunked.full_test L hE]
    exact fun hn => hn hroom
  have heq : Chunked.pushStackElement L ts se =
      { ts with
        stackTop := Chunked.slot L ts.currentStack (cur.length + 1),
        mem := Function.update ts.mem (Chunked.slot L ts.currentStack (cur.length + 1)) se }
      := by
    unfold Chunked.pushStackElement
    simp only [htest, if_false]
    rw [hr.top, Chunked.slot_push]
  rw [heq]
  refine
    { list_eq := by rw [hr.list_eq]; rfl
      nodup := hr.nodup
      inRange := hr.inRange
      back := ?_
      fwd := ?_
      bottom := hr.bottom
      limit := hr.limit
      top := rfl
      free := hr.free
      curLen := hroom
      nonempty := Or.inr (by simp)
      holds := Chunked.Holds_push L hE ts.mem ts.currentStack cur se hr.holds
      fulls := ?_ }
  · refine Chunked.BackLinked_congr ts _ ?_ before _ ?_ hr.back
    · rfl
    · exact fun _ _ => ⟨rfl, rfl⟩
  · refine Chunked.FwdLinked_congr ts _ after _ ?_ hr.fwd
    exact fun _ _ => ⟨rfl, rfl⟩
  refine Chunked.forall₂_congr before full ?_ hr.fulls
  intro bd hbd els ⟨h1, h2, h3⟩
  refine ⟨h1, Chunked.Holds_update_bd L ts.mem bd els _ se ?_ h2, h3⟩
  intro e
  have hnd := hr.nodup
  rw [List.cons_append, List.nodup_cons] at hnd
  apply hnd.1
  rw [Chunked.slot_bd] at e
  rw [e]
  exact List.mem_append_left _ hbd

theorem Chunked.getD_modify (ds : List bdescr) (f : bdescr → bdescr) (n a : Nat)
    (d0 : bdescr) :
    (List.modify f n ds).getD a d0 =
      if a = n ∧ a < ds.length then f (ds.getD a d0) else ds.getD a d0 := by
  simp only [List.getD_eq_getElem?_getD, List.getElem?_modify]
  by_cases hlt : a < ds.length
  · rw [List.getElem?_eq_getElem hlt]
    by_cases hab : a = n
    · subst hab; simp [hlt]
    · have : ¬ n = a := fun e => hab e.symm
      simp [hab, this]
  · have hn : ds[a]? = none := List.getElem?_eq_none (Nat.le_of_not_lt hlt)
    simp [hn, hlt]

theorem Chunked.push_full_eq (L : Layout) (ts : Chunked.traverseState) (se : stackElement)
    (htest : ts.stackTop.off - L.sizeofW_stackElement < ts.stackBottom.off) :
    Chunked.pushStackElement L ts se =
      { Chunked.nextStack L ts with
        stackTop := ⟨(Chunked.nextStack L ts).stackTop.bd,
          (Chunked.nextStack L ts).stackTop.off - L.sizeofW_stackElement⟩,
        mem := Function.update (Chunked.nextStack L ts).mem
          ⟨(Chunked.nextStack L ts).stackTop.bd,
            (Chunked.nextStack L ts).stackTop.off - L.sizeofW_stackElement⟩ se } := by
  unfold Chunked.pushStackElement Chunked.nextStack
  simp only [htest, if_true]

/-- The switch to a chunk that was kept in the chain: the fields of the
state and the descriptors afterwards. -/
theorem Chunked.nextStack_reuse (L : Layout) (ts : Chunked.traverseState) (nbd : Nat)
    (hcur : ts.currentStack < ts.descrs.length) (hnbd : nbd < ts.descrs.length)
    (hne : nbd ≠ ts.currentStack)
    (hblocks : (ts.descr nbd).blocks = BLOCKS_IN_STACK)
    (hlink : (ts.descr ts.currentStack).link = some nbd) :
    (Chunked.nextStack L ts).currentStack = nbd ∧
    (Chunked.nextStack L ts).stackTop = Chunked.slot L nbd 0 ∧
    (Chunked.nextStack L ts).stackBottom = ⟨nbd, 0⟩ ∧
    (Chunked.nextStack L ts).stackLimit = Chunked.slot L nbd 0 ∧
    (Chunked.nextStack L ts).mem = ts.mem ∧
    (Chunked.nextStack L ts).firstStack = ts.firstStack ∧
    (Chunked.nextStack L ts).freed = ts.freed ∧
    (Chunked.nextStack L ts).descrs.length = ts.descrs.length ∧
    ∀ a, (Chunked.nextStack L ts).descr a =
      if a = nbd then { ts.descr nbd with free := Chunked.slot L nbd 0 }
      else if a = ts.currentStack then { ts.descr a with free := ts.stackTop }
      else ts.descr a := by
  unfold Chunked.traverseState.descr at hblocks hlink
  unfold Chunked.nextStack Chunked.newStackBlock Chunked.traverseState.setDescr
    Chunked.traverseState.descr Chunked.slot
  simp only [Chunked.getD_modify, hcur, and_self, if_true, hlink, hne, false_and, if_false,
    hblocks, List.length_modify]
  have hblocks2 : (ts.descrs[nbd]).blocks = BLOCKS_IN_STACK := by
    simpa [List.getD_eq_getElem?_getD, hnbd] using hblocks
  refine ⟨?_, ?_, ?_, ?_, ?_, ?_, ?_, ?_, ?_⟩
  iterate 8 (first | trivial | rfl | simp)
  intro a
  by_cases ha : a = nbd
  · subst ha
    simp [hnbd, hne, hblocks2]
  · by_cases hac : a = ts.currentStack
    · subst hac; simp [ha, hcur]
    · simp [ha, hac]
theorem Chunked.getD_concat (ds : List bdescr) (x d0 : bdescr) (a : Nat) :
    (ds ++ [x]).getD a d0 = if a = ds.length then x else ds.getD a d0 := by
  simp only [List.getD_eq_getElem?_getD]
  by_cases hlt : a < ds.length
  · rw [List.getElem?_append_left hlt]
    have : a ≠ ds.length := Nat.ne_of_lt hlt
    simp [this]
  · by_cases he : a = ds.length
    · subst he; simp
    · have h3 : ds[a]? = none := List.getElem?_eq_none (Nat.le_of_not_lt hlt)
      rw [List.getElem?_eq_none (by simp; omega), h3]
      simp [he]

/-- The switch to a new chunk, allocated because the current chunk is the
last of the chain: the fields of the state and the descriptors afterwards. -/
theorem Chunked.nextStack_alloc (L : Layout) (ts : Chunked.traverseState)
    (hcur : ts.currentStack < ts.descrs.length)
    (hlink : (ts.descr ts.currentStack).link = none) :
    (Chunked.nextStack L ts).currentStack = ts.descrs.length ∧
    (Chunked.nextStack L ts).stackTop = Chunked.slot L ts.descrs.length 0 ∧
    (Chunked.nextStack L ts).stackBottom = ⟨ts.descrs.length, 0⟩ ∧
    (Chunked.nextStack L ts).stackLimit = Chunked.slot L ts.descrs.length 0 ∧
    (Chunked.nextStack L ts).mem = ts.mem ∧
    (Chunked.nextStack L ts).firstStack = ts.firstStack ∧
    (Chunked.nextStack L ts).freed = ts.freed ∧
    (Chunked.nextStack L ts).descrs.length = ts.descrs.length + 1 ∧
    ∀ a, (Chunked.nextStack L ts).descr a =
      if a = ts.descrs.length then
        { free := Chunked.slot L ts.descrs.length 0, link := none,
          back := some ts.currentStack, blocks := BLOCKS_IN_STACK }
      else if a = ts.currentStack then
        { ts.descr a with free := ts.stackTop, link := some ts.descrs.length }
      else ts.descr a := by
  unfold Chunked.traverseState.descr at hlink
  have hne : ts.descrs.length ≠ ts.currentStack := Nat.ne_of_gt hcur
  have hne2 : ts.currentStack ≠ ts.descrs.length := Nat.ne_of_lt hcur
  refine ⟨?_, ?_, ?_, ?_, ?_, ?_, ?_, ?_, ?_⟩
  all_goals
    unfold Chunked.nextStack Chunked.newStackBlock Chunked.allocGroup
      Chunked.traverseState.setDescr Chunked.traverseState.descr
  all_goals
    simp only [Chunked.getD_modify, Chunked.getD_concat, hcur, and_self, if_true, hlink, hne,
      hne2, false_and, if_false, List.length_modify, List.length_append,
      List.length_singleton, Nat.lt_succ_self, and_true, true_and, Chunked.slot]
  iterate 3 (first | trivial | rfl | simp)
  intro a
  by_cases ha : a = ts.descrs.length
  · subst ha
    simp [hne]
  · by_cases hac : a = ts.currentStack
    · subst hac
      simp [ha, hcur, Nat.lt_succ_of_lt hcur]
    · simp [ha, hac]

/-- The invariant of the chunked stack, with the current chunk named. -/
theorem Chunked.Rep.intro (L : Layout) (ts : Chunked.traverseState) (l cur : List stackElement)
    (full : List (List stackElement)) (before after : List Nat) (c : Nat)
    (hc : ts.currentStack = c)
    (list_eq : l = cur ++ full.flatten)
    (nodup : (c :: before ++ after).Nodup)
    (inRange : ∀ a ∈ c :: before ++ after,
      a < ts.descrs.length ∧ (ts.descr a).blocks = BLOCKS_IN_STACK)
    (back : Chunked.BackLinked ts c before)
    (fwd : Chunked.FwdLinked ts c after)
    (bottom : ts.stackBottom = ⟨c, 0⟩)
    (limit : ts.stackLimit = Chunked.slot L c 0)
    (top : ts.stackTop = Chunked.slot L c cur.length)
    (free : (ts.descr c).free = Chunked.slot L c 0)
    (curLen : cur.length ≤ Chunked.capacity L)
    (nonempty : before = [] ∨ cur ≠ [])
    (holds : Chunked.Holds L ts.mem c cur)
    (fulls : List.Forall₂ (fun bd els => els.length = Chunked.capacity L ∧
      Chunked.Holds L ts.mem bd els ∧
      (ts.descr bd).free = Chunked.slot L bd (Chunked.capacity L)) before full) :
    Chunked.Rep L ts l cur full before after := by
  subst hc
  exact
    { list_eq := list_eq, nodup := nodup, inRange := inRange, back := back, fwd := fwd,
      bottom := bottom, limit := limit, top := top, free := by rw [free, limit],
      curLen := curLen, nonempty := nonempty, holds := holds, fulls := fulls }

theorem Chunked.Holds_single (L : Layout) (mem : Ptr → stackElement) (bd : Nat)
    (se : stackElement) :
    Chunked.Holds L (Function.update mem (Chunked.slot L bd 1) se) bd [se] := by
  intro m hm
  have hm0 : m = 0 := by simpa using hm
  subst hm0
  simp

/-- A push onto a full chunk that has a successor in the chain. -/
theorem Chunked.push_rep_reuse (L : Layout) (hE : 0 < L.sizeofW_stackElement)
    (hB : L.sizeofW_stackElement ≤ L.BLOCK_SIZE_W)
    (ts : Chunked.traverseState) (l cur : List stackElement) (full : List (List stackElement))
    (before rest : List Nat) (nb : Nat) (se : stackElement)
    (hr : Chunked.Rep L ts l cur full before (nb :: rest))
    (hfull : ¬ cur.length + 1 ≤ Chunked.capacity L) :
    Chunked.Rep L (Chunked.pushStackElement L ts se) (se :: l) [se] (cur :: full)
      (ts.currentStack :: before) rest := by
  have hlen : cur.length = Chunked.capacity L := by have := hr.curLen; omega
  have htest : ts.stackTop.off - L.sizeofW_stackElement < ts.stackBottom.off := by
    rw [hr.top, hr.bottom, Chunked.full_test L hE]
    exact hfull
  obtain ⟨hlink, hbackn, hfwd⟩ := hr.fwd
  have hnd := hr.nodup
  have hnbmem : nb ∈ ts.currentStack :: before ++ nb :: rest :=
    List.mem_append_right _ (List.mem_cons_self _ _)
  have hcurmem : ts.currentStack ∈ ts.currentStack :: before ++ nb :: rest :=
    List.mem_append_left _ (List.mem_cons_self _ _)
  have hperm : (ts.currentStack :: before ++ nb :: rest).Perm
      (nb :: (ts.currentStack :: before) ++ rest) := List.perm_middle
  have hnd2 : (nb :: (ts.currentStack :: before) ++ rest).Nodup := hperm.nodup_iff.1 hnd
  have hnb_notin : nb ∉ (ts.currentStack :: before) ++ rest := (List.nodup_cons.1 hnd2).1
  have hne : nb ≠ ts.currentStack := fun e =>
    hnb_notin (List.mem_append_left _ (by rw [e]; exact List.mem_cons_self _ _))
  obtain ⟨n1, n2, n3, n4, n5, n6, _, n8, n9⟩ := Chunked.nextStack_reuse L ts nb
    (hr.inRange _ hcurmem).1 (hr.inRange _ hnbmem).1 hne (hr.inRange _ hnbmem).2 hlink
  rw [Chunked.push_full_eq L ts se htest, n2, Chunked.slot_push]
  -- the descriptors keep their links and sizes
  have hkeep : ∀ a, ((Chunked.nextStack L ts).descr a).link = (ts.descr a).link ∧
      ((Chunked.nextStack L ts).descr a).back = (ts.descr a).back ∧
      ((Chunked.nextStack L ts).descr a).blocks = (ts.descr a).blocks := by
    intro a
    rw [n9 a]
    by_cases ha : a = nb
    · subst ha; simp
    · by_cases hac : a = ts.currentStack
      · subst hac; simp [ha]
      · simp [ha, hac]
  refine Chunked.Rep.intro L _ _ _ _ _ _ nb n1 (by rw [hr.list_eq]; simp) hnd2 ?_ ?_ ?_ n3 n4
    rfl ?_ (Chunked.capacity_pos L hE hB) (Or.inr (by simp)) ?_ ?_
  · intro a ha
    have ha2 : a ∈ ts.currentStack :: before ++ nb :: rest := hperm.mem_iff.2 ha
    refine ⟨?_, ?_⟩
    · show a < (Chunked.nextStack L ts).descrs.length
      rw [n8]; exact (hr.inRange a ha2).1
    · show ((Chunked.nextStack L ts).descr a).blocks = BLOCKS_IN_STACK
      rw [(hkeep a).2.2]; exact (hr.inRange a ha2).2
  · show Chunked.BackLinked _ nb (ts.currentStack :: before)
    unfold Chunked.BackLinked
    refine ⟨?_, ?_, ?_⟩
    · show ((Chunked.nextStack L ts).descr nb).back = _
      rw [(hkeep nb).2.1]; exact hbackn
    · show ((Chunked.nextStack L ts).descr ts.currentStack).link = _
      rw [(hkeep _).1]; exact hlink
    · refine Chunked.BackLinked_congr ts _ ?_ before _ ?_ hr.back
      · exact n6
      · exact fun a _ => ⟨(hkeep a).1, (hkeep a).2.1⟩
  · refine Chunked.FwdLinked_congr ts _ rest nb ?_ hfwd
    exact fun a _ => ⟨(hkeep a).1, (hkeep a).2.1⟩
  · show ((Chunked.nextStack L ts).descr nb).free = _
    rw [n9 nb]; simp
  · show Chunked.Holds L (Function.update (Chunked.nextStack L ts).mem _ se) nb [se]
    exact Chunked.Holds_single L _ nb se
  · show List.Forall₂ _ (ts.currentStack :: before) (cur :: full)
    refine List.Forall₂.cons ⟨hlen, ?_, ?_⟩ ?_
    · show Chunked.Holds L (Function.update (Chunked.nextStack L ts).mem _ se) _ cur
      rw [n5]
      exact Chunked.Holds_update_bd L ts.mem _ cur _ se
        (by rw [Chunked.slot_bd]; exact hne) hr.holds
    · show ((Chunked.nextStack L ts).descr ts.currentStack).free = _
      rw [n9 _, if_neg (fun e => hne (Eq.symm e)), if_pos rfl]
      show ts.stackTop = _
      rw [hr.top, hlen]
    · refine Chunked.forall₂_congr before full ?_ hr.fulls
      intro bd hbd els ⟨h1, h2, h3⟩
      have hbd_ne_nb : bd ≠ nb := fun e =>
        hnb_notin (List.mem_append_left _ (List.mem_cons_of_mem _ (by rw [← e]; exact hbd)))
      have hbd_ne_cur : bd ≠ ts.currentStack := fun e =>
        (List.nodup_cons.1 hnd).1 (List.mem_append_left _ (by rw [← e]; exact hbd))
      refine ⟨h1, ?_, ?_⟩
      · show Chunked.Holds L (Function.update (Chunked.nextStack L ts).mem _ se) bd els
        rw [n5]
        exact Chunked.Holds_update_bd L ts.mem bd els _ se
          (by rw [Chunked.slot_bd]; exact fun e => hbd_ne_nb e.symm) h2
      · show ((Chunked.nextStack L ts).descr bd).free = _
        rw [n9 bd]
        simp only [hbd_ne_nb, hbd_ne_cur, if_false]
        exact h3

/-- A push onto a full chunk that ends the chain: a chunk is allocated. -/
theorem Chunked.push_rep_alloc (L : Layout) (hE : 0 < L.sizeofW_stackElement)
    (hB : L.sizeofW_stackElement ≤ L.BLOCK_SIZE_W)
    (ts : Chunked.traverseState) (l cur : List stackElement) (full : List (List stackElement))
    (before : List Nat) (se : stackElement)
    (hr : Chunked.Rep L ts l cur full before [])
    (hfull : ¬ cur.length + 1 ≤ Chunked.capacity L) :
    Chunked.Rep L (Chunked.pushStackElement L ts se) (se :: l) [se] (cur :: full)
      (ts.currentStack :: before) [] := by
  have hlen : cur.length = Chunked.capacity L := by have := hr.curLen; omega
  have htest : ts.stackTop.off - L.sizeofW_stackElement < ts.stackBottom.off := by
    rw [hr.top, hr.bottom, Chunked.full_test L hE]
    exact hfull
  have hlink : (ts.descr ts.currentStack).link = none := hr.fwd
  have hnd := hr.nodup
  have hcurmem : ts.currentStack ∈ ts.currentStack :: before ++ [] :=
    List.mem_append_left _ (List.mem_cons_self _ _)
  have hcurlt := (hr.inRange _ hcurmem).1
  have hnew_notin : ts.descrs.length ∉ ts.currentStack :: before ++ [] := fun hm =>
    Nat.lt_irrefl _ (hr.inRange _ hm).1
  have hne : ts.descrs.length ≠ ts.currentStack := Nat.ne_of_gt hcurlt
  obtain ⟨n1, n2, n3, n4, n5, n6, _, n8, n9⟩ := Chunked.nextStack_alloc L ts hcurlt hlink
  rw [Chunked.push_full_eq L ts se htest, n2, Chunked.slot_push]
  have hold : ∀ a, a ≠ ts.descrs.length → a ≠ ts.currentStack →
      (Chunked.nextStack L ts).descr a = ts.descr a := by
    intro a h1 h2
    rw [n9 a, if_neg h1, if_neg h2]
  have hnd2 : (ts.descrs.length :: (ts.currentStack :: before) ++ []).Nodup := by
    rw [List.append_nil] at hnd hnew_notin ⊢
    exact List.nodup_cons.2 ⟨hnew_notin, hnd⟩
  have hbefore : ∀ bd ∈ before, bd ≠ ts.descrs.length ∧ bd ≠ ts.currentStack := by
    intro bd hbd
    refine ⟨fun e => hnew_notin ?_, fun e => (List.nodup_cons.1 hnd).1 ?_⟩
    · rw [← e]; exact List.mem_append_left _ (List.mem_cons_of_mem _ hbd)
    · rw [← e]; exact List.mem_append_left _ hbd
  refine Chunked.Rep.intro L _ _ _ _ _ _ ts.descrs.length n1 (by rw [hr.list_eq]; simp) hnd2
    ?_ ?_ ?_ n3 n4 rfl ?_ (Chunked.capacity_pos L hE hB) (Or.inr (by simp)) ?_ ?_
  · intro a ha
    rw [List.append_nil] at ha
    refine ⟨?_, ?_⟩
    · show a < (Chunked.nextStack L ts).descrs.length
      rw [n8]
      rcases List.mem_cons.1 ha with e | ha2
      · rw [e]; exact Nat.lt_succ_self _
      · exact Nat.lt_succ_of_lt (hr.inRange a (List.mem_append_left _ ha2)).1
    · show ((Chunked.nextStack L ts).descr a).blocks = BLOCKS_IN_STACK
      rw [n9 a]
      by_cases h1 : a = ts.descrs.length
      · rw [if_pos h1]
      · rw [if_neg h1]
        have ha2 : a ∈ ts.currentStack :: before := by
          rcases List.mem_cons.1 ha with e | ha2
          · exact absurd e h1
          · exact ha2
        have hb := (hr.inRange a (List.mem_append_left _ ha2)).2
        by_cases h2 : a = ts.currentStack
        · rw [if_pos h2]; exact hb
        · rw [if_neg h2]; exact hb
  · show Chunked.BackLinked _ ts.descrs.length (ts.currentStack :: before)
    unfold Chunked.BackLinked
    refine ⟨?_, ?_, ?_⟩
    · show ((Chunked.nextStack L ts).descr ts.descrs.length).back = _
      rw [n9 _, if_pos rfl]
    · show ((Chunked.nextStack L ts).descr ts.currentStack).link = _
      rw [n9 _, if_neg (fun e => hne e.symm), if_pos rfl]
    · have hb := hr.back
      cases before with
      | nil =>
        unfold Chunked.BackLinked at hb ⊢
        show (Chunked.nextStack L ts).firstStack = _
        rw [n6]; exact hb
      | cons pb r =>
        unfold Chunked.BackLinked at hb ⊢
        obtain ⟨hb1, hb2, hb3⟩ := hb
        have hpb := hbefore pb (List.mem_cons_self _ _)
        refine ⟨?_, ?_, ?_⟩
        · show ((Chunked.nextStack L ts).descr ts.currentStack).back = _
          rw [n9 _, if_neg (fun e => hne e.symm), if_pos rfl]
          exact hb1
        · show ((Chunked.nextStack L ts).descr pb).link = _
          rw [hold pb hpb.1 hpb.2]; exact hb2
        · refine Chunked.BackLinked_congr ts _ ?_ r pb ?_ hb3
          · exact n6
          · intro a ha
            have hab := hbefore a ha
            show ((Chunked.nextStack L ts).descr a).link = _ ∧
              ((Chunked.nextStack L ts).descr a).back = _
            rw [hold a hab.1 hab.2]
            exact ⟨rfl, rfl⟩
  · show Chunked.FwdLinked _ ts.descrs.length []
    unfold Chunked.FwdLinked
    show ((Chunked.nextStack L ts).descr ts.descrs.length).link = _
    rw [n9 _, if_pos rfl]
  · show ((Chunked.nextStack L ts).descr ts.descrs.length).free = _
    rw [n9 _, if_pos rfl]
  · show Chunked.Holds L (Function.update (Chunked.nextStack L ts).mem _ se) _ [se]
    exact Chunked.Holds_single L _ _ se
  · show List.Forall₂ _ (ts.currentStack :: before) (cur :: full)
    refine List.Forall₂.cons ⟨hlen, ?_, ?_⟩ ?_
    · show Chunked.Holds L (Function.update (Chunked.nextStack L ts).mem _ se) _ cur
      rw [n5]
      exact Chunked.Holds_update_bd L ts.mem _ cur _ se
        (by rw [Chunked.slot_bd]; exact hne) hr.holds
    · show ((Chunked.nextStack L ts).descr ts.currentStack).free = _
      rw [n9 _, if_neg (fun e => hne (Eq.symm e)), if_pos rfl]
      show ts.stackTop = _
      rw [hr.top, hlen]
    · refine Chunked.forall₂_congr before full ?_ hr.fulls
      intro bd hbd els ⟨h1, h2, h3⟩
      have hab := hbefore bd hbd
      refine ⟨h1, ?_, ?_⟩
      · show Chunked.Holds L (Function.update (Chunked.nextStack L ts).mem _ se) bd els
        rw [n5]
        exact Chunked.Holds_update_bd L ts.mem bd els _ se
          (by rw [Chunked.slot_bd]; exact fun e => hab.1 e.symm) h2
      · show ((Chunked.nextStack L ts).descr bd).free = _
        rw [hold bd hab.1 hab.2]
        exact h3

/-- A push keeps the invariant of the chunked stack and puts the element on
the list. -/
theorem Chunked.push_rep (L : Layout) (hE : 0 < L.sizeofW_stackElement)
    (hB : L.sizeofW_stackElement ≤ L.BLOCK_SIZE_W)
    (ts : Chunked.traverseState) (l : List stackElement) (se : stackElement)
    (hr : Chunked.Represents L ts l) :
    Chunked.Represents L (Chunked.pushStackElement L ts se) (se :: l) := by
  obtain ⟨cur, full, before, after, hr⟩ := hr
  by_cases hroom : cur.length + 1 ≤ Chunked.capacity L
  · exact ⟨_, _, _, _, Chunked.push_rep_room L hE ts l cur full before after se hr hroom⟩
  · cases after with
    | nil => exact ⟨_, _, _, _, Chunked.push_rep_alloc L hE hB ts l cur full before se hr hroom⟩
    | cons nb rest =>
      exact ⟨_, _, _, _, Chunked.push_rep_reuse L hE hB ts l cur full before rest nb se hr hroom⟩

/-- The switch back to the previous chunk in `popStackElement`: the fields of
the state and the descriptors afterwards. -/
theorem Chunked.returnToOldStack_fields (L : Layout) (ts : Chunked.traverseState) (pb : Nat)
    (hcur : ts.currentStack < ts.descrs.length) (hpb : pb < ts.descrs.length)
    (hne : pb ≠ ts.currentStack)
    (hblocks : (ts.descr pb).blocks = BLOCKS_IN_STACK) :
    (Chunked.returnToOldStack L
      (ts.setDescr ts.currentStack fun d => { d with free := ts.stackLimit }) pb).currentStack
        = pb ∧
    (Chunked.returnToOldStack L
      (ts.setDescr ts.currentStack fun d => { d with free := ts.stackLimit }) pb).stackTop
        = (ts.descr pb).free ∧
    (Chunked.returnToOldStack L
      (ts.setDescr ts.currentStack fun d => { d with free := ts.stackLimit }) pb).stackBottom
        = ⟨pb, 0⟩ ∧
    (Chunked.returnToOldStack L
      (ts.setDescr ts.currentStack fun d => { d with free := ts.stackLimit }) pb).stackLimit
        = Chunked.slot L pb 0 ∧
    (Chunked.returnToOldStack L
      (ts.setDescr ts.currentStack fun d => { d with free := ts.stackLimit }) pb).mem
        = ts.mem ∧
    (Chunked.returnToOldStack L
      (ts.setDescr ts.currentStack fun d => { d with free := ts.stackLimit }) pb).firstStack
        = ts.firstStack ∧
    (Chunked.returnToOldStack L
      (ts.setDescr ts.currentStack fun d => { d with free := ts.stackLimit }) pb).freed
        = ts.freed ∧
    (Chunked.returnToOldStack L
      (ts.setDescr ts.currentStack fun d => { d with free := ts.stackLimit }) pb).descrs.length
        = ts.descrs.length ∧
    ∀ a, (Chunked.returnToOldStack L
      (ts.setDescr ts.currentStack fun d => { d with free := ts.stackLimit }) pb).descr a =
      if a = pb then { ts.descr pb with free := Chunked.slot L pb 0 }
      else if a = ts.currentStack then { ts.descr a with free := ts.stackLimit }
      else ts.descr a := by
  have hblocks2 : (ts.descrs[pb]).blocks = BLOCKS_IN_STACK := by
    have hb := hblocks
    unfold Chunked.traverseState.descr at hb
    simpa [List.getD_eq_getElem?_getD, hpb] using hb
  have hall : ∀ a, (Chunked.returnToOldStack L
      (ts.setDescr ts.currentStack fun d => { d with free := ts.stackLimit }) pb).descr a =
      if a = pb then { ts.descr pb with free := Chunked.slot L pb 0 }
      else if a = ts.currentStack then { ts.descr a with free := ts.stackLimit }
      else ts.descr a := by
    intro a
    simp only [Chunked.returnToOldStack, Chunked.traverseState.setDescr,
      Chunked.traverseState.descr, Chunked.slot, Chunked.getD_modify, hcur, hne, false_and,
      if_false, List.length_modify]
    by_cases ha : a = pb
    · subst ha
      simp [hpb, hne, hblocks2]
    · by_cases hac : a = ts.currentStack
      · subst hac; simp [ha, hcur]
      · simp [ha, hac]
  have hb := hblocks
  unfold Chunked.traverseState.descr at hb
  refine ⟨?_, ?_, ?_, ?_, ?_, ?_, ?_, ?_, hall⟩
  all_goals
    simp only [Chunked.returnToOldStack, Chunked.traverseState.setDescr,
      Chunked.traverseState.descr, Chunked.slot, Chunked.getD_modify, hcur, hne, false_and,
      if_false, List.length_modify, hb]
  all_goals simp

theorem Chunked.pop_room_eq (L : Layout) (ts : Chunked.traverseState)
    (htest : ts.stackTop.off + L.sizeofW_stackElement < ts.stackLimit.off) :
    Chunked.popStackElement L ts =
      .ok { ts with stackTop := ⟨ts.stackTop.bd, ts.stackTop.off + L.sizeofW_stackElement⟩ } := by
  unfold Chunked.popStackElement
  rw [if_pos htest]

theorem Chunked.pop_first_eq (L : Layout) (ts : Chunked.traverseState)
    (htest : ¬ ts.stackTop.off + L.sizeofW_stackElement < ts.stackLimit.off)
    (hfirst : ts.firstStack = some ts.currentStack) :
    Chunked.popStackElement L ts =
      .ok { ts with stackTop := ⟨ts.stackTop.bd, ts.stackTop.off + L.sizeofW_stackElement⟩ } := by
  unfold Chunked.popStackElement
  rw [if_neg htest, if_pos hfirst]

theorem Chunked.pop_back_eq (L : Layout) (ts : Chunked.traverseState) (pb : Nat)
    (htest : ¬ ts.stackTop.off + L.sizeofW_stackElement < ts.stackLimit.off)
    (hfirst : ts.firstStack ≠ some ts.currentStack)
    (hback : (ts.descr ts.currentStack).back = some pb) :
    Chunked.popStackElement L ts =
      .ok (Chunked.returnToOldStack L
        (ts.setDescr ts.currentStack fun d => { d with free := ts.stackLimit }) pb) := by
  have hb2 : ((ts.setDescr ts.currentStack fun d => { d with free := ts.stackLimit }).descr
      ts.currentStack).back = some pb := by
    rw [Chunked.descr_setDescr]
    by_cases hc : ts.currentStack = ts.currentStack ∧ ts.currentStack < ts.descrs.length
    · rw [if_pos hc]; exact hback
    · rw [if_neg hc]; exact hback
  unfold Chunked.popStackElement
  rw [if_neg htest, if_neg hfirst]
  show (match ((ts.setDescr ts.currentStack fun d =>
      { d with free := ts.stackLimit }).descr ts.currentStack).back with
    | none => Except.error Fatal.undefinedRead
    | some pbd => Except.ok (Chunked.returnToOldStack L
        (ts.setDescr ts.currentStack fun d => { d with free := ts.stackLimit }) pbd)) = _
  rw [hb2]

/-- The chain of `u.back` fields ends in the first chunk. -/
theorem Chunked.BackLinked_first (ts : Chunked.traverseState) :
    ∀ (before : List Nat) (cur : Nat), Chunked.BackLinked ts cur before →
      ts.firstStack = some ((cur :: before).getLast (List.cons_ne_nil _ _))
  | [], cur, hb => by
    unfold Chunked.BackLinked at hb
    simpa using hb
  | pb :: rest, cur, hb => by
    unfold Chunked.BackLinked at hb
    have := Chunked.BackLinked_first ts rest pb hb.2.2
    rw [this, List.getLast_cons (List.cons_ne_nil _ _)]

/-- With the invariant, the current chunk is the first one exactly when no
chunk lies before it. -/
theorem Chunked.Rep.first_iff (L : Layout) (ts : Chunked.traverseState)
    (l cur : List stackElement) (full : List (List stackElement)) (before after : List Nat)
    (hr : Chunked.Rep L ts l cur full before after) :
    ts.firstStack = some ts.currentStack ↔ before = [] := by
  have hf := Chunked.BackLinked_first ts before ts.currentStack hr.back
  constructor
  · intro h1
    cases before with
    | nil => rfl
    | cons pb rest =>
      exfalso
      rw [h1, List.getLast_cons (List.cons_ne_nil _ _)] at hf
      have hmem : (pb :: rest).getLast (List.cons_ne_nil _ _) ∈ pb :: rest :=
        List.getLast_mem _
      have hnd := hr.nodup
      have h2 : ts.currentStack ∉ (pb :: rest) ++ after := (List.nodup_cons.1 hnd).1
      apply h2
      apply List.mem_append_left
      have h3 : ts.currentStack = (pb :: rest).getLast (List.cons_ne_nil _ _) :=
        Option.some.inj hf
      rw [h3]
      exact hmem
  · intro h1
    subst h1
    simpa using hf

/-- A pop that stays within the current chunk. -/
theorem Chunked.pop_rep_room (L : Layout) (hE : 0 < L.sizeofW_stackElement)
    (ts : Chunked.traverseState) (l cur : List stackElement) (full : List (List stackElement))
    (before after : List Nat) (se se1 : stackElement)
    (hr : Chunked.Rep L ts (se :: l) (se :: se1 :: cur) full before after) :
    ∃ ts1, Chunked.popStackElement L ts = .ok ts1 ∧
      Chunked.Rep L ts1 l (se1 :: cur) full before after := by
  have htest : ts.stackTop.off + L.sizeofW_stackElement < ts.stackLimit.off := by
    rw [hr.top, hr.limit, Chunked.pop_test L hE]
    simp
  refine ⟨_, Chunked.pop_room_eq L ts htest, ?_⟩
  rw [hr.top]
  have hs := Chunked.slot_pop L ts.currentStack (se1 :: cur).length
  rw [show (se :: se1 :: cur).length = (se1 :: cur).length + 1 from rfl, hs]
  exact
    { list_eq := by
        have := hr.list_eq
        simp only [List.cons_append, List.cons.injEq, true_and] at this
        rw [this]; rfl
      nodup := hr.nodup
      inRange := hr.inRange
      back := by
        refine Chunked.BackLinked_congr ts _ ?_ before _ ?_ hr.back
        · rfl
        · exact fun _ _ => ⟨rfl, rfl⟩
      fwd := by
        refine Chunked.FwdLinked_congr ts _ after _ ?_ hr.fwd
        exact fun _ _ => ⟨rfl, rfl⟩
      bottom := hr.bottom
      limit := hr.limit
      top := rfl
      free := hr.free
      curLen := by have := hr.curLen; simp only [List.length_cons] at this ⊢; omega
      nonempty := Or.inr (by simp)
      holds := Chunked.Holds_tail L ts.mem _ _ se hr.holds
      fulls := hr.fulls }

/-- The pop of the last element of the first chunk. -/
theorem Chunked.pop_rep_first (L : Layout) (hE : 0 < L.sizeofW_stackElement)
    (ts : Chunked.traverseState) (l : List stackElement) (full : List (List stackElement))
    (after : List Nat) (se : stackElement)
    (hr : Chunked.Rep L ts (se :: l) [se] full [] after) :
    ∃ ts1, Chunked.popStackElement L ts = .ok ts1 ∧
      Chunked.Rep L ts1 l [] full [] after := by
  have htest : ¬ ts.stackTop.off + L.sizeofW_stackElement < ts.stackLimit.off := by
    rw [hr.top, hr.limit, Chunked.pop_test L hE]
    simp
  have hfirst : ts.firstStack = some ts.currentStack :=
    (Chunked.Rep.first_iff L ts _ _ _ _ _ hr).2 rfl
  refine ⟨_, Chunked.pop_first_eq L ts htest hfirst, ?_⟩
  rw [hr.top]
  have hs := Chunked.slot_pop L ts.currentStack 0
  rw [show ([se] : List stackElement).length = 0 + 1 from rfl, hs]
  exact
    { list_eq := by
        have := hr.list_eq
        simp only [List.cons_append, List.cons.injEq, true_and, List.nil_append] at this
        rw [this]; rfl
      nodup := hr.nodup
      inRange := hr.inRange
      back := by
        refine Chunked.BackLinked_congr ts _ ?_ [] _ ?_ hr.back
        · rfl
        · exact fun _ _ => ⟨rfl, rfl⟩
      fwd := by
        refine Chunked.FwdLinked_congr ts _ after _ ?_ hr.fwd
        exact fun _ _ => ⟨rfl, rfl⟩
      bottom := hr.bottom
      limit := hr.limit
      top := rfl
      free := hr.free
      curLen := Nat.zero_le _
      nonempty := Or.inl rfl
      holds := Chunked.Holds_tail L ts.mem _ _ se hr.holds
      fulls := hr.fulls }

/-- The pop of the last element of a later chunk: the stack returns to the
previous chunk, and the chunk that became empty stays in the chain. -/
theorem Chunked.pop_rep_back (L : Layout) (hE : 0 < L.sizeofW_stackElement)
    (hB : L.sizeofW_stackElement ≤ L.BLOCK_SIZE_W)
    (ts : Chunked.traverseState) (l f : List stackElement) (fr : List (List stackElement))
    (r after : List Nat) (pb : Nat) (se : stackElement)
    (hr : Chunked.Rep L ts (se :: l) [se] (f :: fr) (pb :: r) after) :
    ∃ ts1, Chunked.popStackElement L ts = .ok ts1 ∧
      Chunked.Rep L ts1 l f fr r (ts.currentStack :: after) := by
  have htest : ¬ ts.stackTop.off + L.sizeofW_stackElement < ts.stackLimit.off := by
    rw [hr.top, hr.limit, Chunked.pop_test L hE]
    simp
  have hfirst : ts.firstStack ≠ some ts.currentStack := fun h1 =>
    List.cons_ne_nil _ _ ((Chunked.Rep.first_iff L ts _ _ _ _ _ hr).1 h1)
  obtain ⟨hback, hlinkp, hb3⟩ := hr.back
  have hnd := hr.nodup
  have hcurmem : ts.currentStack ∈ ts.currentStack :: (pb :: r) ++ after :=
    List.mem_append_left _ (List.mem_cons_self _ _)
  have hpbmem : pb ∈ ts.currentStack :: (pb :: r) ++ after :=
    List.mem_append_left _ (List.mem_cons_of_mem _ (List.mem_cons_self _ _))
  have hcur_notin : ts.currentStack ∉ (pb :: r) ++ after := (List.nodup_cons.1 hnd).1
  have hne : pb ≠ ts.currentStack := fun e =>
    hcur_notin (List.mem_append_left _ (by rw [← e]; exact List.mem_cons_self _ _))
  have hperm : ((pb :: r) ++ ts.currentStack :: after).Perm
      (ts.currentStack :: (pb :: r) ++ after) := List.perm_middle
  have hnd2 : (pb :: r ++ ts.currentStack :: after).Nodup := hperm.nodup_iff.2 hnd
  obtain ⟨n1, n2, n3, n4, n5, n6, _, n8, n9⟩ := Chunked.returnToOldStack_fields L ts pb
    (hr.inRange _ hcurmem).1 (hr.inRange _ hpbmem).1 hne (hr.inRange _ hpbmem).2
  refine ⟨_, Chunked.pop_back_eq L ts pb htest hfirst hback, ?_⟩
  have hkeep : ∀ a, ((Chunked.returnToOldStack L
      (ts.setDescr ts.currentStack fun d => { d with free := ts.stackLimit }) pb).descr a).link
        = (ts.descr a).link ∧
      ((Chunked.returnToOldStack L
      (ts.setDescr ts.currentStack fun d => { d with free := ts.stackLimit }) pb).descr a).back
        = (ts.descr a).back ∧
      ((Chunked.returnToOldStack L
      (ts.setDescr ts.currentStack fun d => { d with free := ts.stackLimit }) pb).descr a).blocks
        = (ts.descr a).blocks := by
    intro a
    rw [n9 a]
    by_cases ha : a = pb
    · subst ha; simp
    · by_cases hac : a = ts.currentStack
      · subst hac; simp [ha]
      · simp [ha, hac]
  cases hr.fulls with
  | cons hf hfr =>
  obtain ⟨hflen, hfholds, hffree⟩ := hf
  have hK := Chunked.capacity_pos L hE hB
  refine Chunked.Rep.intro L _ _ _ _ _ _ pb n1 ?_ hnd2 ?_ ?_ ?_ n3 n4 ?_ ?_ ?_ ?_ ?_ ?_
  · have := hr.list_eq
    simp only [List.cons_append, List.cons.injEq, true_and, List.nil_append,
      List.flatten_cons] at this
    exact this
  · intro a ha
    have ha2 : a ∈ ts.currentStack :: (pb :: r) ++ after := hperm.mem_iff.1 ha
    refine ⟨?_, ?_⟩
    · rw [n8]; exact (hr.inRange a ha2).1
    · rw [(hkeep a).2.2]; exact (hr.inRange a ha2).2
  · refine Chunked.BackLinked_congr ts _ n6 r pb ?_ hb3
    exact fun a _ => ⟨(hkeep a).1, (hkeep a).2.1⟩
  · unfold Chunked.FwdLinked
    refine ⟨?_, ?_, ?_⟩
    · rw [(hkeep pb).1]; exact hlinkp
    · rw [(hkeep _).2.1]; exact hback
    · refine Chunked.FwdLinked_congr ts _ after _ ?_ hr.fwd
      exact fun a _ => ⟨(hkeep a).1, (hkeep a).2.1⟩
  · rw [n2, hffree, hflen]
  · rw [n9 pb, if_pos rfl]
  · exact Nat.le_of_eq hflen
  · refine Or.inr ?_
    intro e
    rw [e] at hflen
    simp only [List.length_nil] at hflen
    omega
  · rw [n5]; exact hfholds
  · refine Chunked.forall₂_congr r fr ?_ hfr
    intro bd hbd els ⟨h1, h2, h3⟩
    have hbd_ne_pb : bd ≠ pb := fun e => by
      have hnd3 : (pb :: r).Nodup := (List.nodup_append.1 (List.nodup_cons.1 hnd).2).1
      exact (List.nodup_cons.1 hnd3).1 (by rw [← e]; exact hbd)
    have hbd_ne_cur : bd ≠ ts.currentStack := fun e =>
      hcur_notin (List.mem_append_left _ (List.mem_cons_of_mem _ (by rw [← e]; exact hbd)))
    refine ⟨h1, ?_, ?_⟩
    · rw [n5]; exact h2
    · rw [n9 bd, if_neg hbd_ne_pb, if_neg hbd_ne_cur]
      exact h3

/-- A pop keeps the invariant of the chunked stack and takes the top element
off the list; it does not fail on a stack that is not empty. -/
theorem Chunked.pop_rep (L : Layout) (hE : 0 < L.sizeofW_stackElement)
    (hB : L.sizeofW_stackElement ≤ L.BLOCK_SIZE_W)
    (ts : Chunked.traverseState) (l : List stackElement) (se : stackElement)
    (hr : Chunked.Represents L ts (se :: l)) :
    ∃ ts1, Chunked.popStackElement L ts = .ok ts1 ∧ Chunked.Represents L ts1 l := by
  obtain ⟨cur, full, before, after, hr⟩ := hr
  cases cur with
  | nil =>
    exfalso
    rcases hr.nonempty with hb | hc
    · subst hb
      cases hr.fulls
      have := hr.list_eq
      simp at this
    · exact hc rfl
  | cons x cur =>
    have hx : x = se := by
      have := hr.list_eq
      simp only [List.cons_append, List.cons.injEq] at this
      exact this.1.symm
    subst hx
    cases cur with
    | cons se1 cur =>
      obtain ⟨ts1, h1, h2⟩ := Chunked.pop_rep_room L hE ts l cur full before after x se1 hr
      exact ⟨ts1, h1, _, _, _, _, h2⟩
    | nil =>
      cases before with
      | nil =>
        obtain ⟨ts1, h1, h2⟩ := Chunked.pop_rep_first L hE ts l full after x hr
        exact ⟨ts1, h1, _, _, _, _, h2⟩
      | cons pb r =>
        cases full with
        | nil => cases hr.fulls
        | cons f fr =>
          obtain ⟨ts1, h1, h2⟩ := Chunked.pop_rep_back L hE hB ts l f fr r after pb x hr
          exact ⟨ts1, h1, _, _, _, _, h2⟩

/-- The fields of the state and the new descriptor after
`initializeTraverseStack`. -/
theorem Chunked.initializeTraverseStack_fields (L : Layout) (ts : Chunked.traverseState) :
    (Chunked.initializeTraverseStack L ts).currentStack = ts.descrs.length ∧
    (Chunked.initializeTraverseStack L ts).firstStack = some ts.descrs.length ∧
    (Chunked.initializeTraverseStack L ts).stackTop = Chunked.slot L ts.descrs.length 0 ∧
    (Chunked.initializeTraverseStack L ts).stackBottom = ⟨ts.descrs.length, 0⟩ ∧
    (Chunked.initializeTraverseStack L ts).stackLimit = Chunked.slot L ts.descrs.length 0 ∧
    (Chunked.initializeTraverseStack L ts).descrs.length = ts.descrs.length + 1 ∧
    (Chunked.initializeTraverseStack L ts).descr ts.descrs.length =
      { free := Chunked.slot L ts.descrs.length 0, link := none, back := none,
        blocks := BLOCKS_IN_STACK } := by
  refine ⟨?_, ?_, ?_, ?_, ?_, ?_, ?_⟩
  all_goals
    cases hf : ts.firstStack
  all_goals
    simp only [Chunked.initializeTraverseStack, Chunked.newStackBlock, Chunked.allocGroup,
      Chunked.freeChain, Chunked.traverseState.setDescr, Chunked.traverseState.descr,
      Chunked.slot, hf, Chunked.getD_modify, Chunked.getD_concat, List.length_modify,
      List.length_append, List.length_singleton]
  all_goals simp

/-- After `initializeTraverseStack` the stack stands for the empty list, and
its chain is the one new chunk. -/
theorem Chunked.init_rep (L : Layout) (ts0 : Chunked.traverseState) :
    Chunked.Rep L (Chunked.initializeTraverseStack L ts0) [] [] [] [] [] := by
  obtain ⟨n1, n2, n3, n4, n5, n6, n7⟩ := Chunked.initializeTraverseStack_fields L ts0
  refine Chunked.Rep.intro L _ _ _ _ _ _ ts0.descrs.length n1 rfl (by simp) ?_ ?_ ?_ n4 n5 n3
    ?_ (Nat.zero_le _) (Or.inl rfl) ?_ List.Forall₂.nil
  · intro a ha
    have ha2 : a = ts0.descrs.length := by simpa using ha
    subst ha2
    rw [n6, n7]
    exact ⟨Nat.lt_succ_self _, rfl⟩
  · exact n2
  · show ((Chunked.initializeTraverseStack L ts0).descr ts0.descrs.length).link = none
    rw [n7]
  · rw [n7]
  · intro m hm
    simp at hm

/-- With the invariant, the element at `stackTop` is the head of the list. -/
theorem Chunked.top_rep (L : Layout) (ts : Chunked.traverseState) (l : List stackElement)
    (se : stackElement) (hr : Chunked.Represents L ts (se :: l)) :
    Chunked.top ts = se := by
  obtain ⟨cur, full, before, after, hr⟩ := hr
  cases cur with
  | nil =>
    exfalso
    rcases hr.nonempty with hb | hc
    · subst hb
      cases hr.fulls
      have := hr.list_eq
      simp at this
    · exact hc rfl
  | cons x cur =>
    have hx : x = se := by
      have := hr.list_eq
      simp only [List.cons_append, List.cons.injEq] at this
      exact this.1.symm
    subst hx
    unfold Chunked.top
    rw [hr.top]
    exact Chunked.Holds_top L ts.mem _ cur x hr.holds

/-- With the invariant, `isEmptyWorkStack` holds exactly of the empty list. -/
theorem Chunked.isEmpty_rep (L : Layout) (hE : 0 < L.sizeofW_stackElement)
    (ts : Chunked.traverseState) (l : List stackElement) (hr : Chunked.Represents L ts l) :
    Chunked.isEmptyWorkStack ts = true ↔ l = [] := by
  obtain ⟨cur, full, before, after, hr⟩ := hr
  unfold Chunked.isEmptyWorkStack
  rw [Bool.and_eq_true, decide_eq_true_iff, decide_eq_true_iff,
    Chunked.Rep.first_iff L ts l cur full before after hr, hr.top, hr.limit,
    Chunked.slot_inj L hE]
  constructor
  · rintro ⟨hb, -, hc⟩
    subst hb
    have hc2 : cur = [] := List.length_eq_zero.1 hc
    subst hc2
    cases hr.fulls
    rw [hr.list_eq]; rfl
  · intro hl
    subst hl
    have h1 := hr.list_eq
    have hc2 : cur = [] := (List.append_eq_nil.1 h1.symm).1
    subst hc2
    rcases hr.nonempty with hb | hc
    · exact ⟨hb, rfl, rfl⟩
    · exact absurd rfl hc

/-- A sequence of pushes and pops in which no pop meets the empty stack runs
on the chunked stack without an error and keeps the invariant. -/
theorem Chunked.run_rep (L : Layout) (hE : 0 < L.sizeofW_stackElement)
    (hB : L.sizeofW_stackElement ≤ L.BLOCK_SIZE_W) :
    ∀ (ops : List StackOp) (ts : Chunked.traverseState) (l l1 : List stackElement),
      Chunked.Represents L ts l → listRun ops l = some l1 →
      ∃ ts1, Chunked.run L ops ts = .ok ts1 ∧ Chunked.Represents L ts1 l1
  | [], ts, l, l1, hr, hl => by
    unfold listRun at hl
    cases hl
    exact ⟨ts, rfl, hr⟩
  | StackOp.push se :: ops, ts, l, l1, hr, hl => by
    unfold listRun at hl
    unfold Chunked.run
    exact Chunked.run_rep L hE hB ops _ (se :: l) l1 (Chunked.push_rep L hE hB ts l se hr) hl
  | StackOp.pop :: ops, ts, [], l1, hr, hl => by
    unfold listRun at hl
    cases hl
  | StackOp.pop :: ops, ts, se :: l, l1, hr, hl => by
    unfold listRun at hl
    obtain ⟨ts1, h1, h2⟩ := Chunked.pop_rep L hE hB ts l se hr
    unfold Chunked.run
    rw [h1]
    exact Chunked.run_rep L hE hB ops ts1 l l1 h2 hl

/-- The chain from the first chunk: the chunks before the current one in
reverse, the current one, and the chunks after it. -/
theorem Chunked.chain_linked (ts : Chunked.traverseState) :
    ∀ (before : List Nat) (cur : Nat) (after : List Nat),
      Chunked.BackLinked ts cur before → Chunked.FwdLinked ts cur after →
      ∃ first rest, first :: rest = before.reverse ++ cur :: after ∧
        ts.firstStack = some first ∧ Chunked.FwdLinked ts first rest
  | [], cur, after, hb, hf => by
    unfold Chunked.BackLinked at hb
    exact ⟨cur, after, rfl, hb, hf⟩
  | pb :: r, cur, after, hb, hf => by
    unfold Chunked.BackLinked at hb
    obtain ⟨h1, h2, h3⟩ := hb
    have hf2 : Chunked.FwdLinked ts pb (cur :: after) := by
      unfold Chunked.FwdLinked
      exact ⟨h2, h1, hf⟩
    obtain ⟨first, rest, e, hfs, hl⟩ := Chunked.chain_linked ts r pb (cur :: after) h3 hf2
    refine ⟨first, rest, ?_, hfs, hl⟩
    rw [e]
    simp

theorem Chunked.chainFrom_linked (ts : Chunked.traverseState) :
    ∀ (rest : List Nat) (first fuel : Nat), Chunked.FwdLinked ts first rest →
      rest.length + 1 ≤ fuel → Chunked.chainFrom ts fuel (some first) = first :: rest
  | [], first, fuel, hf, hfuel => by
    unfold Chunked.FwdLinked at hf
    obtain ⟨k, rfl⟩ : ∃ k, fuel = k + 1 := ⟨fuel - 1, by simp at hfuel; omega⟩
    unfold Chunked.chainFrom
    rw [hf]
    cases k <;> rfl
  | nb :: rest, first, fuel, hf, hfuel => by
    unfold Chunked.FwdLinked at hf
    obtain ⟨k, rfl⟩ : ∃ k, fuel = k + 1 := ⟨fuel - 1, by simp at hfuel; omega⟩
    unfold Chunked.chainFrom
    rw [hf.1, Chunked.chainFrom_linked ts rest nb k hf.2.2
      (by simp only [List.length_cons] at hfuel; omega)]

theorem Chunked.blocks_loop_linked (ts : Chunked.traverseState) :
    ∀ (rest : List Nat) (first fuel res : Nat), Chunked.FwdLinked ts first rest →
      (∀ a ∈ first :: rest, (ts.descr a).blocks = BLOCKS_IN_STACK) →
      rest.length + 1 ≤ fuel →
      Chunked.traverseWorkStackBlocks_loop ts fuel (some first) res
        = some (res + (rest.length + 1) * BLOCKS_IN_STACK)
  | [], first, fuel, res, hf, hbl, hfuel => by
    unfold Chunked.FwdLinked at hf
    obtain ⟨k, rfl⟩ : ∃ k, fuel = k + 1 := ⟨fuel - 1, by simp at hfuel; omega⟩
    unfold Chunked.traverseWorkStackBlocks_loop
    rw [hf, hbl first (List.mem_cons_self _ _)]
    unfold Chunked.traverseWorkStackBlocks_loop
    simp
  | nb :: rest, first, fuel, res, hf, hbl, hfuel => by
    unfold Chunked.FwdLinked at hf
    obtain ⟨k, rfl⟩ : ∃ k, fuel = k + 1 := ⟨fuel - 1, by simp at hfuel; omega⟩
    unfold Chunked.traverseWorkStackBlocks_loop
    rw [hf.1, Chunked.blocks_loop_linked ts rest nb k _ hf.2.2
      (fun a ha => hbl a (List.mem_cons_of_mem _ ha))
      (by simp only [List.length_cons] at hfuel; omega),
      hbl first (List.mem_cons_self _ _)]
    simp only [List.length_cons]
    congr 1
    ring

/-- With the invariant, the chain is no longer than the list of the
descriptors. -/
theorem Chunked.Rep.chain_length_le (L : Layout) (ts : Chunked.traverseState)
    (l cur : List stackElement) (full : List (List stackElement)) (before after : List Nat)
    (hr : Chunked.Rep L ts l cur full before after) :
    before.length + 1 + after.length ≤ ts.descrs.length := by
  have hsub : (ts.currentStack :: before ++ after) ⊆ List.range ts.descrs.length := by
    intro a ha
    exact List.mem_range.2 (hr.inRange a ha).1
  have := (List.subperm_of_subset hr.nodup hsub).length_le
  simp only [List.length_append, List.length_cons, List.length_range] at this
  omega

/-- With the invariant, `traverseWorkStackBlocks` counts the chunks of the
chain, given fuel for each descriptor. -/
theorem Chunked.Rep.blocks (L : Layout) (ts : Chunked.traverseState)
    (l cur : List stackElement) (full : List (List stackElement)) (before after : List Nat)
    (hr : Chunked.Rep L ts l cur full before after) (fuel : Nat)
    (hfuel : ts.descrs.length ≤ fuel) :
    Chunked.traverseWorkStackBlocks ts fuel
      = some ((before.length + 1 + after.length) * BLOCKS_IN_STACK) := by
  obtain ⟨first, rest, e, hfs, hl⟩ :=
    Chunked.chain_linked ts before ts.currentStack after hr.back hr.fwd
  have hlen := Chunked.Rep.chain_length_le L ts l cur full before after hr
  have hrl : rest.length + 1 = before.length + 1 + after.length := by
    have := congrArg List.length e
    simp only [List.length_append, List.length_cons, List.length_reverse] at this
    omega
  unfold Chunked.traverseWorkStackBlocks
  rw [hfs, Chunked.blocks_loop_linked ts rest first fuel 0 hl ?_ (by omega), hrl, Nat.zero_add]
  intro a ha
  rw [e] at ha
  apply (hr.inRange a _).2
  rcases List.mem_append.1 ha with h1 | h1
  · exact List.mem_append_left _ (List.mem_cons_of_mem _ (List.mem_reverse.1 h1))
  · rcases List.mem_cons.1 h1 with h2 | h2
    · rw [h2]; exact List.mem_append_left _ (List.mem_cons_self _ _)
    · exact List.mem_append_right _ h2

/-- With the invariant, the chain from `firstStack` along the `link` fields
is made of the chunks before the current one, the current one and those after
it. -/
theorem Chunked.Rep.chain (L : Layout) (ts : Chunked.traverseState)
    (l cur : List stackElement) (full : List (List stackElement)) (before after : List Nat)
    (hr : Chunked.Rep L ts l cur full before after) (fuel : Nat)
    (hfuel : ts.descrs.length ≤ fuel) :
    ∃ first, ts.firstStack = some first ∧
      Chunked.chainFrom ts fuel (some first) = before.reverse ++ ts.currentStack :: after := by
  obtain ⟨first, rest, e, hfs, hl⟩ :=
    Chunked.chain_linked ts before ts.currentStack after hr.back hr.fwd
  have hlen := Chunked.Rep.chain_length_le L ts l cur full before after hr
  have hrl : rest.length + 1 = before.length + 1 + after.length := by
    have := congrArg List.length e
    simp only [List.length_append, List.length_cons, List.length_reverse] at this
    omega
  exact ⟨first, hfs, by rw [Chunked.chainFrom_linked ts rest first fuel hl (by omega), e]⟩

theorem Chunked.init_chain (L : Layout) (ts0 : Chunked.traverseState) :
    Chunked.Chain L (Chunked.initializeTraverseStack L ts0) [] 1 :=
  ⟨_, _, _, _, Chunked.init_rep L ts0, rfl⟩

theorem Chunked.Chain.represents (L : Layout) (ts : Chunked.traverseState)
    (l : List stackElement) (n : Nat) (hc : Chunked.Chain L ts l n) :
    Chunked.Represents L ts l := by
  obtain ⟨cur, full, before, after, hr, -⟩ := hc
  exact ⟨cur, full, before, after, hr⟩

/-- A push leaves the number of chunks of the chain as it is or adds one. -/
theorem Chunked.push_chain (L : Layout) (hE : 0 < L.sizeofW_stackElement)
    (hB : L.sizeofW_stackElement ≤ L.BLOCK_SIZE_W)
    (ts : Chunked.traverseState) (l : List stackElement) (se : stackElement) (n : Nat)
    (hc : Chunked.Chain L ts l n) :
    ∃ n1, n ≤ n1 ∧ Chunked.Chain L (Chunked.pushStackElement L ts se) (se :: l) n1 := by
  obtain ⟨cur, full, before, after, hr, hn⟩ := hc
  by_cases hroom : cur.length + 1 ≤ Chunked.capacity L
  · exact ⟨n, Nat.le_refl _, _, _, _, _,
      Chunked.push_rep_room L hE ts l cur full before after se hr hroom, hn⟩
  · cases after with
    | nil =>
      refine ⟨n + 1, Nat.le_succ _, _, _, _, _,
        Chunked.push_rep_alloc L hE hB ts l cur full before se hr hroom, ?_⟩
      simp only [List.length_cons, List.length_nil] at hn ⊢
      omega
    | cons nb rest =>
      refine ⟨n, Nat.le_refl _, _, _, _, _,
        Chunked.push_rep_reuse L hE hB ts l cur full before rest nb se hr hroom, ?_⟩
      simp only [List.length_cons] at hn ⊢
      omega

/-- A pop leaves the number of chunks of the chain as it is. -/
theorem Chunked.pop_chain (L : Layout) (hE : 0 < L.sizeofW_stackElement)
    (hB : L.sizeofW_stackElement ≤ L.BLOCK_SIZE_W)
    (ts : Chunked.traverseState) (l : List stackElement) (se : stackElement) (n : Nat)
    (hc : Chunked.Chain L ts (se :: l) n) :
    ∃ ts1, Chunked.popStackElement L ts = .ok ts1 ∧ Chunked.Chain L ts1 l n := by
  obtain ⟨cur, full, before, after, hr, hn⟩ := hc
  cases cur with
  | nil =>
    exfalso
    rcases hr.nonempty with hb | hc
    · subst hb
      cases hr.fulls
      have := hr.list_eq
      simp at this
    · exact hc rfl
  | cons x cur =>
    have hx : x = se := by
      have := hr.list_eq
      simp only [List.cons_append, List.cons.injEq] at this
      exact this.1.symm
    subst hx
    cases cur with
    | cons se1 cur =>
      obtain ⟨ts1, h1, h2⟩ := Chunked.pop_rep_room L hE ts l cur full before after x se1 hr
      exact ⟨ts1, h1, _, _, _, _, h2, hn⟩
    | nil =>
      cases before with
      | nil =>
        obtain ⟨ts1, h1, h2⟩ := Chunked.pop_rep_first L hE ts l full after x hr
        exact ⟨ts1, h1, _, _, _, _, h2, hn⟩
      | cons pb r =>
        cases full with
        | nil => cases hr.fulls
        | cons f fr =>
          obtain ⟨ts1, h1, h2⟩ := Chunked.pop_rep_back L hE hB ts l f fr r after pb x hr
          refine ⟨ts1, h1, _, _, _, _, h2, ?_⟩
          simp only [List.length_cons] at hn ⊢
          omega

/-- Over a sequence of pushes and pops the number of chunks of the chain
does not go down. -/
theorem Chunked.run_chain (L : Layout) (hE : 0 < L.sizeofW_stackElement)
    (hB : L.sizeofW_stackElement ≤ L.BLOCK_SIZE_W) :
    ∀ (ops : List StackOp) (ts : Chunked.traverseState) (l l1 : List stackElement) (n : Nat),
      Chunked.Chain L ts l n → listRun ops l = some l1 →
      ∃ ts1 n1, Chunked.run L ops ts = .ok ts1 ∧ n ≤ n1 ∧ Chunked.Chain L ts1 l1 n1
  | [], ts, l, l1, n, hr, hl => by
    unfold listRun at hl
    cases hl
    exact ⟨ts, n, rfl, Nat.le_refl _, hr⟩
  | StackOp.push se :: ops, ts, l, l1, n, hr, hl => by
    unfold listRun at hl
    unfold Chunked.run
    obtain ⟨n1, hn1, hc1⟩ := Chunked.push_chain L hE hB ts l se n hr
    obtain ⟨ts2, n2, h1, h2, h3⟩ := Chunked.run_chain L hE hB ops _ (se :: l) l1 n1 hc1 hl
    exact ⟨ts2, n2, h1, Nat.le_trans hn1 h2, h3⟩
  | StackOp.pop :: ops, ts, [], l1, n, hr, hl => by
    unfold listRun at hl
    cases hl
  | StackOp.pop :: ops, ts, se :: l, l1, n, hr, hl => by
    unfold listRun at hl
    obtain ⟨ts1, h1, h2⟩ := Chunked.pop_chain L hE hB ts l se n hr
    unfold Chunked.run
    rw [h1]
    exact Chunked.run_chain L hE hB ops ts1 l l1 n h2 hl

theorem Chunked.Chain.blocks_count (L : Layout) (ts : Chunked.traverseState)
    (l : List stackElement) (n : Nat) (hc : Chunked.Chain L ts l n) (fuel : Nat)
    (hfuel : ts.descrs.length ≤ fuel) :
    Chunked.traverseWorkStackBlocks ts fuel = some (n * BLOCKS_IN_STACK) := by
  obtain ⟨cur, full, before, after, hr, hn⟩ := hc
  rw [← hn]
  exact Chunked.Rep.blocks L ts l cur full before after hr fuel hfuel

/-- A pop changes no `link`, no `u.back` and no size of a descriptor, adds no
descriptor and frees none. -/
theorem Chunked.pop_keeps (L : Layout) (ts ts1 : Chunked.traverseState)
    (h : Chunked.popStackElement L ts = .ok ts1) :
    ts1.freed = ts.freed ∧ ts1.descrs.length = ts.descrs.length ∧
    ts1.firstStack = ts.firstStack ∧
    ∀ a, (ts1.descr a).link = (ts.descr a).link ∧ (ts1.descr a).back = (ts.descr a).back ∧
      (ts1.descr a).blocks = (ts.descr a).blocks := by
  unfold Chunked.popStackElement at h
  by_cases htest : ts.stackTop.off + L.sizeofW_stackElement < ts.stackLimit.off
  · rw [if_pos htest] at h
    cases h
    exact ⟨rfl, rfl, rfl, fun _ => ⟨rfl, rfl, rfl⟩⟩
  · rw [if_neg htest] at h
    by_cases hfirst : ts.firstStack = some ts.currentStack
    · rw [if_pos hfirst] at h
      cases h
      exact ⟨rfl, rfl, rfl, fun _ => ⟨rfl, rfl, rfl⟩⟩
    · rw [if_neg hfirst] at h
      dsimp only at h
      split at h
      · cases h
      · rename_i pb _
        cases h
        refine ⟨rfl, ?_, rfl, ?_⟩
        · simp [Chunked.returnToOldStack, Chunked.traverseState.setDescr]
        · intro a
          simp only [Chunked.returnToOldStack, Chunked.traverseState.setDescr,
            Chunked.traverseState.descr, Chunked.getD_modify, List.length_modify]
          by_cases h1 : a = pb ∧ a < ts.descrs.length
          · rw [if_pos h1]
            by_cases h2 : a = ts.currentStack ∧ a < ts.descrs.length
            · rw [if_pos h2]; exact ⟨rfl, rfl, rfl⟩
            · rw [if_neg h2]; exact ⟨rfl, rfl, rfl⟩
          · rw [if_neg h1]
            by_cases h2 : a = ts.currentStack ∧ a < ts.descrs.length
            · rw [if_pos h2]; exact ⟨rfl, rfl, rfl⟩
            · rw [if_neg h2]; exact ⟨rfl, rfl, rfl⟩

/-- The switch to the next chunk frees nothing; it adds a descriptor exactly
when the current chunk has no successor, and moves to the successor when there
is one. -/
theorem Chunked.nextStack_allocates (L : Layout) (ts : Chunked.traverseState) :
    (Chunked.nextStack L ts).freed = ts.freed ∧
    (Chunked.nextStack L ts).descrs.length =
      (if (ts.descr ts.currentStack).link = none
        then ts.descrs.length + 1 else ts.descrs.length) ∧
    (∀ nbd, (ts.descr ts.currentStack).link = some nbd →
      (Chunked.nextStack L ts).currentStack = nbd) := by
  have hb : ((ts.setDescr ts.currentStack fun d => { d with free := ts.stackTop }).descr
      ts.currentStack).link = (ts.descr ts.currentStack).link := by
    rw [Chunked.descr_setDescr]
    split <;> rfl
  unfold Chunked.nextStack
  dsimp only
  split
  · rename_i heq
    have h2 : (ts.descr ts.currentStack).link = none := by rw [← hb]; exact heq
    refine ⟨?_, ?_, ?_⟩
    · simp [Chunked.newStackBlock, Chunked.allocGroup, Chunked.traverseState.setDescr]
    · simp [Chunked.newStackBlock, Chunked.allocGroup, Chunked.traverseState.setDescr, h2]
    · intro nbd h3
      rw [h2] at h3
      cases h3
  · rename_i nb heq
    have h2 : (ts.descr ts.currentStack).link = some nb := by rw [← hb]; exact heq
    refine ⟨?_, ?_, ?_⟩
    · simp [Chunked.newStackBlock, Chunked.traverseState.setDescr]
    · simp [Chunked.newStackBlock, Chunked.traverseState.setDescr, h2]
    · intro nbd h3
      rw [h2] at h3
      cases h3
      simp [Chunked.newStackBlock, Chunked.traverseState.setDescr]

/-- A push frees nothing; it adds a descriptor exactly when the test for a
full chunk holds and the current chunk has no successor; with a successor it
moves to the successor; when the test fails it stays in the current chunk. -/
theorem Chunked.push_allocates (L : Layout) (ts : Chunked.traverseState) (se : stackElement) :
    (Chunked.pushStackElement L ts se).freed = ts.freed ∧
    (Chunked.pushStackElement L ts se).descrs.length =
      (if ts.stackTop.off - L.sizeofW_stackElement < ts.stackBottom.off ∧
          (ts.descr ts.currentStack).link = none
        then ts.descrs.length + 1 else ts.descrs.length) ∧
    (∀ nbd, ts.stackTop.off - L.sizeofW_stackElement < ts.stackBottom.off →
      (ts.descr ts.currentStack).link = some nbd →
      (Chunked.pushStackElement L ts se).currentStack = nbd) ∧
    (¬ ts.stackTop.off - L.sizeofW_stackElement < ts.stackBottom.off →
      (Chunked.pushStackElement L ts se).currentStack = ts.currentStack) := by
  by_cases htest : ts.stackTop.off - L.sizeofW_stackElement < ts.stackBottom.off
  · rw [Chunked.push_full_eq L ts se htest]
    obtain ⟨h1, h2, h3⟩ := Chunked.nextStack_allocates L ts
    refine ⟨h1, ?_, fun nbd _ hl => h3 nbd hl, fun h => absurd htest h⟩
    show (Chunked.nextStack L ts).descrs.length = _
    rw [h2]
    simp only [htest, true_and]
  · refine ⟨?_, ?_, fun _ h => absurd h htest, fun _ => ?_⟩
    all_goals
      unfold Chunked.pushStackElement
      simp only [htest, if_false, false_and]

/-- A chain of one chunk: the current chunk is the first one. -/
theorem Chunked.one_chunk_first (L : Layout) (ts : Chunked.traverseState)
    (l : List stackElement) (hr : Chunked.Represents L ts l) (c : Nat)
    (hchain : Chunked.chainFrom ts ts.descrs.length ts.firstStack = [c]) :
    ts.firstStack = some ts.currentStack := by
  obtain ⟨cur, full, before, after, hr⟩ := hr
  obtain ⟨first, hfs, hch⟩ :=
    Chunked.Rep.chain L ts l cur full before after hr ts.descrs.length (Nat.le_refl _)
  rw [hfs, hch] at hchain
  have hlen := congrArg List.length hchain
  simp only [List.length_append, List.length_reverse, List.length_cons, List.length_nil]
    at hlen
  have hb : before = [] := List.length_eq_zero.1 (by omega)
  exact (Chunked.Rep.first_iff L ts l cur full before after hr).2 hb

/-- From `initializeTraverseStack`, a sequence of pushes and pops in which no
pop meets the empty stack runs without an error, to a state that stands for
the list that the sequence gives. -/
theorem Chunked.run_init (L : Layout) (hE : 0 < L.sizeofW_stackElement)
    (hB : L.sizeofW_stackElement ≤ L.BLOCK_SIZE_W)
    (ts0 : Chunked.traverseState) (ops : List StackOp) (l : List stackElement)
    (hl : listRun ops [] = some l) :
    ∃ ts, Chunked.run L ops (Chunked.initializeTraverseStack L ts0) = .ok ts ∧
      Chunked.Represents L ts l :=
  Chunked.run_rep L hE hB ops _ [] l ⟨_, _, _, _, Chunked.init_rep L ts0⟩ hl

/-- C16 (the chunked stack simulates a list stack): for a block of
`BLOCK_SIZE_W` words that has room for a stack element, every sequence of
`pushStackElement` and `popStackElement` calls from `initializeTraverseStack`
in which no pop is applied to the empty stack runs without an error; the
chunks then hold the elements pushed and not yet popped, the element at
`stackTop` is the one pushed last among them, and `isEmptyWorkStack` holds
exactly when there is none. -/
theorem chunked_stack_simulates_list (L : Layout) (hE : 0 < L.sizeofW_stackElement)
    (hB : L.sizeofW_stackElement ≤ L.BLOCK_SIZE_W)
    (ts0 : Chunked.traverseState) (ops : List StackOp) (l : List stackElement)
    (hl : listRun ops [] = some l) :
    ∃ ts, Chunked.run L ops (Chunked.initializeTraverseStack L ts0) = .ok ts ∧
      Chunked.Represents L ts l ∧
      (∀ se l1, l = se :: l1 → Chunked.top ts = se) ∧
      (Chunked.isEmptyWorkStack ts = true ↔ l = []) := by
  obtain ⟨ts, h1, h2⟩ := Chunked.run_init L hE hB ts0 ops l hl
  refine ⟨ts, h1, h2, ?_, Chunked.isEmpty_rep L hE ts l h2⟩
  intro se l1 e
  subst e
  exact Chunked.top_rep L ts l1 se h2

set_option maxRecDepth 100000 in
theorem chunked_stack_simulates_list_witness :
    (0 < layout64.sizeofW_stackElement ∧
      layout64.sizeofW_stackElement ≤ layout64.BLOCK_SIZE_W ∧
      listRun crossingOps [] = some crossingResult) ∧
    ∃ ts, Chunked.run layout64 crossingOps
        (Chunked.initializeTraverseStack layout64 Chunked.blankState) = .ok ts ∧
      Chunked.Represents layout64 ts crossingResult ∧
      (∀ se l1, crossingResult = se :: l1 → Chunked.top ts = se) ∧
      (Chunked.isEmptyWorkStack ts = true ↔ crossingResult = []) :=
  ⟨⟨by decide, by decide, by decide⟩,
    chunked_stack_simulates_list layout64 (by decide) (by decide) Chunked.blankState
      crossingOps crossingResult (by decide)⟩

set_option maxRecDepth 100000 in
/-- C18 (emptiness), on a 64-bit layout: after 86 pushes, which fill the first
chunk and put one element into a second one, and 86 pops, the stack holds no
element, `isEmptyWorkStack` holds and `stackTop` is `stackLimit`, and the
chain from `firstStack` has the two chunks 0 and 1. -/
theorem empty_stack_with_two_chunks :
    listRun (fillAndDrain layout64 ⟨posTypeFresh, 0, 0, ⟨0⟩⟩) [] = some [] ∧
    Chunked.chainAfter (Chunked.run layout64 (fillAndDrain layout64 ⟨posTypeFresh, 0, 0, ⟨0⟩⟩)
      (Chunked.initializeTraverseStack layout64 Chunked.blankState))
      = some (true, true, [0, 1]) :=
  ⟨by decide, by decide⟩

/-- C18 (emptiness), as amended: in every state reached from
`initializeTraverseStack` by pushes and pops, none of the pops applied to the
empty stack, the stack holds no element if and only if the current chunk is
the first chunk of the chain and `stackTop` is `stackLimit`; and it holds none
when the chain has one chunk and `stackTop` is `stackLimit`. -/
theorem empty_iff_first_chunk_at_limit (L : Layout) (hE : 0 < L.sizeofW_stackElement)
    (hB : L.sizeofW_stackElement ≤ L.BLOCK_SIZE_W)
    (ts0 : Chunked.traverseState) (ops : List StackOp) (l : List stackElement)
    (hl : listRun ops [] = some l) :
    ∃ ts, Chunked.run L ops (Chunked.initializeTraverseStack L ts0) = .ok ts ∧
      (l = [] ↔ ts.firstStack = some ts.currentStack ∧ ts.stackTop = ts.stackLimit) ∧
      (∀ c, Chunked.chainFrom ts ts.descrs.length ts.firstStack = [c] →
        ts.stackTop = ts.stackLimit → l = []) := by
  obtain ⟨ts, h1, h2⟩ := Chunked.run_init L hE hB ts0 ops l hl
  have he := Chunked.isEmpty_rep L hE ts l h2
  unfold Chunked.isEmptyWorkStack at he
  rw [Bool.and_eq_true, decide_eq_true_iff, decide_eq_true_iff] at he
  refine ⟨ts, h1, he.symm, ?_⟩
  intro c hc htop
  exact he.1 ⟨Chunked.one_chunk_first L ts l h2 c hc, htop⟩

set_option maxRecDepth 100000 in
theorem empty_iff_first_chunk_at_limit_witness :
    (0 < layout64.sizeofW_stackElement ∧
      layout64.sizeofW_stackElement ≤ layout64.BLOCK_SIZE_W ∧
      listRun (fillAndDrain layout64 ⟨posTypeFresh, 0, 0, ⟨0⟩⟩) [] = some []) ∧
    ∃ ts, Chunked.run layout64 (fillAndDrain layout64 ⟨posTypeFresh, 0, 0, ⟨0⟩⟩)
        (Chunked.initializeTraverseStack layout64 Chunked.blankState) = .ok ts ∧
      (([] : List stackElement) = [] ↔
        ts.firstStack = some ts.currentStack ∧ ts.stackTop = ts.stackLimit) ∧
      (∀ c, Chunked.chainFrom ts ts.descrs.length ts.firstStack = [c] →
        ts.stackTop = ts.stackLimit → ([] : List stackElement) = []) :=
  ⟨⟨by decide, by decide, by decide⟩,
    empty_iff_first_chunk_at_limit layout64 (by decide) (by decide) Chunked.blankState
      (fillAndDrain layout64 ⟨posTypeFresh, 0, 0, ⟨0⟩⟩) [] (by decide)⟩

/-- From `initializeTraverseStack`, over a sequence of pushes and pops and a
second one after it, `traverseWorkStackBlocks` returns, given fuel for each
descriptor, and its result does not go down. -/
theorem Chunked.blocks_monotone (L : Layout) (hE : 0 < L.sizeofW_stackElement)
    (hB : L.sizeofW_stackElement ≤ L.BLOCK_SIZE_W)
    (ts0 : Chunked.traverseState) (ops1 ops2 : List StackOp) (l1 l2 : List stackElement)
    (h1 : listRun ops1 [] = some l1) (h2 : listRun ops2 l1 = some l2) :
    ∃ ts1 ts2 n1 n2,
      Chunked.run L ops1 (Chunked.initializeTraverseStack L ts0) = .ok ts1 ∧
      Chunked.run L ops2 ts1 = .ok ts2 ∧
      (∀ fuel, ts1.descrs.length ≤ fuel → Chunked.traverseWorkStackBlocks ts1 fuel = some n1) ∧
      (∀ fuel, ts2.descrs.length ≤ fuel → Chunked.traverseWorkStackBlocks ts2 fuel = some n2) ∧
      n1 ≤ n2 := by
  obtain ⟨ts1, n1, hr1, -, hc1⟩ :=
    Chunked.run_chain L hE hB ops1 _ [] l1 1 (Chunked.init_chain L ts0) h1
  obtain ⟨ts2, n2, hr2, hle, hc2⟩ := Chunked.run_chain L hE hB ops2 ts1 l1 l2 n1 hc1 h2
  exact ⟨ts1, ts2, n1 * BLOCKS_IN_STACK, n2 * BLOCKS_IN_STACK, hr1, hr2,
    fun fuel hf => Chunked.Chain.blocks_count L ts1 l1 n1 hc1 fuel hf,
    fun fuel hf => Chunked.Chain.blocks_count L ts2 l2 n2 hc2 fuel hf,
    Nat.mul_le_mul_right _ hle⟩

/-- C19 (chunk retention): `popStackElement` changes no `link`, no `u.back`
and no size of a block descriptor, adds no descriptor and frees none;
`pushStackElement` frees none and adds a descriptor exactly when its test for
a full chunk (`stackTop - 1 < stackBottom`) holds and the `link` of the
current chunk is NULL, and moves to the successor when the test holds and
there is one; and from `initializeTraverseStack`, over a sequence of pushes
and pops and a second one after it, with no pop applied to the empty stack,
`traverseWorkStackBlocks` returns and its result does not go down. -/
theorem chunk_retention (L : Layout) (hE : 0 < L.sizeofW_stackElement)
    (hB : L.sizeofW_stackElement ≤ L.BLOCK_SIZE_W)
    (ts0 : Chunked.traverseState) (ops1 ops2 : List StackOp) (l1 l2 : List stackElement)
    (h1 : listRun ops1 [] = some l1) (h2 : listRun ops2 l1 = some l2) :
    (∀ ts ts1, Chunked.popStackElement L ts = .ok ts1 →
      ts1.freed = ts.freed ∧ ts1.descrs.length = ts.descrs.length ∧
      ts1.firstStack = ts.firstStack ∧
      ∀ a, (ts1.descr a).link = (ts.descr a).link ∧ (ts1.descr a).back = (ts.descr a).back ∧
        (ts1.descr a).blocks = (ts.descr a).blocks) ∧
    (∀ ts se,
      (Chunked.pushStackElement L ts se).freed = ts.freed ∧
      (Chunked.pushStackElement L ts se).descrs.length =
        (if ts.stackTop.off - L.sizeofW_stackElement < ts.stackBottom.off ∧
            (ts.descr ts.currentStack).link = none
          then ts.descrs.length + 1 else ts.descrs.length) ∧
      (∀ nbd, ts.stackTop.off - L.sizeofW_stackElement < ts.stackBottom.off →
        (ts.descr ts.currentStack).link = some nbd →
        (Chunked.pushStackElement L ts se).currentStack = nbd) ∧
      (¬ ts.stackTop.off - L.sizeofW_stackElement < ts.stackBottom.off →
        (Chunked.pushStackElement L ts se).currentStack = ts.currentStack)) ∧
    ∃ ts1 ts2 n1 n2,
      Chunked.run L ops1 (Chunked.initializeTraverseStack L ts0) = .ok ts1 ∧
      Chunked.run L ops2 ts1 = .ok ts2 ∧
      (∀ fuel, ts1.descrs.length ≤ fuel → Chunked.traverseWorkStackBlocks ts1 fuel = some n1) ∧
      (∀ fuel, ts2.descrs.length ≤ fuel → Chunked.traverseWorkStackBlocks ts2 fuel = some n2) ∧
      n1 ≤ n2 :=
  ⟨fun ts ts1 h => Chunked.pop_keeps L ts ts1 h,
    fun ts se => Chunked.push_allocates L ts se,
    Chunked.blocks_monotone L hE hB ts0 ops1 ops2 l1 l2 h1 h2⟩

set_option maxRecDepth 100000 in
theorem chunk_retention_witness :
    (0 < layout64.sizeofW_stackElement ∧
      layout64.sizeofW_stackElement ≤ layout64.BLOCK_SIZE_W ∧
      listRun crossingOps [] = some crossingResult ∧
      listRun (List.replicate 85 StackOp.pop) crossingResult = some []) ∧
    ∃ ts1 ts2 n1 n2,
      Chunked.run layout64 crossingOps
        (Chunked.initializeTraverseStack layout64 Chunked.blankState) = .ok ts1 ∧
      Chunked.run layout64 (List.replicate 85 StackOp.pop) ts1 = .ok ts2 ∧
      (∀ fuel, ts1.descrs.length ≤ fuel → Chunked.traverseWorkStackBlocks ts1 fuel = some n1) ∧
      (∀ fuel, ts2.descrs.length ≤ fuel → Chunked.traverseWorkStackBlocks ts2 fuel = some n2) ∧
      n1 ≤ n2 :=
  ⟨⟨by decide, by decide, by decide, by decide⟩,
    (chunk_retention layout64 (by decide) (by decide) Chunked.blankState crossingOps
      (List.replicate 85 StackOp.pop) crossingResult [] (by decide) (by decide)).2.2⟩

/-- C21 (retainer kinds): `isRetainer` looks at the closure type only; it
returns true for TSO and STACK, for the mutable kinds (MUT_VAR, MVAR, TVAR,
MUT_PRIM, the clean and dirty mutable pointer arrays of both sizes,
BLOCKING_QUEUE), for the thunk kinds, THUNK_SELECTOR, AP, AP_STACK and
THUNK_STATIC, and for WEAK; it returns false for the constructor kinds, the
function kinds and PAP. -/
theorem isRetainer_by_kind (h h1 : Heap) (c c1 : Addr) :
    isRetainer h c = isRetainerType (h.typeOf c) ∧
    (h.typeOf c = h1.typeOf c1 → isRetainer h c = isRetainer h1 c1) ∧
    (∀ t ∈ [TSO, STACK,
        MUT_VAR_CLEAN, MUT_VAR_DIRTY, MVAR_CLEAN, MVAR_DIRTY, TVAR, MUT_PRIM,
        MUT_ARR_PTRS_CLEAN, MUT_ARR_PTRS_DIRTY,
        SMALL_MUT_ARR_PTRS_CLEAN, SMALL_MUT_ARR_PTRS_DIRTY, BLOCKING_QUEUE,
        THUNK, THUNK_1_0, THUNK_0_1, THUNK_2_0, THUNK_1_1, THUNK_0_2,
        THUNK_SELECTOR, AP, AP_STACK, THUNK_STATIC,
        WEAK], h.typeOf c = t → isRetainer h c = .ok true) ∧
    (∀ t ∈ [CONSTR, CONSTR_1_0, CONSTR_0_1, CONSTR_2_0, CONSTR_1_1, CONSTR_0_2,
        CONSTR_NOCAF,
        FUN, FUN_1_0, FUN_0_1, FUN_2_0, FUN_1_1, FUN_0_2, FUN_STATIC,
        PAP], h.typeOf c = t → isRetainer h c = .ok false) := by
  refine ⟨rfl, ?_, ?_, ?_⟩
  · intro ht
    unfold isRetainer
    rw [ht]
  · intro t hmem ht
    unfold isRetainer
    rw [ht]
    clear ht
    revert t
    decide
  · intro t hmem ht
    unfold isRetainer
    rw [ht]
    clear ht
    revert t
    decide

/-- C22 (fatal kinds): `isRetainer` ends in the fatal error "Invalid object
in isRetainer()" exactly for the kinds of stack frames, for IND and for
INVALID_OBJECT, which is also what a closure type outside the enumeration
reads as; for every other kind it returns a boolean. -/
theorem isRetainer_fatal_iff (h : Heap) (c : Addr) :
    ((∃ e, isRetainer h c = .error e) ↔
      h.typeOf c ∈ [UPDATE_FRAME, CATCH_FRAME, CATCH_RETRY_FRAME, CATCH_STM_FRAME,
        UNDERFLOW_FRAME, ATOMICALLY_FRAME, STOP_FRAME, RET_BCO, RET_SMALL, RET_BIG, RET_FUN,
        IND, INVALID_OBJECT]) ∧
    ((∃ e, isRetainer h c = .error e) → isRetainer h c = .error (Fatal.isRetainer (h.typeOf c))) ∧
    ((∃ b, isRetainer h c = .ok b) ↔
      h.typeOf c ∉ [UPDATE_FRAME, CATCH_FRAME, CATCH_RETRY_FRAME, CATCH_STM_FRAME,
        UNDERFLOW_FRAME, ATOMICALLY_FRAME, STOP_FRAME, RET_BCO, RET_SMALL, RET_BIG, RET_FUN,
        IND, INVALID_OBJECT]) := by
  unfold isRetainer
  generalize h.typeOf c = t
  cases t <;> simp [isRetainerType]

/-- The switch of `traversePushChildren` aborts in the default case only. -/
theorem pushAux_ok (h : Heap) (ts : traverseState) (c : Addr) (d : stackData) (pc : PushCase)
    (hpc : pc ≠ PushCase.invalid) : ∃ r, pushAux h ts c d pc = .ok r := by
  cases pc
  case invalid => exact absurd rfl hpc
  case ptrs =>
    unfold pushAux find_ptrs init_ptrs
    dsimp only
    split_ifs <;> exact ⟨_, rfl⟩
  case ptrsSrt =>
    unfold pushAux find_ptrs init_ptrs find_srt
    dsimp only
    split_ifs
    · exact ⟨_, rfl⟩
    · cases (h.get c).srt <;> exact ⟨_, rfl⟩
  case srt =>
    unfold pushAux find_srt
    dsimp only
    cases (h.get c).srt <;> exact ⟨_, rfl⟩
  all_goals exact ⟨_, rfl⟩

/-- The kinds on which `isRetainer` returns and that are neither static
indirections nor enumerated eagerly are, but for WHITEHOLE, kinds that the
switch of `traversePushChildren` has a case for. -/
theorem pushCase_of_isRetainer (t : ClosureType) (b : Bool) (hr : isRetainerType t = .ok b)
    (hi : t ≠ IND_STATIC) (he : eagerKind t = false) (hw : t ≠ WHITEHOLE) :
    pushCase t ≠ PushCase.invalid := by
  cases t <;> simp [isRetainerType, eagerKind, pushCase] at hr hi he hw ⊢

/-- C23 (dispatch agreement), as amended: a closure on which `isRetainer`
returns, which `traverseWorkStack` goes on to visit (it neither skips it nor
follows it as a static indirection) and whose kind is not one of those
enumerated eagerly, is accepted by `traversePushChildren` without a fatal
error unless it is a WHITEHOLE; on a WHITEHOLE `traversePushChildren` aborts
with "Invalid object *c in push()". -/
theorem dispatch_agreement_but_whitehole (h : Heap) (ts : traverseState) (c : Addr)
    (d : stackData) (hr : ∃ b, isRetainer h c = .ok b) (hp : preVisit h c = PreVisit.visit)
    (he : eagerKind (h.get c).type = false) :
    ((h.get c).type ≠ WHITEHOLE → ∃ r, traversePushChildren h ts c d = .ok r) ∧
    ((h.get c).type = WHITEHOLE →
      traversePushChildren h ts c d = .error (Fatal.push WHITEHOLE)) := by
  obtain ⟨b, hb⟩ := hr
  have hi : (h.get c).type ≠ IND_STATIC := by
    intro hty
    unfold preVisit at hp
    simp [hty] at hp
  constructor
  · intro hw
    rw [traversePushChildren_eq]
    exact pushAux_ok h ts c d _ (pushCase_of_isRetainer _ b hb hi he hw)
  · intro hw
    rw [traversePushChildren_eq, hw]
    simp only [pushCase, pushAux, hw]

theorem dispatch_agreement_but_whitehole_witness :
    ((∃ b, isRetainer sharedHeap 0 = .ok b) ∧ preVisit sharedHeap 0 = PreVisit.visit ∧
      eagerKind (sharedHeap.get 0).type = false) ∧
    ((sharedHeap.get 0).type ≠ WHITEHOLE →
      ∃ r, traversePushChildren sharedHeap initializeTraverseStack 0 { c_child_r := 1 }
        = .ok r) ∧
    ((sharedHeap.get 0).type = WHITEHOLE →
      traversePushChildren sharedHeap initializeTraverseStack 0 { c_child_r := 1 }
        = .error (Fatal.push WHITEHOLE)) :=
  ⟨⟨⟨true, by decide⟩, by decide, by decide⟩,
    dispatch_agreement_but_whitehole sharedHeap initializeTraverseStack 0 { c_child_r := 1 }
      ⟨true, by decide⟩ (by decide) (by decide)⟩

/-- C23 (dispatch agreement), as stated, fails on a WHITEHOLE: `isRetainer`
returns false for it, `traverseWorkStack` neither skips it nor enumerates its
children eagerly, and `traversePushChildren` aborts on it; `retainRoot` on a
WHITEHOLE ends in that fatal error. -/
theorem whitehole_rejected_by_push :
    isRetainer whiteholeHeap 0 = .ok false ∧
    preVisit whiteholeHeap 0 = PreVisit.visit ∧
    eagerKind (whiteholeHeap.get 0).type = false ∧
    traversePushChildren whiteholeHeap initializeTraverseStack 0 { c_child_r := 1 }
      = .error (Fatal.push WHITEHOLE) ∧
    retainRoot whiteholeHeap 10 (beginPass initState) 0
      = some (.error (Fatal.push WHITEHOLE)) :=
  ⟨by decide, by decide, by decide, rfl, rfl⟩

theorem shiftRight_two (n : Nat) : n >>> 2 = n / 4 := by
  rw [Nat.shiftRight_eq_div_pow]

theorem and_three (n : Nat) : n &&& 3 = n % 4 :=
  Nat.and_pow_two_sub_one_eq_mod n 2

theorem mod_four_mod (n : Nat) : (n % 4) % 2 ^ 32 = n % 4 :=
  Nat.mod_eq_of_lt (Nat.lt_of_lt_of_le (Nat.mod_lt n (by decide)) (by decide))

/-- The case TREC_CHUNK of the switch of `traversePop`, with the step counter
read as four times the entry number plus the field number, the entry number
taken modulo `2 ^ 32` and the counter incremented modulo `2 ^ 64`. -/
theorem traversePop_switch_trec (h : Heap) (se : stackElement) (step : Nat)
    (hty : (h.get se.c).type = TREC_CHUNK) (hinfo : se.info = posTypeStep step) :
    traversePop_switch h se =
      if (step / 4) % 2 ^ 32 = (h.get se.c).next_entry_idx then .ok PopStep.depleted
      else .ok (PopStep.out
        (if step % 4 = 0 then ((h.get se.c).entries ((step / 4) % 2 ^ 32)).tvar
          else if step % 4 = 1 then
            ((h.get se.c).entries ((step / 4) % 2 ^ 32)).expected_value
          else ((h.get se.c).entries ((step / 4) % 2 ^ 32)).new_value)
        false (posTypeStep ((step + 1) % 2 ^ 64))) := by
  rw [traversePop_switch_eq, hty]
  simp only [popCase, popAux, hinfo, stackPos.getStep, trecField, shiftRight_two, and_three,
    mod_four_mod]

theorem traversePop_trec (h : Heap) (ts : traverseState) (se : stackElement)
    (rest : List stackElement) (step : Nat)
    (hty : (h.get se.c).type = TREC_CHUNK) (hinfo : se.info = posTypeStep step)
    (hstack : ts.stack = se :: rest) (hb : rest.length + 1 ≠ ts.currentStackBoundary)
    (hmore : (step / 4) % 2 ^ 32 ≠ (h.get se.c).next_entry_idx) :
    traversePop h ts =
      .ok ({ ts with stack := { se with info := posTypeStep ((step + 1) % 2 ^ 64) } :: rest },
        some (if step % 4 = 0 then ((h.get se.c).entries ((step / 4) % 2 ^ 32)).tvar
          else if step % 4 = 1 then
            ((h.get se.c).entries ((step / 4) % 2 ^ 32)).expected_value
          else ((h.get se.c).entries ((step / 4) % 2 ^ 32)).new_value, se.c, se.data)) := by
  unfold traversePop
  rw [hstack]
  unfold traversePop_loop
  rw [if_neg hb, if_neg (by rw [hinfo]; simp), traversePop_switch_trec h se step hty hinfo,
    if_neg hmore]
  rfl

/-- For a step counter that has not run past the last entry of a chunk, the
casts and the increment lose nothing. -/
theorem trec_step_in_range (o : StgClosure) (step : Nat) (hle : step ≤ 4 * o.next_entry_idx) :
    (step / 4) % 2 ^ 32 = step / 4 ∧ (step + 1) % 2 ^ 64 = step + 1 := by
  have hidx : o.next_entry_idx < 4294967296 := o.next_entry_idx_lt
  exact ⟨Nat.mod_eq_of_lt (by norm_num; omega), Nat.mod_eq_of_lt (by norm_num; omega)⟩

theorem traversePushChildren_trec (h : Heap) (ts : traverseState) (c : Addr) (d : stackData)
    (hty : (h.get c).type = TREC_CHUNK) :
    traversePushChildren h ts c d =
      .ok (pushStackElement ts { info := posTypeStep 0, c := c, cp := 0, data := d },
        some (h.get c).prev_chunk) := by
  rw [traversePushChildren_eq, hty]
  rfl
/-- C24 (transaction-record chunks), as stated, fails: with the step counter
at 3 the claim has `traversePop` yield the `tvar` of entry 1, the closure 13;
the source takes the two low bits as the field number and the rest as the
entry number, so it yields the `new_value` of entry 0, the closure 12, as it
did with the counter at 2. -/
theorem trec_step_three_yields_new_value :
    traversePop trecHeap
        { stack := [{ info := posTypeStep 2, c := 0, cp := 0, data := { c_child_r := 1 } }],
          currentStackBoundary := 0 }
      = .ok ({ stack := [{ info := posTypeStep 3, c := 0, cp := 0,
                           data := { c_child_r := 1 } }],
               currentStackBoundary := 0 }, some (12, 0, { c_child_r := 1 })) ∧
    traversePop trecHeap
        { stack := [{ info := posTypeStep 3, c := 0, cp := 0, data := { c_child_r := 1 } }],
          currentStackBoundary := 0 }
      = .ok ({ stack := [{ info := posTypeStep 4, c := 0, cp := 0,
                           data := { c_child_r := 1 } }],
               currentStackBoundary := 0 }, some (12, 0, { c_child_r := 1 })) ∧
    ((trecHeap.get 0).entries (3 / 3)).tvar = 13 ∧
    3 % 3 = 0 :=
  ⟨by decide, by decide, by decide, by decide⟩

/-- C24 (transaction-record chunks), as amended: for a TREC_CHUNK the step
counter is four times the entry number plus the field number (the two low
bits).  `traversePushChildren` hands out `prev_chunk` and pushes the counter
0.  The switch of `traversePop` reads the entry number `step / 4` into 32
bits; it finds the element depleted when that number is `next_entry_idx`;
otherwise it yields, of that entry, `tvar` for the field number 0,
`expected_value` for 1 and `new_value` for 2 and for 3, and advances the
counter, a 64-bit word, by one; and so does `traversePop` on a stack whose top
element, above the boundary, is such a cursor.  As long as the counter has not
run past the last entry, the 32 bits hold the entry number `step / 4` itself
and the increment does not wrap. -/
theorem trec_chunk_cursor (h : Heap) (ts : traverseState) (se : stackElement)
    (rest : List stackElement) (step : Nat)
    (hty : (h.get se.c).type = TREC_CHUNK) (hinfo : se.info = posTypeStep step)
    (hstack : ts.stack = se :: rest) (hb : rest.length + 1 ≠ ts.currentStackBoundary) :
    (∀ ts0 d, traversePushChildren h ts0 se.c d =
      .ok (pushStackElement ts0 { info := posTypeStep 0, c := se.c, cp := 0, data := d },
        some (h.get se.c).prev_chunk)) ∧
    traversePop_switch h se =
      (if (step / 4) % 2 ^ 32 = (h.get se.c).next_entry_idx then .ok PopStep.depleted
      else .ok (PopStep.out
        (if step % 4 = 0 then ((h.get se.c).entries ((step / 4) % 2 ^ 32)).tvar
          else if step % 4 = 1 then
            ((h.get se.c).entries ((step / 4) % 2 ^ 32)).expected_value
          else ((h.get se.c).entries ((step / 4) % 2 ^ 32)).new_value)
        false (posTypeStep ((step + 1) % 2 ^ 64)))) ∧
    ((step / 4) % 2 ^ 32 ≠ (h.get se.c).next_entry_idx →
      traversePop h ts =
        .ok ({ ts with
              stack := { se with info := posTypeStep ((step + 1) % 2 ^ 64) } :: rest },
          some (if step % 4 = 0 then ((h.get se.c).entries ((step / 4) % 2 ^ 32)).tvar
            else if step % 4 = 1 then
              ((h.get se.c).entries ((step / 4) % 2 ^ 32)).expected_value
            else ((h.get se.c).entries ((step / 4) % 2 ^ 32)).new_value, se.c, se.data))) ∧
    (step ≤ 4 * (h.get se.c).next_entry_idx →
      (step / 4) % 2 ^ 32 = step / 4 ∧ (step + 1) % 2 ^ 64 = step + 1) :=
  ⟨fun ts0 d => traversePushChildren_trec h ts0 se.c d hty,
    traversePop_switch_trec h se step hty hinfo,
    traversePop_trec h ts se rest step hty hinfo hstack hb,
    trec_step_in_range (h.get se.c) step⟩

/-- Witness for C24: the counter 5 on the chunk of `trecHeap`, and the
counter `2 ^ 34 + 1`, whose entry number does not fit into 32 bits. -/
theorem trec_chunk_cursor_witness :
    (((trecHeap.get 0).type = TREC_CHUNK ∧
      ((5 : Nat) / 4) % 2 ^ 32 ≠ (trecHeap.get 0).next_entry_idx) ∧
    traversePop trecHeap
        { stack := [{ info := posTypeStep 5, c := 0, cp := 0, data := { c_child_r := 1 } }],
          currentStackBoundary := 0 }
      = .ok ({ stack := [{ info := posTypeStep 6, c := 0, cp := 0,
                           data := { c_child_r := 1 } }],
               currentStackBoundary := 0 }, some (14, 0, { c_child_r := 1 }))) ∧
    (((2 ^ 34 + 1 : Nat) / 4) % 2 ^ 32 ≠ (trecHeap.get 0).next_entry_idx ∧
    traversePop trecHeap
        { stack := [{ info := posTypeStep (2 ^ 34 + 1), c := 0, cp := 0,
                      data := { c_child_r := 1 } }],
          currentStackBoundary := 0 }
      = .ok ({ stack := [{ info := posTypeStep (2 ^ 34 + 2), c := 0, cp := 0,
                           data := { c_child_r := 1 } }],
               currentStackBoundary := 0 }, some (11, 0, { c_child_r := 1 }))) :=
  ⟨⟨⟨by decide, by decide⟩,
    (trec_chunk_cursor trecHeap
      { stack := [{ info := posTypeStep 5, c := 0, cp := 0, data := { c_child_r := 1 } }],
        currentStackBoundary := 0 }
      { info := posTypeStep 5, c := 0, cp := 0, data := { c_child_r := 1 } } [] 5
      (by decide) rfl rfl (by decide)).2.2.1 (by decide)⟩,
    ⟨by decide,
    (trec_chunk_cursor trecHeap
      { stack := [{ info := posTypeStep (2 ^ 34 + 1), c := 0, cp := 0,
                    data := { c_child_r := 1 } }],
        currentStackBoundary := 0 }
      { info := posTypeStep (2 ^ 34 + 1), c := 0, cp := 0, data := { c_child_r := 1 } } []
      (2 ^ 34 + 1) (by decide) rfl rfl (by decide)).2.2.1 (by decide)⟩⟩

/-- The kinds for which `traversePushChildren` returns a single child without
looking at a layout. -/
theorem fixed_single_iff (t : ClosureType) :
    t ∈ [MUT_VAR_CLEAN, MUT_VAR_DIRTY, THUNK_SELECTOR, BLACKHOLE, CONSTR_1_0, CONSTR_1_1] ↔
      (pushCase t = PushCase.var ∨ pushCase t = PushCase.selectee ∨
        pushCase t = PushCase.indirectee ∨ pushCase t = PushCase.payload0) := by
  cases t <;> simp [pushCase]

/-- A cursor on top of the stack that has no child left is passed over by
`traversePop`. -/
theorem traversePop_depleted (h : Heap) (ts : traverseState) (se : stackElement)
    (hne : se.info ≠ posTypeFresh) (hd : traversePop_switch h se = .ok PopStep.depleted)
    (hb : ts.currentStackBoundary ≤ ts.stack.length) :
    traversePop h (pushStackElement ts se) = traversePop h ts := by
  unfold traversePop pushStackElement
  dsimp only
  rw [traversePop_loop]
  rw [if_neg (by omega), if_neg hne, hd]

theorem ptrsFrom_length (h : Heap) (pos ptrs : Nat) (payload : Addr) :
    (ptrsFrom h pos ptrs payload).length = ptrs - pos := by
  unfold ptrsFrom
  simp
/-- What `traversePushChildren` does for a closure with exactly one child. -/
theorem push_single_child (h : Heap) (ts : traverseState) (c : Addr) (d : stackData)
    (x : Addr) (hn : (h.get c).type ≠ CONSTR_NOCAF) (hone : pushChildrenList h c = .ok [x]) :
    ((h.get c).type ∈ [MUT_VAR_CLEAN, MUT_VAR_DIRTY, THUNK_SELECTOR, BLACKHOLE, CONSTR_1_0,
        CONSTR_1_1] → traversePushChildren h ts c d = .ok (ts, some x)) ∧
    ((h.get c).type ∉ [MUT_VAR_CLEAN, MUT_VAR_DIRTY, THUNK_SELECTOR, BLACKHOLE, CONSTR_1_0,
        CONSTR_1_1] →
      ∃ se, traversePushChildren h ts c d = .ok (pushStackElement ts se, some x) ∧
        se.info ≠ posTypeFresh ∧ se.c = c ∧ se.data = d ∧
        traversePop_switch h se = .ok PopStep.depleted) := by
  rw [fixed_single_iff, traversePushChildren_eq]
  obtain ⟨p1, p2, p3, p4, p5, p6, p7, p8⟩ := popCase_of_pushCase (h.get c).type hn
  unfold pushChildrenList at hone
  dsimp only at hone
  have hsw : ∀ info, traversePop_switch h { info := info, c := c, cp := 0, data := d }
      = popAux h { info := info, c := c, cp := 0, data := d } (popCase (h.get c).type) :=
    fun info => traversePop_switch_eq h _
  generalize pushCase (h.get c).type = k at hone p1 p2 p3 p4 p5 p6 p7 p8 ⊢
  cases k
  case noChild => simp at hone
  case var =>
    simp only [Except.ok.injEq, List.cons.injEq, and_true] at hone
    subst hone
    exact ⟨fun _ => rfl, fun hc => absurd (Or.inl rfl) hc⟩
  case selectee =>
    simp only [Except.ok.injEq, List.cons.injEq, and_true] at hone
    subst hone
    exact ⟨fun _ => rfl, fun hc => absurd (Or.inr (Or.inl rfl)) hc⟩
  case indirectee =>
    simp only [Except.ok.injEq, List.cons.injEq, and_true] at hone
    subst hone
    exact ⟨fun _ => rfl, fun hc => absurd (Or.inr (Or.inr (Or.inl rfl))) hc⟩
  case payload0 =>
    simp only [Except.ok.injEq, List.cons.injEq, and_true] at hone
    subst hone
    exact ⟨fun _ => rfl, fun hc => absurd (Or.inr (Or.inr (Or.inr rfl))) hc⟩
  case constr2 => simp at hone
  case mvar => simp at hone
  case weak => simp at hone
  case invalid => simp at hone
  case ptrs =>
    refine ⟨fun hc => by simp at hc, fun _ => ?_⟩
    simp only [Except.ok.injEq] at hone
    have hlen := congrArg List.length hone
    rw [ptrsFrom_length] at hlen
    simp only [List.length_singleton, Nat.sub_zero] at hlen
    rw [hlen, ptrsFrom_lt h 0 1 c (by omega)] at hone
    simp only [List.cons.injEq] at hone
    refine ⟨{ info := posTypePtrs 1 1 c, c := c, cp := 0, data := d }, ?_, by simp, rfl, rfl, ?_⟩
    · simp only [pushAux, init_ptrs, find_ptrs, hlen, Nat.lt_one_iff, if_true, Nat.zero_add]
      rw [hone.1]
    · rw [hsw, p4 rfl]
      simp [popAux, find_ptrs]
  case ptrsSrt =>
    refine ⟨fun hc => by simp at hc, fun _ => ?_⟩
    simp only [Except.ok.injEq] at hone
    have hlen := congrArg List.length hone
    rw [List.length_append, ptrsFrom_length] at hlen
    simp only [List.length_singleton, Nat.sub_zero] at hlen
    cases hsrt : (h.get c).srt with
    | none =>
      rw [hsrt] at hone hlen
      simp only [Option.toList, List.length_nil, Nat.add_zero, List.append_nil] at hone hlen
      rw [hlen, ptrsFrom_lt h 0 1 c (by omega)] at hone
      simp only [List.cons.injEq] at hone
      refine ⟨{ info := posTypePtrs 1 1 c, c := c, cp := 0, data := d }, ?_, by simp, rfl, rfl,
        ?_⟩
      · simp only [pushAux, init_ptrs, find_ptrs, hlen, Nat.lt_one_iff, if_true, Nat.zero_add]
        rw [hone.1]
      · rw [hsw, p5 rfl]
        simp [popAux, find_ptrs, find_srt, hsrt]
    | some s =>
      rw [hsrt] at hone hlen
      simp only [Option.toList, List.length_singleton] at hone hlen
      have h0 : (h.get c).ptrs % 2 ^ 32 = 0 := by omega
      rw [h0, ptrsFrom_ge h 0 0 c (by omega)] at hone
      simp only [List.nil_append, List.cons.injEq, and_true] at hone
      subst hone
      refine ⟨{ info := posTypeSRT none, c := c, cp := 0, data := d }, ?_, by simp, rfl, rfl, ?_⟩
      · have h1 : (h.get c).ptrs % 4294967296 = 0 := h0
        simp [pushAux, init_ptrs, find_ptrs, h1, find_srt, hsrt]
      · rw [hsw, p5 rfl]
        simp [popAux, find_srt]
  case oneSrt =>
    refine ⟨fun hc => by simp at hc, fun _ => ?_⟩
    simp only [Except.ok.injEq, List.cons.injEq] at hone
    obtain ⟨hx, hs⟩ := hone
    have hsrt : (h.get c).srt = none := by
      cases hq : (h.get c).srt with
      | none => rfl
      | some s => rw [hq] at hs; simp at hs
    subst hx
    refine ⟨{ info := posTypeSRT none, c := c, cp := 0, data := d }, ?_, by simp, rfl, rfl, ?_⟩
    · simp [pushAux, hsrt]
    · rw [hsw, p6 rfl]
      simp [popAux, find_srt]
  case srt =>
    refine ⟨fun hc => by simp at hc, fun _ => ?_⟩
    simp only [Except.ok.injEq] at hone
    cases hsrt : (h.get c).srt with
    | none => rw [hsrt] at hone; simp at hone
    | some s =>
      rw [hsrt] at hone
      simp only [Option.toList, List.cons.injEq, and_true] at hone
      subst hone
      refine ⟨{ info := posTypeSRT none, c := c, cp := 0, data := d }, ?_, by simp, rfl, rfl, ?_⟩
      · simp [pushAux, find_srt, hsrt]
      · rw [hsw, p7 rfl]
        simp [popAux, find_srt]
  case trec =>
    refine ⟨fun hc => by simp at hc, fun _ => ?_⟩
    simp only [Except.ok.injEq, List.cons.injEq, List.map_eq_nil_iff] at hone
    obtain ⟨hx, hr⟩ := hone
    have hidx : (h.get c).next_entry_idx = 0 := by
      have := congrArg List.length hr
      simp only [List.length_range', List.length_nil] at this
      omega
    subst hx
    refine ⟨{ info := posTypeStep 0, c := c, cp := 0, data := d }, rfl, by simp, rfl, rfl, ?_⟩
    rw [hsw, p8 rfl]
    simp [popAux, stackPos.getStep, hidx]
/-- C25 (single child) fails: the closure 0 of `oneFieldHeap`, a constructor
of general layout, has exactly one child, the closure 1;
`traversePushChildren` returns that child and pushes a stack element, a
pointer cursor that is past the one field, where its header comment has
nothing pushed for a closure with one child. -/
theorem single_child_pushes_a_frame :
    (oneFieldHeap.get 0).type = CONSTR ∧
    pushChildrenList oneFieldHeap 0 = .ok [1] ∧
    traversePushChildren oneFieldHeap initializeTraverseStack 0 { c_child_r := 1 }
      = .ok ({ stack := [{ info := posTypePtrs 1 1 0, c := 0, cp := 0,
                           data := { c_child_r := 1 } }],
               currentStackBoundary := 0 }, some 1) :=
  ⟨by decide, by decide, by decide⟩

/-- What `traversePushChildren` does on a closure with one child: let the
closure `c`, of a kind that `traversePushChildren` handles, have exactly one
child `x`, an SRT counted as a child.  For the kinds with one fixed child and no SRT (MUT_VAR_CLEAN,
MUT_VAR_DIRTY, THUNK_SELECTOR, BLACKHOLE, CONSTR_1_0, CONSTR_1_1)
`traversePushChildren` returns `x` and leaves the stack as it is.  For every
other kind it returns `x` and pushes one stack element, a cursor for `c` that
is not fresh and has no child left: the switch of `traversePop` finds it
depleted, and `traversePop` on the stack with it is `traversePop` on the
stack without it. -/
theorem single_child_frame (h : Heap) (ts : traverseState) (c : Addr) (d : stackData)
    (x : Addr) (hn : (h.get c).type ≠ CONSTR_NOCAF) (hone : pushChildrenList h c = .ok [x])
    (hb : ts.currentStackBoundary ≤ ts.stack.length) :
    ((h.get c).type ∈ [MUT_VAR_CLEAN, MUT_VAR_DIRTY, THUNK_SELECTOR, BLACKHOLE, CONSTR_1_0,
        CONSTR_1_1] → traversePushChildren h ts c d = .ok (ts, some x)) ∧
    ((h.get c).type ∉ [MUT_VAR_CLEAN, MUT_VAR_DIRTY, THUNK_SELECTOR, BLACKHOLE, CONSTR_1_0,
        CONSTR_1_1] →
      ∃ se, traversePushChildren h ts c d = .ok (pushStackElement ts se, some x) ∧
        se.info ≠ posTypeFresh ∧ se.c = c ∧ se.data = d ∧
        traversePop_switch h se = .ok PopStep.depleted ∧
        traversePop h (pushStackElement ts se) = traversePop h ts) := by
  obtain ⟨h1, h2⟩ := push_single_child h ts c d x hn hone
  refine ⟨h1, fun hc => ?_⟩
  obtain ⟨se, e1, e2, e3, e4, e5⟩ := h2 hc
  exact ⟨se, e1, e2, e3, e4, e5, traversePop_depleted h ts se e2 e5 hb⟩

theorem single_child_frame_witness :
    ((oneFieldHeap.get 0).type ≠ CONSTR_NOCAF ∧ pushChildrenList oneFieldHeap 0 = .ok [1] ∧
      initializeTraverseStack.currentStackBoundary ≤ initializeTraverseStack.stack.length) ∧
    ((oneFieldHeap.get 0).type ∈ [MUT_VAR_CLEAN, MUT_VAR_DIRTY, THUNK_SELECTOR, BLACKHOLE,
        CONSTR_1_0, CONSTR_1_1] →
      traversePushChildren oneFieldHeap initializeTraverseStack 0 { c_child_r := 1 }
        = .ok (initializeTraverseStack, some 1)) ∧
    ((oneFieldHeap.get 0).type ∉ [MUT_VAR_CLEAN, MUT_VAR_DIRTY, THUNK_SELECTOR, BLACKHOLE,
        CONSTR_1_0, CONSTR_1_1] →
      ∃ se, traversePushChildren oneFieldHeap initializeTraverseStack 0 { c_child_r := 1 }
          = .ok (pushStackElement initializeTraverseStack se, some 1) ∧
        se.info ≠ posTypeFresh ∧ se.c = 0 ∧ se.data = { c_child_r := 1 } ∧
        traversePop_switch oneFieldHeap se = .ok PopStep.depleted ∧
        traversePop oneFieldHeap (pushStackElement initializeTraverseStack se)
          = traversePop oneFieldHeap initializeTraverseStack) :=
  ⟨⟨by decide, by decide, by decide⟩,
    single_child_frame oneFieldHeap initializeTraverseStack 0 { c_child_r := 1 } 1
      (by decide) (by decide) (by decide)⟩

/-- The body of `traverseWorkStack` on a closure of a kind whose children are
pushed all at once, after a visit that does not skip the children. -/
theorem body_eager (h : Heap) (st : RtsState) (c cp : Addr) (data : stackData)
    (st1 : RtsState) (child_data : stackData)
    (he : eagerKind (h.get c).type = true) (hp : preVisit h c = PreVisit.visit)
    (hv : retainVisitClosure h (traverseMaybeInitClosureData st c) c cp data
      = .ok (st1, some child_data)) :
    traverseWorkStack_body h (Label.inner_loop c cp data) st =
      match childrenOf h c with
      | .error e => Jump.done (.error e)
      | .ok l => Jump.goto Label.loop
          { st1 with ts := { stack := l.map (freshElem c child_data) ++ st.ts.stack,
                             currentStackBoundary := st.ts.currentStackBoundary } } := by
  have hts : st1.ts = st.ts :=
    (retainVisitClosure_ts h _ c cp data st1 _ hv).trans (traverseMaybeInitClosureData_ts st c)
  rw [body_inner_eq, hp]
  dsimp only
  rw [hv]
  dsimp only
  rw [processChildren_eager h st1.ts c child_data he]
  cases childrenOf h c with
  | error e => rfl
  | ok l =>
    dsimp only
    rw [hts]
    simp [pushAll, List.map_reverse]

/-- The switch of `traversePushChildren` has no case for the kinds whose
children are pushed all at once. -/
theorem traversePushChildren_eager (h : Heap) (ts : traverseState) (c : Addr) (d : stackData)
    (he : eagerKind (h.get c).type = true) :
    traversePushChildren h ts c d = .error (Fatal.push (h.get c).type) := by
  rw [traversePushChildren_eq]
  have : pushCase (h.get c).type = PushCase.invalid := by
    revert he
    generalize (h.get c).type = t
    cases t <;> simp [eagerKind, pushCase]
  rw [this]
  rfl

theorem childrenOf_tso (h : Heap) (c : Addr) (hty : (h.get c).type = TSO) :
    childrenOf h c = .ok
      ((if (h.get c).why_blocked = BlockedOnMVar ∨ (h.get c).why_blocked = BlockedOnMVarRead
            ∨ (h.get c).why_blocked = BlockedOnBlackHole
            ∨ (h.get c).why_blocked = BlockedOnMsgThrowTo
          then [(h.get c).block_info_closure] else []) ++
        [(h.get c).trec, (h.get c).bq, (h.get c).blocked_exceptions, (h.get c).stackobj]) := by
  unfold childrenOf
  simp only [hty]
  split_ifs <;> rfl

theorem childrenOf_blocking_queue (h : Heap) (c : Addr)
    (hty : (h.get c).type = BLOCKING_QUEUE) :
    childrenOf h c = .ok [(h.get c).owner, (h.get c).bh, (h.get c).link] := by
  unfold childrenOf
  simp only [hty]
  rfl

theorem childrenOf_pap (h : Heap) (c : Addr)
    (hty : (h.get c).type = PAP ∨ (h.get c).type = AP) :
    childrenOf h c = .ok
      ((funArgPtrs h (h.get c).func (h.get c).args (h.get c).n_args true).reverse
        ++ [(h.get c).func]) := by
  unfold childrenOf
  rcases hty with hty | hty <;> simp [hty]

theorem childrenOf_stack (h : Heap) (c : Addr) (hty : (h.get c).type = STACK) :
    childrenOf h c =
      match stackPtrs h (h.get c).frames with
      | .error e => .error e
      | .ok l => .ok l.reverse := by
  unfold childrenOf
  simp only [hty]

theorem childrenOf_ap_stack (h : Heap) (c : Addr) (hty : (h.get c).type = AP_STACK) :
    childrenOf h c =
      match stackPtrs h (h.get c).frames with
      | .error e => .error e
      | .ok l => .ok (l.reverse ++ [(h.get c).func]) := by
  unfold childrenOf
  simp only [hty]
  cases stackPtrs h (h.get c).frames <;> simp

/-- C26 (eager kinds): let `c` be a TSO, STACK, BLOCKING_QUEUE, PAP, AP or
AP_STACK that `traverseWorkStack` visits, the visit returning the data
`child_data` for the children.  Then, unless the scan of an activation record
aborts, the body of `traverseWorkStack` pushes every child of `c` as a fresh
element with parent `c` and data `child_data` on top of the stack and jumps
to the label `loop`, where the next pop is; `traversePushChildren` has no
case for `c`, it would abort.  The children, the one pushed last first, are:
for a TSO `block_info.closure`, exactly when `why_blocked` is BlockedOnMVar,
BlockedOnMVarRead, BlockedOnBlackHole or BlockedOnMsgThrowTo, then `trec`,
`bq`, `blocked_exceptions` and `stackobj`; for a BLOCKING_QUEUE `owner`, `bh`
and `link`; for a PAP or an AP the argument words that the bitmap of the
function marks as pointers and the function; for a STACK the pointers of its
activation records; for an AP_STACK those and the function. -/
theorem eager_children_all_at_once (h : Heap) (st : RtsState) (c cp : Addr)
    (data : stackData) (st1 : RtsState) (child_data : stackData)
    (he : eagerKind (h.get c).type = true) (hp : preVisit h c = PreVisit.visit)
    (hv : retainVisitClosure h (traverseMaybeInitClosureData st c) c cp data
      = .ok (st1, some child_data)) :
    traverseWorkStack_body h (Label.inner_loop c cp data) st =
      (match childrenOf h c with
      | .error e => Jump.done (.error e)
      | .ok l => Jump.goto Label.loop
          { st1 with ts := { stack := l.map (freshElem c child_data) ++ st.ts.stack,
                             currentStackBoundary := st.ts.currentStackBoundary } }) ∧
    (∀ ts d, traversePushChildren h ts c d = .error (Fatal.push (h.get c).type)) ∧
    ((h.get c).type = TSO → childrenOf h c = .ok
      ((if (h.get c).why_blocked = BlockedOnMVar ∨ (h.get c).why_blocked = BlockedOnMVarRead
            ∨ (h.get c).why_blocked = BlockedOnBlackHole
            ∨ (h.get c).why_blocked = BlockedOnMsgThrowTo
          then [(h.get c).block_info_closure] else []) ++
        [(h.get c).trec, (h.get c).bq, (h.get c).blocked_exceptions, (h.get c).stackobj])) ∧
    ((h.get c).type = BLOCKING_QUEUE →
      childrenOf h c = .ok [(h.get c).owner, (h.get c).bh, (h.get c).link]) ∧
    ((h.get c).type = PAP ∨ (h.get c).type = AP → childrenOf h c = .ok
      ((funArgPtrs h (h.get c).func (h.get c).args (h.get c).n_args true).reverse
        ++ [(h.get c).func])) ∧
    ((h.get c).type = STACK → childrenOf h c =
      match stackPtrs h (h.get c).frames with
      | .error e => .error e
      | .ok l => .ok l.reverse) ∧
    ((h.get c).type = AP_STACK → childrenOf h c =
      match stackPtrs h (h.get c).frames with
      | .error e => .error e
      | .ok l => .ok (l.reverse ++ [(h.get c).func])) :=
  ⟨body_eager h st c cp data st1 child_data he hp hv,
    fun ts d => traversePushChildren_eager h ts c d he,
    childrenOf_tso h c, childrenOf_blocking_queue h c, childrenOf_pap h c,
    childrenOf_stack h c, childrenOf_ap_stack h c⟩

theorem eager_children_all_at_once_witness :
    (eagerKind (tsoHeap.get 0).type = true ∧ preVisit tsoHeap 0 = PreVisit.visit ∧
      retainVisitClosure tsoHeap (traverseMaybeInitClosureData (beginPass initState) 0) 0 0
        { c_child_r := 70 } = .ok (afterVisitOfTso, some { c_child_r := 70 })) ∧
    traverseWorkStack_body tsoHeap (Label.inner_loop 0 0 { c_child_r := 70 })
        (beginPass initState) =
      Jump.goto Label.loop
        { afterVisitOfTso with
          ts := { stack := [freshElem 0 { c_child_r := 70 } 2, freshElem 0 { c_child_r := 70 } 2,
                            freshElem 0 { c_child_r := 70 } 2, freshElem 0 { c_child_r := 70 } 1],
                  currentStackBoundary := 0 } } :=
  ⟨⟨by decide, by decide, rfl⟩,
    (eager_children_all_at_once tsoHeap (beginPass initState) 0 0 { c_child_r := 70 }
      afterVisitOfTso { c_child_r := 70 } (by decide) (by decide) rfl).1⟩

theorem preVisit_finished_tso (h : Heap) (c : Addr) (hty : (h.get c).type = TSO)
    (hw : (h.get c).what_next = ThreadComplete ∨ (h.get c).what_next = ThreadKilled) :
    preVisit h c = PreVisit.skip := by
  unfold preVisit
  simp only [hty, hw, if_true]

/-- The body of `traverseWorkStack` on a closure that is skipped. -/
theorem body_skip (h : Heap) (st : RtsState) (c cp : Addr) (data : stackData)
    (hp : preVisit h c = PreVisit.skip) :
    traverseWorkStack_body h (Label.inner_loop c cp data) st = Jump.goto Label.loop st := by
  rw [body_inner_eq, hp]

/-- The seed of a TSO is defined. -/
theorem seedOf_tso (h : Heap) (c : Addr) (hty : (h.get c).type = TSO) :
    ∃ data, seedOf h c = .ok data := by
  unfold seedOf isRetainer Heap.typeOf
  rw [hty]
  by_cases he : c ≠ h.END_TSO_QUEUE
  · rw [if_pos he]; exact ⟨_, rfl⟩
  · rw [if_neg he]; exact ⟨_, rfl⟩

/-- The function `retainRoot` on a root that is skipped: the root is popped
again and nothing else happens. -/
theorem retainRoot_skip (h : Heap) (st : RtsState) (tl : Addr) (data : stackData)
    (hseed : seedOf h tl = .ok data) (hp : preVisit h tl = PreVisit.skip) (fuel : Nat) :
    retainRoot h (fuel + 3) st tl =
      some (.ok ((traverseMaybeInitClosureData st tl).withTs
        { stack := st.ts.stack, currentStackBoundary := st.ts.stack.length })) := by
  rw [retainRoot_start_eq h _ st tl data hseed, traverseWorkStack_succ]
  have h1 : traverseWorkStack_body h Label.loop (retainRoot_start st tl data)
      = Jump.goto (Label.inner_loop tl tl data)
          ((traverseMaybeInitClosureData st tl).withTs
            { stack := st.ts.stack, currentStackBoundary := st.ts.stack.length }) := by
    rw [body_loop_eq]
    unfold retainRoot_start traversePop RtsState.withTs
    dsimp only
    rw [traversePop_loop]
    rw [if_neg (by omega), if_pos (show (freshElem tl data tl).info = posTypeFresh from rfl)]
    rfl
  rw [h1]
  dsimp only
  rw [traverseWorkStack_succ, body_skip h _ tl tl data hp]
  dsimp only
  rw [traverseWorkStack_succ, body_loop_eq]
  have h2 : traversePop h ((traverseMaybeInitClosureData st tl).withTs
      { stack := st.ts.stack, currentStackBoundary := st.ts.stack.length }).ts
      = .ok ({ stack := st.ts.stack, currentStackBoundary := st.ts.stack.length }, none) :=
    traversePop_on_boundary h _ (by simp [isOnBoundary, RtsState.withTs])
  rw [h2]
  rfl

theorem counters_init (st : RtsState) (c : Addr) :
    (traverseMaybeInitClosureData st c).numObjectVisited = st.numObjectVisited ∧
    (traverseMaybeInitClosureData st c).timesAnyObjectVisited = st.timesAnyObjectVisited := by
  unfold traverseMaybeInitClosureData
  split <;> exact ⟨rfl, rfl⟩
/-- C27 (finished threads): a TSO whose `what_next` is ThreadComplete or
ThreadKilled is skipped.  Reached in the traversal, the body of
`traverseWorkStack` jumps to the label `loop`, where the next pop is, with the
state as it was: no retainer set, no counter and no stack element has changed.
Seeded as a root, `retainRoot` returns with every retainer set, both counters
and the stack as they were. -/
theorem finished_tso_skipped (h : Heap) (st : RtsState) (c cp : Addr) (data : stackData)
    (hty : (h.get c).type = TSO)
    (hw : (h.get c).what_next = ThreadComplete ∨ (h.get c).what_next = ThreadKilled) :
    traverseWorkStack_body h (Label.inner_loop c cp data) st = Jump.goto Label.loop st ∧
    ∀ fuel, ∃ st1, retainRoot h (fuel + 3) st c = some (.ok st1) ∧
      (∀ a, rsetOf st1 a = rsetOf st a) ∧
      st1.numObjectVisited = st.numObjectVisited ∧
      st1.timesAnyObjectVisited = st.timesAnyObjectVisited ∧
      st1.ts.stack = st.ts.stack := by
  have hp := preVisit_finished_tso h c hty hw
  refine ⟨body_skip h st c cp data hp, fun fuel => ?_⟩
  obtain ⟨d, hd⟩ := seedOf_tso h c hty
  exact ⟨_, retainRoot_skip h st c d hd hp fuel, fun a => rsetOf_init st c a,
    (counters_init st c).1, (counters_init st c).2, rfl⟩

theorem finished_tso_skipped_witness :
    ((finishedTsoHeap.get 0).type = TSO ∧
      ((finishedTsoHeap.get 0).what_next = ThreadComplete ∨
        (finishedTsoHeap.get 0).what_next = ThreadKilled)) ∧
    traverseWorkStack_body finishedTsoHeap (Label.inner_loop 0 0 { c_child_r := 70 })
        (beginPass initState) = Jump.goto Label.loop (beginPass initState) ∧
    ∀ fuel, ∃ st1, retainRoot finishedTsoHeap (fuel + 3) (beginPass initState) 0
        = some (.ok st1) ∧
      (∀ a, rsetOf st1 a = rsetOf (beginPass initState) a) ∧
      st1.numObjectVisited = (beginPass initState).numObjectVisited ∧
      st1.timesAnyObjectVisited = (beginPass initState).timesAnyObjectVisited ∧
      st1.ts.stack = (beginPass initState).ts.stack :=
  ⟨⟨by decide, Or.inl (by decide)⟩,
    finished_tso_skipped finishedTsoHeap (beginPass initState) 0 0 { c_child_r := 70 }
      (by decide) (Or.inl (by decide))⟩

/-- No visit assigns a retainer set to a static indirection. -/
theorem ind_static_step (h : Heap) (st st1 : RtsState) (it : Item) (new : List Item)
    (hP : ∀ a, (h.get a).type = IND_STATIC → rsetOf st a = none)
    (hv : visitItem h st it = .ok (st1, new)) :
    ∀ a, (h.get a).type = IND_STATIC → rsetOf st1 a = none := by
  obtain ⟨c, cp, d⟩ := it
  intro a ha
  rcases visitItem_cases h st c cp d st1 new hv with ⟨-, e, -⟩ | ⟨c1, -, e, -⟩ | ⟨hp, -, cpRet, s, -, -, hm⟩
  · rw [e]; exact hP a ha
  · rw [e]; exact hP a ha
  · have hne : a ≠ c := fun e => (preVisit_visit_type h c hp).2 (e ▸ ha)
    cases hvs : visitSet (rsetOf st c) s d.c_child_r with
    | none =>
      rw [hvs] at hm
      rw [hm.1 a]; exact hP a ha
    | some S1 =>
      rw [hvs] at hm
      rw [hm.1 a, if_neg hne]; exact hP a ha

/-- After a pass that begins in a clean state no static indirection has a
retainer set. -/
theorem ind_static_has_no_set (h : Heap) (roots : Roots) (fuel : Nat) (st st1 : RtsState)
    (hc : Clean st) (hr : retainerProfile h roots fuel st = some (.ok st1)) :
    ∀ a, (h.get a).type = IND_STATIC → rsetOf st1 a = none := by
  obtain ⟨s, hs, hsame⟩ := retainerProfile_ok h roots fuel st st1 hr
  have hQ := retainRoots_invariant h fuel
    (fun _ st => ∀ a, (h.get a).type = IND_STATIC → rsetOf st a = none)
    (fun done st tl st1 hq hroot =>
      (retainRoot_invariant h
        (fun st _ => ∀ a, (h.get a).type = IND_STATIC → rsetOf st a = none)
        (fun st it rest st1 new hP hv => ind_static_step h st st1 it new hP hv)
        (fun st t items hP => hP) fuel st st1 tl
        (fun data _ a ha => by rw [rsetOf_init]; exact hq a ha) hroot).1)
    roots.all [] (beginPass st) s (fun a _ => rsetOf_beginPass st hc a) hs
  intro a ha
  rw [hsame a]
  exact hQ a ha

/-- C28 (static indirections): on an IND_STATIC the body of
`traverseWorkStack` jumps to the label `inner_loop` with the indirectee as
the closure and with the parent and the data that the indirection was reached
with, the state being as it was: no retainer set and no counter has changed.
The visit is never applied to an IND_STATIC, and after a pass that began in a
clean state no IND_STATIC has a retainer set. -/
theorem static_indirection_followed (h : Heap) (st : RtsState) (c cp : Addr)
    (data : stackData) (hty : (h.get c).type = IND_STATIC) :
    traverseWorkStack_body h (Label.inner_loop c cp data) st =
      Jump.goto (Label.inner_loop (h.get c).indirectee cp data) st ∧
    preVisit h c ≠ PreVisit.visit ∧
    ∀ roots fuel st0 st1, Clean st0 → retainerProfile h roots fuel st0 = some (.ok st1) →
      rsetOf st1 c = none := by
  have hp := preVisit_ind h c hty
  refine ⟨by rw [body_inner_eq, hp], by rw [hp]; simp, ?_⟩
  intro roots fuel st0 st1 hc hr
  exact ind_static_has_no_set h roots fuel st0 st1 hc hr c hty

theorem static_indirection_followed_witness :
    (indHeap.get 1).type = IND_STATIC ∧
    traverseWorkStack_body indHeap (Label.inner_loop 1 0 { c_child_r := 40 })
        (beginPass initState) =
      Jump.goto (Label.inner_loop (indHeap.get 1).indirectee 0 { c_child_r := 40 })
        (beginPass initState) ∧
    preVisit indHeap 1 ≠ PreVisit.visit ∧
    ∀ roots fuel st0 st1, Clean st0 →
      retainerProfile indHeap roots fuel st0 = some (.ok st1) → rsetOf st1 1 = none :=
  ⟨by decide,
    static_indirection_followed indHeap (beginPass initState) 1 0 { c_child_r := 40 }
      (by decide)⟩

/-- The state after a visit that returns. -/
theorem retainVisitClosure_state (h : Heap) (st : RtsState) (c cp : Addr) (d : stackData)
    (st1 : RtsState) (o : Option stackData)
    (hv : retainVisitClosure h st c cp d = .ok (st1, o)) :
    ∃ rc ns, retainerSetOf st.flip (st.trav c) = .ok rc ∧ st1 = visitState st c rc ns ∧
      (rc = none → ns ≠ none) := by
  rw [retainVisitClosure_eq] at hv
  cases hrc : retainerSetOf st.flip (st.trav c) with
  | error e => rw [hrc] at hv; cases hv
  | ok rc =>
    rw [hrc] at hv
    dsimp only at hv
    cases hp : visitPure rc (isRetainer h cp) (retainerSetOf st.flip (st.trav cp))
        (isRetainer h c) (getRetainerFrom h c) d.c_child_r with
    | error e => rw [hp] at hv; cases hv
    | ok p =>
      obtain ⟨ns, o1⟩ := p
      rw [hp] at hv
      simp only [Except.ok.injEq, Prod.mk.injEq] at hv
      refine ⟨rc, ns, rfl, hv.1.symm, ?_⟩
      intro hnone hns
      subst hnone hns
      unfold visitPure at hp
      cases hcp : isRetainer h cp with
      | error e => rw [hcp] at hp; cases hp
      | ok cpRet =>
        rw [hcp] at hp
        dsimp only at hp
        cases hs : (if cpRet = true then (Except.ok none : Except Fatal (Option RetainerSet))
            else retainerSetOf st.flip (st.trav cp)) with
        | error e => rw [hs] at hp; cases hp
        | ok s =>
          rw [hs] at hp
          dsimp only at hp
          cases hvs : visitSet none s d.c_child_r with
          | none =>
            obtain ⟨S, hS⟩ := visitSet_none none s d.c_child_r hvs
            cases hS
          | some S1 =>
            rw [hvs] at hp
            dsimp only at hp
            cases hc : isRetainer h c with
            | error e => rw [hc] at hp; cases hp
            | ok cRet => rw [hc] at hp; cases hp

theorem Counted_withTs (st : RtsState) (t : traverseState) (L : List Addr)
    (hc : Counted st L) : Counted { st with ts := t } L := hc

theorem Counted_init (st : RtsState) (c : Addr) (L : List Addr) (hc : Counted st L) :
    Counted (traverseMaybeInitClosureData st c) L := by
  obtain ⟨h1, h2, h3⟩ := hc
  refine ⟨(counters_init st c).2.trans h1, (counters_init st c).1.trans h2, fun a => ?_⟩
  rw [rsetOf_init]
  exact h3 a

/-- A visit adds its closure to the log. -/
theorem Counted_visit (h : Heap) (st : RtsState) (c cp : Addr) (d : stackData)
    (st1 : RtsState) (o : Option stackData) (L : List Addr) (hc : Counted st L)
    (hv : retainVisitClosure h (traverseMaybeInitClosureData st c) c cp d = .ok (st1, o)) :
    Counted st1 (L ++ [c]) := by
  obtain ⟨rc, ns, hrc, hst, hns⟩ := retainVisitClosure_state h _ c cp d st1 o hv
  rw [retainerSetOf_init_self] at hrc
  simp only [Except.ok.injEq] at hrc
  subst hst
  obtain ⟨h1, h2, -⟩ := Counted_init st c L hc
  have h3 := hc.2.2
  have htimes : (visitState (traverseMaybeInitClosureData st c) c rc ns).timesAnyObjectVisited
      = (L ++ [c]).length % 2 ^ 32 := by
    show ((traverseMaybeInitClosureData st c).timesAnyObjectVisited + 1) % 2 ^ 32 = _
    rw [h1, List.length_append, List.length_singleton]
    omega
  have hsets : ∀ a, rsetOf (visitState (traverseMaybeInitClosureData st c) c rc ns) a ≠ none
      ↔ a ∈ L ++ [c] := by
    intro a
    rw [rsetOf_visitState, List.mem_append, List.mem_singleton]
    cases ns with
    | none =>
      dsimp only
      rw [rsetOf_init]
      have hcn : rsetOf st c ≠ none := fun e => hns (hrc.symm.trans e) rfl
      constructor
      · intro hne; exact Or.inl ((h3 a).1 hne)
      · rintro (hm | he)
        · exact (h3 a).2 hm
        · rw [he]; exact hcn
    | some S1 =>
      dsimp only
      by_cases hac : a = c
      · simp [hac]
      · simp only [hac, if_false, or_false, rsetOf_init]
        exact h3 a
  refine ⟨htimes, ?_, hsets⟩
  have hcard : (L ++ [c]).toFinset = insert c L.toFinset := by
    ext a
    simp [or_comm]
  rw [hcard]
  cases rc with
  | none =>
    have hnot : c ∉ L.toFinset := by
      rw [List.mem_toFinset]
      intro hm
      exact (h3 c).2 hm hrc
    rw [Finset.card_insert_of_not_mem hnot]
    show ((traverseMaybeInitClosureData st c).numObjectVisited + 1) % 2 ^ 32 = _
    rw [h2]
    omega
  | some S =>
    have hin : c ∈ L.toFinset := by
      rw [List.mem_toFinset]
      exact (h3 c).1 (by rw [hrc]; simp)
    rw [Finset.insert_eq_of_mem hin]
    exact h2
/-- One pass through the body of `traverseWorkStack` keeps the counters and
the retainer sets in agreement with the log. -/
theorem body_counted (h : Heap) (l : Label) (st : RtsState) (L : List Addr)
    (hc : Counted st L) :
    match traverseWorkStack_body h l st with
    | Jump.done (.ok s) => Counted s (L ++ visitedAt h l)
    | Jump.done (.error _) => True
    | Jump.goto _ s => Counted s (L ++ visitedAt h l) := by
  cases l with
  | loop =>
    rw [body_loop_eq]
    simp only [visitedAt, List.append_nil]
    cases traversePop h st.ts with
    | error e => trivial
    | ok p =>
      obtain ⟨ts, r⟩ := p
      cases r with
      | none => exact Counted_withTs st ts L hc
      | some q =>
        obtain ⟨c, cp, data⟩ := q
        exact Counted_withTs st ts L hc
  | inner_loop c cp data =>
    rw [body_inner_eq]
    cases hp : preVisit h c with
    | skip =>
      have hva : visitedAt h (Label.inner_loop c cp data) = [] := by
        show (if preVisit h c = PreVisit.visit then [c] else []) = _
        rw [hp]; simp
      rw [hva, List.append_nil]
      exact hc
    | follow c1 =>
      have hva : visitedAt h (Label.inner_loop c cp data) = [] := by
        show (if preVisit h c = PreVisit.visit then [c] else []) = _
        rw [hp]; simp
      rw [hva, List.append_nil]
      exact hc
    | visit =>
      have hva : visitedAt h (Label.inner_loop c cp data) = [c] := by
        show (if preVisit h c = PreVisit.visit then [c] else []) = _
        rw [hp]; simp
      rw [hva]
      dsimp only
      cases hv : retainVisitClosure h (traverseMaybeInitClosureData st c) c cp data with
      | error e => trivial
      | ok p =>
        obtain ⟨s, o⟩ := p
        have hs := Counted_visit h st c cp data s o L hc hv
        cases o with
        | none => exact hs
        | some child_data =>
          dsimp only
          cases processChildren h s.ts c child_data with
          | error e => trivial
          | ok q =>
            obtain ⟨ts, fc⟩ := q
            cases fc with
            | none => exact Counted_withTs s ts _ hs
            | some first_child => exact Counted_withTs s ts _ hs

/-- A run of `traverseWorkStack` that returns keeps the counters and the
retainer sets in agreement with the log of its visits. -/
theorem traverseWorkStack_counted (h : Heap) :
    ∀ (fuel : Nat) (l : Label) (st st1 : RtsState) (L : List Addr), Counted st L →
      traverseWorkStack h fuel l st = some (.ok st1) →
      Counted st1 (L ++ traverseWorkStack_log h fuel l st)
  | 0, _, _, _, _, _, hr => by simp [traverseWorkStack] at hr
  | fuel + 1, l, st, st1, L, hc, hr => by
    rw [traverseWorkStack_succ] at hr
    unfold traverseWorkStack_log
    have hb := body_counted h l st L hc
    cases hj : traverseWorkStack_body h l st with
    | done r =>
      rw [hj] at hr hb
      simp only [Option.some.injEq] at hr
      subst hr
      simpa using hb
    | goto l1 s =>
      rw [hj] at hr hb
      dsimp only at hr hb ⊢
      rw [← List.append_assoc]
      exact traverseWorkStack_counted h fuel l1 s st1 _ hb hr

theorem retainRoot_counted (h : Heap) (fuel : Nat) (st st1 : RtsState) (tl : Addr)
    (L : List Addr) (hc : Counted st L) (hr : retainRoot h fuel st tl = some (.ok st1)) :
    Counted st1 (L ++ retainRoot_log h fuel st tl) := by
  unfold retainRoot_log
  cases hs : seedOf h tl with
  | error e =>
    rw [retainRoot_eq, hs] at hr
    simp at hr
  | ok data =>
    rw [retainRoot_start_eq h fuel st tl data hs] at hr
    dsimp only
    refine traverseWorkStack_counted h fuel Label.loop _ st1 L ?_ hr
    exact Counted_withTs _ _ L (Counted_init st tl L hc)

theorem retainRoots_counted (h : Heap) (fuel : Nat) :
    ∀ (tls : List Addr) (st st1 : RtsState) (L : List Addr), Counted st L →
      retainRoots h fuel st tls = some (.ok st1) →
      Counted st1 (L ++ retainRoots_log h fuel st tls)
  | [], st, st1, L, hc, hr => by
    simp only [retainRoots, Option.some.injEq, Except.ok.injEq] at hr
    subst hr
    simpa [retainRoots_log] using hc
  | tl :: tls, st, st1, L, hc, hr => by
    rw [retainRoots] at hr
    unfold retainRoots_log
    cases h1 : retainRoot h fuel st tl with
    | none => rw [h1] at hr; simp at hr
    | some res =>
      cases res with
      | error e => rw [h1] at hr; simp at hr
      | ok s =>
        rw [h1] at hr
        dsimp only at hr ⊢
        rw [← List.append_assoc]
        exact retainRoots_counted h fuel tls s st1 _ (retainRoot_counted h fuel st s tl L hc h1) hr

theorem Counted_beginPass (st : RtsState) (hc : Clean st) : Counted (beginPass st) [] :=
  ⟨rfl, rfl, fun a => by rw [rsetOf_beginPass st hc a]; simp⟩

theorem Counted_foldl_init (l : List Addr) (st : RtsState) (L : List Addr)
    (hc : Counted st L) : Counted (l.foldl traverseMaybeInitClosureData st) L := by
  induction l generalizing st with
  | nil => exact hc
  | cons c l ih => exact ih _ (Counted_init st c L hc)

/-- A call of `computeRetainerSet` that returns: the walk of the roots
returns, and the entries of the mutable lists are refreshed then. -/
theorem computeRetainerSet_state (h : Heap) (roots : Roots) (fuel : Nat) (st st2 : RtsState)
    (hr : computeRetainerSet h roots fuel st = some (.ok st2)) :
    ∃ s, retainRoots h fuel st roots.all = some (.ok s) ∧
      st2 = roots.mut_lists.foldl traverseMaybeInitClosureData s := by
  unfold computeRetainerSet at hr
  unfold Roots.all
  cases h1 : retainRoots h fuel st
      (roots.capabilities ++ roots.weak_ptr_list ++ roots.stable_ptrs) with
  | none => rw [h1] at hr; simp at hr
  | some res =>
    rw [h1] at hr
    cases res with
    | error e => simp at hr
    | ok s =>
      simp only [Option.some.injEq, Except.ok.injEq] at hr
      exact ⟨s, rfl, hr.symm⟩

/-- A pass that returns: `computeRetainerSet` returns from the state in which
the pass begins, and the pass counter is advanced then. -/
theorem retainerProfile_state (h : Heap) (roots : Roots) (fuel : Nat) (st st1 : RtsState)
    (hr : retainerProfile h roots fuel st = some (.ok st1)) :
    ∃ st2, computeRetainerSet h roots fuel (beginPass st) = some (.ok st2) ∧
      st1 = { st2 with retainerGeneration := (st2.retainerGeneration + 1) % 2 ^ 32 } := by
  unfold retainerProfile at hr
  dsimp only at hr
  cases h1 : computeRetainerSet h roots fuel (beginPass st) with
  | none =>
    unfold beginPass at h1
    rw [h1] at hr; simp at hr
  | some res =>
    unfold beginPass at h1
    rw [h1] at hr
    cases res with
    | error e => simp at hr
    | ok s =>
      simp only [Option.some.injEq, Except.ok.injEq] at hr
      exact ⟨s, rfl, hr.symm⟩

theorem flip_foldl_init (l : List Addr) (st : RtsState) :
    (l.foldl traverseMaybeInitClosureData st).flip = st.flip := by
  induction l generalizing st with
  | nil => rfl
  | cons c l ih => rw [List.foldl_cons, ih, traverseMaybeInitClosureData_flip]

/-- The function `retainRoot` on the closure of `oneWordHeap` when it has the
retainer set of the system already: the visit is short-circuited, and only the
counter of all visits advances. -/
theorem retainRoot_revisit (st : RtsState) (hts : st.ts = initializeTraverseStack)
    (hslot : rsetOf st 0 = some (singleton 1)) :
    retainRoot oneWordHeap 3 st 0 =
        some (.ok { st with timesAnyObjectVisited := (st.timesAnyObjectVisited + 1) % 2 ^ 32 }) ∧
      retainRoot_log oneWordHeap 3 st 0 = [0] := by
  have hv : validAt st 0 := rsetOf_some_valid st 0 _ hslot
  have hseed : seedOf oneWordHeap 0 = .ok { c_child_r := 1 } := by decide
  have hstart : retainRoot_start st 0 { c_child_r := 1 }
      = st.withTs { stack := [freshElem 0 { c_child_r := 1 } 0], currentStackBoundary := 0 } := by
    unfold retainRoot_start
    rw [init_of_valid st 0 hv, hts]
    rfl
  have h1 : traverseWorkStack_body oneWordHeap Label.loop
      (st.withTs { stack := [freshElem 0 { c_child_r := 1 } 0], currentStackBoundary := 0 })
      = Jump.goto (Label.inner_loop 0 0 { c_child_r := 1 }) st := by
    rw [body_loop_eq]
    have : traversePop oneWordHeap (st.withTs
        { stack := [freshElem 0 { c_child_r := 1 } 0], currentStackBoundary := 0 }).ts
        = .ok (initializeTraverseStack, some (0, 0, { c_child_r := 1 })) := by
      show traversePop oneWordHeap
        { stack := [freshElem 0 { c_child_r := 1 } 0], currentStackBoundary := 0 } = _
      decide
    rw [this]
    dsimp only
    rw [← hts]
    rfl
  have hvis : retainVisitClosure oneWordHeap (traverseMaybeInitClosureData st 0) 0 0
      { c_child_r := 1 }
      = .ok ({ st with timesAnyObjectVisited := (st.timesAnyObjectVisited + 1) % 2 ^ 32 },
          none) := by
    rw [init_of_valid st 0 hv]
    exact retainVisitClosure_member oneWordHeap st 0 0 { c_child_r := 1 } (singleton 1) false
      hslot (by decide) (by decide) (fun _ => hv)
  have h2 : traverseWorkStack_body oneWordHeap (Label.inner_loop 0 0 { c_child_r := 1 }) st
      = Jump.goto Label.loop
          { st with timesAnyObjectVisited := (st.timesAnyObjectVisited + 1) % 2 ^ 32 } := by
    rw [body_inner_eq]
    have hp : preVisit oneWordHeap 0 = PreVisit.visit := by decide
    rw [hp]
    dsimp only
    rw [hvis]
  have h3 : traverseWorkStack_body oneWordHeap Label.loop
      { st with timesAnyObjectVisited := (st.timesAnyObjectVisited + 1) % 2 ^ 32 }
      = Jump.done (.ok
          { st with timesAnyObjectVisited := (st.timesAnyObjectVisited + 1) % 2 ^ 32 }) := by
    rw [body_loop_eq]
    have : traversePop oneWordHeap
        ({ st with timesAnyObjectVisited := (st.timesAnyObjectVisited + 1) % 2 ^ 32 }).ts
        = .ok (st.ts, none) := by
      show traversePop oneWordHeap st.ts = _
      rw [hts]
      decide
    rw [this]
  constructor
  · rw [retainRoot_start_eq oneWordHeap 3 st 0 _ hseed, hstart, traverseWorkStack_succ, h1]
    dsimp only
    rw [traverseWorkStack_succ, h2]
    dsimp only
    rw [traverseWorkStack_succ, h3]
  · unfold retainRoot_log
    rw [hseed]
    dsimp only
    rw [hstart]
    unfold traverseWorkStack_log
    rw [h1]
    dsimp only
    unfold traverseWorkStack_log
    rw [h2]
    dsimp only
    unfold traverseWorkStack_log
    rw [h3]
    show visitedAt oneWordHeap Label.loop ++
      (visitedAt oneWordHeap (Label.inner_loop 0 0 { c_child_r := 1 }) ++
        (visitedAt oneWordHeap Label.loop ++ [])) = [0]
    decide
theorem retainRoots_revisit :
    ∀ (n : Nat) (st : RtsState), st.ts = initializeTraverseStack →
      rsetOf st 0 = some (singleton 1) → st.timesAnyObjectVisited < 2 ^ 32 →
      retainRoots oneWordHeap 3 st (List.replicate n 0) =
          some (.ok { st with
            timesAnyObjectVisited := (st.timesAnyObjectVisited + n) % 2 ^ 32 }) ∧
        retainRoots_log oneWordHeap 3 st (List.replicate n 0) = List.replicate n 0
  | 0, st, _, _, hlt => by
    refine ⟨?_, rfl⟩
    rw [Nat.add_zero, Nat.mod_eq_of_lt hlt]
    rfl
  | n + 1, st, hts, hslot, hlt => by
    obtain ⟨h1, h2⟩ := retainRoot_revisit st hts hslot
    obtain ⟨h3, h4⟩ := retainRoots_revisit n
      { st with timesAnyObjectVisited := (st.timesAnyObjectVisited + 1) % 2 ^ 32 } hts hslot
      (Nat.mod_lt _ (by norm_num))
    rw [List.replicate_succ]
    constructor
    · rw [retainRoots, h1]
      dsimp only
      rw [h3]
      have : ((st.timesAnyObjectVisited + 1) % 2 ^ 32 + n) % 2 ^ 32
          = (st.timesAnyObjectVisited + (n + 1)) % 2 ^ 32 := by omega
      dsimp only
      rw [this]
    · rw [retainRoots_log, h1, h2]
      dsimp only
      rw [h4]
      rfl

/-- A pass returns when the walk of its roots does, with the state that the
walk of the mutable lists and the advance of the pass counter make of the
state after the roots. -/
theorem retainerProfile_of_roots_state (h : Heap) (roots : Roots) (fuel : Nat)
    (st s : RtsState)
    (hr : retainRoots h fuel (beginPass st) roots.all = some (.ok s)) :
    retainerProfile h roots fuel st = some (.ok
      { roots.mut_lists.foldl traverseMaybeInitClosureData s with
        retainerGeneration :=
          ((roots.mut_lists.foldl traverseMaybeInitClosureData s).retainerGeneration + 1)
            % 2 ^ 32 }) := by
  unfold retainerProfile computeRetainerSet
  dsimp only
  unfold beginPass Roots.all at hr
  rw [hr]

theorem manyRoots_all : manyRoots.all = 0 :: List.replicate 4294967295 0 := by
  unfold Roots.all manyRoots
  dsimp only
  rw [List.append_nil, List.append_nil,
    show (2 : Nat) ^ 32 = 4294967295 + 1 by norm_num, List.replicate_succ]

theorem afterFirstRoot_facts :
    retainRoot oneWordHeap 3 (beginPass initState) 0 = some (.ok afterFirstRoot) ∧
    retainRoot_log oneWordHeap 3 (beginPass initState) 0 = [0] ∧
    afterFirstRoot.ts = initializeTraverseStack ∧
    rsetOf afterFirstRoot 0 = some (singleton 1) ∧
    afterFirstRoot.timesAnyObjectVisited = 1 ∧
    afterFirstRoot.numObjectVisited = 1 :=
  ⟨rfl, by decide, by decide, by decide, by decide, by decide⟩

/-- A pass over `oneWordHeap` with the roots `manyRoots`: the state it
returns with, and the log of its visits. -/
theorem manyRoots_pass :
    retainerProfile oneWordHeap manyRoots 3 initState = some (.ok
      { afterFirstRoot with
        timesAnyObjectVisited := (afterFirstRoot.timesAnyObjectVisited + 4294967295) % 2 ^ 32,
        retainerGeneration := (afterFirstRoot.retainerGeneration + 1) % 2 ^ 32 }) ∧
    retainerProfile_log oneWordHeap manyRoots 3 initState
      = 0 :: List.replicate 4294967295 0 := by
  obtain ⟨f1, f2, f3, f4, f5, -⟩ := afterFirstRoot_facts
  obtain ⟨h3, h4⟩ := retainRoots_revisit 4294967295 afterFirstRoot f3 f4
    (by rw [f5]; norm_num)
  have hroots : retainRoots oneWordHeap 3 (beginPass initState) manyRoots.all
      = some (.ok { afterFirstRoot with
          timesAnyObjectVisited :=
            (afterFirstRoot.timesAnyObjectVisited + 4294967295) % 2 ^ 32 }) := by
    rw [manyRoots_all, retainRoots, f1]
    dsimp only
    rw [h3]
  constructor
  · rw [retainerProfile_of_roots_state oneWordHeap manyRoots 3 initState _ hroots]
    rfl
  · unfold retainerProfile_log
    rw [manyRoots_all, retainRoots_log, f1, f2]
    dsimp only
    rw [h4]
    rfl
/-- After a pass that began in a clean state the counters and the retainer
sets agree with the log of the visits of the pass. -/
theorem retainerProfile_counted (h : Heap) (roots : Roots) (fuel : Nat) (st st1 : RtsState)
    (hc : Clean st) (hr : retainerProfile h roots fuel st = some (.ok st1)) :
    Counted st1 (retainerProfile_log h roots fuel st) := by
  obtain ⟨st2, h2, hst1⟩ := retainerProfile_state h roots fuel st st1 hr
  obtain ⟨s, hs, hst2⟩ := computeRetainerSet_state h roots fuel _ st2 h2
  have hcnt := retainRoots_counted h fuel roots.all _ s [] (Counted_beginPass st hc) hs
  rw [List.nil_append] at hcnt
  have hcnt2 := Counted_foldl_init roots.mut_lists s _ hcnt
  rw [← hst2] at hcnt2
  rw [hst1]
  exact hcnt2

/-- C30 (visit counters), as stated, fails: the counters are 32 bits wide.
In the pass over `oneWordHeap` whose roots name its one closure 2^32 times,
the visit callback is called 2^32 times, once for every root, and the pass
returns with `timesAnyObjectVisited = 0`. -/
theorem visit_counter_wraps :
    ∃ s, retainerProfile oneWordHeap manyRoots 3 initState = some (.ok s) ∧
      (retainerProfile_log oneWordHeap manyRoots 3 initState).length = 2 ^ 32 ∧
      s.timesAnyObjectVisited = 0 ∧ s.numObjectVisited = 1 := by
  obtain ⟨h1, h2⟩ := manyRoots_pass
  obtain ⟨-, -, -, -, f5, f6⟩ := afterFirstRoot_facts
  refine ⟨_, h1, ?_, ?_, f6⟩
  · rw [h2, List.length_cons, List.length_replicate]
    norm_num
  · show (afterFirstRoot.timesAnyObjectVisited + 4294967295) % 2 ^ 32 = 0
    rw [f5]
    norm_num

/-- C30 (visit counters), as amended: a pass begins with both counters at
zero; when it began in a clean state and returns, `timesAnyObjectVisited` is
the number of calls of the visit callback during the pass, the short-circuited
ones included, modulo 2^32; `numObjectVisited` is the number of distinct
closures that have a retainer set after the pass, which are the closures that
the callback was called on, each counted once, modulo 2^32; and both are these
numbers themselves when the callback was called fewer than 2^32 times. -/
theorem visit_counters_modulo (h : Heap) (roots : Roots) (fuel : Nat) (st st1 : RtsState)
    (hc : Clean st) (hr : retainerProfile h roots fuel st = some (.ok st1)) :
    (∃ st2, computeRetainerSet h roots fuel (beginPass st) = some (.ok st2)) ∧
    (beginPass st).numObjectVisited = 0 ∧ (beginPass st).timesAnyObjectVisited = 0 ∧
    st1.timesAnyObjectVisited = (retainerProfile_log h roots fuel st).length % 2 ^ 32 ∧
    st1.numObjectVisited = (retainerProfile_log h roots fuel st).toFinset.card % 2 ^ 32 ∧
    (∀ a, rsetOf st1 a ≠ none ↔ a ∈ (retainerProfile_log h roots fuel st).toFinset) ∧
    ((retainerProfile_log h roots fuel st).length < 2 ^ 32 →
      st1.timesAnyObjectVisited = (retainerProfile_log h roots fuel st).length ∧
      st1.numObjectVisited = (retainerProfile_log h roots fuel st).toFinset.card) := by
  obtain ⟨c1, c2, c3⟩ := retainerProfile_counted h roots fuel st st1 hc hr
  obtain ⟨st2, h2, -⟩ := retainerProfile_state h roots fuel st st1 hr
  refine ⟨⟨st2, h2⟩, rfl, rfl, c1, c2, fun a => ?_, fun hlt => ?_⟩
  · rw [List.mem_toFinset]; exact c3 a
  · have hle := List.toFinset_card_le (retainerProfile_log h roots fuel st)
    exact ⟨by rw [c1, Nat.mod_eq_of_lt hlt],
      by rw [c2, Nat.mod_eq_of_lt (Nat.lt_of_le_of_lt hle hlt)]⟩

theorem visit_counters_modulo_witness :
    (Clean initState ∧
      retainerProfile sharedHeap threeRoots 100 initState
        = some (.ok (passResult sharedHeap threeRoots 100 initState))) ∧
    retainerProfile_log sharedHeap threeRoots 100 initState = [0, 4, 1, 3, 2, 3, 2, 4, 4, 2] ∧
    (passResult sharedHeap threeRoots 100 initState).timesAnyObjectVisited = 10 ∧
    (passResult sharedHeap threeRoots 100 initState).numObjectVisited = 5 ∧
    (passResult sharedHeap threeRoots 100 initState).timesAnyObjectVisited
      = (retainerProfile_log sharedHeap threeRoots 100 initState).length % 2 ^ 32 ∧
    (passResult sharedHeap threeRoots 100 initState).numObjectVisited
      = (retainerProfile_log sharedHeap threeRoots 100 initState).toFinset.card % 2 ^ 32 :=
  ⟨⟨initState_clean, rfl⟩, by decide, by decide, by decide,
    (visit_counters_modulo sharedHeap threeRoots 100 initState
      (passResult sharedHeap threeRoots 100 initState) initState_clean rfl).2.2.2.1,
    (visit_counters_modulo sharedHeap threeRoots 100 initState
      (passResult sharedHeap threeRoots 100 initState) initState_clean rfl).2.2.2.2.1⟩

theorem traverseMaybeInitClosureData_cases (st : RtsState) (c : Addr) :
    (isTravDataValid st.flip (st.trav c) = true →
        traverseMaybeInitClosureData st c = st) ∧
      (isTravDataValid st.flip (st.trav c) = false →
        ((traverseMaybeInitClosureData st c).trav c).rs = none ∧
        isTravDataValid (traverseMaybeInitClosureData st c).flip
          ((traverseMaybeInitClosureData st c).trav c) = true ∧
        rsetOf (traverseMaybeInitClosureData st c) c = none ∧
        (∀ a, a ≠ c → (traverseMaybeInitClosureData st c).trav a = st.trav a) ∧
        (traverseMaybeInitClosureData st c).flip = st.flip ∧
        (traverseMaybeInitClosureData st c).ts = st.ts ∧
        (traverseMaybeInitClosureData st c).numObjectVisited = st.numObjectVisited ∧
        (traverseMaybeInitClosureData st c).timesAnyObjectVisited = st.timesAnyObjectVisited ∧
        (traverseMaybeInitClosureData st c).retainerGeneration = st.retainerGeneration) ∧
      traverseMaybeInitClosureData (traverseMaybeInitClosureData st c) c =
        traverseMaybeInitClosureData st c := by
  have hdone : ∀ (s : RtsState), isTravDataValid s.flip (s.trav c) = true →
      traverseMaybeInitClosureData s c = s := by
    intro s hv
    simp [traverseMaybeInitClosureData, hv]
  have hreset : isTravDataValid st.flip (st.trav c) = false →
      traverseMaybeInitClosureData st c =
        { st with trav := Function.update st.trav c (setTravDataToZero st.flip) } := by
    intro hv
    simp [traverseMaybeInitClosureData, hv]
  refine ⟨hdone st, ?_, ?_⟩
  · intro hv
    rw [hreset hv]
    refine ⟨?_, ?_, ?_, ?_, rfl, rfl, rfl, rfl, rfl⟩
    · simp [setTravDataToZero]
    · simp [setTravDataToZero, isTravDataValid]
    · simp [rsetOf, setTravDataToZero]
    · intro a ha
      simp [Function.update, ha]
  · cases hv : isTravDataValid st.flip (st.trav c)
    · rw [hreset hv]
      apply hdone
      simp [setTravDataToZero, isTravDataValid]
    · rw [hdone st hv, hdone st hv]

/-- Claim C35 (lazy reset).  `traverseMaybeInitClosureData` returns the state
unchanged when the marker of the closure agrees with `flip`; when the marker
disagrees, the closure gets no retainer set and a marker that agrees with
`flip`, while every other slot, `flip`, the stack and the counters stay as
they were; and applying the function twice gives the same state as applying
it once. -/
theorem lazy_reset (st : RtsState) (c : Addr) :
    (isTravDataValid st.flip (st.trav c) = true →
        traverseMaybeInitClosureData st c = st) ∧
      (isTravDataValid st.flip (st.trav c) = false →
        ((traverseMaybeInitClosureData st c).trav c).rs = none ∧
        isTravDataValid (traverseMaybeInitClosureData st c).flip
          ((traverseMaybeInitClosureData st c).trav c) = true ∧
        rsetOf (traverseMaybeInitClosureData st c) c = none ∧
        (∀ a, a ≠ c → (traverseMaybeInitClosureData st c).trav a = st.trav a) ∧
        (traverseMaybeInitClosureData st c).flip = st.flip ∧
        (traverseMaybeInitClosureData st c).ts = st.ts ∧
        (traverseMaybeInitClosureData st c).numObjectVisited = st.numObjectVisited ∧
        (traverseMaybeInitClosureData st c).timesAnyObjectVisited = st.timesAnyObjectVisited ∧
        (traverseMaybeInitClosureData st c).retainerGeneration = st.retainerGeneration) ∧
      traverseMaybeInitClosureData (traverseMaybeInitClosureData st c) c =
        traverseMaybeInitClosureData st c :=
  traverseMaybeInitClosureData_cases st c

theorem smallBitmapPtrs_eq_zeroBitWords (p : Nat → Addr) :
    ∀ (size i w : Nat), smallBitmapPtrs p i size w = zeroBitWords p i size w
  | 0, i, w => by simp [smallBitmapPtrs, zeroBitWords]
  | size + 1, i, w => by
    rw [smallBitmapPtrs, smallBitmapPtrs_eq_zeroBitWords p size (i + 1) (w >>> 1)]
    unfold zeroBitWords
    rw [List.range_succ_eq_map, List.filter_cons, List.filter_map]
    have h0 : (w &&& 1 = 0) ↔ w.testBit 0 = false := by
      rw [Nat.and_one_is_mod, Nat.testBit_zero]
      have := Nat.mod_two_eq_zero_or_one w
      rcases this with h | h <;> simp [h]
    have hs : ∀ k, (w >>> 1).testBit k = w.testBit (k + 1) := by
      intro k
      rw [Nat.testBit_succ, Nat.shiftRight_eq_div_pow]
    have hf : (fun k => !(w >>> 1).testBit k) = ((fun k => !(w.testBit k)) ∘ Nat.succ) := by
      funext k
      simp [hs]
    have hm : (fun k => p (i + 1 + k)) = ((fun k => p (i + k)) ∘ Nat.succ) := by
      funext k
      simp only [Function.comp, Nat.succ_eq_add_one]
      congr 1
      omega
    rw [hf, hm]
    by_cases hb : w &&& 1 = 0
    · have ht := h0.1 hb
      simp [hb, ht, List.map_map]
    · have ht : w.testBit 0 = true := by
        cases hc : w.testBit 0
        · exact absurd (h0.2 hc) hb
        · rfl
      have hbm : w % 2 = 1 := by
        rcases Nat.mod_two_eq_zero_or_one w with hz | hz
        · exact absurd (by rw [Nat.and_one_is_mod]; exact hz) hb
        · exact hz
      simp [hb, ht, hbm, List.map_map]

theorem largeBitmapPtrs_loop_small (p : Nat → Addr) (lb : StgLargeBitmap) :
    ∀ (n i b bitmap : Nat), i + n ≤ BITS_IN_W →
      largeBitmapPtrs_loop p lb n i b bitmap = smallBitmapPtrs p i n bitmap
  | 0, i, b, bitmap, _ => by simp [largeBitmapPtrs_loop, smallBitmapPtrs]
  | n + 1, i, b, bitmap, hle => by
    rw [largeBitmapPtrs_loop, smallBitmapPtrs]
    congr 1
    by_cases hw : (i + 1) % BITS_IN_W = 0
    · have hn : n = 0 := by
        unfold BITS_IN_W at hw hle
        omega
      subst hn
      simp [hw, largeBitmapPtrs_loop, smallBitmapPtrs]
    · rw [if_neg hw]
      exact largeBitmapPtrs_loop_small p lb n (i + 1) b (bitmap >>> 1) (by omega)

theorem bitmap_scans_agree (ts : traverseState) (p : Nat → Addr) (lb : StgLargeBitmap)
    (size : Nat) (c : Addr) (d : stackData) (hsize : size ≤ BITS_IN_W) :
    traverseLargeBitmap ts p lb size c d
        = (traverseSmallBitmap ts p 0 size (lb.bitmap 0) c d).1 ∧
      (∀ i w, traverseSmallBitmap ts p i size w c d
        = ({ ts with stack := ((zeroBitWords p i size w).map (freshElem c d)).reverse
              ++ ts.stack }, i + size)) := by
  constructor
  · rw [traverseLargeBitmap_eq, traverseSmallBitmap_eq]
    unfold largeBitmapPtrs
    rw [largeBitmapPtrs_loop_small p lb size 0 0 _ (by omega)]
  · intro i w
    rw [traverseSmallBitmap_eq, smallBitmapPtrs_eq_zeroBitWords]
    rfl

/-- Claim C40 (small and large bitmap scanning agree).  For every size that
does not exceed the word width, `traverseLargeBitmap` over a large bitmap
leaves the same stack as `traverseSmallBitmap` over the first word of that
bitmap; and `traverseSmallBitmap` over a word `w`, started at payload word
`i`, pushes one fresh element (parent `c`, the given data) for each of the
words `i .. i + size - 1` whose bit in `w` is 0, lowest address first, and
returns the position `i + size`. -/
theorem small_and_large_bitmap_agree (ts : traverseState) (p : Nat → Addr)
    (lb : StgLargeBitmap) (size : Nat) (c : Addr) (d : stackData)
    (hsize : size ≤ BITS_IN_W) :
    traverseLargeBitmap ts p lb size c d
        = (traverseSmallBitmap ts p 0 size (lb.bitmap 0) c d).1 ∧
      (∀ i w, traverseSmallBitmap ts p i size w c d
        = ({ ts with stack := ((zeroBitWords p i size w).map (freshElem c d)).reverse
              ++ ts.stack }, i + size)) :=
  bitmap_scans_agree ts p lb size c d hsize

/-- Witness for C40: a scan of all 64 bits of `sampleBitmap`. -/
theorem small_and_large_bitmap_agree_witness :
    (64 ≤ BITS_IN_W) ∧
      (traverseLargeBitmap { stack := [], currentStackBoundary := 0 } id sampleBitmap 64 7
          { c_child_r := 3 }
        = (traverseSmallBitmap { stack := [], currentStackBoundary := 0 } id 0 64
            (sampleBitmap.bitmap 0) 7 { c_child_r := 3 }).1 ∧
      (∀ i w, traverseSmallBitmap { stack := [], currentStackBoundary := 0 } id i 64 w 7
          { c_child_r := 3 }
        = ({ ({ stack := [], currentStackBoundary := 0 } : traverseState) with
              stack := ((zeroBitWords id i 64 w).map (freshElem 7 { c_child_r := 3 })).reverse
              ++ ({ stack := [], currentStackBoundary := 0 } : traverseState).stack },
            i + 64))) :=
  ⟨by decide, small_and_large_bitmap_agree { stack := [], currentStackBoundary := 0 } id
    sampleBitmap 64 7 { c_child_r := 3 } (by decide)⟩

theorem traversePushStack_parents_ap_stack (h : Heap) (c : Addr)
    (hty : (h.get c).type = AP_STACK) :
    traversePushStack_parents h c = [c] ∧ traversePushStack_assert h c = false ∧
      ∀ ts d, processChildren h ts c d =
        match traversePushStack h (traversePushClosure ts (h.get c).func c d) c d
            (h.get c).frames with
        | .error e => .error e
        | .ok ts1 => .ok (ts1, none) := by
  refine ⟨?_, ?_, ?_⟩
  · unfold traversePushStack_parents
    rw [hty]
  · unfold traversePushStack_assert
    rw [hty]
    rfl
  · intro ts d
    unfold processChildren
    simp only [hty]

theorem traversePushStack_parents_stack (h : Heap) (c : Addr)
    (hty : (h.get c).type = STACK) :
    traversePushStack_parents h c = [c] ∧ traversePushStack_assert h c = true := by
  constructor
  · unfold traversePushStack_parents
    rw [hty]
  · unfold traversePushStack_assert
    rw [hty]
    rfl

/-- Claim C37 fails.  On the heap `apStackHeap`, `retainRoot` on the
AP_STACK at address 0 comes, after one jump, to the label `inner_loop` with
that closure; the closure is visited, the visit returns data for the
children, and the case AP_STACK of `traverseWorkStack` calls
`traversePushStack` with the AP_STACK as the parent, for which the assertion
of `traversePushStack` (the parent has kind STACK) is false.  The same holds
for every AP_STACK whose children are processed, while the call of the case
STACK satisfies the assertion. -/
theorem ap_stack_fails_pushStack_assertion :
    (stepsResult apStackHeap 1 Label.loop
        (retainRoot_start (beginPass initState) 0 { c_child_r := 60 })).1
      = Label.inner_loop 0 0 { c_child_r := 60 } ∧
    preVisit apStackHeap 0 = PreVisit.visit ∧
    (retainVisitClosure apStackHeap
        (traverseMaybeInitClosureData (stepsResult apStackHeap 1 Label.loop
          (retainRoot_start (beginPass initState) 0 { c_child_r := 60 })).2 0)
        0 0 { c_child_r := 60 }).map Prod.snd = .ok (some { c_child_r := 60 }) ∧
    traversePushStack_parents apStackHeap 0 = [0] ∧
    traversePushStack_assert apStackHeap 0 = false ∧
    (∀ (h : Heap) (c : Addr), (h.get c).type = AP_STACK →
      traversePushStack_parents h c = [c] ∧ traversePushStack_assert h c = false ∧
      ∀ ts d, processChildren h ts c d =
        match traversePushStack h (traversePushClosure ts (h.get c).func c d) c d
            (h.get c).frames with
        | .error e => .error e
        | .ok ts1 => .ok (ts1, none)) ∧
    (∀ (h : Heap) (c : Addr), (h.get c).type = STACK →
      traversePushStack_parents h c = [c] ∧ traversePushStack_assert h c = true) :=
  ⟨by decide, by decide, by decide, by decide, by decide,
    traversePushStack_parents_ap_stack, traversePushStack_parents_stack⟩

theorem traverseLargeBitmap_loop_traced_fst (p : Nat → Addr) (lb : StgLargeBitmap) (c : Addr)
    (d : stackData) :
    ∀ (n i b bitmap : Nat) (reads : List Nat) (ts : traverseState),
      (traverseLargeBitmap_loop_traced ts p lb c d n i b bitmap reads).1
        = traverseLargeBitmap_loop ts p lb c d n i b bitmap
  | 0, i, b, bitmap, reads, ts => rfl
  | n + 1, i, b, bitmap, reads, ts => by
    rw [traverseLargeBitmap_loop_traced, traverseLargeBitmap_loop]
    by_cases hw : (i + 1) % BITS_IN_W = 0
    · simp only [hw, if_true]
      exact traverseLargeBitmap_loop_traced_fst p lb c d n _ _ _ _ _
    · simp only [hw, if_false]
      exact traverseLargeBitmap_loop_traced_fst p lb c d n _ _ _ _ _

theorem traverseLargeBitmap_loop_traced_snd (p : Nat → Addr) (lb : StgLargeBitmap) (c : Addr)
    (d : stackData) :
    ∀ (n i b bitmap : Nat) (reads : List Nat) (ts : traverseState),
      b = i / BITS_IN_W →
      (traverseLargeBitmap_loop_traced ts p lb c d n i b bitmap reads).2
        = reads ++ (List.range ((i + n) / BITS_IN_W - b)).map (fun k => b + 1 + k)
  | 0, i, b, bitmap, reads, ts, hb => by
    subst hb
    simp [traverseLargeBitmap_loop_traced]
  | n + 1, i, b, bitmap, reads, ts, hb => by
    rw [traverseLargeBitmap_loop_traced]
    have h64 : BITS_IN_W = 64 := rfl
    by_cases hw : (i + 1) % BITS_IN_W = 0
    · simp only [hw, if_true]
      have hb1 : b + 1 = (i + 1) / BITS_IN_W := by
        rw [h64] at hw hb ⊢
        omega
      rw [traverseLargeBitmap_loop_traced_snd p lb c d n (i + 1) (b + 1) _ _ _ hb1]
      have hle : b + 1 ≤ (i + 1 + n) / BITS_IN_W := by
        rw [hb1]
        exact Nat.div_le_div_right (by omega)
      have he : (i + (n + 1)) / BITS_IN_W - b = ((i + 1 + n) / BITS_IN_W - (b + 1)) + 1 := by
        have : i + (n + 1) = i + 1 + n := by omega
        rw [this]
        omega
      rw [he, List.range_succ_eq_map, List.map_cons, List.map_map, List.append_assoc]
      congr 1
      simp only [List.singleton_append, Nat.add_zero, List.cons.injEq, true_and]
      apply List.map_congr_left
      intro k _
      simp only [Function.comp, Nat.succ_eq_add_one]
      omega
    · simp only [hw, if_false]
      have hb1 : b = (i + 1) / BITS_IN_W := by
        rw [h64] at hw hb ⊢
        omega
      rw [traverseLargeBitmap_loop_traced_snd p lb c d n (i + 1) b _ _ _ hb1]
      have : i + (n + 1) = i + 1 + n := by omega
      rw [this]

theorem traverseLargeBitmap_traced_eq (ts : traverseState) (p : Nat → Addr)
    (lb : StgLargeBitmap) (size : Nat) (c : Addr) (d : stackData) :
    traverseLargeBitmap_traced ts p lb size c d
      = (traverseLargeBitmap ts p lb size c d, List.range (size / BITS_IN_W + 1)) := by
  apply Prod.ext
  · exact traverseLargeBitmap_loop_traced_fst p lb c d size 0 0 _ _ ts
  · show (traverseLargeBitmap_loop_traced ts p lb c d size 0 0 (lb.bitmap 0) [0]).2 = _
    rw [traverseLargeBitmap_loop_traced_snd p lb c d size 0 0 _ _ _ (by simp)]
    rw [List.range_succ_eq_map]
    simp only [Nat.zero_add, Nat.sub_zero, List.singleton_append, List.cons.injEq, true_and]
    apply List.map_congr_left
    intro k _
    simp only [Nat.succ_eq_add_one]
    omega

/-- Claim C38 fails.  `traverseLargeBitmap` reads the words
`0 .. size / BITS_IN_W` of the bitmap, whatever the bitmap holds: for a size
that is a multiple of the word width this includes the word of index
`size / BITS_IN_W`, which holds none of the bits `0 .. size - 1`.  For the
size 64 the words 0 and 1 are read, and only word 0 holds bits of the bitmap;
for the size 0 word 0 is read, and no word holds a bit of the bitmap. -/
theorem large_bitmap_read_past_end :
    (∀ (ts : traverseState) (p : Nat → Addr) (lb : StgLargeBitmap) (size : Nat) (c : Addr)
        (d : stackData),
        traverseLargeBitmap_traced ts p lb size c d
          = (traverseLargeBitmap ts p lb size c d, List.range (size / BITS_IN_W + 1))) ∧
      (traverseLargeBitmap_traced initializeTraverseStack id sampleBitmap 64 7
          { c_child_r := 3 }).2 = [0, 1] ∧
      bitmapWords 64 = 1 ∧
      (traverseLargeBitmap_traced initializeTraverseStack id sampleBitmap 0 7
          { c_child_r := 3 }).2 = [0] ∧
      bitmapWords 0 = 0 :=
  ⟨traverseLargeBitmap_traced_eq, by decide, by decide, by decide, by decide⟩

/-- The first jump of `retainRoot`: the seed of the root is popped, and the
stack and its boundary are as they were on entry. -/
theorem body_loop_root (h : Heap) (st : RtsState) (tl : Addr) (data : stackData) :
    traverseWorkStack_body h Label.loop (retainRoot_start st tl data)
      = Jump.goto (Label.inner_loop tl tl data)
          ((traverseMaybeInitClosureData st tl).withTs
            { stack := st.ts.stack, currentStackBoundary := st.ts.stack.length }) := by
  rw [body_loop_eq]
  unfold retainRoot_start traversePop RtsState.withTs
  dsimp only
  rw [traversePop_loop]
  rw [if_neg (by omega), if_pos (show (freshElem tl data tl).info = posTypeFresh from rfl)]
  rfl

theorem seedOf_cases (h : Heap) (tl : Addr) :
    (tl ≠ h.END_TSO_QUEUE → isRetainer h tl = .ok true →
        seedOf h tl = .ok { c_child_r := getRetainerFrom h tl }) ∧
      (tl = h.END_TSO_QUEUE ∨ isRetainer h tl = .ok false →
        seedOf h tl = .ok { c_child_r := h.CCS_SYSTEM }) ∧
      (tl ≠ h.END_TSO_QUEUE → ∀ e, isRetainer h tl = .error e → seedOf h tl = .error e) := by
  refine ⟨?_, ?_, ?_⟩
  · intro hne hr
    unfold seedOf
    rw [if_pos hne, hr]
  · intro hc
    unfold seedOf
    by_cases hne : tl ≠ h.END_TSO_QUEUE
    · rcases hc with hc | hc
      · exact absurd hc hne
      · rw [if_pos hne, hc]
    · rw [if_neg hne]
  · intro hne e hr
    unfold seedOf
    rw [if_pos hne, hr]

theorem root_first_visit (h : Heap) (st : RtsState) (tl : Addr) (r : retainer)
    (hr : isRetainer h tl = .ok false) (hn : rsetOf st tl = none) :
    ∃ st2, retainVisitClosure h
        (traverseMaybeInitClosureData ((traverseMaybeInitClosureData st tl).withTs
          { stack := st.ts.stack, currentStackBoundary := st.ts.stack.length }) tl)
        tl tl { c_child_r := r } = .ok (st2, some { c_child_r := r }) ∧
      rsetOf st2 tl = some (singleton r) := by
  have hv : validAt ((traverseMaybeInitClosureData st tl).withTs
      { stack := st.ts.stack, currentStackBoundary := st.ts.stack.length }) tl :=
    validAt_init_self st tl
  have hrs : rsetOf ((traverseMaybeInitClosureData st tl).withTs
      { stack := st.ts.stack, currentStackBoundary := st.ts.stack.length }) tl = none := by
    rw [rsetOf_withTs, rsetOf_init, hn]
  rw [retainVisitClosure_view h _ tl tl _ hv, hrs, hr]
  refine ⟨_, rfl, ?_⟩
  rw [rsetOf_afterItem]
  simp

/-- Claim C39 (seeding of a root).  `retainRoot` on the root `tl` aborts when
`isRetainer` aborts on a root other than the end-of-queue sentinel, and
otherwise runs `traverseWorkStack` on the stack of its entry with one more
element on top: the fresh element for `tl` with parent `tl` and with the seed
as data.  The seed is the retainer identity of `tl` when `tl` is a retainer
other than the sentinel, and `CCS_SYSTEM` when `tl` is the sentinel or is not
a retainer.  The first jump pops the seed and comes to `tl` with parent `tl`;
and when `tl` is not a retainer, has no retainer set yet and is visited, the
visit returns with the retainer set `{CCS_SYSTEM}` for `tl` and hands
`CCS_SYSTEM` down to the children. -/
theorem root_seeding (h : Heap) (fuel : Nat) (st : RtsState) (tl : Addr) :
    (retainRoot h fuel st tl =
      match seedOf h tl with
      | .error e => some (.error e)
      | .ok data => traverseWorkStack h fuel Label.loop (retainRoot_start st tl data)) ∧
    (∀ data, (retainRoot_start st tl data).ts.stack = freshElem tl data tl :: st.ts.stack ∧
      traverseWorkStack_body h Label.loop (retainRoot_start st tl data)
        = Jump.goto (Label.inner_loop tl tl data)
            ((traverseMaybeInitClosureData st tl).withTs
              { stack := st.ts.stack, currentStackBoundary := st.ts.stack.length })) ∧
    ((tl ≠ h.END_TSO_QUEUE → isRetainer h tl = .ok true →
        seedOf h tl = .ok { c_child_r := getRetainerFrom h tl }) ∧
      (tl = h.END_TSO_QUEUE ∨ isRetainer h tl = .ok false →
        seedOf h tl = .ok { c_child_r := h.CCS_SYSTEM }) ∧
      (tl ≠ h.END_TSO_QUEUE → ∀ e, isRetainer h tl = .error e → seedOf h tl = .error e)) ∧
    (isRetainer h tl = .ok false → rsetOf st tl = none →
      ∃ st2, retainVisitClosure h
          (traverseMaybeInitClosureData ((traverseMaybeInitClosureData st tl).withTs
            { stack := st.ts.stack, currentStackBoundary := st.ts.stack.length }) tl)
          tl tl { c_child_r := h.CCS_SYSTEM } = .ok (st2, some { c_child_r := h.CCS_SYSTEM }) ∧
        rsetOf st2 tl = some (singleton h.CCS_SYSTEM)) :=
  ⟨by
      rw [retainRoot_eq]
      cases seedOf h tl <;> rfl,
    fun data => ⟨rfl, body_loop_root h st tl data⟩, seedOf_cases h tl,
    root_first_visit h st tl h.CCS_SYSTEM⟩

theorem body_scoped (h : Heap) (lower : List stackElement) (l : Label) (st : RtsState)
    (l1 : Label) (st1 : RtsState) (hinv : Scoped h lower st)
    (hb : traverseWorkStack_body h l st = Jump.goto l1 st1) : Scoped h lower st1 := by
  obtain ⟨hbd, upper, hst, hok⟩ := hinv
  cases l with
  | loop =>
    rcases body_loop_spec h st upper lower hst hbd hok with ⟨_, hd⟩ | ⟨c, cp, d, upper1, _, hok1, hg⟩
    · rw [hd] at hb; cases hb
    · rw [hg] at hb
      cases hb
      exact ⟨hbd, upper1, rfl, hok1⟩
  | inner_loop c cp d =>
    have hspec := body_inner_spec h st c cp d upper lower hst hok
    cases hv : visitItem h st (c, cp, d) with
    | error e =>
      rw [hv] at hspec
      dsimp only at hspec
      rw [hspec] at hb; cases hb
    | ok p =>
      obtain ⟨s, items⟩ := p
      rw [hv] at hspec
      obtain ⟨l2, upper1, hg, hok1, _⟩ := hspec
      rw [hg] at hb
      cases hb
      exact ⟨hbd, upper1, rfl, hok1⟩

/-- Every state that a run of `traverseWorkStack` passes through is scoped
over the same lower stack. -/
theorem traverseWorkStack_steps_scoped (h : Heap) (lower : List stackElement) :
    ∀ (k : Nat) (l : Label) (st : RtsState) (l1 : Label) (st1 : RtsState),
      Scoped h lower st → traverseWorkStack_steps h k l st = some (l1, st1) →
      Scoped h lower st1
  | 0, l, st, l1, st1, hinv, hs => by
    simp only [traverseWorkStack_steps, Option.some.injEq, Prod.mk.injEq] at hs
    rw [← hs.2]; exact hinv
  | k + 1, l, st, l1, st1, hinv, hs => by
    rw [traverseWorkStack_steps] at hs
    cases hb : traverseWorkStack_body h l st with
    | done r => rw [hb] at hs; cases hs
    | goto l2 st2 =>
      rw [hb] at hs
      exact traverseWorkStack_steps_scoped h lower k l2 st2 l1 st1
        (body_scoped h lower l st l2 st2 hinv hb) hs

theorem retainRoot_start_scoped (h : Heap) (st : RtsState) (tl : Addr) (data : stackData) :
    Scoped h st.ts.stack (retainRoot_start st tl data) :=
  ⟨rfl, [freshElem tl data tl], rfl, AllOK_fresh h tl data [tl]⟩

/-- In a scoped state `traversePop` does not abort, and when the stack is not
at its boundary there is an element to pop. -/
theorem traversePop_scoped (h : Heap) (lower : List stackElement) (st : RtsState)
    (hinv : Scoped h lower st) :
    (∃ r, traversePop h st.ts = .ok r) ∧ (isOnBoundary st.ts = false → st.ts.stack ≠ []) := by
  obtain ⟨hbd, upper, hst, hok⟩ := hinv
  constructor
  · unfold traversePop
    rw [hst, hbd]
    rcases traversePop_loop_spec h lower upper hok with ⟨_, hl⟩ | ⟨item, upper1, _, _, hl⟩
    · rw [hl]; exact ⟨_, rfl⟩
    · rw [hl]; exact ⟨_, rfl⟩
  · intro hnb hnil
    unfold isOnBoundary at hnb
    rw [hst] at hnil
    have hu : upper = [] := (List.append_eq_nil.1 hnil).1
    rw [hst, hbd, hu] at hnb
    simp at hnb

theorem retainRoot_stack (h : Heap) (fuel : Nat) (st st1 : RtsState) (tl : Addr)
    (hr : retainRoot h fuel st tl = some (.ok st1)) :
    st1.ts = { stack := st.ts.stack, currentStackBoundary := st.ts.stack.length } := by
  rw [retainRoot_eq] at hr
  cases hs : seedOf h tl with
  | error e => rw [hs] at hr; simp at hr
  | ok data =>
    rw [hs] at hr
    exact traverseWorkStack_scoped h st.ts.stack fuel Label.loop _ [freshElem tl data tl] st1
      rfl rfl hr

theorem retainRoots_stack (h : Heap) (fuel : Nat) :
    ∀ (roots : List Addr) (st st1 : RtsState),
      retainRoots h fuel st roots = some (.ok st1) → st1.ts.stack = st.ts.stack
  | [], st, st1, hr => by
    simp only [retainRoots, Option.some.injEq, Except.ok.injEq] at hr
    rw [hr]
  | tl :: tls, st, st1, hr => by
    rw [retainRoots] at hr
    cases h1 : retainRoot h fuel st tl with
    | none => rw [h1] at hr; cases hr
    | some r =>
      cases r with
      | error e => rw [h1] at hr; cases hr
      | ok s =>
        rw [h1] at hr
        dsimp only at hr
        rw [retainRoots_stack h fuel tls s st1 hr, retainRoot_stack h fuel st s tl h1]

theorem retainRoot_ends (h : Heap) (st : RtsState) (tl : Addr)
    (hind : IndChainsEnd h) : ∃ fuel, retainRoot h fuel st tl ≠ none := by
  cases hs : seedOf h tl with
  | error e => exact ⟨0, by rw [retainRoot_eq, hs]; simp⟩
  | ok data =>
    obtain ⟨n, hn⟩ := runItems_terminates_all h hind
      ((traverseMaybeInitClosureData st tl).withTs
        { stack := freshElem tl data tl :: st.ts.stack,
          currentStackBoundary := st.ts.stack.length })
      [(tl, tl, data)]
    obtain ⟨fuel, hf⟩ := runItems_traverseWorkStack h st.ts.stack n Label.loop _
      [freshElem tl data tl] rfl rfl (AllOK_fresh h tl data [tl]) hn
    exact ⟨fuel, by rw [retainRoot_eq, hs]; exact hf⟩

/-- Claim C33 (the stack after a root), as amended.  Let `retainRoot` be
entered on the root `tl` with the work stack empty, as its assertion asks.
Whenever it returns, the work stack is empty again and its top is where it was on entry,
so that the assertion of the next call holds, also along a list of roots; it
does end, by returning or by a fatal error, when every chain of static
indirections of the heap comes to an end.  In every state that the traversal
passes through the boundary is the top on entry and the stack is the stack on
entry with a segment above it, `traversePop` does not abort there, and when
the stack is not at its boundary it holds an element, so that no element is
popped from an empty stack. -/
theorem stack_empty_after_root (h : Heap) (st : RtsState) (tl : Addr)
    (hempty : isEmptyWorkStack st.ts = true) :
    (∀ fuel st1, retainRoot h fuel st tl = some (.ok st1) →
      isEmptyWorkStack st1.ts = true ∧ st1.ts.stack = st.ts.stack ∧
      st1.ts.currentStackBoundary = st.ts.stack.length) ∧
    (∀ fuel roots st1, retainRoots h fuel st roots = some (.ok st1) →
      isEmptyWorkStack st1.ts = true) ∧
    (IndChainsEnd h → ∃ fuel, retainRoot h fuel st tl ≠ none) ∧
    (∀ data k l s, traverseWorkStack_steps h k Label.loop (retainRoot_start st tl data)
        = some (l, s) →
      s.ts.currentStackBoundary = st.ts.stack.length ∧
      (∃ upper, s.ts.stack = upper ++ st.ts.stack) ∧
      (∃ r, traversePop h s.ts = .ok r) ∧
      (isOnBoundary s.ts = false → s.ts.stack ≠ [])) := by
  refine ⟨?_, ?_, retainRoot_ends h st tl, ?_⟩
  · intro fuel st1 hr
    have hts := retainRoot_stack h fuel st st1 tl hr
    rw [hts]
    exact ⟨hempty, rfl, rfl⟩
  · intro fuel roots st1 hr
    unfold isEmptyWorkStack at hempty ⊢
    rw [retainRoots_stack h fuel roots st st1 hr]
    exact hempty
  · intro data k l s hs
    have hinv := traverseWorkStack_steps_scoped h st.ts.stack k Label.loop _ l s
      (retainRoot_start_scoped h st tl data) hs
    have hpop := traversePop_scoped h st.ts.stack s hinv
    obtain ⟨hbd, upper, hst, _⟩ := hinv
    exact ⟨hbd, ⟨upper, hst⟩, hpop.1, hpop.2⟩

/-- Witness for C33: the first pass on the heap with a thread. -/
theorem stack_empty_after_root_witness :
    isEmptyWorkStack (beginPass initState).ts = true ∧
    ((∀ fuel st1, retainRoot tsoHeap fuel (beginPass initState) 0 = some (.ok st1) →
      isEmptyWorkStack st1.ts = true ∧ st1.ts.stack = (beginPass initState).ts.stack ∧
      st1.ts.currentStackBoundary = (beginPass initState).ts.stack.length) ∧
    (∀ fuel roots st1, retainRoots tsoHeap fuel (beginPass initState) roots = some (.ok st1) →
      isEmptyWorkStack st1.ts = true) ∧
    (IndChainsEnd tsoHeap → ∃ fuel, retainRoot tsoHeap fuel (beginPass initState) 0 ≠ none) ∧
    (∀ data k l s, traverseWorkStack_steps tsoHeap k Label.loop
        (retainRoot_start (beginPass initState) 0 data) = some (l, s) →
      s.ts.currentStackBoundary = (beginPass initState).ts.stack.length ∧
      (∃ upper, s.ts.stack = upper ++ (beginPass initState).ts.stack) ∧
      (∃ r, traversePop tsoHeap s.ts = .ok r) ∧
      (isOnBoundary s.ts = false → s.ts.stack ≠ []))) :=
  ⟨rfl, stack_empty_after_root tsoHeap (beginPass initState) 0 rfl⟩
theorem FrameOK_explicit (h : Heap) (se : stackElement) (hok : FrameOK h se) :
    popCase (h.get se.c).type ≠ PopCase.invalid ∧
    (popCase (h.get se.c).type = PopCase.mvar ∨ popCase (h.get se.c).type = PopCase.weak ∨
      popCase (h.get se.c).type = PopCase.trec → ∃ step, se.info = posTypeStep step) ∧
    (popCase (h.get se.c).type = PopCase.ptrs →
      ∃ pos ptrs payload, se.info = posTypePtrs pos ptrs payload) ∧
    (popCase (h.get se.c).type = PopCase.ptrsSrt →
      (∃ pos ptrs payload, se.info = posTypePtrs pos ptrs payload) ∨
        ∃ srt, se.info = posTypeSRT srt) ∧
    (popCase (h.get se.c).type = PopCase.srt → ∃ srt, se.info = posTypeSRT srt) ∧
    ∃ r, traversePop_switch h se = .ok r := by
  have hspec := traversePop_switch_spec h se hok
  have hsw : ∃ r, traversePop_switch h se = .ok r := by
    rcases hspec with ⟨_, hd⟩ | ⟨c, last, info, rest, _, ho, _⟩
    · exact ⟨_, hd⟩
    · exact ⟨_, ho⟩
  rcases se with ⟨info, c, cp, data⟩
  unfold FrameOK at hok
  dsimp only at hok ⊢
  generalize popCase (h.get c).type = pc at hok ⊢
  cases pc <;> cases info <;> simp at hok ⊢ <;> exact hsw

theorem steps_frames_ok (h : Heap) (st : RtsState) (tl : Addr) (data : stackData)
    (k : Nat) (l : Label) (s : RtsState)
    (hempty : isEmptyWorkStack st.ts = true)
    (hs : traverseWorkStack_steps h k Label.loop (retainRoot_start st tl data) = some (l, s)) :
    (∀ se ∈ s.ts.stack, se.info ≠ posTypeFresh → FrameOK h se) ∧
      ∃ r, traversePop h s.ts = .ok r := by
  have hnil : st.ts.stack = [] := by
    unfold isEmptyWorkStack at hempty
    exact List.isEmpty_iff.1 hempty
  have hinv := traverseWorkStack_steps_scoped h st.ts.stack k Label.loop _ l s
    (retainRoot_start_scoped h st tl data) hs
  refine ⟨?_, (traversePop_scoped h st.ts.stack s hinv).1⟩
  obtain ⟨_, upper, hst, hok⟩ := hinv
  rw [hnil, List.append_nil] at hst
  intro se hm hf
  rw [hst] at hm
  rcases hok se hm with h1 | h1
  · exact absurd h1 hf
  · exact h1

/-- Claim C36 (frame well-formedness).  Let `retainRoot` be entered on the
root `tl` with the work stack empty.  In every state that the traversal passes
through, every element of the work stack that is not fresh belongs to a
closure of a kind that the switch of `traversePop` has a case for, and it
carries the position type of that case: a step counter for MVAR, WEAK and
TREC_CHUNK, a pointer cursor for the kinds with pointers only, a pointer
cursor or an SRT position for FUN, FUN_STATIC, FUN_2_0, THUNK and THUNK_2_0,
and an SRT position for the kinds with an SRT only; the switch of
`traversePop` returns on it, and `traversePop` returns on the stack, without
a fatal error. -/
theorem frames_well_formed (h : Heap) (st : RtsState) (tl : Addr) (data : stackData)
    (k : Nat) (l : Label) (s : RtsState)
    (hempty : isEmptyWorkStack st.ts = true)
    (hs : traverseWorkStack_steps h k Label.loop (retainRoot_start st tl data) = some (l, s)) :
    (∀ se ∈ s.ts.stack, se.info ≠ posTypeFresh →
      popCase (h.get se.c).type ≠ PopCase.invalid ∧
      (popCase (h.get se.c).type = PopCase.mvar ∨ popCase (h.get se.c).type = PopCase.weak ∨
        popCase (h.get se.c).type = PopCase.trec → ∃ step, se.info = posTypeStep step) ∧
      (popCase (h.get se.c).type = PopCase.ptrs →
        ∃ pos ptrs payload, se.info = posTypePtrs pos ptrs payload) ∧
      (popCase (h.get se.c).type = PopCase.ptrsSrt →
        (∃ pos ptrs payload, se.info = posTypePtrs pos ptrs payload) ∨
          ∃ srt, se.info = posTypeSRT srt) ∧
      (popCase (h.get se.c).type = PopCase.srt → ∃ srt, se.info = posTypeSRT srt) ∧
      ∃ r, traversePop_switch h se = .ok r) ∧
    ∃ r, traversePop h s.ts = .ok r :=
  ⟨fun se hm hf =>
      FrameOK_explicit h se ((steps_frames_ok h st tl data k l s hempty hs).1 se hm hf),
    (steps_frames_ok h st tl data k l s hempty hs).2⟩
/-- Witness for C36: the state after three jumps of the traversal from the
root 1 of `sharedHeap`, with the cursor of the constructor at address 3 on
the stack. -/
theorem frames_well_formed_witness :
    isEmptyWorkStack (beginPass initState).ts = true ∧
    traverseWorkStack_steps sharedHeap 3 Label.loop
        (retainRoot_start (beginPass initState) 1 { c_child_r := 11 })
      = some (Label.inner_loop 2 3 { c_child_r := 11 },
          (stepsResult sharedHeap 3 Label.loop
            (retainRoot_start (beginPass initState) 1 { c_child_r := 11 })).2) ∧
    ((∀ se ∈ (stepsResult sharedHeap 3 Label.loop
          (retainRoot_start (beginPass initState) 1 { c_child_r := 11 })).2.ts.stack,
        se.info ≠ posTypeFresh →
      popCase (sharedHeap.get se.c).type ≠ PopCase.invalid ∧
      (popCase (sharedHeap.get se.c).type = PopCase.mvar ∨
        popCase (sharedHeap.get se.c).type = PopCase.weak ∨
        popCase (sharedHeap.get se.c).type = PopCase.trec → ∃ step, se.info = posTypeStep step) ∧
      (popCase (sharedHeap.get se.c).type = PopCase.ptrs →
        ∃ pos ptrs payload, se.info = posTypePtrs pos ptrs payload) ∧
      (popCase (sharedHeap.get se.c).type = PopCase.ptrsSrt →
        (∃ pos ptrs payload, se.info = posTypePtrs pos ptrs payload) ∨
          ∃ srt, se.info = posTypeSRT srt) ∧
      (popCase (sharedHeap.get se.c).type = PopCase.srt → ∃ srt, se.info = posTypeSRT srt) ∧
      ∃ r, traversePop_switch sharedHeap se = .ok r) ∧
    ∃ r, traversePop sharedHeap (stepsResult sharedHeap 3 Label.loop
          (retainRoot_start (beginPass initState) 1 { c_child_r := 11 })).2.ts = .ok r) :=
  ⟨rfl, rfl,
    frames_well_formed sharedHeap (beginPass initState) 1 { c_child_r := 11 } 3 _ _ rfl rfl⟩

/-- In a state that stands for a list, the current chunk is empty only when
the whole stack is, and the field `free` of the current chunk is
`stackLimit`. -/
theorem Chunked.limit_rep (L : Layout) (hE : 0 < L.sizeofW_stackElement)
    (ts : Chunked.traverseState) (l : List stackElement) (hr : Chunked.Represents L ts l) :
    (ts.stackTop = ts.stackLimit ↔ l = []) ∧
      (ts.descr ts.currentStack).free = ts.stackLimit := by
  obtain ⟨cur, full, before, after, hr⟩ := hr
  refine ⟨?_, hr.free⟩
  rw [hr.top, hr.limit, Chunked.slot_inj L hE]
  constructor
  · rintro ⟨-, hc⟩
    have hc2 : cur = [] := List.length_eq_zero.1 hc
    subst hc2
    rcases hr.nonempty with hb | hb
    · subst hb
      cases hr.fulls
      rw [hr.list_eq]; rfl
    · exact absurd rfl hb
  · intro hl
    have he := hr.list_eq
    rw [hl] at he
    have hc : cur = [] := (List.append_eq_nil.1 he.symm).1
    rw [hc]
    exact ⟨rfl, rfl⟩

theorem Chunked.run_limit (L : Layout) (hE : 0 < L.sizeofW_stackElement)
    (hB : L.sizeofW_stackElement ≤ L.BLOCK_SIZE_W)
    (ts0 : Chunked.traverseState) (ops : List StackOp) (l : List stackElement)
    (hl : listRun ops [] = some l) :
    ∃ ts, Chunked.run L ops (Chunked.initializeTraverseStack L ts0) = .ok ts ∧
      (Chunked.isEmptyWorkStack ts = true ↔ l = []) ∧
      (ts.stackTop = ts.stackLimit ↔ l = []) ∧
      (ts.descr ts.currentStack).free = ts.stackLimit := by
  obtain ⟨ts, h1, h2⟩ := Chunked.run_init L hE hB ts0 ops l hl
  exact ⟨ts, h1, Chunked.isEmpty_rep L hE ts l h2, Chunked.limit_rep L hE ts l h2⟩

/-- Claim C34 (the empty stack and the limit).  For a block that has room for
a stack element, in the state reached from `initializeTraverseStack` by a
sequence of pushes and pops in which no pop is applied to the empty stack,
`isEmptyWorkStack` returns true if and only if no element is on the stack,
`stackTop` equals `stackLimit` if and only if no element is on the stack, and
the field `free` of the current chunk equals `stackLimit`.  As this holds for
every sequence, it holds after every operation of a sequence. -/
theorem empty_test_and_limit (L : Layout) (hE : 0 < L.sizeofW_stackElement)
    (hB : L.sizeofW_stackElement ≤ L.BLOCK_SIZE_W)
    (ts0 : Chunked.traverseState) (ops : List StackOp) (l : List stackElement)
    (hl : listRun ops [] = some l) :
    ∃ ts, Chunked.run L ops (Chunked.initializeTraverseStack L ts0) = .ok ts ∧
      (Chunked.isEmptyWorkStack ts = true ↔ l = []) ∧
      (ts.stackTop = ts.stackLimit ↔ l = []) ∧
      (ts.descr ts.currentStack).free = ts.stackLimit :=
  Chunked.run_limit L hE hB ts0 ops l hl

/-- Witness for C34: a short sequence on the 64-bit layout. -/
theorem empty_test_and_limit_witness :
    (0 < layout64.sizeofW_stackElement ∧
      layout64.sizeofW_stackElement ≤ layout64.BLOCK_SIZE_W ∧
      listRun shortOps [] = some []) ∧
    ∃ ts, Chunked.run layout64 shortOps
        (Chunked.initializeTraverseStack layout64 Chunked.blankState) = .ok ts ∧
      (Chunked.isEmptyWorkStack ts = true ↔ ([] : List stackElement) = []) ∧
      (ts.stackTop = ts.stackLimit ↔ ([] : List stackElement) = []) ∧
      (ts.descr ts.currentStack).free = ts.stackLimit :=
  ⟨⟨by decide, by decide, by decide⟩,
    empty_test_and_limit layout64 (by decide) (by decide) Chunked.blankState
      shortOps [] (by decide)⟩

/-- Successive pops above a boundary yield the pending items of the segment
above the boundary, one by one, and leave the stack at the boundary. -/
theorem traversePop_all_spec (h : Heap) (lower : List stackElement) :
    ∀ (fuel : Nat) (upper : List stackElement), AllOK h upper →
      (pendingOf h upper).length < fuel →
      traversePop_all h fuel { stack := upper ++ lower, currentStackBoundary := lower.length }
        = some (.ok (pendingOf h upper,
            { stack := lower, currentStackBoundary := lower.length }))
  | 0, _, _, hlt => absurd hlt (Nat.not_lt_zero _)
  | fuel + 1, upper, hok, hlt => by
    rw [traversePop_all]
    unfold traversePop
    dsimp only
    rcases traversePop_loop_spec h lower upper hok with ⟨hp, hl⟩ | ⟨item, upper1, hp, hok1, hl⟩
    · rw [hl, hp]
    · rw [hl]
      dsimp only
      rw [hp] at hlt ⊢
      rw [traversePop_all_spec h lower fuel upper1 hok1
        (by simp only [List.length_cons] at hlt; omega)]

theorem range_map_trecField (o : StgClosure) :
    ∀ n, n ≤ 2 ^ 32 → (List.range' 0 (4 * n)).map (trecField o) =
      ((List.range n).map fun i =>
        [(o.entries i).tvar, (o.entries i).expected_value, (o.entries i).new_value,
          (o.entries i).new_value]).flatten
  | 0, _ => rfl
  | n + 1, hn => by
    have hn1 : n < 4294967296 := by
      have : n + 1 ≤ 4294967296 := by norm_num at hn; exact hn
      omega
    have hr : List.range' 0 (4 * (n + 1)) =
        List.range' 0 (4 * n) ++ [4 * n, 4 * n + 1, 4 * n + 2, 4 * n + 3] := by
      rw [show 4 * (n + 1) = 4 + 4 * n by omega, ← List.range'_append_1]
      simp [List.range']
    rw [hr, List.map_append, range_map_trecField o n (Nat.le_of_succ_le hn), List.range_succ,
      List.map_append, List.flatten_append]
    congr 1
    have hm : n % 2 ^ 32 = n := Nat.mod_eq_of_lt (by norm_num; exact hn1)
    have e0 : ((4 * n) >>> 2) % 2 ^ 32 = n := by
      rw [shiftRight_two, show 4 * n / 4 = n by omega, hm]
    have e1 : ((4 * n + 1) >>> 2) % 2 ^ 32 = n := by
      rw [shiftRight_two, show (4 * n + 1) / 4 = n by omega, hm]
    have e2 : ((4 * n + 2) >>> 2) % 2 ^ 32 = n := by
      rw [shiftRight_two, show (4 * n + 2) / 4 = n by omega, hm]
    have e3 : ((4 * n + 3) >>> 2) % 2 ^ 32 = n := by
      rw [shiftRight_two, show (4 * n + 3) / 4 = n by omega, hm]
    have a0 : ((4 * n) &&& 3) % 2 ^ 32 = 0 := by
      rw [and_three, mod_four_mod]; omega
    have a1 : ((4 * n + 1) &&& 3) % 2 ^ 32 = 1 := by
      rw [and_three, mod_four_mod]; omega
    have a2 : ((4 * n + 2) &&& 3) % 2 ^ 32 = 2 := by
      rw [and_three, mod_four_mod]; omega
    have a3 : ((4 * n + 3) &&& 3) % 2 ^ 32 = 3 := by
      rw [and_three, mod_four_mod]; omega
    simp only [List.map_cons, List.map_nil, trecField, e0, e1, e2, e3, a0, a1, a2, a3,
      List.flatten_cons, List.flatten_nil, List.append_nil]
    simp

theorem pushChildrenList_layout (h : Heap) (c : Addr)
    (hp : (h.get c).ptrs < 2 ^ 32)
    (hv : pushCase (h.get c).type ≠ PushCase.invalid)
    (ht : pushCase (h.get c).type ≠ PushCase.trec) :
    pushChildrenList h c = .ok (layoutChildren h c) := by
  unfold pushChildrenList layoutChildren ptrsFrom
  dsimp only
  rw [Nat.mod_eq_of_lt hp, Nat.sub_zero, ← List.range_eq_range']
  generalize pushCase (h.get c).type = pc at hv ht
  cases pc <;> simp at hv ht ⊢

theorem pushChildrenList_trec (h : Heap) (c : Addr)
    (ht : pushCase (h.get c).type = PushCase.trec) :
    pushChildrenList h c = .ok (trecEnumeration (h.get c)) := by
  unfold pushChildrenList trecEnumeration
  dsimp only
  rw [ht]
  dsimp only
  rw [range_map_trecField _ _ (Nat.le_of_lt (h.get c).next_entry_idx_lt)]

/-- The first child and the items of the successive pops, for a closure whose
children `traversePushChildren` enumerates as `l`. -/
theorem push_then_pop_all (h : Heap) (ts : traverseState) (c : Addr) (d : stackData)
    (l : List Addr) (hn : (h.get c).type ≠ CONSTR_NOCAF)
    (hb : ts.currentStackBoundary = ts.stack.length)
    (hl : pushChildrenList h c = .ok l) :
    ∃ ts1 fc items, traversePushChildren h ts c d = .ok (ts1, fc) ∧
      traversePop_all h (l.length + 1) ts1 = some (.ok (items, ts)) ∧
      itemsFor c d fc.toList ++ items = itemsFor c d l := by
  have hspec := traversePushChildren_spec h ts c d hn
  rw [hl] at hspec
  obtain ⟨new, fc, hpush, hok, hitems⟩ := hspec
  refine ⟨_, fc, pendingOf h new, hpush, ?_, hitems⟩
  have hlen : (pendingOf h new).length < l.length + 1 := by
    have := congrArg List.length hitems
    simp only [List.length_append, itemsFor, List.length_map] at this
    omega
  have := traversePop_all_spec h ts.stack (l.length + 1) new hok hlen
  rw [← hb] at this
  exact this
/-- Claim C32 (exact child enumeration), as stated, fails.  For the
transaction-record chunk of `trecHeap`, `traversePushChildren` returns the
previous chunk 9 and the successive calls of `traversePop` yield 10, 11, 12,
12, 13, 14, 15, 15: the `new_value` of each entry comes twice, while the
chunk has the children 9, 10, 11, 12, 13, 14, 15.  For the CONSTR_NOCAF of
`nocafHeap`, a kind that `traversePushChildren` handles, the first child is
returned and a cursor is pushed, and the next call of `traversePop` aborts,
as its switch has no case for the kind. -/
theorem enumeration_differs_from_layout :
    traversePushChildren trecHeap initializeTraverseStack 0 { c_child_r := 1 }
      = .ok ({ stack := [{ info := posTypeStep 0, c := 0, cp := 0, data := { c_child_r := 1 } }],
               currentStackBoundary := 0 }, some 9) ∧
    traversePop_all trecHeap 9
        { stack := [{ info := posTypeStep 0, c := 0, cp := 0, data := { c_child_r := 1 } }],
          currentStackBoundary := 0 }
      = some (.ok ([(10, 0, { c_child_r := 1 }), (11, 0, { c_child_r := 1 }),
          (12, 0, { c_child_r := 1 }), (12, 0, { c_child_r := 1 }),
          (13, 0, { c_child_r := 1 }), (14, 0, { c_child_r := 1 }),
          (15, 0, { c_child_r := 1 }), (15, 0, { c_child_r := 1 })],
          initializeTraverseStack)) ∧
    layoutChildren trecHeap 0 = [9, 10, 11, 12, 13, 14, 15] ∧
    pushCase (nocafHeap.get 0).type = PushCase.ptrs ∧
    traversePushChildren nocafHeap initializeTraverseStack 0 { c_child_r := 1 }
      = .ok ({ stack := [{ info := posTypePtrs 1 1 0, c := 0, cp := 0,
                           data := { c_child_r := 1 } }],
               currentStackBoundary := 0 }, some 1) ∧
    traversePop_all nocafHeap 2
        { stack := [{ info := posTypePtrs 1 1 0, c := 0, cp := 0, data := { c_child_r := 1 } }],
          currentStackBoundary := 0 }
      = some (.error (Fatal.pop CONSTR_NOCAF)) :=
  ⟨by decide, by decide, by decide, by decide, by decide, by decide⟩

theorem flatten_map_sublist (f g : Nat → List Addr) (hfg : ∀ i, (f i).Sublist (g i)) :
    ∀ L : List Nat, ((L.map f).flatten).Sublist ((L.map g).flatten)
  | [] => List.Sublist.refl _
  | i :: L => by
    simp only [List.map_cons, List.flatten_cons]
    exact List.Sublist.append (hfg i) (flatten_map_sublist f g hfg L)

theorem flatten_map_mem (f g : Nat → List Addr) (hgf : ∀ i x, x ∈ g i → x ∈ f i)
    (L : List Nat) (x : Addr) (hx : x ∈ (L.map g).flatten) : x ∈ (L.map f).flatten := by
  rw [List.mem_flatten] at hx ⊢
  obtain ⟨l, hl, hxl⟩ := hx
  obtain ⟨i, hi, rfl⟩ := List.mem_map.1 hl
  exact ⟨f i, List.mem_map.2 ⟨i, hi, rfl⟩, hgf i x hxl⟩

/-- What the code enumerates for a transaction-record chunk holds the
children of the chunk in layout order, and nothing but them. -/
theorem trecEnumeration_layout (h : Heap) (c : Addr)
    (ht : pushCase (h.get c).type = PushCase.trec) :
    (layoutChildren h c).Sublist (trecEnumeration (h.get c)) ∧
      ∀ x ∈ trecEnumeration (h.get c), x ∈ layoutChildren h c := by
  have hl : layoutChildren h c = (h.get c).prev_chunk ::
      ((List.range (h.get c).next_entry_idx).map fun i =>
        [((h.get c).entries i).tvar, ((h.get c).entries i).expected_value,
          ((h.get c).entries i).new_value]).flatten := by
    unfold layoutChildren
    simp only [ht, List.append_nil]
  rw [hl]
  unfold trecEnumeration
  constructor
  · apply List.Sublist.cons₂
    apply flatten_map_sublist
    intro i
    apply List.Sublist.cons₂
    apply List.Sublist.cons₂
    apply List.Sublist.cons₂
    exact List.nil_sublist _
  · intro x hx
    rcases List.mem_cons.1 hx with hx | hx
    · rw [hx]; exact List.mem_cons_self _ _
    · apply List.mem_cons_of_mem
      refine flatten_map_mem _ _ ?_ _ x hx
      intro i y hy
      simp only [List.mem_cons, List.mem_singleton, List.not_mem_nil, or_false] at hy ⊢
      rcases hy with hy | hy | hy | hy
      · exact Or.inl hy
      · exact Or.inr (Or.inl hy)
      · exact Or.inr (Or.inr hy)
      · exact Or.inr (Or.inr hy)

/-- Claim C32 (exact child enumeration), as amended.  Let `c` be of a kind
that `traversePushChildren` has a case for, other than CONSTR_NOCAF, and let
the boundary be at the top of the stack.  Then `traversePushChildren` returns,
and the successive calls of `traversePop` yield children of `c`, each with the
parent `c` and the data given, until a call finds the boundary, with the
stack as it was before the push.  When `c` is not a transaction-record chunk
and its pointer count is below `2 ^ 32`, the first child followed by the
children yielded is the list of the children of `c` in layout order (fixed
fields, pointer-array entries, SRT), each once.  When `c` is a
transaction-record chunk, that sequence holds the children of `c` in layout
order, as a subsequence, and nothing but children of `c`, but not each of
them once. -/
theorem children_enumerated_in_layout_order (h : Heap) (ts : traverseState) (c : Addr)
    (d : stackData) (hb : ts.currentStackBoundary = ts.stack.length)
    (hv : pushCase (h.get c).type ≠ PushCase.invalid)
    (hn : (h.get c).type ≠ CONSTR_NOCAF) :
    (pushCase (h.get c).type ≠ PushCase.trec → (h.get c).ptrs < 2 ^ 32 →
      ∃ ts1 fc items, traversePushChildren h ts c d = .ok (ts1, fc) ∧
        traversePop_all h ((layoutChildren h c).length + 1) ts1 = some (.ok (items, ts)) ∧
        itemsFor c d fc.toList ++ items = itemsFor c d (layoutChildren h c)) ∧
    (pushCase (h.get c).type = PushCase.trec →
      ∃ ts1 fc items l, traversePushChildren h ts c d = .ok (ts1, fc) ∧
        traversePop_all h (l.length + 1) ts1 = some (.ok (items, ts)) ∧
        itemsFor c d fc.toList ++ items = itemsFor c d l ∧
        (layoutChildren h c).Sublist l ∧ ∀ x ∈ l, x ∈ layoutChildren h c) :=
  ⟨fun ht hp => push_then_pop_all h ts c d _ hn hb (pushChildrenList_layout h c hp hv ht),
    fun ht => by
      obtain ⟨ts1, fc, items, h1, h2, h3⟩ :=
        push_then_pop_all h ts c d _ hn hb (pushChildrenList_trec h c ht)
      exact ⟨ts1, fc, items, _, h1, h2, h3, trecEnumeration_layout h c ht⟩⟩

/-- Witness for C32: the constructor with two fields of `sharedHeap` and the
transaction-record chunk of `trecHeap`, on the empty stack. -/
theorem children_enumerated_in_layout_order_witness :
    ((initializeTraverseStack.currentStackBoundary = initializeTraverseStack.stack.length ∧
      pushCase (sharedHeap.get 3).type ≠ PushCase.invalid ∧
      (sharedHeap.get 3).type ≠ CONSTR_NOCAF ∧
      pushCase (sharedHeap.get 3).type ≠ PushCase.trec ∧ (sharedHeap.get 3).ptrs < 2 ^ 32) ∧
    layoutChildren sharedHeap 3 = [2, 4] ∧
    ∃ ts1 fc items, traversePushChildren sharedHeap initializeTraverseStack 3
        { c_child_r := 11 } = .ok (ts1, fc) ∧
      traversePop_all sharedHeap ((layoutChildren sharedHeap 3).length + 1) ts1
        = some (.ok (items, initializeTraverseStack)) ∧
      itemsFor 3 { c_child_r := 11 } fc.toList ++ items
        = itemsFor 3 { c_child_r := 11 } (layoutChildren sharedHeap 3)) ∧
    ((initializeTraverseStack.currentStackBoundary = initializeTraverseStack.stack.length ∧
      pushCase (trecHeap.get 0).type ≠ PushCase.invalid ∧
      (trecHeap.get 0).type ≠ CONSTR_NOCAF ∧
      pushCase (trecHeap.get 0).type = PushCase.trec) ∧
    layoutChildren trecHeap 0 = [9, 10, 11, 12, 13, 14, 15] ∧
    ∃ ts1 fc items l, traversePushChildren trecHeap initializeTraverseStack 0
        { c_child_r := 1 } = .ok (ts1, fc) ∧
      traversePop_all trecHeap (l.length + 1) ts1
        = some (.ok (items, initializeTraverseStack)) ∧
      itemsFor 0 { c_child_r := 1 } fc.toList ++ items = itemsFor 0 { c_child_r := 1 } l ∧
      (layoutChildren trecHeap 0).Sublist l ∧ ∀ x ∈ l, x ∈ layoutChildren trecHeap 0) :=
  ⟨⟨⟨rfl, by decide, by decide, by decide, by decide⟩, by decide,
    (children_enumerated_in_layout_order sharedHeap initializeTraverseStack 3
      { c_child_r := 11 } rfl (by decide) (by decide)).1 (by decide) (by decide)⟩,
    ⟨⟨rfl, by decide, by decide, by decide⟩, by decide,
    (children_enumerated_in_layout_order trecHeap initializeTraverseStack 0
      { c_child_r := 1 } rfl (by decide) (by decide)).2 (by decide)⟩⟩

/-- Claim C31 (visit-loop invariant) fails.  On the heap `dropHeap`, in the
traversal from the root A at address 0 (identity 10), the constructor X at 1
is first visited with the retainer 10 and gets the set {10}; its second child
Z, at 5, stays on the stack with the retainer 10.  After nine jumps X is
reached again from the constructor W, at 3, with the retainer 12, while X has
the set {10} and W the set {11, 12}: the visit gives X the set of W, and 10 is
no longer in the set of X.  After sixteen jumps the cursor of X is popped and
the visit callback is about to be called on Z, which is not the root, with the
parent X, which is not a retainer, and the retainer 10, which is not a member
of the set {11, 12} of X.  On the heap `indHeap`, with the static indirection
at 1 as the root, the callback is called on the closure 2 with the
indirection as the parent, which is not a retainer and has no set at all. -/
theorem visit_invariant_fails_on_dropHeap :
    ((stepsResult dropHeap 9 Label.loop
        (retainRoot_start (beginPass initState) 0 { c_child_r := 10 })).1
      = Label.inner_loop 1 3 { c_child_r := 12 } ∧
    rsetOf (stepsResult dropHeap 9 Label.loop
        (retainRoot_start (beginPass initState) 0 { c_child_r := 10 })).2 1
      = some (RetainerSet.ofList [10]) ∧
    rsetOf (stepsResult dropHeap 9 Label.loop
        (retainRoot_start (beginPass initState) 0 { c_child_r := 10 })).2 3
      = some (RetainerSet.ofList [11, 12])) ∧
    ((traverseWorkStack_steps dropHeap 16 Label.loop
        (retainRoot_start (beginPass initState) 0 { c_child_r := 10 })).isSome = true ∧
    (stepsResult dropHeap 16 Label.loop
        (retainRoot_start (beginPass initState) 0 { c_child_r := 10 })).1
      = Label.inner_loop 5 1 { c_child_r := 10 } ∧
    preVisit dropHeap 5 = PreVisit.visit ∧
    isRetainer dropHeap 1 = .ok false ∧
    rsetOf (stepsResult dropHeap 16 Label.loop
        (retainRoot_start (beginPass initState) 0 { c_child_r := 10 })).2 1
      = some (RetainerSet.ofList [11, 12]) ∧
    isMember 10 (RetainerSet.ofList [11, 12]) = false) ∧
    (seedOf indHeap 1 = .ok { c_child_r := 1 } ∧
    (traverseWorkStack_steps indHeap 2 Label.loop
        (retainRoot_start (beginPass initState) 1 { c_child_r := 1 })).isSome = true ∧
    (stepsResult indHeap 2 Label.loop
        (retainRoot_start (beginPass initState) 1 { c_child_r := 1 })).1
      = Label.inner_loop 2 1 { c_child_r := 1 } ∧
    preVisit indHeap 2 = PreVisit.visit ∧
    isRetainer indHeap 1 = .ok false ∧
    rsetOf (stepsResult indHeap 2 Label.loop
        (retainRoot_start (beginPass initState) 1 { c_child_r := 1 })).2 1 = none) :=
  ⟨⟨by decide, by decide, by decide⟩,
    ⟨by decide, by decide, by decide, by decide, by decide, by decide⟩,
    ⟨by decide, by decide, by decide, by decide, by decide, by decide⟩⟩

theorem runItems_fuel_succ (h : Heap) :
    ∀ (n : Nat) (st : RtsState) (items : List Item) (r : Except Fatal RtsState),
      runItems h n st items = some r → runItems h (n + 1) st items = some r
  | 0, _, _, _, hr => by simp [runItems] at hr
  | _ + 1, _, [], _, hr => by
    simp only [runItems] at hr ⊢
    exact hr
  | n + 1, st, it :: rest, r, hr => by
    rw [runItems] at hr ⊢
    cases hv : visitItem h st it with
    | error e => rw [hv] at hr; exact hr
    | ok p =>
      obtain ⟨s, new⟩ := p
      rw [hv] at hr
      exact runItems_fuel_succ h n s (new ++ rest) r hr

theorem runItems_fuel_add (h : Heap) (n : Nat) (st : RtsState) (items : List Item)
    (r : Except Fatal RtsState) (hr : runItems h n st items = some r) :
    ∀ k, runItems h (n + k) st items = some r
  | 0 => hr
  | k + 1 => runItems_fuel_succ h (n + k) st items r (runItems_fuel_add h n st items r hr k)

/-- The result of the work list does not depend on the fuel, once the fuel
suffices. -/
theorem runItems_fuel_unique (h : Heap) (n m : Nat) (st : RtsState) (items : List Item)
    (r1 r2 : Except Fatal RtsState) (h1 : runItems h n st items = some r1)
    (h2 : runItems h m st items = some r2) : r1 = r2 := by
  have e1 := runItems_fuel_add h n st items r1 h1 m
  have e2 := runItems_fuel_add h m st items r2 h2 n
  rw [Nat.add_comm] at e2
  rw [e1] at e2
  simp only [Option.some.injEq] at e2
  exact e2

theorem traverseWorkStack_fuel_succ (h : Heap) :
    ∀ (fuel : Nat) (l : Label) (st : RtsState) (r : Except Fatal RtsState),
      traverseWorkStack h fuel l st = some r → traverseWorkStack h (fuel + 1) l st = some r
  | 0, _, _, _, hr => by simp [traverseWorkStack] at hr
  | fuel + 1, l, st, r, hr => by
    rw [traverseWorkStack_succ] at hr ⊢
    cases hb : traverseWorkStack_body h l st with
    | done x => rw [hb] at hr; exact hr
    | goto l1 st1 =>
      rw [hb] at hr
      exact traverseWorkStack_fuel_succ h fuel l1 st1 r hr

theorem retainRoot_fuel_add (h : Heap) (fuel : Nat) (st : RtsState) (tl : Addr)
    (r : Except Fatal RtsState) (hr : retainRoot h fuel st tl = some r) :
    ∀ k, retainRoot h (fuel + k) st tl = some r
  | 0 => hr
  | k + 1 => by
    have ih := retainRoot_fuel_add h fuel st tl r hr k
    rw [retainRoot_eq] at ih ⊢
    cases hs : seedOf h tl with
    | error e => rw [hs] at ih; exact ih
    | ok data =>
      rw [hs] at ih
      exact traverseWorkStack_fuel_succ h (fuel + k) _ _ r ih

/-- When the work list of a root runs to its end, `retainRoot` returns, with
the retainer sets and the valid markers of the state the work list ends
with, and with the stack of its entry. -/
theorem retainRoot_of_runItems (h : Heap) (st : RtsState) (tl : Addr) (data : stackData)
    (n : Nat) (s : RtsState) (hseed : seedOf h tl = .ok data)
    (hrun : runItems h n (traverseMaybeInitClosureData st tl) [(tl, tl, data)] = some (.ok s)) :
    ∃ fuel st1, retainRoot h fuel st tl = some (.ok st1) ∧
      (∀ a, rsetOf st1 a = rsetOf s a) ∧ (∀ a, validAt st1 a ↔ validAt s a) ∧
      st1.flip = s.flip ∧
      st1.ts = { stack := st.ts.stack, currentStackBoundary := st.ts.stack.length } := by
  have hne : runItems h n ((traverseMaybeInitClosureData st tl).withTs
      { stack := freshElem tl data tl :: st.ts.stack,
        currentStackBoundary := st.ts.stack.length })
      (labelItems Label.loop ++ pendingOf h [freshElem tl data tl]) ≠ none := by
    have hpend : labelItems Label.loop ++ pendingOf h [freshElem tl data tl]
        = [(tl, tl, data)] := rfl
    rw [hpend, runItems_withTs, hrun]
    simp [resWithTs]
  obtain ⟨fuel, hf⟩ := runItems_traverseWorkStack h st.ts.stack n Label.loop _
    [freshElem tl data tl] rfl rfl (AllOK_fresh h tl data [tl]) hne
  cases hres : traverseWorkStack h fuel Label.loop ((traverseMaybeInitClosureData st tl).withTs
      { stack := freshElem tl data tl :: st.ts.stack,
        currentStackBoundary := st.ts.stack.length }) with
  | none => exact absurd hres hf
  | some r =>
    obtain ⟨⟨m, hm⟩, hts⟩ := traverseWorkStack_runItems h st.ts.stack fuel Label.loop _
      [freshElem tl data tl] r rfl rfl (AllOK_fresh h tl data [tl]) hres
    have hpend : labelItems Label.loop ++ pendingOf h [freshElem tl data tl]
        = [(tl, tl, data)] := rfl
    rw [hpend, runItems_withTs] at hm
    cases hrun2 : runItems h m (traverseMaybeInitClosureData st tl) [(tl, tl, data)] with
    | none =>
      rw [hrun2] at hm
      cases r <;> simp [resWithTs] at hm
    | some r2 =>
      have hu := runItems_fuel_unique h n m _ _ _ _ hrun hrun2
      subst hu
      rw [hrun2] at hm
      cases r with
      | error e => simp [resWithTs] at hm
      | ok st1 =>
        simp only [resWithTs, Option.some.injEq, Except.ok.injEq] at hm
        refine ⟨fuel, st1, ?_, ?_, ?_, ?_, ?_⟩
        · rw [retainRoot_eq, hseed]
          exact hres
        · intro a
          exact (congrArg (fun x => rsetOf x a) hm).symm
        · intro a
          have := congrArg (fun x => validAt x a) hm
          exact Iff.of_eq this.symm
        · exact (congrArg (fun x => x.flip) hm).symm
        · exact hts st1 rfl

/-- A visit in terms of the retainer sets of the closure and of its parent. -/
theorem visitItem_visit (h : Heap) (st : RtsState) (c cp : Addr) (d : stackData)
    (bcp bc : Bool) (l : List Addr)
    (hp : preVisit h c = PreVisit.visit) (hv : validAt st cp)
    (hcp : isRetainer h cp = .ok bcp) (hc : isRetainer h c = .ok bc)
    (hl : childrenOf h c = .ok l) :
    visitItem h st (c, cp, d) =
      match visitSet (rsetOf st c) (if bcp then none else rsetOf st cp) d.c_child_r with
      | none => .ok (afterItem st c (some none), [])
      | some S1 => .ok (afterItem st c (some (some S1)),
          match visitChild (rsetOf st c) bc (getRetainerFrom h c) d.c_child_r with
          | none => []
          | some cd => itemsFor c cd l) := by
  rw [visitItem_eq h st (c, cp, d) hv]
  unfold visitOutcome visitPure
  simp only [hp, hcp, hc, hl]
  cases bcp <;> simp only [Bool.false_eq_true, if_false, if_true] <;>
    cases visitSet (rsetOf st c) _ d.c_child_r <;> simp only <;>
    cases visitChild (rsetOf st c) bc (getRetainerFrom h c) d.c_child_r <;> rfl
theorem rsetOf_setAt (st : RtsState) (c : Addr) (S : RetainerSet) (a : Addr) :
    rsetOf (setAt st c S) a = if a = c then some S else rsetOf st a :=
  rsetOf_afterItem st c (some (some S)) a

theorem rsetOf_setAt_self (st : RtsState) (c : Addr) (S : RetainerSet) :
    rsetOf (setAt st c S) c = some S := by
  rw [rsetOf_setAt, if_pos rfl]

theorem rsetOf_setAt_ne (st : RtsState) (c : Addr) (S : RetainerSet) (a : Addr) (hne : a ≠ c) :
    rsetOf (setAt st c S) a = rsetOf st a := by
  rw [rsetOf_setAt, if_neg hne]

theorem validAt_setAt (st : RtsState) (c : Addr) (S : RetainerSet) (a : Addr)
    (hv : validAt st a) : validAt (setAt st c S) a :=
  validAt_afterItem st c _ a hv

theorem validAt_setAt_self (st : RtsState) (c : Addr) (S : RetainerSet) :
    validAt (setAt st c S) c :=
  validAt_afterItem_self st c (some S)

theorem runItems_cons (h : Heap) (n : Nat) (st st1 : RtsState) (it : Item)
    (rest new : List Item) (hv : visitItem h st it = .ok (st1, new)) :
    runItems h (n + 1) st (it :: rest) = runItems h n st1 (new ++ rest) := by
  rw [runItems, hv]

/-- The first visit of a closure whose parent is a retainer, or is the
closure itself seeded as a root that is a retainer. -/
theorem first_visit_from_retainer (h : Heap) (st : RtsState) (c cp : Addr) (d : stackData)
    (bc : Bool) (l : List Addr)
    (hp : preVisit h c = PreVisit.visit) (hv : validAt st cp)
    (hcp : isRetainer h cp = .ok true) (hc : isRetainer h c = .ok bc)
    (hl : childrenOf h c = .ok l) (hrc : rsetOf st c = none) :
    visitItem h st (c, cp, d) =
      .ok (setAt st c (singleton d.c_child_r),
        itemsFor c { c_child_r := if bc then getRetainerFrom h c else d.c_child_r } l) := by
  rw [visitItem_visit h st c cp d true bc l hp hv hcp hc hl, hrc]
  rfl

/-- The first visit of a closure whose parent is not a retainer and has a
retainer set. -/
theorem first_visit_from_nonretainer (h : Heap) (st : RtsState) (c cp : Addr) (d : stackData)
    (bc : Bool) (l : List Addr) (S : RetainerSet)
    (hp : preVisit h c = PreVisit.visit) (hv : validAt st cp)
    (hcp : isRetainer h cp = .ok false) (hc : isRetainer h c = .ok bc)
    (hl : childrenOf h c = .ok l) (hrc : rsetOf st c = none) (hs : rsetOf st cp = some S) :
    visitItem h st (c, cp, d) =
      .ok (setAt st c S,
        itemsFor c { c_child_r := if bc then getRetainerFrom h c else d.c_child_r } l) := by
  rw [visitItem_visit h st c cp d false bc l hp hv hcp hc hl, hrc, hs]
  rfl

/-- A later visit of a closure that is not a retainer, from a parent that is
a retainer, with a retainer that is not in the set of the closure yet. -/
theorem later_visit_from_retainer (h : Heap) (st : RtsState) (c cp : Addr) (d : stackData)
    (l : List Addr) (S : RetainerSet)
    (hp : preVisit h c = PreVisit.visit) (hv : validAt st cp)
    (hcp : isRetainer h cp = .ok true) (hc : isRetainer h c = .ok false)
    (hl : childrenOf h c = .ok l) (hrc : rsetOf st c = some S)
    (hm : isMember d.c_child_r S = false) :
    visitItem h st (c, cp, d) =
      .ok (setAt st c (addElement d.c_child_r S), itemsFor c d l) := by
  rw [visitItem_visit h st c cp d true false l hp hv hcp hc hl, hrc]
  simp only [visitSet, hm, visitChild, if_true, Bool.false_eq_true, if_false]
  rfl
theorem ne_of_isRetainer (h : Heap) (x y : Addr) (hx : isRetainer h x = .ok true)
    (hy : isRetainer h y = .ok false) : x ≠ y := by
  intro e
  rw [e, hy] at hx
  cases hx

theorem ne_of_childrenOf (h : Heap) (x y : Addr) (l1 l2 : List Addr)
    (hx : childrenOf h x = .ok l1) (hy : childrenOf h y = .ok l2) (hne : l1 ≠ l2) : x ≠ y := by
  intro e
  rw [e, hy] at hx
  cases hx
  exact hne rfl

/-- The scenario of the chain, on any heap: the work list of the root R runs
to its end and leaves the retainer sets of the scenario. -/
theorem chain_scenario_run (h : Heap) (st : RtsState) (R A B C D : Addr) (below : Option Addr)
    (hR : isRetainer h R = .ok true) (hRend : R ≠ h.END_TSO_QUEUE)
    (hRv : preVisit h R = PreVisit.visit) (hRc : childrenOf h R = .ok [A])
    (hA : isRetainer h A = .ok false) (hAv : preVisit h A = PreVisit.visit)
    (hAc : childrenOf h A = .ok [B])
    (hB : isRetainer h B = .ok false) (hBv : preVisit h B = PreVisit.visit)
    (hBc : childrenOf h B = .ok [C, D])
    (hC : isRetainer h C = .ok true) (hCv : preVisit h C = PreVisit.visit)
    (hCc : childrenOf h C = .ok below.toList)
    (hD : isRetainer h D = .ok false) (hDv : preVisit h D = PreVisit.visit)
    (hDc : childrenOf h D = .ok [])
    (hE : ∀ E ∈ below, preVisit h E = PreVisit.visit ∧ (∃ b, isRetainer h E = .ok b) ∧
      childrenOf h E = .ok [] ∧ rsetOf st E = none ∧ E ∉ [R, A, B, C, D])
    (hfR : rsetOf st R = none) (hfA : rsetOf st A = none) (hfB : rsetOf st B = none)
    (hfC : rsetOf st C = none) (hfD : rsetOf st D = none) :
    ∃ fuel st1, retainRoot h fuel st R = some (.ok st1) ∧
      rsetOf st1 R = some (singleton (getRetainerFrom h R)) ∧
      rsetOf st1 A = some (singleton (getRetainerFrom h R)) ∧
      rsetOf st1 B = some (singleton (getRetainerFrom h R)) ∧
      rsetOf st1 C = some (singleton (getRetainerFrom h R)) ∧
      rsetOf st1 D = some (singleton (getRetainerFrom h R)) ∧
      ∀ E ∈ below, rsetOf st1 E = some (singleton (getRetainerFrom h C)) := by
  -- the closures of the scenario are different
  have nAR : A ≠ R := (ne_of_isRetainer h R A hR hA).symm
  have nBR : B ≠ R := (ne_of_isRetainer h R B hR hB).symm
  have nDR : D ≠ R := (ne_of_isRetainer h R D hR hD).symm
  have nBA : B ≠ A := ne_of_childrenOf h B A _ _ hBc hAc (by simp)
  have nCA : C ≠ A := ne_of_isRetainer h C A hC hA
  have nCB : C ≠ B := ne_of_isRetainer h C B hC hB
  have nDA : D ≠ A := ne_of_childrenOf h D A _ _ hDc hAc (by simp)
  have nDB : D ≠ B := ne_of_childrenOf h D B _ _ hDc hBc (by simp)
  have nDC : D ≠ C := (ne_of_isRetainer h C D hC hD).symm
  have nCR : C ≠ R := by
    intro e
    rw [e, hRc] at hCc
    cases below with
    | none => cases hCc
    | some E =>
      simp only [Option.toList_some, Except.ok.injEq, List.cons.injEq, and_true] at hCc
      have := (hE E rfl).2.2.2.2
      rw [← hCc] at this
      simp at this
  have hseed : seedOf h R = .ok { c_child_r := getRetainerFrom h R } :=
    (seedOf_cases h R).1 hRend hR
  -- the states of the run
  have e0R : rsetOf (traverseMaybeInitClosureData st R) R = none := by rw [rsetOf_init, hfR]
  have v1 := first_visit_from_retainer h (traverseMaybeInitClosureData st R) R R
    { c_child_r := getRetainerFrom h R } true [A] hRv (validAt_init_self st R) hR hR hRc e0R
  have e1A : rsetOf (setAt (traverseMaybeInitClosureData st R) R
      (singleton (getRetainerFrom h R))) A = none := by
    rw [rsetOf_setAt_ne _ _ _ _ nAR, rsetOf_init, hfA]
  have v2 := first_visit_from_retainer h _ A R { c_child_r := getRetainerFrom h R } false [B]
    hAv (validAt_setAt_self _ R _) hR hA hAc e1A
  have e2B : rsetOf (setAt (setAt (traverseMaybeInitClosureData st R) R
      (singleton (getRetainerFrom h R))) A (singleton (getRetainerFrom h R))) B = none := by
    rw [rsetOf_setAt_ne _ _ _ _ nBA, rsetOf_setAt_ne _ _ _ _ nBR, rsetOf_init, hfB]
  have v3 := first_visit_from_nonretainer h _ B A { c_child_r := getRetainerFrom h R } false
    [C, D] (singleton (getRetainerFrom h R)) hBv (validAt_setAt_self _ A _) hA hB hBc e2B
    (rsetOf_setAt_self _ A _)
  have e3C : rsetOf (setAt (setAt (setAt (traverseMaybeInitClosureData st R) R
      (singleton (getRetainerFrom h R))) A (singleton (getRetainerFrom h R))) B
      (singleton (getRetainerFrom h R))) C = none := by
    rw [rsetOf_setAt_ne _ _ _ _ nCB, rsetOf_setAt_ne _ _ _ _ nCA, rsetOf_setAt_ne _ _ _ _ nCR,
      rsetOf_init, hfC]
  have v4 := first_visit_from_nonretainer h _ C B { c_child_r := getRetainerFrom h R } true
    below.toList (singleton (getRetainerFrom h R)) hCv (validAt_setAt_self _ B _) hB hC hCc e3C
    (rsetOf_setAt_self _ B _)
  simp only [if_true, Bool.false_eq_true, if_false] at v1 v2 v3 v4
  cases below with
  | none =>
    have e4D : rsetOf (setAt (setAt (setAt (setAt (traverseMaybeInitClosureData st R) R
        (singleton (getRetainerFrom h R))) A (singleton (getRetainerFrom h R))) B
        (singleton (getRetainerFrom h R))) C (singleton (getRetainerFrom h R))) D = none := by
      rw [rsetOf_setAt_ne _ _ _ _ nDC, rsetOf_setAt_ne _ _ _ _ nDB,
        rsetOf_setAt_ne _ _ _ _ nDA, rsetOf_setAt_ne _ _ _ _ nDR, rsetOf_init, hfD]
    have v5 := first_visit_from_nonretainer h _ D B { c_child_r := getRetainerFrom h R } false
      [] (singleton (getRetainerFrom h R)) hDv
      (validAt_setAt _ C _ B (validAt_setAt_self _ B _)) hB hD hDc e4D
      (by rw [rsetOf_setAt_ne _ _ _ _ nCB.symm, rsetOf_setAt_self])
    have hrun : ∃ s, runItems h 6 (traverseMaybeInitClosureData st R)
        [(R, R, { c_child_r := getRetainerFrom h R })] = some (.ok s) ∧
        s = setAt (setAt (setAt (setAt (setAt (traverseMaybeInitClosureData st R) R
          (singleton (getRetainerFrom h R))) A (singleton (getRetainerFrom h R))) B
          (singleton (getRetainerFrom h R))) C (singleton (getRetainerFrom h R))) D
          (singleton (getRetainerFrom h R)) := by
      refine ⟨_, ?_, rfl⟩
      rw [runItems_cons h 5 _ _ _ _ _ v1]
      simp only [itemsFor, List.map_cons, List.map_nil, List.cons_append, List.nil_append]
      rw [runItems_cons h 4 _ _ _ _ _ v2]
      simp only [itemsFor, List.map_cons, List.map_nil, List.cons_append, List.nil_append]
      rw [runItems_cons h 3 _ _ _ _ _ v3]
      simp only [itemsFor, List.map_cons, List.map_nil, List.cons_append, List.nil_append]
      rw [runItems_cons h 2 _ _ _ _ _ v4]
      simp only [itemsFor, Option.toList_none, List.map_nil, List.nil_append]
      rw [runItems_cons h 1 _ _ _ _ _ v5]
      rfl
    obtain ⟨s, hrun, hs⟩ := hrun
    obtain ⟨fuel, st1, hret, hsets, -, -, -⟩ :=
      retainRoot_of_runItems h st R _ 6 _ hseed hrun
    subst hs
    refine ⟨fuel, st1, hret, ?_, ?_, ?_, ?_, ?_, ?_⟩
    · rw [hsets, rsetOf_setAt_ne _ _ _ _ nDR.symm, rsetOf_setAt_ne _ _ _ _ nCR.symm,
        rsetOf_setAt_ne _ _ _ _ nBR.symm, rsetOf_setAt_ne _ _ _ _ nAR.symm, rsetOf_setAt_self]
    · rw [hsets, rsetOf_setAt_ne _ _ _ _ nDA.symm, rsetOf_setAt_ne _ _ _ _ nCA.symm,
        rsetOf_setAt_ne _ _ _ _ nBA.symm, rsetOf_setAt_self]
    · rw [hsets, rsetOf_setAt_ne _ _ _ _ nDB.symm, rsetOf_setAt_ne _ _ _ _ nCB.symm,
        rsetOf_setAt_self]
    · rw [hsets, rsetOf_setAt_ne _ _ _ _ nDC.symm, rsetOf_setAt_self]
    · rw [hsets, rsetOf_setAt_self]
    · intro E hmem
      cases hmem
  | some E =>
    obtain ⟨hEv, ⟨bE, hEr⟩, hEc, hfE, hEn⟩ := hE E rfl
    have nER : E ≠ R := fun e => hEn (by rw [e]; simp)
    have nEA : E ≠ A := fun e => hEn (by rw [e]; simp)
    have nEB : E ≠ B := fun e => hEn (by rw [e]; simp)
    have nEC : E ≠ C := fun e => hEn (by rw [e]; simp)
    have nED : E ≠ D := fun e => hEn (by rw [e]; simp)
    have e4E : rsetOf (setAt (setAt (setAt (setAt (traverseMaybeInitClosureData st R) R
        (singleton (getRetainerFrom h R))) A (singleton (getRetainerFrom h R))) B
        (singleton (getRetainerFrom h R))) C (singleton (getRetainerFrom h R))) E = none := by
      rw [rsetOf_setAt_ne _ _ _ _ nEC, rsetOf_setAt_ne _ _ _ _ nEB,
        rsetOf_setAt_ne _ _ _ _ nEA, rsetOf_setAt_ne _ _ _ _ nER, rsetOf_init, hfE]
    have v5 := first_visit_from_retainer h _ E C { c_child_r := getRetainerFrom h C } bE []
      hEv (validAt_setAt_self _ C _) hC hEr hEc e4E
    have e5D : rsetOf (setAt (setAt (setAt (setAt (setAt (traverseMaybeInitClosureData st R) R
        (singleton (getRetainerFrom h R))) A (singleton (getRetainerFrom h R))) B
        (singleton (getRetainerFrom h R))) C (singleton (getRetainerFrom h R))) E
        (singleton (getRetainerFrom h C))) D = none := by
      rw [rsetOf_setAt_ne _ _ _ _ nED.symm, rsetOf_setAt_ne _ _ _ _ nDC,
        rsetOf_setAt_ne _ _ _ _ nDB, rsetOf_setAt_ne _ _ _ _ nDA,
        rsetOf_setAt_ne _ _ _ _ nDR, rsetOf_init, hfD]
    have v6 := first_visit_from_nonretainer h _ D B { c_child_r := getRetainerFrom h R } false
      [] (singleton (getRetainerFrom h R)) hDv
      (validAt_setAt _ E _ B (validAt_setAt _ C _ B (validAt_setAt_self _ B _))) hB hD hDc e5D
      (by rw [rsetOf_setAt_ne _ _ _ _ nEB.symm, rsetOf_setAt_ne _ _ _ _ nCB.symm,
        rsetOf_setAt_self])
    have hrun : ∃ s, runItems h 7 (traverseMaybeInitClosureData st R)
        [(R, R, { c_child_r := getRetainerFrom h R })] = some (.ok s) ∧
        s = setAt (setAt (setAt (setAt (setAt (setAt (traverseMaybeInitClosureData st R) R
          (singleton (getRetainerFrom h R))) A (singleton (getRetainerFrom h R))) B
          (singleton (getRetainerFrom h R))) C (singleton (getRetainerFrom h R))) E
          (singleton (getRetainerFrom h C))) D (singleton (getRetainerFrom h R)) := by
      refine ⟨_, ?_, rfl⟩
      rw [runItems_cons h 6 _ _ _ _ _ v1]
      simp only [itemsFor, List.map_cons, List.map_nil, List.cons_append, List.nil_append]
      rw [runItems_cons h 5 _ _ _ _ _ v2]
      simp only [itemsFor, List.map_cons, List.map_nil, List.cons_append, List.nil_append]
      rw [runItems_cons h 4 _ _ _ _ _ v3]
      simp only [itemsFor, List.map_cons, List.map_nil, List.cons_append, List.nil_append]
      rw [runItems_cons h 3 _ _ _ _ _ v4]
      simp only [itemsFor, Option.toList_some, List.map_cons, List.map_nil, List.cons_append,
        List.nil_append]
      rw [runItems_cons h 2 _ _ _ _ _ v5]
      simp only [itemsFor, List.map_nil, List.nil_append]
      rw [runItems_cons h 1 _ _ _ _ _ v6]
      rfl
    obtain ⟨s, hrun, hs⟩ := hrun
    obtain ⟨fuel, st1, hret, hsets, -, -, -⟩ :=
      retainRoot_of_runItems h st R _ 7 _ hseed hrun
    subst hs
    refine ⟨fuel, st1, hret, ?_, ?_, ?_, ?_, ?_, ?_⟩
    · rw [hsets, rsetOf_setAt_ne _ _ _ _ nDR.symm, rsetOf_setAt_ne _ _ _ _ nER.symm,
        rsetOf_setAt_ne _ _ _ _ nCR.symm,
        rsetOf_setAt_ne _ _ _ _ nBR.symm, rsetOf_setAt_ne _ _ _ _ nAR.symm, rsetOf_setAt_self]
    · rw [hsets, rsetOf_setAt_ne _ _ _ _ nDA.symm, rsetOf_setAt_ne _ _ _ _ nEA.symm,
        rsetOf_setAt_ne _ _ _ _ nCA.symm,
        rsetOf_setAt_ne _ _ _ _ nBA.symm, rsetOf_setAt_self]
    · rw [hsets, rsetOf_setAt_ne _ _ _ _ nDB.symm, rsetOf_setAt_ne _ _ _ _ nEB.symm,
        rsetOf_setAt_ne _ _ _ _ nCB.symm, rsetOf_setAt_self]
    · rw [hsets, rsetOf_setAt_ne _ _ _ _ nDC.symm, rsetOf_setAt_ne _ _ _ _ nEC.symm,
        rsetOf_setAt_self]
    · rw [hsets, rsetOf_setAt_self]
    · intro E1 hmem
      cases hmem
      rw [hsets, rsetOf_setAt_ne _ _ _ _ nED, rsetOf_setAt_self]
/-- The scenario of the shared child, on any heap: seeding R1 and then R2
returns and leaves X with the identities of both. -/
theorem shared_child_run (h : Heap) (st : RtsState) (R1 R2 X : Addr)
    (h1 : isRetainer h R1 = .ok true) (h1end : R1 ≠ h.END_TSO_QUEUE)
    (h1v : preVisit h R1 = PreVisit.visit) (h1c : childrenOf h R1 = .ok [X])
    (h2 : isRetainer h R2 = .ok true) (h2end : R2 ≠ h.END_TSO_QUEUE)
    (h2v : preVisit h R2 = PreVisit.visit) (h2c : childrenOf h R2 = .ok [X])
    (hX : isRetainer h X = .ok false) (hXv : preVisit h X = PreVisit.visit)
    (hXc : childrenOf h X = .ok [])
    (hne : R1 ≠ R2) (hid : getRetainerFrom h R1 ≠ getRetainerFrom h R2)
    (hf1 : rsetOf st R1 = none) (hf2 : rsetOf st R2 = none) (hfX : rsetOf st X = none) :
    ∃ fuel st2 S, retainRoots h fuel st [R1, R2] = some (.ok st2) ∧
      rsetOf st2 X = some S ∧
      ∀ e, e ∈ S.element ↔ e = getRetainerFrom h R1 ∨ e = getRetainerFrom h R2 := by
  have nX1 : X ≠ R1 := (ne_of_isRetainer h R1 X h1 hX).symm
  have nX2 : X ≠ R2 := (ne_of_isRetainer h R2 X h2 hX).symm
  have hseed1 : seedOf h R1 = .ok { c_child_r := getRetainerFrom h R1 } :=
    (seedOf_cases h R1).1 h1end h1
  have hseed2 : seedOf h R2 = .ok { c_child_r := getRetainerFrom h R2 } :=
    (seedOf_cases h R2).1 h2end h2
  -- the first root
  have a1 := first_visit_from_retainer h (traverseMaybeInitClosureData st R1) R1 R1
    { c_child_r := getRetainerFrom h R1 } true [X] h1v (validAt_init_self st R1) h1 h1 h1c
    (by rw [rsetOf_init, hf1])
  have e1X : rsetOf (setAt (traverseMaybeInitClosureData st R1) R1
      (singleton (getRetainerFrom h R1))) X = none := by
    rw [rsetOf_setAt_ne _ _ _ _ nX1, rsetOf_init, hfX]
  have a2 := first_visit_from_retainer h _ X R1 { c_child_r := getRetainerFrom h R1 } false []
    hXv (validAt_setAt_self _ R1 _) h1 hX hXc e1X
  simp only [if_true, Bool.false_eq_true, if_false] at a1 a2
  have hrun1 : ∃ s, runItems h 3 (traverseMaybeInitClosureData st R1)
      [(R1, R1, { c_child_r := getRetainerFrom h R1 })] = some (.ok s) ∧
      s = setAt (setAt (traverseMaybeInitClosureData st R1) R1
        (singleton (getRetainerFrom h R1))) X (singleton (getRetainerFrom h R1)) := by
    refine ⟨_, ?_, rfl⟩
    rw [runItems_cons h 2 _ _ _ _ _ a1]
    simp only [itemsFor, List.map_cons, List.map_nil, List.cons_append, List.nil_append]
    rw [runItems_cons h 1 _ _ _ _ _ a2]
    rfl
  obtain ⟨s, hrun1, hs⟩ := hrun1
  obtain ⟨fuel1, st1, hret1, hsets1, -, -, -⟩ :=
    retainRoot_of_runItems h st R1 _ 3 _ hseed1 hrun1
  subst hs
  have g2 : rsetOf st1 R2 = none := by
    rw [hsets1, rsetOf_setAt_ne _ _ _ _ nX2.symm, rsetOf_setAt_ne _ _ _ _ hne.symm,
      rsetOf_init, hf2]
  have gX : rsetOf st1 X = some (singleton (getRetainerFrom h R1)) := by
    rw [hsets1, rsetOf_setAt_self]
  -- the second root
  have b1 := first_visit_from_retainer h (traverseMaybeInitClosureData st1 R2) R2 R2
    { c_child_r := getRetainerFrom h R2 } true [X] h2v (validAt_init_self st1 R2) h2 h2 h2c
    (by rw [rsetOf_init, g2])
  have hmem : isMember (getRetainerFrom h R2) (singleton (getRetainerFrom h R1)) = false := by
    unfold isMember singleton
    simp only [List.mem_singleton, decide_eq_false_iff_not]
    exact fun e => hid e.symm
  have e2X : rsetOf (setAt (traverseMaybeInitClosureData st1 R2) R2
      (singleton (getRetainerFrom h R2))) X = some (singleton (getRetainerFrom h R1)) := by
    rw [rsetOf_setAt_ne _ _ _ _ nX2, rsetOf_init, gX]
  have b2 := later_visit_from_retainer h _ X R2 { c_child_r := getRetainerFrom h R2 } []
    (singleton (getRetainerFrom h R1)) hXv (validAt_setAt_self _ R2 _) h2 hX hXc e2X hmem
  simp only [if_true] at b1
  have hrun2 : ∃ s, runItems h 3 (traverseMaybeInitClosureData st1 R2)
      [(R2, R2, { c_child_r := getRetainerFrom h R2 })] = some (.ok s) ∧
      s = setAt (setAt (traverseMaybeInitClosureData st1 R2) R2
        (singleton (getRetainerFrom h R2))) X
        (addElement (getRetainerFrom h R2) (singleton (getRetainerFrom h R1))) := by
    refine ⟨_, ?_, rfl⟩
    rw [runItems_cons h 2 _ _ _ _ _ b1]
    simp only [itemsFor, List.map_cons, List.map_nil, List.cons_append, List.nil_append]
    rw [runItems_cons h 1 _ _ _ _ _ b2]
    rfl
  obtain ⟨s, hrun2, hs⟩ := hrun2
  obtain ⟨fuel2, st2, hret2, hsets2, -, -, -⟩ :=
    retainRoot_of_runItems h st1 R2 _ 3 _ hseed2 hrun2
  subst hs
  refine ⟨fuel1 + fuel2, st2,
    addElement (getRetainerFrom h R2) (singleton (getRetainerFrom h R1)), ?_, ?_, ?_⟩
  · have e1 := retainRoot_fuel_add h fuel1 st R1 _ hret1 fuel2
    have e2 := retainRoot_fuel_add h fuel2 st1 R2 _ hret2 fuel1
    rw [Nat.add_comm] at e2
    simp only [retainRoots, e1, e2]
  · rw [hsets2, rsetOf_setAt_self]
  · intro e
    rw [mem_addElement, mem_singleton]
    exact Or.comm
/-- C8 (scenario R -> A -> B -> {C, D}), as stated, fails: on the scenario
heap in which the childless non-retainer D is a CONSTR_NOCAF, `retainRoot` on
R returns with the set {R} for A, B and C and with no retainer set for D, as
the traversal skips a CONSTR_NOCAF before the visit. -/
theorem chain_scenario_skips_nocaf :
    isRetainer chainNocafHeap 4 = .ok false ∧ childrenOf chainNocafHeap 4 = .ok [] ∧
    childrenOf chainNocafHeap 2 = .ok [3, 4] ∧
    retainRoot chainNocafHeap 100 (beginPass initState) 0
        = some (.ok (rootResult chainNocafHeap 100 (beginPass initState) 0)) ∧
    rsetOf (rootResult chainNocafHeap 100 (beginPass initState) 0) 1 = some (singleton 20) ∧
    rsetOf (rootResult chainNocafHeap 100 (beginPass initState) 0) 2 = some (singleton 20) ∧
    rsetOf (rootResult chainNocafHeap 100 (beginPass initState) 0) 3 = some (singleton 20) ∧
    rsetOf (rootResult chainNocafHeap 100 (beginPass initState) 0) 4 = none :=
  ⟨by decide, by decide, by decide, rfl, by decide, by decide, by decide, by decide⟩

/-- C8 (scenario R -> A -> B -> {C, D}), as amended, on every heap: let R be
a retainer other than the end-of-queue sentinel whose only child is A, let A
be a non-retainer whose only child is B, let B be a non-retainer whose
children are C and D, in this order, let C be a retainer and D a childless
non-retainer; let C be childless (`below = none`) or have one child, which is
childless and is none of R, A, B, C, D (`below = some E`); let all of them be
of kinds that the traversal visits, and let none of them have a retainer set
yet.  Then `retainRoot` on R returns, with enough fuel, and R, A, B, C and D
all have the retainer set {R}, and the child of C, if there is one, has the
set {C}. -/
theorem chain_scenario (h : Heap) (st : RtsState) (R A B C D : Addr) (below : Option Addr)
    (hR : isRetainer h R = .ok true) (hRend : R ≠ h.END_TSO_QUEUE)
    (hRv : preVisit h R = PreVisit.visit) (hRc : childrenOf h R = .ok [A])
    (hA : isRetainer h A = .ok false) (hAv : preVisit h A = PreVisit.visit)
    (hAc : childrenOf h A = .ok [B])
    (hB : isRetainer h B = .ok false) (hBv : preVisit h B = PreVisit.visit)
    (hBc : childrenOf h B = .ok [C, D])
    (hC : isRetainer h C = .ok true) (hCv : preVisit h C = PreVisit.visit)
    (hCc : childrenOf h C = .ok below.toList)
    (hD : isRetainer h D = .ok false) (hDv : preVisit h D = PreVisit.visit)
    (hDc : childrenOf h D = .ok [])
    (hE : ∀ E ∈ below, preVisit h E = PreVisit.visit ∧ (∃ b, isRetainer h E = .ok b) ∧
      childrenOf h E = .ok [] ∧ rsetOf st E = none ∧ E ∉ [R, A, B, C, D])
    (hfR : rsetOf st R = none) (hfA : rsetOf st A = none) (hfB : rsetOf st B = none)
    (hfC : rsetOf st C = none) (hfD : rsetOf st D = none) :
    ∃ fuel st1, retainRoot h fuel st R = some (.ok st1) ∧
      rsetOf st1 R = some (singleton (getRetainerFrom h R)) ∧
      rsetOf st1 A = some (singleton (getRetainerFrom h R)) ∧
      rsetOf st1 B = some (singleton (getRetainerFrom h R)) ∧
      rsetOf st1 C = some (singleton (getRetainerFrom h R)) ∧
      rsetOf st1 D = some (singleton (getRetainerFrom h R)) ∧
      ∀ E ∈ below, rsetOf st1 E = some (singleton (getRetainerFrom h C)) :=
  chain_scenario_run h st R A B C D below hR hRend hRv hRc hA hAv hAc hB hBv hBc hC hCv hCc
    hD hDv hDc hE hfR hfA hfB hfC hfD

/-- Witness for C8: the scenario heap with something below C, in the first
pass. -/
theorem chain_scenario_witness :
    (isRetainer scenarioHeapBelowC 0 = .ok true ∧ 0 ≠ scenarioHeapBelowC.END_TSO_QUEUE ∧
      preVisit scenarioHeapBelowC 0 = PreVisit.visit ∧
      childrenOf scenarioHeapBelowC 0 = .ok [1] ∧
      isRetainer scenarioHeapBelowC 1 = .ok false ∧
      preVisit scenarioHeapBelowC 1 = PreVisit.visit ∧
      childrenOf scenarioHeapBelowC 1 = .ok [2] ∧
      isRetainer scenarioHeapBelowC 2 = .ok false ∧
      preVisit scenarioHeapBelowC 2 = PreVisit.visit ∧
      childrenOf scenarioHeapBelowC 2 = .ok [3, 4] ∧
      isRetainer scenarioHeapBelowC 3 = .ok true ∧
      preVisit scenarioHeapBelowC 3 = PreVisit.visit ∧
      childrenOf scenarioHeapBelowC 3 = .ok (some 5).toList ∧
      isRetainer scenarioHeapBelowC 4 = .ok false ∧
      preVisit scenarioHeapBelowC 4 = PreVisit.visit ∧
      childrenOf scenarioHeapBelowC 4 = .ok [] ∧
      (∀ E ∈ (some 5 : Option Addr), preVisit scenarioHeapBelowC E = PreVisit.visit ∧
        (∃ b, isRetainer scenarioHeapBelowC E = .ok b) ∧
        childrenOf scenarioHeapBelowC E = .ok [] ∧ rsetOf (beginPass initState) E = none ∧
        E ∉ [0, 1, 2, 3, 4]) ∧
      rsetOf (beginPass initState) 0 = none ∧ rsetOf (beginPass initState) 1 = none ∧
      rsetOf (beginPass initState) 2 = none ∧ rsetOf (beginPass initState) 3 = none ∧
      rsetOf (beginPass initState) 4 = none) ∧
    ∃ fuel st1, retainRoot scenarioHeapBelowC fuel (beginPass initState) 0 = some (.ok st1) ∧
      rsetOf st1 0 = some (singleton (getRetainerFrom scenarioHeapBelowC 0)) ∧
      rsetOf st1 1 = some (singleton (getRetainerFrom scenarioHeapBelowC 0)) ∧
      rsetOf st1 2 = some (singleton (getRetainerFrom scenarioHeapBelowC 0)) ∧
      rsetOf st1 3 = some (singleton (getRetainerFrom scenarioHeapBelowC 0)) ∧
      rsetOf st1 4 = some (singleton (getRetainerFrom scenarioHeapBelowC 0)) ∧
      ∀ E ∈ (some 5 : Option Addr),
        rsetOf st1 E = some (singleton (getRetainerFrom scenarioHeapBelowC 3)) :=
  ⟨⟨by decide, by decide, rfl, by decide, by decide, rfl, by decide, by decide,
      rfl, by decide, by decide, rfl, by decide, by decide, rfl, by decide,
      fun E hE => by
        cases hE
        exact ⟨rfl, ⟨false, by decide⟩, by decide, by decide, by decide⟩,
      by decide, by decide, by decide, by decide, by decide⟩,
    chain_scenario scenarioHeapBelowC (beginPass initState) 0 1 2 3 4 (some 5)
      (by decide) (by decide) rfl (by decide) (by decide) rfl (by decide)
      (by decide) rfl (by decide) (by decide) rfl (by decide) (by decide)
      rfl (by decide)
      (fun E hE => by
        cases hE
        exact ⟨rfl, ⟨false, by decide⟩, by decide, by decide, by decide⟩)
      (by decide) (by decide) (by decide) (by decide) (by decide)⟩

/-- C9 (scenario of two roots sharing a child), as stated, fails: on the heap
of the two roots in which the shared non-retainer X is a CONSTR_NOCAF, a pass
that seeds R1 and R2 returns with no retainer set for X, as the traversal
skips a CONSTR_NOCAF before the visit. -/
theorem shared_child_skips_nocaf :
    isRetainer sharedNocafHeap 2 = .ok false ∧
    childrenOf sharedNocafHeap 0 = .ok [2] ∧ childrenOf sharedNocafHeap 1 = .ok [2] ∧
    retainRoots sharedNocafHeap 100 (beginPass initState) [0, 1]
      = some (.ok (rootResult sharedNocafHeap 100
          (rootResult sharedNocafHeap 100 (beginPass initState) 0) 1)) ∧
    rsetOf (rootResult sharedNocafHeap 100
      (rootResult sharedNocafHeap 100 (beginPass initState) 0) 1) 2 = none :=
  ⟨by decide, by decide, by decide, rfl, by decide⟩

/-- C9 (scenario of two roots sharing a child), as amended, on every heap: let
R1 and R2 be two retainers other than the end-of-queue sentinel, with
different identities, whose only child is X, a childless non-retainer; let
the three be of kinds that the traversal visits, and let none of them have a
retainer set yet.  Then seeding R1 and then R2, and seeding R2 and then R1,
both return, with enough fuel, and the elements of the retainer set of X are
exactly the identities of R1 and of R2. -/
theorem shared_child_scenario (h : Heap) (st : RtsState) (R1 R2 X : Addr)
    (h1 : isRetainer h R1 = .ok true) (h1end : R1 ≠ h.END_TSO_QUEUE)
    (h1v : preVisit h R1 = PreVisit.visit) (h1c : childrenOf h R1 = .ok [X])
    (h2 : isRetainer h R2 = .ok true) (h2end : R2 ≠ h.END_TSO_QUEUE)
    (h2v : preVisit h R2 = PreVisit.visit) (h2c : childrenOf h R2 = .ok [X])
    (hX : isRetainer h X = .ok false) (hXv : preVisit h X = PreVisit.visit)
    (hXc : childrenOf h X = .ok [])
    (hne : R1 ≠ R2) (hid : getRetainerFrom h R1 ≠ getRetainerFrom h R2)
    (hf1 : rsetOf st R1 = none) (hf2 : rsetOf st R2 = none) (hfX : rsetOf st X = none) :
    (∃ fuel st2 S, retainRoots h fuel st [R1, R2] = some (.ok st2) ∧
      rsetOf st2 X = some S ∧
      ∀ e, e ∈ S.element ↔ e = getRetainerFrom h R1 ∨ e = getRetainerFrom h R2) ∧
    (∃ fuel st2 S, retainRoots h fuel st [R2, R1] = some (.ok st2) ∧
      rsetOf st2 X = some S ∧
      ∀ e, e ∈ S.element ↔ e = getRetainerFrom h R1 ∨ e = getRetainerFrom h R2) := by
  refine ⟨shared_child_run h st R1 R2 X h1 h1end h1v h1c h2 h2end h2v h2c hX hXv hXc hne hid
    hf1 hf2 hfX, ?_⟩
  obtain ⟨fuel, st2, S, hr, hS, hmem⟩ := shared_child_run h st R2 R1 X h2 h2end h2v h2c
    h1 h1end h1v h1c hX hXv hXc hne.symm hid.symm hf2 hf1 hfX
  exact ⟨fuel, st2, S, hr, hS, fun e => (hmem e).trans Or.comm⟩

/-- Witness for C9: the heap of the two roots with the identities 31 and 32,
in the first pass. -/
theorem shared_child_scenario_witness :
    (isRetainer (twoRootsHeap 31 32) 0 = .ok true ∧ 0 ≠ (twoRootsHeap 31 32).END_TSO_QUEUE ∧
      preVisit (twoRootsHeap 31 32) 0 = PreVisit.visit ∧
      childrenOf (twoRootsHeap 31 32) 0 = .ok [2] ∧
      isRetainer (twoRootsHeap 31 32) 1 = .ok true ∧ 1 ≠ (twoRootsHeap 31 32).END_TSO_QUEUE ∧
      preVisit (twoRootsHeap 31 32) 1 = PreVisit.visit ∧
      childrenOf (twoRootsHeap 31 32) 1 = .ok [2] ∧
      isRetainer (twoRootsHeap 31 32) 2 = .ok false ∧
      preVisit (twoRootsHeap 31 32) 2 = PreVisit.visit ∧
      childrenOf (twoRootsHeap 31 32) 2 = .ok [] ∧
      (0 : Addr) ≠ 1 ∧
      getRetainerFrom (twoRootsHeap 31 32) 0 ≠ getRetainerFrom (twoRootsHeap 31 32) 1 ∧
      rsetOf (beginPass initState) 0 = none ∧ rsetOf (beginPass initState) 1 = none ∧
      rsetOf (beginPass initState) 2 = none) ∧
    ((∃ fuel st2 S, retainRoots (twoRootsHeap 31 32) fuel (beginPass initState) [0, 1]
        = some (.ok st2) ∧ rsetOf st2 2 = some S ∧
      ∀ e, e ∈ S.element ↔ e = getRetainerFrom (twoRootsHeap 31 32) 0 ∨
        e = getRetainerFrom (twoRootsHeap 31 32) 1) ∧
    (∃ fuel st2 S, retainRoots (twoRootsHeap 31 32) fuel (beginPass initState) [1, 0]
        = some (.ok st2) ∧ rsetOf st2 2 = some S ∧
      ∀ e, e ∈ S.element ↔ e = getRetainerFrom (twoRootsHeap 31 32) 0 ∨
        e = getRetainerFrom (twoRootsHeap 31 32) 1)) :=
  ⟨⟨by decide, by decide, rfl, by decide, by decide, by decide, rfl, by decide,
      by decide, rfl, by decide, by decide, by decide, by decide, by decide, by decide⟩,
    shared_child_scenario (twoRootsHeap 31 32) (beginPass initState) 0 1 2
      (by decide) (by decide) rfl (by decide) (by decide) (by decide) rfl
      (by decide) (by decide) rfl (by decide) (by decide) (by decide) (by decide)
      (by decide) (by decide)⟩

theorem loopBelowRoot_inner (d : stackData) :
    ∀ (fuel : Nat) (st : RtsState),
      traverseWorkStack loopBelowRootHeap fuel (Label.inner_loop 1 0 d) st = none
  | 0, _ => rfl
  | fuel + 1, st => by
    rw [traverseWorkStack_succ]
    have : traverseWorkStack_body loopBelowRootHeap (Label.inner_loop 1 0 d) st
        = Jump.goto (Label.inner_loop 1 0 d) st := rfl
    rw [this]
    exact loopBelowRoot_inner d fuel st

/-- C33 (the stack after a root), as stated, fails: on the heap whose root, a
mutable variable, points to a static indirection that points to itself,
`retainRoot` never returns, whatever the fuel: after two jumps the traversal
is at the indirection, with the root as the parent, and follows it for
ever. -/
theorem retainRoot_does_not_return :
    seedOf loopBelowRootHeap 0 = .ok { c_child_r := 80 } ∧
    (stepsResult loopBelowRootHeap 2 Label.loop
        (retainRoot_start (beginPass initState) 0 { c_child_r := 80 })).1
      = Label.inner_loop 1 0 { c_child_r := 80 } ∧
    ¬ ∃ fuel, retainRoot loopBelowRootHeap fuel (beginPass initState) 0 ≠ none := by
  refine ⟨by decide, by decide, ?_⟩
  rintro ⟨fuel, hf⟩
  apply hf
  rw [retainRoot_start_eq loopBelowRootHeap fuel (beginPass initState) 0 { c_child_r := 80 }
    (by decide)]
  rcases fuel with _ | _ | fuel
  · rfl
  · rfl
  · have hsteps : traverseWorkStack_steps loopBelowRootHeap 2 Label.loop
        (retainRoot_start (beginPass initState) 0 { c_child_r := 80 })
        = some (Label.inner_loop 1 0 { c_child_r := 80 },
            (stepsResult loopBelowRootHeap 2 Label.loop
              (retainRoot_start (beginPass initState) 0 { c_child_r := 80 })).2) := rfl
    have := traverseWorkStack_steps_run loopBelowRootHeap 2 fuel Label.loop _ _ _ hsteps
    rw [show fuel + 1 + 1 = 2 + fuel by omega, this]
    exact loopBelowRoot_inner _ fuel _
end RetainerProfile
